import Mathlib

/-! # casacore `GenSort` / `GenSortIndirect`: a shallow embedding and its verification

Source: `casa/Utilities/GenSort.tcc`.

Conventions of the embedding.

* A C buffer `T*` is a `List T`; a pointer `p + k` into it is the suffix `List.drop k`,
  and the callee's result is spliced back behind the untouched first `k` cells.
* `data[i]` is `rd data i` and `data[i] = v` is `List.set data i v`.  Both are total
  (a read past the end yields `default`, a write past the end is dropped); whether the
  accesses stay inside the allocated blocks is a separate question with its own statements.
* A `uInt` is a natural number.  `Int` is the 32-bit signed integer of casacore: where the
  direct engine hands the length `uInt nr` to the parameter `Int nr` of a kernel
  (`quickSortAsc (data, nr, ...)` in `quickSort`, likewise in `insSort`, `heapSort` and
  `parSort`) or to an `Int` variable (`Int end = Int(nr) - 1`, and `Int(k)`, in `kthLargest`)
  the conversion is written out (`toInt`, `toUInt`, `atInt`), and where its `Int` arithmetic
  on positions leaves the 32-bit range (`c = 2*i` in `heapAscSiftDown`, `(st+end)/2` and
  `Int(nr) - 1` in `kthLargest`) the behaviour of the source is undefined and the embedding
  has no result.  Inside a kernel whose own parameter is `Int nr`, the counters are natural
  numbers.  The indirect engine keeps lengths and positions in its index type `INX`, a
  natural number here.
* A `for` loop with a counter is a fold over the list of its counter values.  A loop whose
  exit depends on the data (`while (*++sf < par)`, `for (;;)`, ...) is a recursion on a step
  budget and returns `none` when the budget is used up before the loop exits; the budget is
  the number of cells of the range the loop works on.  Every result is therefore an `Option`:
  `none` stands for a budget used up or for an overflow of the kind named above, and the
  statements below prove where the result is `some`.
* `#pragma omp parallel for` loops are run in index order.
-/

namespace CasaSort

/-- Modelled from the spec: the algorithm selectors and the duplicate policy of `Sort::Option`
(declared in `Sort.h`, which is not among the sources; `Sort` is reserved in Lean, hence
`CasaSort`) are independent bits of one options
word; `DefaultSort` carries no algorithm bit. -/
def DefaultSort : Nat := 0

/-- Modelled from the spec: algorithm bit `Sort::HeapSort`. -/
def HeapSort : Nat := 1

/-- Modelled from the spec: algorithm bit `Sort::InsSort`. -/
def InsSort : Nat := 2

/-- Modelled from the spec: algorithm bit `Sort::QuickSort`. -/
def QuickSort : Nat := 4

/-- Modelled from the spec: algorithm bit `Sort::ParSort`. -/
def ParSort : Nat := 8

/-- Modelled from the spec: duplicate-policy bit `Sort::NoDuplicates`. -/
def NoDuplicates : Nat := 16

/-- Modelled from the spec: `Sort::Order` has the two values Ascending and Descending. -/
inductive Order where
  | Ascending
  | Descending
  deriving DecidableEq, Repr

end CasaSort

/-- The algorithm selectors a caller can put into the options word. -/
inductive Selector where
  | Default
  | Quicksort
  | Heapsort
  | Insertion
  | Parallel
  deriving DecidableEq, Repr

/-- The bit pattern of a selector. -/
def Selector.code : Selector → Nat
  | .Default => CasaSort.DefaultSort
  | .Quicksort => CasaSort.QuickSort
  | .Heapsort => CasaSort.HeapSort
  | .Insertion => CasaSort.InsSort
  | .Parallel => CasaSort.ParSort

/-- The options word `selector + KeepDuplicates`: no duplicate bit is added. -/
def Selector.keep (s : Selector) : Nat := s.code

/-- The options word `selector + NoDuplicates`. -/
def Selector.noDup (s : Selector) : Nat := s.code + CasaSort.NoDuplicates

/-- Number of values `omp_get_max_threads()` returns; `none` stands for a build without
OpenMP. -/
abbrev Workers := Option Nat

namespace GenSort

variable {T : Type} [LinearOrder T] [Inhabited T]

/-- The read `data[i]`. -/
def rd (data : List T) (i : Nat) : T := data.getD i default

/-- The conversion of a `uInt` to `Int` (`typedef int Int; typedef unsigned int uInt;` in
`aipstype.h`, which is not among the sources; both have 32 bits): the values from `2^31` on
become negative. -/
def toInt (n : Nat) : Int :=
  if n % 2 ^ 32 < 2 ^ 31 then ((n % 2 ^ 32 : Nat) : Int)
  else ((n % 2 ^ 32 : Nat) : Int) - 2 ^ 32

/-- The conversion of an `Int` to `uInt`. -/
def toUInt (z : Int) : Nat := (z % 2 ^ 32).toNat

/-- A kernel with the parameter `Int nr`, entered with the value `n`.  The kernels below are
embedded for `nr ≥ 0`.  With a negative `nr` each of them returns before it touches the
buffer: `if (nr <= 32) return` in `quickSortAsc`, `for (Int i=1; i<nr; i++)` and `return nr`
in `insSortAscDup`, `if (nr < 2) return nr` in `insSortAscNoDup`, `for (j=nr/2; j>=1; j--)` and
`for (j=nr; j>=2; j--)` in `heapSortAsc`; `neg` is what the caller then holds. -/
def atInt {α : Type} (n : Int) (neg : α) (kernel : Nat → α) : α :=
  if n < 0 then neg else kernel n.toNat

/-- The exchange `swap (data[i], data[j])`. -/
def swap (data : List T) (i j : Nat) : List T :=
  (data.set i (rd data j)).set j (rd data i)

/-- Median of three of `quickSortAsc` and `kthLargest`: `sf` is the first, `i` the middle and
`sl` the last position. -/
def median3 (data : List T) (sf i sl : Nat) : List T :=
  let d1 := if rd data i < rd data sf then swap data i sf else data
  let d2 := if rd d1 sl < rd d1 sf then swap d1 sl sf else d1
  if rd d2 i < rd d2 sl then swap d2 i sl else d2

/-- The scan `while (*++sf < par) ;`, returning the position where it stops. -/
def scanUp (par : T) (data : List T) : Nat → Nat → Option Nat
  | 0, _ => none
  | fuel + 1, sf =>
    if rd data (sf + 1) < par then scanUp par data fuel (sf + 1) else some (sf + 1)

/-- The scan `while (*--sl > par) ;`, returning the position where it stops. -/
def scanDown (par : T) (data : List T) : Nat → Nat → Option Nat
  | 0, _ => none
  | fuel + 1, sl =>
    if rd data (sl - 1) > par then scanDown par data fuel (sl - 1) else some (sl - 1)

/-- The partition loop `for (;;) { scan up; scan down; if (sf >= sl) break; swap }` on the
range `lo .. hi`; returns the buffer and the final `sf`. -/
def partitionLoop (par : T) (lo hi : Nat) : Nat → List T → Nat → Nat → Option (List T × Nat)
  | 0, _, _, _ => none
  | fuel + 1, data, sf, sl =>
    match scanUp par data (hi - sf) sf with
    | none => none
    | some sf1 =>
      match scanDown par data (sl - lo) sl with
      | none => none
      | some sl1 =>
        if sf1 ≥ sl1 then some (data, sf1)
        else partitionLoop par lo hi fuel (swap data sf1 sl1) sf1 sl1

/-- First loop of `heapAscSiftDown` (after `data--` the cell `data[i]` is cell `i - 1`):
`for (i=low; (c=2*i)<=up; i=c) { if (c < up && data[c+1] > data[c]) c++; data[i] = data[c]; }`.
Returns the buffer and the final `i`; there is no result when `Int c = 2*i` overflows. -/
def siftHole (up : Nat) : Nat → List T → Nat → Option (List T × Nat)
  | 0, _, _ => none
  | fuel + 1, data, i =>
    if 2 * i < 2 ^ 31 then
      let c := 2 * i
      if c ≤ up then
        let c1 := if c < up ∧ rd data (c + 1 - 1) > rd data (c - 1) then c + 1 else c
        siftHole up fuel (data.set (i - 1) (rd data (c1 - 1))) c1
      else some (data, i)
    else none

/-- Second loop of `heapAscSiftDown`:
`for ( ; (c=i/2)>= low; i=c) { if (!(data[i] > data[c])) break; swap (data[c], data[i]); }`. -/
def siftUp (low : Nat) : Nat → List T → Nat → Option (List T)
  | 0, _, _ => none
  | fuel + 1, data, i =>
    let c := i / 2
    if c ≥ low then
      if ¬ (rd data (i - 1) > rd data (c - 1)) then some data
      else siftUp low fuel (swap data (c - 1) (i - 1)) c
    else some data

/-- `GenSort<T>::heapAscSiftDown (low, up, data)`, `data` being the buffer before `data--`. -/
def heapAscSiftDown (low up : Nat) (data : List T) : Option (List T) :=
  let sav := rd data (low - 1)
  match siftHole up (up + 1) data low with
  | none => none
  | some (d, i) => siftUp low (i + 1) (d.set (i - 1) sav) i

/-- The loop `for (j=nr/2; j>=1; j--) heapAscSiftDown (j, nr, data);` run from `j` down. -/
def heapBuild (nr : Nat) : Nat → List T → Option (List T)
  | 0, data => some data
  | j + 1, data =>
    match heapAscSiftDown (j + 1) nr data with
    | none => none
    | some d => heapBuild nr j d

/-- The loop `for (j=nr; j>=2; j--) { swap (data[1], data[j]); heapAscSiftDown (1, j-1, data); }`
run from `j` down. -/
def heapExtract : Nat → List T → Option (List T)
  | 0, data => some data
  | j + 1, data =>
    if j + 1 ≥ 2 then
      match heapAscSiftDown 1 (j + 1 - 1) (swap data (1 - 1) (j + 1 - 1)) with
      | none => none
      | some d => heapExtract j d
    else some data

/-- `GenSort<T>::heapSortAsc`. -/
def heapSortAsc (data : List T) (nr : Nat) : Option (List T) :=
  match heapBuild nr (nr / 2) data with
  | none => none
  | some d => heapExtract nr d

/-- `GenSort<T>::quickSortAsc`, by recursion on the number of calls the budget still allows
(`fuel = rec_lim + 1` while `rec_lim >= 0`). -/
def quickSortAscAux : Nat → List T → Nat → Bool → Int → Option (List T)
  | 0, data, nr, _, rec_lim =>
    if nr ≤ 32 then some data
    else if rec_lim < 0 then heapSortAsc data nr
    else none
  | fuel + 1, data, nr, multiThread, rec_lim =>
    if nr ≤ 32 then some data
    else if rec_lim < 0 then heapSortAsc data nr
    else
      let i := (nr - 1) / 2
      let d0 := median3 data 0 i (nr - 1)
      let par := rd d0 (nr - 1)
      match partitionLoop par 0 (nr - 1) nr d0 0 (nr - 1) with
      | none => none
      | some (d1, sf) =>
        let d2 := swap d1 sf (nr - 1)
        let i := sf
        if multiThread then
          match quickSortAscAux fuel d2 i false (rec_lim - 1) with
          | none => none
          | some d3 =>
            match quickSortAscAux fuel (d3.drop (sf + 1)) (nr - i - 1) false (rec_lim - 1) with
            | none => none
            | some r => some (d3.take (sf + 1) ++ r)
        else
          match quickSortAscAux fuel d2 i false (rec_lim - 1) with
          | none => none
          | some d3 =>
            match quickSortAscAux fuel (d3.drop (sf + 1)) (nr - i - 1) false (rec_lim - 1) with
            | none => none
            | some r => some (d3.take (sf + 1) ++ r)

/-- `GenSort<T>::quickSortAsc (data, nr, multiThread, rec_lim)`. -/
def quickSortAsc (data : List T) (nr : Nat) (multiThread : Bool) (rec_lim : Int) :
    Option (List T) :=
  quickSortAscAux (rec_lim.toNat + 1) data nr multiThread rec_lim

/-- The loop `while (end > st+1) { ... }` of `kthLargest`, entered with `end ≥ 0`; `k` is
`Int(k)`.  Returns buffer, `st` and `end`; there is no result when `Int i = (st+end)/2`
overflows. -/
def kthLoop (k : Int) : Nat → List T → Nat → Nat → Option (List T × Nat × Nat)
  | 0, _, _, _ => none
  | fuel + 1, data, st, en =>
    if en > st + 1 then
      if st + en < 2 ^ 31 then
        let i := (st + en) / 2
        let d0 := median3 data st i en
        let par := rd d0 en
        match partitionLoop par st en (en - st + 1) d0 st en with
        | none => none
        | some (d1, sf) =>
          let d2 := swap d1 sf en
          let i := sf
          let st1 := if (i : Int) ≤ k then i else st
          let en1 := if (i : Int) ≥ k then i else en
          kthLoop k fuel d2 st1 en1
      else none
    else some (data, st, en)

/-- `GenSort<T>::kthLargest (data, nr, k)`: the outcome (the thrown `AipsError` or the value)
together with the buffer as the call leaves it.  `Int end = Int(nr) - 1`: when it is negative
neither `while (end > st+1)` nor `if (end == st+1)` is entered and `data[k]` is returned as
it stands; there is no result when the subtraction overflows. -/
def kthLargest (data : List T) (nr k : Nat) : Option (Except String T × List T) :=
  if k ≥ nr then
    some (.error "kthLargest(data, nr, k): k must be < nr", data)
  else
    let e : Int := toInt nr - 1
    if e < -(2 ^ 31) then none
    else if e < 0 then some (.ok (rd data k), data)
    else
      match kthLoop (toInt k) nr data 0 e.toNat with
      | none => none
      | some (d, st, en) =>
        let d1 := if en = st + 1 then (if rd d st > rd d en then swap d st en else d) else d
        some (.ok (rd d1 k), d1)

/-- The loop `while (j>0 && data[j-1] > cur) { data[j] = data[j-1]; j--; }` of
`insSortAscDup`; returns the buffer and the final `j`. -/
def insShift (cur : T) : Nat → List T → List T × Nat
  | 0, data => (data, 0)
  | j + 1, data =>
    if rd data j > cur then insShift cur j (data.set (j + 1) (rd data j))
    else (data, j + 1)

/-- `GenSort<T>::insSortAscDup`. -/
def insSortAscDup (data : List T) (nr : Nat) : Nat × List T :=
  (nr, (List.range' 1 (nr - 1)).foldl
    (fun d i =>
      let cur := rd d i
      let r := insShift cur i d
      r.1.set r.2 cur) data)

/-- The loop `while (j>0 && data[j-1] > cur) j--;` of `insSortAscNoDup`. -/
def insFind (cur : T) (data : List T) : Nat → Nat
  | 0 => 0
  | j + 1 => if rd data j > cur then insFind cur data j else j + 1

/-- The loop `for (k=n-1; k>=j; k--) data[k+1] = data[k];`, run for the `cnt` values of `k`
below `k + cnt`, from the top down. -/
def shiftRight (j : Nat) : Nat → List T → List T
  | 0, data => data
  | cnt + 1, data => shiftRight j cnt (data.set (j + cnt + 1) (rd data (j + cnt)))

/-- `GenSort<T>::insSortAscNoDup`. -/
def insSortAscNoDup (data : List T) (nr : Nat) : Nat × List T :=
  if nr < 2 then (nr, data)
  else
    (List.range' 1 (nr - 1)).foldl
      (fun (s : Nat × List T) i =>
        let n := s.1
        let d := s.2
        let cur := rd d i
        let j := insFind cur d n
        if j ≤ 0 ∨ ¬ (rd d (j - 1) = cur) then
          (n + 1, (shiftRight j (n - j) d).set j cur)
        else (n, d)) (1, data)

/-- `GenSort<T>::insSortAsc`. -/
def insSortAsc (data : List T) (nr : Nat) (opt : Nat) : Nat × List T :=
  if opt &&& CasaSort.NoDuplicates = 0 then insSortAscDup data nr
  else insSortAscNoDup data nr

/-- `GenSort<T>::reverse (data, res, nr)`; `res = none` stands for `res == data`. -/
def reverse (data : List T) (res : Option (List T)) (nr : Nat) : List T :=
  match res with
  | none =>
    (List.range (nr / 2)).foldl
      (fun d i =>
        let tmp := rd d i
        (d.set i (rd d (nr - 1 - i))).set (nr - i - 1) tmp) data
  | some r =>
    (List.range nr).foldl (fun d i => d.set i (rd r (nr - 1 - i))) data

/-- Modelled from the spec: `objcopy (to, from, n)` of `Copy.h` (not among the sources) copies
the first `n` cells of `from` to `to` ('the final result must end up in data'). -/
def objcopy (dst src : List T) (n : Nat) : List T :=
  (List.range n).foldl (fun d i => d.set i (rd src i)) dst

/-- `GenSort<T>::insSort`: `uInt n = insSortAsc (data, nr, opt)` hands the `uInt nr` to the
parameter `Int nr` of `insSortAsc`. -/
def insSort (data : List T) (nr : Nat) (ord : CasaSort.Order) (opt : Nat) : Nat × List T :=
  let r := atInt (toInt nr) (toUInt (toInt nr), data) (fun n => insSortAsc data n opt)
  if ord = CasaSort.Order.Descending then (r.1, reverse r.2 none r.1) else r

/-- The loop `while (unr >>= 1) rec_limit++;` of `quickSort`. -/
def recLimitLoop : Nat → Nat → Int → Option Int
  | 0, _, _ => none
  | fuel + 1, unr, rec_limit =>
    let unr1 := unr >>> 1
    if unr1 ≠ 0 then recLimitLoop fuel unr1 (rec_limit + 1) else some rec_limit

/-- `GenSort<T>::quickSort`: `quickSortAsc (data, nr, True, rec_limit)` hands the `uInt nr`
to the parameter `Int nr` of `quickSortAsc`. -/
def quickSort (data : List T) (nr : Nat) (ord : CasaSort.Order) (opt : Nat) :
    Option (Nat × List T) :=
  match recLimitLoop (nr + 1) nr 0 with
  | none => none
  | some rec_limit =>
    match atInt (toInt nr) (some data) (fun n => quickSortAsc data n true (rec_limit * 2)) with
    | none => none
    | some d => some (insSort d nr ord opt)

/-- `GenSort<T>::heapSort`: `heapSortAsc (data, nr)` and `n = insSortAscNoDup (data, nr)` hand
the `uInt nr` to the parameter `Int nr` of the kernels. -/
def heapSort (data : List T) (nr : Nat) (ord : CasaSort.Order) (opt : Nat) :
    Option (Nat × List T) :=
  match atInt (toInt nr) (some data) (fun n => heapSortAsc data n) with
  | none => none
  | some d =>
    let r := if opt &&& CasaSort.NoDuplicates ≠ 0 then
        atInt (toInt nr) (toUInt (toInt nr), d) (fun n => insSortAscNoDup d n)
      else (nr, d)
    if ord = CasaSort.Order.Descending then some (r.1, reverse r.2 none r.1) else some r

/-- The two buffers `merge` alternates between: the caller's `data` and the scratch `tmp`. -/
structure Bufs (T : Type) where
  data : List T
  tmp : List T

/-- A pointer into one of the two buffers: `(true, k)` is `tmp + k`, `(false, k)` is
`data + k`. -/
abbrev Ptr := Bool × Nat

/-- The read `p[i]` through a pointer. -/
def Bufs.rd (m : Bufs T) (p : Ptr) (i : Nat) : T :=
  if p.1 then GenSort.rd m.tmp (p.2 + i) else GenSort.rd m.data (p.2 + i)

/-- The write `p[i] = v` through a pointer. -/
def Bufs.wr (m : Bufs T) (p : Ptr) (i : Nat) (v : T) : Bufs T :=
  if p.1 then { m with tmp := m.tmp.set (p.2 + i) v }
  else { m with data := m.data.set (p.2 + i) v }

/-- The buffer a base pointer `a` or `b` stands for. -/
def Bufs.buf (m : Bufs T) (a : Bool) : List T := if a then m.tmp else m.data

/-- The loop `while (ia < na && ib < nb) { ... k++; }` of `merge`; returns the buffers and
the final `ia`, `ib`, `k`. -/
def mergeWhile (f1 f2 dst : Ptr) (na nb : Nat) :
    Nat → Bufs T → Nat → Nat → Nat → Option (Bufs T × Nat × Nat × Nat)
  | 0, _, _, _, _ => none
  | fuel + 1, m, ia, ib, k =>
    if ia < na ∧ ib < nb then
      if m.rd f1 ia < m.rd f2 ib then
        mergeWhile f1 f2 dst na nb fuel (m.wr dst k (m.rd f1 ia)) (ia + 1) ib (k + 1)
      else
        mergeWhile f1 f2 dst na nb fuel (m.wr dst k (m.rd f2 ib)) ia (ib + 1) (k + 1)
    else some (m, ia, ib, k)

/-- The loop `for (p=from; p<n; p++,k++) to[k] = f[p];` of `merge`. -/
def mergeCopy (f dst : Ptr) (start n : Nat) (m : Bufs T) (k : Nat) : Bufs T × Nat :=
  (List.range' start (n - start)).foldl
    (fun (s : Bufs T × Nat) p => (s.1.wr dst s.2 (s.1.rd f p), s.2 + 1)) (m, k)

/-- The body of the `for (int i=0; i<np; i+=2)` loop of `merge` for one `i`; returns the
buffers and `last`. -/
def mergePair (a b : Bool) (index : List Nat) (np i : Nat) (m : Bufs T) (last : Ptr) :
    Option (Bufs T × Ptr) :=
  if i < np - 1 then
    let f1 : Ptr := (a, rd index i)
    let f2 : Ptr := (a, rd index (i + 1))
    let dst : Ptr := (b, rd index i)
    let na := rd index (i + 1) - rd index i
    let nb := rd index (i + 2) - rd index (i + 1)
    let f2' := if i = np - 2 then last else f2
    let last' := if i = np - 2 then dst else last
    match mergeWhile f1 f2' dst na nb (na + nb + 1) m 0 0 0 with
    | none => none
    | some (m1, ia, ib, k) =>
      if ia < na then some ((mergeCopy f1 dst ia na m1 k).1, last')
      else some ((mergeCopy f2' dst ib nb m1 k).1, last')
  else some (m, last)

/-- The loop `for (int i=0; i<np; i+=2) { ... }` of `merge`, `cnt` iterations from `i` on. -/
def mergePass (a b : Bool) (index : List Nat) (np : Nat) :
    Nat → Nat → Bufs T → Ptr → Option (Bufs T × Ptr)
  | 0, _, m, last => some (m, last)
  | cnt + 1, i, m, last =>
    match mergePair a b index np i m last with
    | none => none
    | some (m1, last1) => mergePass a b index np cnt (i + 2) m1 last1

/-- The loop `int k=0; for (int i=0; i<np; i+=2) index[k++] = index[i];` of `merge`; returns
`index` and `k`. -/
def collapseIndex (index : List Nat) (np : Nat) : List Nat × Nat :=
  (List.range ((np + 1) / 2)).foldl
    (fun (s : List Nat × Nat) t => (s.1.set s.2 (rd s.1 (2 * t)), s.2 + 1)) (index, 0)

/-- The loop `while (np > 1) { ... }` of `merge`; returns the buffers, the pointer `a` and
`index`. -/
def mergeLoop (nr : Nat) :
    Nat → Bufs T → Bool → Bool → List Nat → Nat → Ptr → Option (Bufs T × Bool × List Nat)
  | 0, _, _, _, _, _, _ => none
  | fuel + 1, m, a, b, index, np, last =>
    if np > 1 then
      match mergePass a b index np ((np + 1) / 2) 0 m last with
      | none => none
      | some (m1, last1) =>
        let c := collapseIndex index np
        let index1 := c.1.set c.2 nr
        mergeLoop nr fuel m1 b a index1 c.2 last1
    else some (m, a, index)

/-- `GenSort<T>::merge (data, tmp, nr, index, nparts)`; the returned flag tells whether the
result pointer is `tmp` (true) or `data` (false). -/
def merge (data tmp : List T) (nr : Nat) (index : List Nat) (nparts : Nat) :
    Option (Bufs T × Bool × List Nat) :=
  mergeLoop nr (nparts + 1) ⟨data, tmp⟩ false true index nparts (false, rd index (nparts - 1))

/-- The number of workers `parSort` uses (`nthr` after the `#ifdef _OPENMP` block). -/
def numThreads (w : Workers) (nthread : Int) (nr : Nat) : Nat :=
  match w with
  | none => 1
  | some maxThreads =>
    let nthr := if nthread > 0 then (if nthread.toNat > nr then nr else nthread.toNat)
      else (if maxThreads > nr then nr else maxThreads)
    if nthr = 0 then 1 else nthr

/-- The slice bounds: `for (int i=0; i<nthr; ++i) tinx[i] = i*step; tinx[nthr] = nr;`. -/
def sliceBounds (nr nthr : Nat) : List Nat :=
  let step := nr / nthr
  ((List.range nthr).foldl (fun t i => t.set i (i * step)) (List.replicate (nthr + 1) 0)).set
    nthr nr

/-- The scan of slice `i` of `parSort`; `inv j` is the test `data[j-1] > data[j]`.  Returns
`index` and the slice's `nparts`. -/
def scanSlice (inv : Nat → Bool) (tinx : List Nat) (i : Nat) (index : List Nat) :
    List Nat × Nat :=
  let index1 := index.set (rd tinx i) (rd tinx i)
  (List.range' (rd tinx i + 1) (rd tinx (i + 1) - (rd tinx i + 1))).foldl
    (fun (s : List Nat × Nat) j =>
      if inv j then (s.1.set (rd tinx i + s.2) j, s.2 + 1) else s) (index1, 1)

/-- The scan loop over all slices; returns `index` and `np`. -/
def scanAll (inv : Nat → Bool) (tinx : List Nat) (nthr : Nat) (index np : List Nat) :
    List Nat × List Nat :=
  (List.range nthr).foldl
    (fun (s : List Nat × List Nat) i =>
      let r := scanSlice inv tinx i s.1
      (r.1, s.2.set i r.2)) (index, np)

/-- The stitch loop `for (int i=1; i<nthr; ++i) { ... }` of `parSort`; `junc i` is the test
`data[tinx[i]-1] > data[tinx[i]]`.  Returns `index` and `nparts`. -/
def stitch (junc : Nat → Bool) (tinx np : List Nat) (nthr : Nat) (index : List Nat) :
    List Nat × Nat :=
  (List.range' 1 (nthr - 1)).foldl
    (fun (s : List Nat × Nat) i =>
      let s1 := if junc i then (s.1.set s.2 (rd s.1 (rd tinx i)), s.2 + 1) else s
      if s1.2 = rd tinx i + 1 then (s1.1, s1.2 + (rd np i - 1))
      else
        (List.range' 1 (rd np i - 1)).foldl
          (fun (u : List Nat × Nat) j => (u.1.set u.2 (rd u.1 (rd tinx i + j)), u.2 + 1)) s1)
    (index, rd np 0)

/-- The run boundaries `parSort` hands to `merge`: scan, stitch and the closing
`index[nparts] = nr`.  Returns `index` and `nparts`.  The block `index` has `nr + 1`
entries.  With `nr >= 1` the closing store lies inside it.  With `nr = 0` the scan of the one
empty slice gives `nparts = 1` and the closing store goes to `index[1]`, past the block of
one entry: the list keeps the block as it is there, and the store itself is the last entry
of the log of `findRunsLog`. -/
def findRuns (inv junc : Nat → Bool) (nr nthr : Nat) : List Nat × Nat :=
  let index := List.replicate (nr + 1) 0
  let np := List.replicate nthr 0
  let tinx := sliceBounds nr nthr
  let sc := scanAll inv tinx nthr index np
  let st := stitch junc tinx sc.2 nthr sc.1
  (st.1.set st.2 nr, st.2)

/-- `GenSort<T>::parSort (data, nr, ord, opt, nthread)`; `nr = insSortAscNoDup (res, nr)`
hands the `uInt nr` to the parameter `Int nr` of `insSortAscNoDup`. -/
def parSort (w : Workers) (data : List T) (nr : Nat) (ord : CasaSort.Order) (opt : Nat)
    (nthread : Int) : Option (Nat × List T) :=
  let nthr := numThreads w nthread nr
  let runs := findRuns (fun j => decide (rd data (j - 1) > rd data j))
    (fun i => decide (rd data (rd (sliceBounds nr nthr) i - 1) > rd data (rd (sliceBounds nr nthr) i)))
    nr nthr
  let index := runs.1
  let nparts := runs.2
  if nparts < nr then
    let tmp : List T := List.replicate nr default
    match merge data tmp nr index nparts with
    | none => none
    | some (m, a, _) =>
      let res := m.buf a
      let r := if opt &&& CasaSort.NoDuplicates ≠ 0 then
          atInt (toInt nr) (toUInt (toInt nr), res) (fun n => insSortAscNoDup res n)
        else (nr, res)
      let nr1 := r.1
      let res1 := r.2
      -- when `res == data` the duplicate removal has worked on `data` itself
      let data1 := if a then m.data else res1
      if ord = CasaSort.Order.Descending then
        some (nr1, reverse data1 (if a then some res1 else none) nr1)
      else if a then some (nr1, objcopy data1 res1 nr1)
      else some (nr1, data1)
  else
    if ord = CasaSort.Order.Ascending then some (nr, reverse data none nr)
    else some (nr, data)

/-- `GenSort<T>::sort (data, nr, ord, opt)`. -/
def sort (w : Workers) (data : List T) (nr : Nat) (ord : CasaSort.Order) (opt : Nat) :
    Option (Nat × List T) :=
  let opt1 :=
    if opt - (opt &&& CasaSort.NoDuplicates) = CasaSort.DefaultSort then
      let nthr := match w with
        | none => 1
        | some maxThreads => maxThreads
      let type := if nr < 1000 ∨ nthr = 1 then CasaSort.QuickSort else CasaSort.ParSort
      opt - CasaSort.DefaultSort + type
    else opt
  if opt1 &&& CasaSort.HeapSort ≠ 0 then heapSort data nr ord opt1
  else if opt1 &&& CasaSort.InsSort ≠ 0 then some (insSort data nr ord opt1)
  else if opt1 &&& CasaSort.QuickSort ≠ 0 then quickSort data nr ord opt1
  else parSort w data nr ord opt1 0

end GenSort

namespace GenSortIndirect

variable {T : Type} [LinearOrder T] [Inhabited T]

open GenSort (rd Bufs Ptr)

/-- Modelled from the spec: `isAscending (data, index1, index2)` is declared in `GenSort.h`,
which is not among the sources; it holds when `data[index1] > data[index2]`, or the two
values are equal and `index1 > index2` (the index is the secondary key). -/
def isAscending (data : List T) (index1 index2 : Nat) : Bool :=
  decide (rd data index1 > rd data index2 ∨
    (rd data index1 = rd data index2 ∧ index1 > index2))

/-- Modelled from the spec: `swapInx (a, b)` of `GenSort.h` (not among the sources) exchanges
two cells of the index array. -/
def swapInx (inx : List Nat) (i j : Nat) : List Nat := GenSort.swap inx i j

/-- The three conditional swaps at the head of `quickSortAsc`. -/
def median3 (data : List T) (inx : List Nat) (sf mid sl : Nat) : List Nat :=
  let x1 := if isAscending data (rd inx sf) (rd inx mid) then swapInx inx sf mid else inx
  let x2 := if isAscending data (rd x1 sf) (rd x1 sl) then swapInx x1 sf sl else x1
  if isAscending data (rd x2 sl) (rd x2 mid) then swapInx x2 sl mid else x2

/-- The scan
`while (data[*sf] < partVal || (partVal == data[*sf] && *sf < partInx)) sf++;`. -/
def scanUp (data : List T) (partVal : T) (partInx : Nat) (inx : List Nat) :
    Nat → Nat → Option Nat
  | 0, _ => none
  | fuel + 1, sf =>
    if rd data (rd inx sf) < partVal ∨ (partVal = rd data (rd inx sf) ∧ rd inx sf < partInx)
    then scanUp data partVal partInx inx fuel (sf + 1)
    else some sf

/-- The scan
`while (data[*sl] > partVal || (partVal == data[*sl] && *sl > partInx)) sl--;`. -/
def scanDown (data : List T) (partVal : T) (partInx : Nat) (inx : List Nat) :
    Nat → Nat → Option Nat
  | 0, _ => none
  | fuel + 1, sl =>
    if rd data (rd inx sl) > partVal ∨ (partVal = rd data (rd inx sl) ∧ rd inx sl > partInx)
    then scanDown data partVal partInx inx fuel (sl - 1)
    else some sl

/-- The partition loop `for (;;) { ... }` of `quickSortAsc` on the range `0 .. hi`; returns
the index array and the final `sf`. -/
def partitionLoop (data : List T) (partVal : T) (partInx : Nat) (hi : Nat) :
    Nat → List Nat → Nat → Nat → Option (List Nat × Nat)
  | 0, _, _, _ => none
  | fuel + 1, inx, sf, sl =>
    match scanUp data partVal partInx inx (hi - sf + 1) sf with
    | none => none
    | some sf1 =>
      match scanDown data partVal partInx inx (sl + 1) sl with
      | none => none
      | some sl1 =>
        if sf1 ≥ sl1 then some (inx, sf1)
        else partitionLoop data partVal partInx hi fuel (swapInx inx sf1 sl1) sf1 sl1

/-- First loop of `heapAscSiftDown` (after `inx--` the cell `inx[i]` is cell `i - 1`). -/
def siftHole (data : List T) (up : Nat) : Nat → List Nat → Nat → Option (List Nat × Nat)
  | 0, _, _ => none
  | fuel + 1, inx, i =>
    let c := 2 * i
    if c ≤ up then
      let c1 := if c < up ∧ isAscending data (rd inx (c + 1 - 1)) (rd inx (c - 1)) then c + 1
        else c
      siftHole data up fuel (inx.set (i - 1) (rd inx (c1 - 1))) c1
    else some (inx, i)

/-- Second loop of `heapAscSiftDown`:
`for ( ; (c=i/2)>= low; i=c) { if (isAscending (data, inx[c], inx[i])) break; swapInx (...); }`. -/
def siftUp (data : List T) (low : Nat) : Nat → List Nat → Nat → Option (List Nat)
  | 0, _, _ => none
  | fuel + 1, inx, i =>
    let c := i / 2
    if c ≥ low then
      if isAscending data (rd inx (c - 1)) (rd inx (i - 1)) then some inx
      else siftUp data low fuel (swapInx inx (c - 1) (i - 1)) c
    else some inx

/-- `GenSortIndirect<T,INX>::heapAscSiftDown (inx, low, up, data)`. -/
def heapAscSiftDown (inx : List Nat) (low up : Nat) (data : List T) : Option (List Nat) :=
  let sav := rd inx (low - 1)
  match siftHole data up (up + 1) inx low with
  | none => none
  | some (x, i) => siftUp data low (i + 1) (x.set (i - 1) sav) i

/-- The loop `for (j=nr/2; j>=1; j--) heapAscSiftDown (inx, j, nr, data);` run from `j` down. -/
def heapBuild (data : List T) (nr : Nat) : Nat → List Nat → Option (List Nat)
  | 0, inx => some inx
  | j + 1, inx =>
    match heapAscSiftDown inx (j + 1) nr data with
    | none => none
    | some x => heapBuild data nr j x

/-- The loop
`for (j=nr; j>=2; j--) { swapInx (inx[1], inx[j]); heapAscSiftDown (inx, 1, j-1, data); }`
run from `j` down. -/
def heapExtract (data : List T) : Nat → List Nat → Option (List Nat)
  | 0, inx => some inx
  | j + 1, inx =>
    if j + 1 ≥ 2 then
      match heapAscSiftDown (swapInx inx (1 - 1) (j + 1 - 1)) 1 (j + 1 - 1) data with
      | none => none
      | some x => heapExtract data j x
    else some inx

/-- `GenSortIndirect<T,INX>::heapSortAsc`. -/
def heapSortAsc (inx : List Nat) (data : List T) (nr : Nat) : Option (List Nat) :=
  match heapBuild data nr (nr / 2) inx with
  | none => none
  | some x => heapExtract data nr x

/-- `GenSortIndirect<T,INX>::quickSortAsc`, by recursion on the number of calls the budget
still allows. -/
def quickSortAscAux (data : List T) : Nat → List Nat → Nat → Bool → Int → Option (List Nat)
  | 0, inx, nr, _, rec_lim =>
    if nr ≤ 32 then some inx
    else if rec_lim < 0 then heapSortAsc inx data nr
    else none
  | fuel + 1, inx, nr, multiThread, rec_lim =>
    if nr ≤ 32 then some inx
    else if rec_lim < 0 then heapSortAsc inx data nr
    else
      let mid := (nr - 1) / 2
      let x0 := median3 data inx 0 mid (nr - 1)
      let partVal := rd data (rd x0 (nr - 1))
      let partInx := rd x0 (nr - 1)
      match partitionLoop data partVal partInx (nr - 1) nr x0 (0 + 1) (nr - 1 - 1) with
      | none => none
      | some (x1, sf) =>
        let x2 := swapInx x1 sf (nr - 1)
        let n := sf
        if multiThread then
          match quickSortAscAux data fuel x2 n false (rec_lim - 1) with
          | none => none
          | some x3 =>
            match quickSortAscAux data fuel (x3.drop (sf + 1)) (nr - n - 1) false
              (rec_lim - 1) with
            | none => none
            | some r => some (x3.take (sf + 1) ++ r)
        else
          match quickSortAscAux data fuel x2 n false (rec_lim - 1) with
          | none => none
          | some x3 =>
            match quickSortAscAux data fuel (x3.drop (sf + 1)) (nr - n - 1) false
              (rec_lim - 1) with
            | none => none
            | some r => some (x3.take (sf + 1) ++ r)

/-- `GenSortIndirect<T,INX>::quickSortAsc (inx, data, nr, multiThread, rec_lim)`. -/
def quickSortAsc (inx : List Nat) (data : List T) (nr : Nat) (multiThread : Bool)
    (rec_lim : Int) : Option (List Nat) :=
  quickSortAscAux data (rec_lim.toNat + 1) inx nr multiThread rec_lim

/-- The loop `while (j>0 && isAscending (data, inx[j-1], cur)) { inx[j] = inx[j-1]; j--; }`
of `insSortAscDup`; returns the index array and the final `j`. -/
def insShift (data : List T) (cur : Nat) : Nat → List Nat → List Nat × Nat
  | 0, inx => (inx, 0)
  | j + 1, inx =>
    if isAscending data (rd inx j) cur then insShift data cur j (inx.set (j + 1) (rd inx j))
    else (inx, j + 1)

/-- `GenSortIndirect<T,INX>::insSortAscDup`. -/
def insSortAscDup (inx : List Nat) (data : List T) (nr : Nat) : Nat × List Nat :=
  (nr, (List.range' 1 (nr - 1)).foldl
    (fun x i =>
      let cur := rd x i
      let r := insShift data cur i x
      r.1.set r.2 cur) inx)

/-- The loop `while (j>0 && data[inx[j-1]] > data[cur]) j--;` of `insSortAscNoDup`. -/
def insFind (data : List T) (cur : Nat) (inx : List Nat) : Nat → Nat
  | 0 => 0
  | j + 1 => if rd data (rd inx j) > rd data cur then insFind data cur inx j else j + 1

/-- `GenSortIndirect<T,INX>::insSortAscNoDup`. -/
def insSortAscNoDup (inx : List Nat) (data : List T) (nr : Nat) : Nat × List Nat :=
  if nr < 2 then (nr, inx)
  else
    (List.range' 1 (nr - 1)).foldl
      (fun (s : Nat × List Nat) i =>
        let n := s.1
        let x := s.2
        let cur := rd x i
        let j := insFind data cur x n
        if j ≤ 0 ∨ ¬ (rd data (rd x (j - 1)) = rd data cur) then
          (n + 1, (GenSort.shiftRight j (n - j) x).set j cur)
        else (n, x)) (1, inx)

/-- `GenSortIndirect<T,INX>::insSortAsc`. -/
def insSortAsc (inx : List Nat) (data : List T) (nr : Nat) (opt : Nat) : Nat × List Nat :=
  if opt &&& CasaSort.NoDuplicates = 0 then insSortAscDup inx data nr
  else insSortAscNoDup inx data nr

/-- `GenSortIndirect<T,INX>::insSort`. -/
def insSort (inx : List Nat) (data : List T) (nr : Nat) (ord : CasaSort.Order) (opt : Nat) :
    Nat × List Nat :=
  let r := insSortAsc inx data nr opt
  if ord = CasaSort.Order.Descending then (r.1, GenSort.reverse r.2 none r.1) else r

/-- `GenSortIndirect<T,INX>::quickSort`. -/
def quickSort (inx : List Nat) (data : List T) (nr : Nat) (ord : CasaSort.Order) (opt : Nat) :
    Option (Nat × List Nat) :=
  match GenSort.recLimitLoop (nr + 1) nr 0 with
  | none => none
  | some rec_limit =>
    match quickSortAsc inx data nr true (rec_limit * 2) with
    | none => none
    | some x => some (insSort x data nr ord opt)

/-- `GenSortIndirect<T,INX>::heapSort`. -/
def heapSort (inx : List Nat) (data : List T) (nr : Nat) (ord : CasaSort.Order) (opt : Nat) :
    Option (Nat × List Nat) :=
  match heapSortAsc inx data nr with
  | none => none
  | some x =>
    let r := if opt &&& CasaSort.NoDuplicates ≠ 0 then insSortAscNoDup x data nr else (nr, x)
    if ord = CasaSort.Order.Descending then some (r.1, GenSort.reverse r.2 none r.1)
    else some r

/-- The loop `while (ia < na && ib < nb) { ... k++; }` of the indirect `merge`, with the
comparison `data[f1[ia]] <= data[f2[ib]]`. -/
def mergeWhile (data : List T) (f1 f2 dst : Ptr) (na nb : Nat) :
    Nat → Bufs Nat → Nat → Nat → Nat → Option (Bufs Nat × Nat × Nat × Nat)
  | 0, _, _, _, _ => none
  | fuel + 1, m, ia, ib, k =>
    if ia < na ∧ ib < nb then
      if rd data (m.rd f1 ia) ≤ rd data (m.rd f2 ib) then
        mergeWhile data f1 f2 dst na nb fuel (m.wr dst k (m.rd f1 ia)) (ia + 1) ib (k + 1)
      else
        mergeWhile data f1 f2 dst na nb fuel (m.wr dst k (m.rd f2 ib)) ia (ib + 1) (k + 1)
    else some (m, ia, ib, k)

/-- The body of the `for (int i=0; i<np; i+=2)` loop of the indirect `merge` for one `i`. -/
def mergePair (data : List T) (a b : Bool) (index : List Nat) (np i : Nat) (m : Bufs Nat)
    (last : Ptr) : Option (Bufs Nat × Ptr) :=
  if i < np - 1 then
    let f1 : Ptr := (a, rd index i)
    let f2 : Ptr := (a, rd index (i + 1))
    let dst : Ptr := (b, rd index i)
    let na := rd index (i + 1) - rd index i
    let nb := rd index (i + 2) - rd index (i + 1)
    let f2' := if i = np - 2 then last else f2
    let last' := if i = np - 2 then dst else last
    match mergeWhile data f1 f2' dst na nb (na + nb + 1) m 0 0 0 with
    | none => none
    | some (m1, ia, ib, k) =>
      if ia < na then some ((GenSort.mergeCopy f1 dst ia na m1 k).1, last')
      else some ((GenSort.mergeCopy f2' dst ib nb m1 k).1, last')
  else some (m, last)

/-- The loop `for (int i=0; i<np; i+=2) { ... }` of the indirect `merge`. -/
def mergePass (data : List T) (a b : Bool) (index : List Nat) (np : Nat) :
    Nat → Nat → Bufs Nat → Ptr → Option (Bufs Nat × Ptr)
  | 0, _, m, last => some (m, last)
  | cnt + 1, i, m, last =>
    match mergePair data a b index np i m last with
    | none => none
    | some (m1, last1) => mergePass data a b index np cnt (i + 2) m1 last1

/-- The loop `while (np > 1) { ... }` of the indirect `merge`. -/
def mergeLoop (data : List T) (nr : Nat) :
    Nat → Bufs Nat → Bool → Bool → List Nat → Nat → Ptr → Option (Bufs Nat × Bool × List Nat)
  | 0, _, _, _, _, _, _ => none
  | fuel + 1, m, a, b, index, np, last =>
    if np > 1 then
      match mergePass data a b index np ((np + 1) / 2) 0 m last with
      | none => none
      | some (m1, last1) =>
        let c := GenSort.collapseIndex index np
        let index1 := c.1.set c.2 nr
        mergeLoop data nr fuel m1 b a index1 c.2 last1
    else some (m, a, index)

/-- `GenSortIndirect<T,INX>::merge (data, inx, tmp, nr, index, nparts)`. -/
def merge (data : List T) (inx tmp : List Nat) (nr : Nat) (index : List Nat) (nparts : Nat) :
    Option (Bufs Nat × Bool × List Nat) :=
  mergeLoop data nr (nparts + 1) ⟨inx, tmp⟩ false true index nparts
    (false, rd index (nparts - 1))

/-- `GenSortIndirect<T,INX>::parSort (inx, data, nr, ord, opt, nthread)`. -/
def parSort (w : Workers) (inx : List Nat) (data : List T) (nr : Nat) (ord : CasaSort.Order)
    (opt : Nat) (nthread : Int) : Option (Nat × List Nat) :=
  let nthr := GenSort.numThreads w nthread nr
  let runs := GenSort.findRuns
    (fun j => decide (rd data (rd inx (j - 1)) > rd data (rd inx j)))
    (fun i => decide (rd data (rd (GenSort.sliceBounds nr nthr) i - 1) >
      rd data (rd (GenSort.sliceBounds nr nthr) i)))
    nr nthr
  let index := runs.1
  let nparts := runs.2
  if nparts < nr then
    let inxtmp : List Nat := List.replicate nr default
    match merge data inx inxtmp nr index nparts with
    | none => none
    | some (m, a, _) =>
      let res := m.buf a
      let r := if opt &&& CasaSort.NoDuplicates ≠ 0 then insSortAscNoDup res data nr
        else (nr, res)
      let nr1 := r.1
      let res1 := r.2
      let inx1 := if a then m.data else res1
      if ord = CasaSort.Order.Descending then
        some (nr1, GenSort.reverse inx1 (if a then some res1 else none) nr1)
      else if a then some (nr1, GenSort.objcopy inx1 res1 nr1)
      else some (nr1, inx1)
  else
    if ord = CasaSort.Order.Ascending then some (nr, GenSort.reverse inx none nr)
    else some (nr, inx)

/-- Modelled from the spec: `indexVector.resize (nr); indgen (indexVector);` (`Vector` and
`indgen` are not among the sources) leaves the identity permutation `0 .. nr-1`, whatever
the vector held. -/
def indgen (_indexVector : List Nat) (nr : Nat) : List Nat := List.range nr

/-- `GenSortIndirect<T,INX>::sort (indexVector, data, nr, ord, opt)`: the returned count and
the index vector as the call leaves it. -/
def sort (w : Workers) (indexVector : List Nat) (data : List T) (nr : Nat)
    (ord : CasaSort.Order) (opt : Nat) : Option (Nat × List Nat) :=
  let inx := indgen indexVector nr
  let opt1 :=
    if opt - (opt &&& CasaSort.NoDuplicates) = CasaSort.DefaultSort then
      let nthr := match w with
        | none => 1
        | some maxThreads => maxThreads
      let type := if nr < 1000 ∨ nthr = 1 then CasaSort.QuickSort else CasaSort.ParSort
      opt - CasaSort.DefaultSort + type
    else opt
  let r :=
    if opt1 &&& CasaSort.HeapSort ≠ 0 then heapSort inx data nr ord opt1
    else if opt1 &&& CasaSort.InsSort ≠ 0 then some (insSort inx data nr ord opt1)
    else if opt1 &&& CasaSort.QuickSort ≠ 0 then quickSort inx data nr ord opt1
    else parSort w inx data nr ord opt1 0
  match r with
  | none => none
  | some (n, x) => if n < nr then some (n, x.take n) else some (n, x)

end GenSortIndirect

/-! ## The kernels with the comparison as a parameter

The direct and the indirect engine run the same loops with different comparisons.  The
definitions of this section are those loops with the comparison taken as an argument; they
are not part of the source and serve only to state the reasoning once.  Each kernel above is
proved equal to an instance of them before anything is concluded about it.
-/

namespace Gen

variable {α : Type} [Inhabited α]

open GenSort (rd swap Bufs Ptr)

/-- Shift loop of the duplicate-keeping insertion sort; `gt x y` is the test `x > y`. -/
def insShift (gt : α → α → Bool) (cur : α) : Nat → List α → List α × Nat
  | 0, data => (data, 0)
  | j + 1, data =>
    if gt (rd data j) cur then insShift gt cur j (data.set (j + 1) (rd data j))
    else (data, j + 1)

/-- Duplicate-keeping insertion sort. -/
def insSortAscDup (gt : α → α → Bool) (data : List α) (nr : Nat) : Nat × List α :=
  (nr, (List.range' 1 (nr - 1)).foldl
    (fun d i =>
      let cur := rd d i
      let r := insShift gt cur i d
      r.1.set r.2 cur) data)

/-- Search loop of the duplicate-skipping insertion sort. -/
def insFind (gt : α → α → Bool) (cur : α) (data : List α) : Nat → Nat
  | 0 => 0
  | j + 1 => if gt (rd data j) cur then insFind gt cur data j else j + 1

/-- Duplicate-skipping insertion sort; `eq x y` is the test `x == y`. -/
def insSortAscNoDup (gt eq : α → α → Bool) (data : List α) (nr : Nat) : Nat × List α :=
  if nr < 2 then (nr, data)
  else
    (List.range' 1 (nr - 1)).foldl
      (fun (s : Nat × List α) i =>
        let n := s.1
        let d := s.2
        let cur := rd d i
        let j := insFind gt cur d n
        if j ≤ 0 ∨ ¬ (eq (rd d (j - 1)) cur = true) then
          (n + 1, (GenSort.shiftRight j (n - j) d).set j cur)
        else (n, d)) (1, data)

/-- First loop of the sift-down. -/
def siftHole (gt : α → α → Bool) (up : Nat) : Nat → List α → Nat → Option (List α × Nat)
  | 0, _, _ => none
  | fuel + 1, data, i =>
    let c := 2 * i
    if c ≤ up then
      let c1 := if c < up ∧ gt (rd data (c + 1 - 1)) (rd data (c - 1)) = true then c + 1 else c
      siftHole gt up fuel (data.set (i - 1) (rd data (c1 - 1))) c1
    else some (data, i)

/-- Second loop of the sift-down; `stop x y` is the break test on `x = data[i]` and
`y = data[c]`. -/
def siftUp (stop : α → α → Bool) (low : Nat) : Nat → List α → Nat → Option (List α)
  | 0, _, _ => none
  | fuel + 1, data, i =>
    let c := i / 2
    if c ≥ low then
      if stop (rd data (i - 1)) (rd data (c - 1)) = true then some data
      else siftUp stop low fuel (swap data (c - 1) (i - 1)) c
    else some data

/-- The sift-down. -/
def heapAscSiftDown (gt stop : α → α → Bool) (low up : Nat) (data : List α) :
    Option (List α) :=
  let sav := rd data (low - 1)
  match siftHole gt up (up + 1) data low with
  | none => none
  | some (d, i) => siftUp stop low (i + 1) (d.set (i - 1) sav) i

/-- Heap construction loop. -/
def heapBuild (gt stop : α → α → Bool) (nr : Nat) : Nat → List α → Option (List α)
  | 0, data => some data
  | j + 1, data =>
    match heapAscSiftDown gt stop (j + 1) nr data with
    | none => none
    | some d => heapBuild gt stop nr j d

/-- Heap extraction loop. -/
def heapExtract (gt stop : α → α → Bool) : Nat → List α → Option (List α)
  | 0, data => some data
  | j + 1, data =>
    if j + 1 ≥ 2 then
      match heapAscSiftDown gt stop 1 (j + 1 - 1) (swap data (1 - 1) (j + 1 - 1)) with
      | none => none
      | some d => heapExtract gt stop j d
    else some data

/-- Heapsort. -/
def heapSortAsc (gt stop : α → α → Bool) (data : List α) (nr : Nat) : Option (List α) :=
  match heapBuild gt stop nr (nr / 2) data with
  | none => none
  | some d => heapExtract gt stop nr d

/-- Inner loop of the merge; `tl x y` tells whether `x = f1[ia]` is taken before
`y = f2[ib]`. -/
def mergeWhile (tl : α → α → Bool) (f1 f2 dst : Ptr) (na nb : Nat) :
    Nat → Bufs α → Nat → Nat → Nat → Option (Bufs α × Nat × Nat × Nat)
  | 0, _, _, _, _ => none
  | fuel + 1, m, ia, ib, k =>
    if ia < na ∧ ib < nb then
      if tl (m.rd f1 ia) (m.rd f2 ib) = true then
        mergeWhile tl f1 f2 dst na nb fuel (m.wr dst k (m.rd f1 ia)) (ia + 1) ib (k + 1)
      else
        mergeWhile tl f1 f2 dst na nb fuel (m.wr dst k (m.rd f2 ib)) ia (ib + 1) (k + 1)
    else some (m, ia, ib, k)

/-- Merge of one pair of runs. -/
def mergePair (tl : α → α → Bool) (a b : Bool) (index : List Nat) (np i : Nat) (m : Bufs α)
    (last : Ptr) : Option (Bufs α × Ptr) :=
  if i < np - 1 then
    let f1 : Ptr := (a, rd index i)
    let f2 : Ptr := (a, rd index (i + 1))
    let dst : Ptr := (b, rd index i)
    let na := rd index (i + 1) - rd index i
    let nb := rd index (i + 2) - rd index (i + 1)
    let f2' := if i = np - 2 then last else f2
    let last' := if i = np - 2 then dst else last
    match mergeWhile tl f1 f2' dst na nb (na + nb + 1) m 0 0 0 with
    | none => none
    | some (m1, ia, ib, k) =>
      if ia < na then some ((GenSort.mergeCopy f1 dst ia na m1 k).1, last')
      else some ((GenSort.mergeCopy f2' dst ib nb m1 k).1, last')
  else some (m, last)

/-- One merge pass. -/
def mergePass (tl : α → α → Bool) (a b : Bool) (index : List Nat) (np : Nat) :
    Nat → Nat → Bufs α → Ptr → Option (Bufs α × Ptr)
  | 0, _, m, last => some (m, last)
  | cnt + 1, i, m, last =>
    match mergePair tl a b index np i m last with
    | none => none
    | some (m1, last1) => mergePass tl a b index np cnt (i + 2) m1 last1

/-- The merge passes. -/
def mergeLoop (tl : α → α → Bool) (nr : Nat) :
    Nat → Bufs α → Bool → Bool → List Nat → Nat → Ptr → Option (Bufs α × Bool × List Nat)
  | 0, _, _, _, _, _, _ => none
  | fuel + 1, m, a, b, index, np, last =>
    if np > 1 then
      match mergePass tl a b index np ((np + 1) / 2) 0 m last with
      | none => none
      | some (m1, last1) =>
        let c := GenSort.collapseIndex index np
        let index1 := c.1.set c.2 nr
        mergeLoop tl nr fuel m1 b a index1 c.2 last1
    else some (m, a, index)

/-- The merge. -/
def merge (tl : α → α → Bool) (data tmp : List α) (nr : Nat) (index : List Nat)
    (nparts : Nat) : Option (Bufs α × Bool × List Nat) :=
  mergeLoop tl nr (nparts + 1) ⟨data, tmp⟩ false true index nparts
    (false, rd index (nparts - 1))

end Gen

namespace Gen

variable {T : Type} [LinearOrder T] [Inhabited T]

open GenSort (rd swap median3 partitionLoop)

/-- The loop of the direct `kthLargest` with every position a natural number.  Like the
other definitions of this section it is not part of the source: `GenSort.kthLoop` is proved
equal to it for the ranges on which the `Int` arithmetic of the source does not overflow. -/
def kthLoop (k : Nat) : Nat → List T → Nat → Nat → Option (List T × Nat × Nat)
  | 0, _, _, _ => none
  | fuel + 1, data, st, en =>
    if en > st + 1 then
      let i := (st + en) / 2
      let d0 := median3 data st i en
      let par := rd d0 en
      match partitionLoop par st en (en - st + 1) d0 st en with
      | none => none
      | some (d1, sf) =>
        let d2 := swap d1 sf en
        let i := sf
        let st1 := if i ≤ k then i else st
        let en1 := if i ≥ k then i else en
        kthLoop k fuel d2 st1 en1
    else some (data, st, en)

/-- The direct `kthLargest` over `Gen.kthLoop`; `GenSort.kthLargest` is proved equal to it
for the lengths that fit the `Int` arithmetic of the source. -/
def kthLargest (data : List T) (nr k : Nat) : Option (Except String T × List T) :=
  if k ≥ nr then
    some (.error "kthLargest(data, nr, k): k must be < nr", data)
  else
    match kthLoop k nr data 0 (nr - 1) with
    | none => none
    | some (d, st, en) =>
      let d1 := if en = st + 1 then (if rd d st > rd d en then swap d st en else d) else d
      some (.ok (rd d1 k), d1)

end Gen

namespace GenSort

variable {T : Type} [LinearOrder T] [Inhabited T]

/-- `GenSort<T>::quickSortAsc` once more, with a log of its calls of `heapSortAsc`: next to
the buffer it returns, for every such call, the number of partitions above the call
(`depth`), its `nr` and its `rec_lim`.  The recursion is that of `quickSortAscAux`; the log
is the only addition, and `quickSortAscLog_fst` below shows that the buffer is the same. -/
def quickSortAscLog :
    Nat → List T → Nat → Bool → Int → Nat → Option (List T × List (Nat × Nat × Int))
  | 0, data, nr, _, rec_lim, depth =>
    if nr ≤ 32 then some (data, [])
    else if rec_lim < 0 then
      match heapSortAsc data nr with
      | none => none
      | some d => some (d, [(depth, nr, rec_lim)])
    else none
  | fuel + 1, data, nr, multiThread, rec_lim, depth =>
    if nr ≤ 32 then some (data, [])
    else if rec_lim < 0 then
      match heapSortAsc data nr with
      | none => none
      | some d => some (d, [(depth, nr, rec_lim)])
    else
      let i := (nr - 1) / 2
      let d0 := median3 data 0 i (nr - 1)
      let par := rd d0 (nr - 1)
      match partitionLoop par 0 (nr - 1) nr d0 0 (nr - 1) with
      | none => none
      | some (d1, sf) =>
        let d2 := swap d1 sf (nr - 1)
        let i := sf
        if multiThread then
          match quickSortAscLog fuel d2 i false (rec_lim - 1) (depth + 1) with
          | none => none
          | some (d3, l1) =>
            match quickSortAscLog fuel (d3.drop (sf + 1)) (nr - i - 1) false (rec_lim - 1)
                (depth + 1) with
            | none => none
            | some (r, l2) => some (d3.take (sf + 1) ++ r, l1 ++ l2)
        else
          match quickSortAscLog fuel d2 i false (rec_lim - 1) (depth + 1) with
          | none => none
          | some (d3, l1) =>
            match quickSortAscLog fuel (d3.drop (sf + 1)) (nr - i - 1) false (rec_lim - 1)
                (depth + 1) with
            | none => none
            | some (r, l2) => some (d3.take (sf + 1) ++ r, l1 ++ l2)

end GenSort

namespace GenSortIndirect

variable {T : Type} [LinearOrder T] [Inhabited T]

open GenSort (rd)

/-- The default value `data[0]` for the values read through an index array: with it, the
read past the end of the list of values `data[inx[·]]` is the read of the data through the
read past the end of `inx`, which yields position 0. -/
@[reducible]
def readDefault (data : List T) : Inhabited T := ⟨rd data 0⟩

/-- The three conditional swaps at the head of the loop of the indirect `kthLargest`; the
values are compared, not the positions. -/
def kthMedian3 (data : List T) (inx : List Nat) (sf i sl : Nat) : List Nat :=
  let x1 := if rd data (rd inx i) < rd data (rd inx sf) then swapInx inx i sf else inx
  let x2 := if rd data (rd x1 sl) < rd data (rd x1 sf) then swapInx x1 sl sf else x1
  if rd data (rd x2 i) < rd data (rd x2 sl) then swapInx x2 i sl else x2

/-- The scan `while (data[*++sf] < partVal) ;` of the indirect `kthLargest`, returning the
position where it stops. -/
def kthScanUp (data : List T) (partVal : T) (inx : List Nat) : Nat → Nat → Option Nat
  | 0, _ => none
  | fuel + 1, sf =>
    if rd data (rd inx (sf + 1)) < partVal then kthScanUp data partVal inx fuel (sf + 1)
    else some (sf + 1)

/-- The scan `while (data[*--sl] > partVal) ;` of the indirect `kthLargest`, returning the
position where it stops. -/
def kthScanDown (data : List T) (partVal : T) (inx : List Nat) : Nat → Nat → Option Nat
  | 0, _ => none
  | fuel + 1, sl =>
    if rd data (rd inx (sl - 1)) > partVal then kthScanDown data partVal inx fuel (sl - 1)
    else some (sl - 1)

/-- The partition loop of the indirect `kthLargest` on the range `lo .. hi`; returns the
index array and the final `sf`. -/
def kthPartitionLoop (data : List T) (partVal : T) (lo hi : Nat) :
    Nat → List Nat → Nat → Nat → Option (List Nat × Nat)
  | 0, _, _, _ => none
  | fuel + 1, inx, sf, sl =>
    match kthScanUp data partVal inx (hi - sf) sf with
    | none => none
    | some sf1 =>
      match kthScanDown data partVal inx (sl - lo) sl with
      | none => none
      | some sl1 =>
        if sf1 ≥ sl1 then some (inx, sf1)
        else kthPartitionLoop data partVal lo hi fuel (swapInx inx sf1 sl1) sf1 sl1

/-- The loop `while (end > st+1) { ... }` of the indirect `kthLargest`; returns the index
array, `st` and `end`. -/
def kthLoop (data : List T) (k : Nat) :
    Nat → List Nat → Nat → Nat → Option (List Nat × Nat × Nat)
  | 0, _, _, _ => none
  | fuel + 1, inx, st, en =>
    if en > st + 1 then
      let i := (st + en) / 2
      let x0 := kthMedian3 data inx st i en
      let partVal := rd data (rd x0 en)
      match kthPartitionLoop data partVal st en (en - st + 1) x0 st en with
      | none => none
      | some (x1, sf) =>
        let x2 := swapInx x1 sf en
        let i := sf
        let st1 := if i ≤ k then i else st
        let en1 := if i ≥ k then i else en
        kthLoop data k fuel x2 st1 en1
    else some (inx, st, en)

/-- The index vector the indirect `kthLargest` ends with: `Vector<INX> indexVector(nr);
indgen(indexVector);`, the loop and the closing exchange. -/
def kthIndex (data : List T) (nr k : Nat) : Option (List Nat) :=
  match kthLoop data k nr (indgen [] nr) 0 (nr - 1) with
  | none => none
  | some (x, st, en) =>
    some (if en = st + 1 then
      (if rd data (rd x st) > rd data (rd x en) then swapInx x st en else x) else x)

/-- `GenSortIndirect<T,INX>::kthLargest (data, nr, k)`: the thrown `AipsError` or the position
returned, `inx[k]`.  The data are read only and the index vector is local to the call. -/
def kthLargest (data : List T) (nr k : Nat) : Option (Except String Nat) :=
  if k ≥ nr then
    some (.error "kthLargest(data, nr, k): k must be < nr")
  else
    match kthIndex data nr k with
    | none => none
    | some x => some (.ok (rd x k))

end GenSortIndirect

namespace GenSort

variable {T : Type} [LinearOrder T] [Inhabited T]

/-- `GenSort<T>::sort (Block<T>& data, uInt nr, ord, opt)`, the overload of `sort` for a
block: `return sort (data.storage(), std::min<uInt>(nr, data.nelements()), ord, opt);`.
The block is the list of its elements. -/
def sortBlock (w : Workers) (data : List T) (nr : Nat) (ord : CasaSort.Order) (opt : Nat) :
    Option (Nat × List T) :=
  sort w data (min nr data.length) ord opt

/-- The frame of an engine: every order gives a count of at most `nr` and a buffer of the
same length with the cells from `nr` on untouched. -/
def TailSpec {α : Type} (data : List α) (nr : Nat)
    (f : CasaSort.Order → Option (Nat × List α)) : Prop :=
  ∀ ord, ∃ n d, f ord = some (n, d) ∧ n ≤ nr ∧ d.length = data.length ∧
    d.drop nr = data.drop nr

/-- The scan `while (*++sf < par) ;` once more, with the positions it reads (as integers,
so that a read before the buffer would show): next to the position where it stops, the list
of the positions read.  The recursion is that of `scanUp`. -/
def scanUpLog (par : T) (data : List T) : Nat → Nat → Option (Nat × List Int)
  | 0, _ => none
  | fuel + 1, sf =>
    if rd data (sf + 1) < par then
      match scanUpLog par data fuel (sf + 1) with
      | none => none
      | some (s, l) => some (s, ((sf : Int) + 1) :: l)
    else some (sf + 1, [(sf : Int) + 1])

/-- The scan `while (*--sl > par) ;` once more, with the positions it reads.  The recursion
is that of `scanDown`. -/
def scanDownLog (par : T) (data : List T) : Nat → Nat → Option (Nat × List Int)
  | 0, _ => none
  | fuel + 1, sl =>
    if rd data (sl - 1) > par then
      match scanDownLog par data fuel (sl - 1) with
      | none => none
      | some (s, l) => some (s, ((sl : Int) - 1) :: l)
    else some (sl - 1, [(sl : Int) - 1])

/-- The partition loop once more, with the positions its scans read.  The recursion is that
of `partitionLoop`. -/
def partitionLoopLog (par : T) (lo hi : Nat) :
    Nat → List T → Nat → Nat → Option ((List T × Nat) × List Int)
  | 0, _, _, _ => none
  | fuel + 1, data, sf, sl =>
    match scanUpLog par data (hi - sf) sf with
    | none => none
    | some (sf1, l1) =>
      match scanDownLog par data (sl - lo) sl with
      | none => none
      | some (sl1, l2) =>
        if sf1 ≥ sl1 then some ((data, sf1), l1 ++ l2)
        else
          match partitionLoopLog par lo hi fuel (swap data sf1 sl1) sf1 sl1 with
          | none => none
          | some (r, l3) => some (r, l1 ++ l2 ++ l3)

/-- The arrays `parSort` works with: the run boundaries `index` (a block of `nr + 1`
entries), the slice bounds `tinx` (`nthr + 1` entries), the run counts `np` (`nthr` entries)
and the buffer `data` (`nr` cells). -/
inductive Arr where
  | index
  | tinx
  | np
  | data
  deriving DecidableEq, Repr

/-- The number of entries of an array of `parSort`, as allocated:
`Block<uInt> index(nr+1); Block<uInt> tinx(nthr+1); Block<uInt> np(nthr);`. -/
def Arr.size (nr nthr : Nat) : Arr → Nat
  | .index => nr + 1
  | .tinx => nthr + 1
  | .np => nthr
  | .data => nr

/-- One access of `parSort` to one of its arrays: the array, the position, and whether it is
a store. -/
structure Access where
  arr : Arr
  pos : Nat
  write : Bool
  deriving DecidableEq, Repr

/-- The stores of `for (int i=0; i<nthr; ++i) tinx[i] = i*step; tinx[nthr] = nr;`. -/
def sliceBoundsLog (nthr : Nat) : List Access :=
  (List.range nthr).map (fun i => (⟨Arr.tinx, i, true⟩ : Access)) ++ [⟨Arr.tinx, nthr, true⟩]

/-- The scan of slice `i` once more, with its accesses: the reads of `tinx[i]` and
`tinx[i+1]`, the store `index[tinx[i]] = tinx[i]`, for every `j` the reads of `data[j-1]` and
`data[j]`, and for an inversion the store `index[tinx[i]+nparts] = j`.  The fold is that of
`scanSlice`. -/
def scanSliceLog (inv : Nat → Bool) (tinx : List Nat) (i : Nat) (index : List Nat) :
    (List Nat × Nat) × List Access :=
  (List.range' (rd tinx i + 1) (rd tinx (i + 1) - (rd tinx i + 1))).foldl
    (fun (s : (List Nat × Nat) × List Access) j =>
      if inv j then
        ((s.1.1.set (rd tinx i + s.1.2) j, s.1.2 + 1),
          s.2 ++ [⟨Arr.data, j - 1, false⟩, ⟨Arr.data, j, false⟩, ⟨Arr.tinx, i, false⟩,
            ⟨Arr.index, rd tinx i + s.1.2, true⟩])
      else (s.1, s.2 ++ [⟨Arr.data, j - 1, false⟩, ⟨Arr.data, j, false⟩]))
    ((index.set (rd tinx i) (rd tinx i), 1),
      [⟨Arr.tinx, i, false⟩, ⟨Arr.index, rd tinx i, true⟩, ⟨Arr.tinx, i + 1, false⟩])

/-- The scan loop over all slices once more, with its accesses: those of every slice and the
store `np[i] = nparts`.  The fold is that of `scanAll`. -/
def scanAllLog (inv : Nat → Bool) (tinx : List Nat) (nthr : Nat) (index np : List Nat) :
    (List Nat × List Nat) × List Access :=
  (List.range nthr).foldl
    (fun (s : (List Nat × List Nat) × List Access) i =>
      ((( scanSliceLog inv tinx i s.1.1).1.1, s.1.2.set i (scanSliceLog inv tinx i s.1.1).1.2),
        s.2 ++ (scanSliceLog inv tinx i s.1.1).2 ++ [⟨Arr.np, i, true⟩]))
    ((index, np), [])

/-- The stitch loop once more, with its accesses to `index`, `tinx` and `np`.  The fold is
that of `stitch`. -/
def stitchLog (junc : Nat → Bool) (tinx np : List Nat) (nthr : Nat) (index : List Nat) :
    (List Nat × Nat) × List Access :=
  (List.range' 1 (nthr - 1)).foldl
    (fun (s : (List Nat × Nat) × List Access) i =>
      let s1 : (List Nat × Nat) × List Access :=
        if junc i then
          ((s.1.1.set s.1.2 (rd s.1.1 (rd tinx i)), s.1.2 + 1),
            s.2 ++ [⟨Arr.tinx, i, false⟩, ⟨Arr.index, rd tinx i, false⟩,
              ⟨Arr.index, s.1.2, true⟩])
        else (s.1, s.2 ++ [⟨Arr.tinx, i, false⟩])
      if s1.1.2 = rd tinx i + 1 then
        ((s1.1.1, s1.1.2 + (rd np i - 1)), s1.2 ++ [⟨Arr.np, i, false⟩])
      else
        (List.range' 1 (rd np i - 1)).foldl
          (fun (u : (List Nat × Nat) × List Access) j =>
            ((u.1.1.set u.1.2 (rd u.1.1 (rd tinx i + j)), u.1.2 + 1),
              u.2 ++ [⟨Arr.index, rd tinx i + j, false⟩, ⟨Arr.index, u.1.2, true⟩]))
          (s1.1, s1.2 ++ [⟨Arr.np, i, false⟩]))
    ((index, rd np 0), [⟨Arr.np, 0, false⟩])

/-- The run finding of `parSort` once more, with its accesses to `index`, `tinx` and `np`
(and the reads of `data` the scan makes), the closing store `index[nparts] = nr` being the
last.  The steps are those of `findRuns`. -/
def findRunsLog (inv junc : Nat → Bool) (nr nthr : Nat) : (List Nat × Nat) × List Access :=
  let index := List.replicate (nr + 1) 0
  let np := List.replicate nthr 0
  let tinx := sliceBounds nr nthr
  let sc := scanAllLog inv tinx nthr index np
  let st := stitchLog junc tinx sc.1.2 nthr sc.1.1
  ((st.1.1.set st.1.2 nr, st.1.2),
    sliceBoundsLog nthr ++ sc.2 ++ st.2 ++ [⟨Arr.index, st.1.2, true⟩])

end GenSort

namespace GenSortIndirect

variable {T : Type} [LinearOrder T] [Inhabited T]

open GenSort (rd)

/-- The upward scan of the indirect `quickSortAsc` once more, with the positions of the index
array it reads (as integers).  The recursion is that of `scanUp`. -/
def scanUpLog (data : List T) (partVal : T) (partInx : Nat) (inx : List Nat) :
    Nat → Nat → Option (Nat × List Int)
  | 0, _ => none
  | fuel + 1, sf =>
    if rd data (rd inx sf) < partVal ∨ (partVal = rd data (rd inx sf) ∧ rd inx sf < partInx)
    then
      match scanUpLog data partVal partInx inx fuel (sf + 1) with
      | none => none
      | some (s, l) => some (s, (sf : Int) :: l)
    else some (sf, [(sf : Int)])

/-- The downward scan of the indirect `quickSortAsc` once more, with the positions of the
index array it reads; `sl` is an integer here, since the scan would read before the array
if it went on from position 0.  The recursion is that of `scanDown`. -/
def scanDownLog (data : List T) (partVal : T) (partInx : Nat) (inx : List Nat) :
    Nat → Int → Option (Nat × List Int)
  | 0, _ => none
  | fuel + 1, sl =>
    if rd data (rd inx sl.toNat) > partVal ∨
        (partVal = rd data (rd inx sl.toNat) ∧ rd inx sl.toNat > partInx)
    then
      match scanDownLog data partVal partInx inx fuel (sl - 1) with
      | none => none
      | some (s, l) => some (s, sl :: l)
    else some (sl.toNat, [sl])

/-- The partition loop of the indirect `quickSortAsc` once more, with the positions of the
index array its scans read.  The recursion is that of `partitionLoop`. -/
def partitionLoopLog (data : List T) (partVal : T) (partInx : Nat) (hi : Nat) :
    Nat → List Nat → Nat → Nat → Option ((List Nat × Nat) × List Int)
  | 0, _, _, _ => none
  | fuel + 1, inx, sf, sl =>
    match scanUpLog data partVal partInx inx (hi - sf + 1) sf with
    | none => none
    | some (sf1, l1) =>
      match scanDownLog data partVal partInx inx (sl + 1) (sl : Int) with
      | none => none
      | some (sl1, l2) =>
        if sf1 ≥ sl1 then some ((inx, sf1), l1 ++ l2)
        else
          match partitionLoopLog data partVal partInx hi fuel (swapInx inx sf1 sl1) sf1 sl1 with
          | none => none
          | some (r, l3) => some (r, l1 ++ l2 ++ l3)

end GenSortIndirect

namespace GenSort

/-- A buffer of `2^31` cells that is not in ascending order: a 1 followed by zeros. -/
def wideInput : List Nat := 1 :: List.replicate (2 ^ 31 - 1) 0

/-- A buffer of `2^31 + 2` cells whose first cell does not hold its smallest value: a 1
followed by zeros. -/
def wideInput2 : List Nat := 1 :: List.replicate (2 ^ 31 + 1) 0

end GenSort

/-! ## Predicates and abbreviations the statements below are written with -/

namespace GenSort

variable {T : Type} [LinearOrder T] [Inhabited T]

/-- The comparison `x > y` of the direct engine. -/
abbrev gtD : T → T → Bool := fun x y => decide (x > y)

/-- The break test `!(x > y)` of the direct sift-down. -/
abbrev stopD : T → T → Bool := fun x y => decide (¬ (x > y))

/-- The test `x == y` of the direct engine. -/
abbrev eqD : T → T → Bool := fun x y => decide (x = y)

/-- The test `x < y` of the direct merge. -/
abbrev tlD : T → T → Bool := fun x y => decide (x < y)

end GenSort

namespace GenSortIndirect

variable {T : Type} [LinearOrder T] [Inhabited T]

open GenSort (rd Bufs Ptr)

/-- The break test of the indirect sift-down, on `x = inx[i]` and `y = inx[c]`. -/
abbrev stopI (data : List T) : Nat → Nat → Bool := fun x y => isAscending data y x

/-- The test `data[x] > data[y]` of the indirect engine. -/
abbrev gtV (data : List T) : Nat → Nat → Bool := fun x y => decide (rd data x > rd data y)

/-- The test `data[x] == data[y]` of the indirect engine. -/
abbrev eqV (data : List T) : Nat → Nat → Bool := fun x y => decide (rd data x = rd data y)

/-- The test `data[x] <= data[y]` of the indirect merge. -/
abbrev tlI (data : List T) : Nat → Nat → Bool := fun x y => decide (rd data x ≤ rd data y)

end GenSortIndirect

namespace Gen

open GenSort (rd swap)

variable {α : Type} [Inhabited α] {K : Type} [LinearOrder K]

/-- The keys of the first `n` cells are in non-decreasing order. -/
def SortedUpTo (key : α → K) (l : List α) (n : Nat) : Prop :=
  ∀ i j, i < j → j < n → key (rd l i) ≤ key (rd l j)

/-- The keys of the first `n` cells are in strictly increasing order. -/
def StrictUpTo (key : α → K) (l : List α) (n : Nat) : Prop :=
  ∀ i j, i < j → j < n → key (rd l i) < key (rd l j)

/-- What the duplicate-skipping insertion sort leaves: `n` cells with strictly increasing
keys, each taken from the first `nr` cells of the input, and every key of the input among
them. -/
structure NoDupResult (key : α → K) (data : List α) (nr : Nat) (r : Nat × List α) : Prop where
  le : r.1 ≤ nr
  pos : 1 ≤ nr → 1 ≤ r.1
  length : r.2.length = data.length
  strict : StrictUpTo key r.2 r.1
  sub : ∀ p, p < r.1 → ∃ q, q < nr ∧ rd r.2 p = rd data q
  sup : ∀ q, q < nr → ∃ p, p < r.1 ∧ key (rd r.2 p) = key (rd data q)
  rest : ∀ p, nr ≤ p → rd r.2 p = rd data p

end Gen

namespace Gen

open GenSort (rd swap)

variable {α : Type} [Inhabited α] {K : Type} [LinearOrder K]

/-- Position `i` lies in the subtree rooted at `low` (positions counted from 1). -/
def Desc (low i : Nat) : Prop := ∃ k, i / 2 ^ k = low

/-- Heap order on the positions `low .. up` (counted from 1): no child has a larger key than
its parent. -/
def HeapOn (key : α → K) (d : List α) (low up : Nat) : Prop :=
  ∀ x c, low ≤ x → c ≤ up → (c = 2 * x ∨ c = 2 * x + 1) →
    key (rd d (c - 1)) ≤ key (rd d (x - 1))

/-- Heap order on `low .. up` except at the edges that touch position `i`, whose parent
dominates its children. -/
def HoleInv (key : α → K) (d : List α) (low up i : Nat) : Prop :=
  (∀ x c, low ≤ x → c ≤ up → (c = 2 * x ∨ c = 2 * x + 1) → x ≠ i → c ≠ i →
    key (rd d (c - 1)) ≤ key (rd d (x - 1))) ∧
  (i ≠ low → ∀ c, c ≤ up → (c = 2 * i ∨ c = 2 * i + 1) →
    key (rd d (c - 1)) ≤ key (rd d (i / 2 - 1)))

/-- Heap order on `low .. up` except at the edge above position `i`, whose parent dominates
its children. -/
def UpInv (key : α → K) (d : List α) (low up i : Nat) : Prop :=
  (∀ x c, low ≤ x → c ≤ up → (c = 2 * x ∨ c = 2 * x + 1) → c ≠ i →
    key (rd d (c - 1)) ≤ key (rd d (x - 1))) ∧
  (i ≠ low → ∀ c, c ≤ up → (c = 2 * i ∨ c = 2 * i + 1) →
    key (rd d (c - 1)) ≤ key (rd d (i / 2 - 1)))

end Gen

namespace GenSortIndirect

variable {T : Type} [LinearOrder T] [Inhabited T]

open GenSort (rd)

/-- The sort key of the indirect engine: the value, then the position. -/
def lexKey (data : List T) (i : Nat) : Lex (T × Nat) := toLex (rd data i, i)

end GenSortIndirect

namespace GenSort

/-- The starts of the runs of the cells `lo .. hi-1`: `lo` itself and every later position
`j` at which the run test `inv j` holds. -/
def runStarts (inv : Nat → Bool) (lo hi : Nat) : List Nat :=
  lo :: (List.range' (lo + 1) (hi - (lo + 1))).filter inv

/-- The slice bounds as the phases use them: from `0` to `nr`, strictly increasing. -/
structure Slices (tinx : List Nat) (nr nthr : Nat) : Prop where
  first : rd tinx 0 = 0
  last : rd tinx nthr = nr
  step : ∀ i, i < nthr → rd tinx i < rd tinx (i + 1)

end GenSort

namespace GenSort

/-- The run boundaries `index[0 .. np]` of a buffer of `nr` cells. -/
structure RunIndex (index : List Nat) (np nr : Nat) : Prop where
  pos : 1 ≤ np
  first : rd index 0 = 0
  last : rd index np = nr
  incr : ∀ t, t < np → rd index t < rd index (t + 1)
  length : np < index.length

end GenSort

namespace Gen

open GenSort (rd Bufs Ptr)

variable {α : Type} [Inhabited α]

/-- The cell `x` of the buffer `c` (`true` for `tmp`). -/
def cell (m : Bufs α) (c : Bool) (x : Nat) : α := rd (m.buf c) x

/-- The `n` cells a pointer points at, as a list. -/
def runList (m : Bufs α) (p : Ptr) (n : Nat) : List α :=
  (List.range n).map (fun i => m.rd p i)

/-- The state of the inner merge loop: the output written so far is the head of the merge,
and what the loop has not read yet is still in place. -/
structure MergeInv (tl : α → α → Bool) (m0 m : Bufs α) (a b c : Bool) (o na nb : Nat)
    (A B : List α) (ia ib : Nat) : Prop where
  ia_le : ia ≤ na
  ib_le : ib ≤ nb
  out : ∀ q, q < ia + ib → cell m b (o + q) = rd (List.merge A B tl) q
  rest : (List.merge A B tl).drop (ia + ib) = List.merge (A.drop ia) (B.drop ib) tl
  left : ∀ i, i < na → cell m a (o + i) = rd A i
  right : ∀ i, ib ≤ i → i < nb → cell m c (o + na + i) = rd B i
  frame : ∀ x, (x < o ∨ o + na + nb ≤ x) → cell m b x = cell m0 b x
  bufa : m.buf a = m0.buf a
  lenb : (m.buf b).length = (m0.buf b).length

end Gen

namespace Gen

open GenSort (rd Bufs Ptr RunIndex)

variable {α : Type} [Inhabited α]

/-- Where run `t` of the current pass lies: the last run at `last`, every other run in the
source buffer `a`. -/
def loc (a : Bool) (index : List Nat) (np : Nat) (last : Ptr) (t : Nat) : Ptr :=
  if t + 1 = np then last else (a, rd index t)

/-- The cells of run `t`. -/
def runOf (m : Bufs α) (a : Bool) (index : List Nat) (np : Nat) (last : Ptr) (t : Nat) :
    List α :=
  runList m (loc a index np last t) (rd index (t + 1) - rd index t)

/-- The state between two merge passes: `np` runs with boundaries `index`, all in the buffer
`a` except the last one, which lies at `last`; each run has the property `P`. -/
structure Layout (P : Nat → List α → Prop) (m : Bufs α) (a : Bool) (index : List Nat)
    (np nr : Nat) (last : Ptr) : Prop where
  ri : RunIndex index np nr
  lastOff : last.2 = rd index (np - 1)
  lastBuf : np = 1 → last.1 = a
  runs : ∀ t, t < np → P (rd index t) (runOf m a index np last t)
  len : ∀ c, nr ≤ (m.buf c).length

/-- The state inside a merge pass, before the pair starting at run `i` is handled. -/
structure PassInv (P : Nat → List α → Prop) (mS m : Bufs α) (a b : Bool) (index : List Nat)
    (np : Nat) (lastS last : Ptr) (i : Nat) : Prop where
  even : i % 2 = 0
  bufa : m.buf a = mS.buf a
  lenb : (m.buf b).length = (mS.buf b).length
  above : ∀ x, rd index (min i (2 * (np / 2))) ≤ x → cell m b x = cell mS b x
  done : ∀ t, t % 2 = 0 → t + 1 < np → t < i →
    P (rd index t) (runList m (b, rd index t) (rd index (t + 2) - rd index t))
  lastNew : np % 2 = 0 ∧ np ≤ i → last = (b, rd index (np - 2))
  lastOld : ¬ (np % 2 = 0 ∧ np ≤ i) → last = lastS

end Gen

namespace Gen

open GenSort (rd Bufs Ptr)

variable {α : Type} [Inhabited α]

/-- The buffers keep their lengths and their cells from `nr` on. -/
def Frame (mI m : Bufs α) (nr : Nat) : Prop :=
  ∀ c, (m.buf c).length = (mI.buf c).length ∧ ∀ x, nr ≤ x → cell m c x = cell mI c x

end Gen

namespace Gen

open GenSort (rd)

variable {α : Type} [Inhabited α] {K : Type} [LinearOrder K]

/-- What an engine leaves when duplicates are kept: for Ascending the first `nr` cells hold
a sorted permutation `asc` of what they held, for Descending the same list backwards; the
cells from `nr` on are untouched and the count returned is `nr`. -/
def KeepSpec (key : α → K) (data : List α) (nr : Nat)
    (f : CasaSort.Order → Option (Nat × List α)) : Prop :=
  ∃ asc : List α, asc.Perm (data.take nr) ∧ asc.Pairwise (fun x y => key x ≤ key y) ∧
    f CasaSort.Order.Ascending = some (nr, asc ++ data.drop nr) ∧
    f CasaSort.Order.Descending = some (nr, asc.reverse ++ data.drop nr)

/-- What an engine leaves when duplicates are dropped: the count returned is the length of a
list `asc` with strictly increasing keys, made of cells of the input and holding every key
of the input; the buffer starts with `asc` for Ascending and with `asc` backwards for
Descending. -/
def NoDupSpec (key : α → K) (data : List α) (nr : Nat)
    (f : CasaSort.Order → Option (Nat × List α)) : Prop :=
  ∃ asc rest : List α, asc.Pairwise (fun x y => key x < key y) ∧
    (∀ x, x ∈ asc → x ∈ data.take nr) ∧
    (∀ y, y ∈ data.take nr → ∃ x, x ∈ asc ∧ key x = key y) ∧
    asc.length + rest.length = data.length ∧
    f CasaSort.Order.Ascending = some (asc.length, asc ++ rest) ∧
    f CasaSort.Order.Descending = some (asc.length, asc.reverse ++ rest)

end Gen

namespace GenSort

section Basic

variable {α : Type} [Inhabited α]

theorem rd_of_lt (l : List α) {i : Nat} (h : i < l.length) : rd l i = l[i] := by
  unfold rd; exact List.getD_eq_getElem _ _ h

theorem rd_of_ge (l : List α) {i : Nat} (h : l.length ≤ i) : rd l i = default := by
  unfold rd; exact List.getD_eq_default _ _ h

theorem rd_set (l : List α) (i j : Nat) (v : α) :
    rd (l.set i v) j = if i = j ∧ i < l.length then v else rd l j := by
  by_cases hj : j < l.length
  · rw [rd_of_lt _ (by simpa using hj), rd_of_lt _ hj, List.getElem_set]
    by_cases hij : i = j
    · subst hij; simp [hj]
    · simp [hij]
  · have hj' : l.length ≤ j := Nat.le_of_not_lt hj
    rw [rd_of_ge _ (by simpa using hj'), rd_of_ge _ hj']
    split
    · omega
    · rfl

theorem rd_set_self (l : List α) {i : Nat} (v : α) (h : i < l.length) :
    rd (l.set i v) i = v := by
  simp [rd_set, h]

theorem rd_set_ne (l : List α) {i j : Nat} (v : α) (h : i ≠ j) :
    rd (l.set i v) j = rd l j := by
  simp [rd_set, h]

theorem ext_rd {l l' : List α} (hlen : l.length = l'.length)
    (h : ∀ i, i < l.length → rd l i = rd l' i) : l = l' := by
  apply List.ext_getElem hlen
  intro i h1 h2
  have := h i h1
  rwa [rd_of_lt _ h1, rd_of_lt _ h2] at this

theorem rd_mem (l : List α) {i : Nat} (h : i < l.length) : rd l i ∈ l := by
  rw [rd_of_lt _ h]; exact List.getElem_mem _

theorem rd_take (l : List α) {i n : Nat} (h : i < n) : rd (l.take n) i = rd l i := by
  simp [rd, List.getD_eq_getElem?_getD, List.getElem?_take, h]

theorem rd_drop (l : List α) (i n : Nat) : rd (l.drop n) i = rd l (n + i) := by
  simp [rd, List.getD_eq_getElem?_getD]

theorem rd_append_left (l r : List α) {i : Nat} (h : i < l.length) :
    rd (l ++ r) i = rd l i := by
  simp [rd, List.getD_eq_getElem?_getD, List.getElem?_append_left h]

theorem rd_append_right (l r : List α) {i : Nat} (h : l.length ≤ i) :
    rd (l ++ r) i = rd r (i - l.length) := by
  simp [rd, List.getD_eq_getElem?_getD, List.getElem?_append_right h]

@[simp]
theorem length_swap (l : List α) (i j : Nat) : (swap l i j).length = l.length := by
  simp [swap]

theorem rd_swap (l : List α) {i j : Nat} (p : Nat) (hi : i < l.length) (hj : j < l.length) :
    rd (swap l i j) p = if p = j then rd l i else if p = i then rd l j else rd l p := by
  unfold swap
  rw [rd_set, rd_set]
  simp only [List.length_set]
  by_cases h1 : j = p
  · subst h1; simp [hj]
  · have h1' : p ≠ j := fun h => h1 h.symm
    by_cases h2 : i = p
    · subst h2; simp [h1, h1', hi]
    · have h2' : p ≠ i := fun h => h2 h.symm
      simp [h1, h2, h1', h2']

theorem count_set_rd [DecidableEq α] (l : List α) (i : Nat) (v b : α) (h : i < l.length) :
    (l.set i v).count b + (if rd l i = b then 1 else 0) =
      l.count b + (if v = b then 1 else 0) := by
  rw [List.count_set _ _ _ _ h, rd_of_lt _ h]
  have hpos : (if l[i] = b then 1 else 0) ≤ l.count b := by
    split
    · next hb => exact List.count_pos_iff.2 (hb ▸ List.getElem_mem _)
    · exact Nat.zero_le _
  simp only [beq_iff_eq]
  omega

theorem swap_perm (l : List α) {i j : Nat} (hi : i < l.length) (hj : j < l.length) :
    (swap l i j).Perm l := by
  classical
  rw [List.perm_iff_count]
  intro b
  unfold swap
  have h1 := count_set_rd l i (rd l j) b hi
  have h2 := count_set_rd (l.set i (rd l j)) j (rd l i) b (by simpa using hj)
  rw [rd_set] at h2
  by_cases hij : i = j
  · subst hij
    simp only [hi, and_self, if_true] at h2
    omega
  · simp only [hij, false_and, if_false] at h2
    omega

/-- Filling the cell `h` with `x` after moving cell `c` into it is, up to a permutation, the
same as filling `h` with `x` directly and then putting `x` at `c`. -/
theorem hole_move_perm (l : List α) {h c : Nat} (x : α) (hh : h < l.length)
    (hc : c < l.length) (hne : h ≠ c) :
    ((l.set h (rd l c)).set c x).Perm (l.set h x) := by
  have e : (l.set h (rd l c)).set c x = swap (l.set h x) h c := by
    unfold swap
    rw [rd_set_ne _ _ hne, rd_set_self _ _ hh, List.set_set]
  rw [e]
  exact swap_perm _ (by simpa using hh) (by simpa using hc)

omit [Inhabited α] in
theorem take_perm_of_drop_eq {l l' : List α} (n : Nat) (hp : l'.Perm l)
    (hd : l'.drop n = l.drop n) : (l'.take n).Perm (l.take n) := by
  have h1 : (l'.take n ++ l'.drop n).Perm (l.take n ++ l.drop n) := by
    simpa using hp
  rw [hd] at h1
  exact (List.perm_append_right_iff _).1 h1

theorem drop_eq_of_rd {l l' : List α} (n : Nat) (hlen : l'.length = l.length)
    (h : ∀ p, n ≤ p → p < l.length → rd l' p = rd l p) : l'.drop n = l.drop n := by
  apply ext_rd (by simp [hlen])
  intro i hi
  rw [rd_drop, rd_drop]
  simp at hi
  exact h _ (by omega) (by omega)

theorem take_eq_of_rd {l l' : List α} (n : Nat) (hlen : l'.length = l.length)
    (h : ∀ p, p < n → p < l.length → rd l' p = rd l p) : l'.take n = l.take n := by
  apply ext_rd (by simp [hlen])
  intro i hi
  simp at hi
  rw [rd_take _ hi.1, rd_take _ hi.1]
  exact h _ hi.1 (by omega)

end Basic

end GenSort

/-! ## The kernels are instances of the parametrised ones -/

namespace GenSort

variable {T : Type} [LinearOrder T] [Inhabited T]

theorem insShift_eq_gen (cur : T) (j : Nat) (data : List T) :
    insShift cur j data = Gen.insShift gtD cur j data := by
  induction j generalizing data with
  | zero => rfl
  | succ j ih => simp only [insShift, Gen.insShift, decide_eq_true_eq, ih]

theorem insSortAscDup_eq_gen (data : List T) (nr : Nat) :
    insSortAscDup data nr = Gen.insSortAscDup gtD data nr := by
  simp only [insSortAscDup, Gen.insSortAscDup, insShift_eq_gen]

theorem insFind_eq_gen (cur : T) (data : List T) (j : Nat) :
    insFind cur data j = Gen.insFind gtD cur data j := by
  induction j with
  | zero => rfl
  | succ j ih => simp only [insFind, Gen.insFind, decide_eq_true_eq, ih]

theorem insSortAscNoDup_eq_gen (data : List T) (nr : Nat) :
    insSortAscNoDup data nr = Gen.insSortAscNoDup gtD eqD data nr := by
  simp only [insSortAscNoDup, Gen.insSortAscNoDup, insFind_eq_gen, decide_eq_true_eq]

theorem siftHole_eq_gen (up fuel : Nat) (data : List T) (i : Nat) (hup : up < 2 ^ 30)
    (hi : i ≤ up) : siftHole up fuel data i = Gen.siftHole gtD up fuel data i := by
  induction fuel generalizing data i with
  | zero => rfl
  | succ f ih =>
    have h1 : 2 * i < 2 ^ 31 := by omega
    simp only [siftHole, Gen.siftHole, decide_eq_true_eq, if_pos h1]
    by_cases hc : 2 * i ≤ up
    · simp only [if_pos hc]
      apply ih
      split <;> omega
    · simp only [if_neg hc]

theorem siftUp_eq_gen (low fuel : Nat) (data : List T) (i : Nat) :
    siftUp low fuel data i = Gen.siftUp stopD low fuel data i := by
  induction fuel generalizing data i with
  | zero => rfl
  | succ f ih => simp only [siftUp, Gen.siftUp, decide_eq_true_eq, ih]

theorem heapAscSiftDown_eq_gen (low up : Nat) (data : List T) (hup : up < 2 ^ 30)
    (hlow : low ≤ up) :
    heapAscSiftDown low up data = Gen.heapAscSiftDown gtD stopD low up data := by
  simp only [heapAscSiftDown, Gen.heapAscSiftDown, siftHole_eq_gen up _ data low hup hlow,
    siftUp_eq_gen]

theorem heapBuild_eq_gen (nr j : Nat) (data : List T) (hnr : nr < 2 ^ 30) (hj : j ≤ nr) :
    heapBuild nr j data = Gen.heapBuild gtD stopD nr j data := by
  induction j generalizing data with
  | zero => rfl
  | succ j ih =>
    simp only [heapBuild, Gen.heapBuild, heapAscSiftDown_eq_gen (j + 1) nr data hnr hj]
    cases Gen.heapAscSiftDown gtD stopD (j + 1) nr data with
    | none => rfl
    | some d => exact ih d (by omega)

theorem heapExtract_eq_gen (j : Nat) (data : List T) (hj : j < 2 ^ 30) :
    heapExtract j data = Gen.heapExtract gtD stopD j data := by
  induction j generalizing data with
  | zero => rfl
  | succ j ih =>
    simp only [heapExtract, Gen.heapExtract]
    by_cases h2 : j + 1 ≥ 2
    · simp only [if_pos h2]
      rw [heapAscSiftDown_eq_gen 1 (j + 1 - 1) _ (by omega) (by omega)]
      cases Gen.heapAscSiftDown gtD stopD 1 (j + 1 - 1) (swap data (1 - 1) (j + 1 - 1)) with
      | none => rfl
      | some d => exact ih d (by omega)
    · simp only [if_neg h2]

theorem heapSortAsc_eq_gen (data : List T) (nr : Nat) (hnr : nr < 2 ^ 30) :
    heapSortAsc data nr = Gen.heapSortAsc gtD stopD data nr := by
  simp only [heapSortAsc, Gen.heapSortAsc, heapBuild_eq_gen nr (nr / 2) data hnr
    (Nat.div_le_self nr 2)]
  cases Gen.heapBuild gtD stopD nr (nr / 2) data with
  | none => rfl
  | some d => exact heapExtract_eq_gen nr d hnr

theorem mergeWhile_eq_gen (f1 f2 dst : Ptr) (na nb fuel : Nat) (m : Bufs T) (ia ib k : Nat) :
    mergeWhile f1 f2 dst na nb fuel m ia ib k =
      Gen.mergeWhile tlD f1 f2 dst na nb fuel m ia ib k := by
  induction fuel generalizing m ia ib k with
  | zero => rfl
  | succ f ih => simp only [mergeWhile, Gen.mergeWhile, decide_eq_true_eq, ih]

theorem mergePair_eq_gen (a b : Bool) (index : List Nat) (np i : Nat) (m : Bufs T)
    (last : Ptr) :
    mergePair a b index np i m last = Gen.mergePair tlD a b index np i m last := by
  simp only [mergePair, Gen.mergePair, mergeWhile_eq_gen]

theorem mergePass_eq_gen (a b : Bool) (index : List Nat) (np cnt i : Nat) (m : Bufs T)
    (last : Ptr) :
    mergePass a b index np cnt i m last = Gen.mergePass tlD a b index np cnt i m last := by
  induction cnt generalizing i m last with
  | zero => rfl
  | succ c ih => simp only [mergePass, Gen.mergePass, mergePair_eq_gen, ih]

theorem mergeLoop_eq_gen (nr fuel : Nat) (m : Bufs T) (a b : Bool) (index : List Nat)
    (np : Nat) (last : Ptr) :
    mergeLoop nr fuel m a b index np last = Gen.mergeLoop tlD nr fuel m a b index np last := by
  induction fuel generalizing m a b index np last with
  | zero => rfl
  | succ f ih => simp only [mergeLoop, Gen.mergeLoop, mergePass_eq_gen, ih]

theorem merge_eq_gen (data tmp : List T) (nr : Nat) (index : List Nat) (nparts : Nat) :
    merge data tmp nr index nparts = Gen.merge tlD data tmp nr index nparts := by
  simp only [merge, Gen.merge, mergeLoop_eq_gen]

end GenSort

namespace GenSortIndirect

variable {T : Type} [LinearOrder T] [Inhabited T]

open GenSort (rd Bufs Ptr)

theorem ind_insShift_eq_gen (data : List T) (cur : Nat) (j : Nat) (inx : List Nat) :
    insShift data cur j inx = Gen.insShift (isAscending data) cur j inx := by
  induction j generalizing inx with
  | zero => rfl
  | succ j ih => simp only [insShift, Gen.insShift, ih]

theorem ind_insSortAscDup_eq_gen (inx : List Nat) (data : List T) (nr : Nat) :
    insSortAscDup inx data nr = Gen.insSortAscDup (isAscending data) inx nr := by
  simp only [insSortAscDup, Gen.insSortAscDup, ind_insShift_eq_gen]

theorem ind_insFind_eq_gen (data : List T) (cur : Nat) (inx : List Nat) (j : Nat) :
    insFind data cur inx j = Gen.insFind (gtV data) cur inx j := by
  induction j with
  | zero => rfl
  | succ j ih => simp only [insFind, Gen.insFind, decide_eq_true_eq, ih]

theorem ind_insSortAscNoDup_eq_gen (inx : List Nat) (data : List T) (nr : Nat) :
    insSortAscNoDup inx data nr = Gen.insSortAscNoDup (gtV data) (eqV data) inx nr := by
  simp only [insSortAscNoDup, Gen.insSortAscNoDup, ind_insFind_eq_gen, decide_eq_true_eq]

theorem ind_siftHole_eq_gen (data : List T) (up fuel : Nat) (inx : List Nat) (i : Nat) :
    siftHole data up fuel inx i = Gen.siftHole (isAscending data) up fuel inx i := by
  induction fuel generalizing inx i with
  | zero => rfl
  | succ f ih => simp only [siftHole, Gen.siftHole, ih]

theorem ind_siftUp_eq_gen (data : List T) (low fuel : Nat) (inx : List Nat) (i : Nat) :
    siftUp data low fuel inx i = Gen.siftUp (stopI data) low fuel inx i := by
  induction fuel generalizing inx i with
  | zero => rfl
  | succ f ih => simp only [siftUp, Gen.siftUp, swapInx, ih]

theorem ind_heapAscSiftDown_eq_gen (data : List T) (low up : Nat) (inx : List Nat) :
    heapAscSiftDown inx low up data =
      Gen.heapAscSiftDown (isAscending data) (stopI data) low up inx := by
  simp only [heapAscSiftDown, Gen.heapAscSiftDown, ind_siftHole_eq_gen, ind_siftUp_eq_gen]
  cases Gen.siftHole (isAscending data) up (up + 1) inx low <;> rfl

theorem ind_heapBuild_eq_gen (data : List T) (nr j : Nat) (inx : List Nat) :
    heapBuild data nr j inx = Gen.heapBuild (isAscending data) (stopI data) nr j inx := by
  induction j generalizing inx with
  | zero => rfl
  | succ j ih =>
    simp only [heapBuild, Gen.heapBuild, ind_heapAscSiftDown_eq_gen, ih]
    cases Gen.heapAscSiftDown (isAscending data) (stopI data) (j + 1) nr inx <;> rfl

theorem ind_heapExtract_eq_gen (data : List T) (j : Nat) (inx : List Nat) :
    heapExtract data j inx = Gen.heapExtract (isAscending data) (stopI data) j inx := by
  induction j generalizing inx with
  | zero => rfl
  | succ j ih =>
    simp only [heapExtract, Gen.heapExtract, ind_heapAscSiftDown_eq_gen, swapInx, ih]
    split
    · cases Gen.heapAscSiftDown (isAscending data) (stopI data) 1 (j + 1 - 1)
        (GenSort.swap inx (1 - 1) (j + 1 - 1)) <;> rfl
    · rfl

theorem ind_heapSortAsc_eq_gen (inx : List Nat) (data : List T) (nr : Nat) :
    heapSortAsc inx data nr = Gen.heapSortAsc (isAscending data) (stopI data) inx nr := by
  simp only [heapSortAsc, Gen.heapSortAsc, ind_heapBuild_eq_gen, ind_heapExtract_eq_gen]
  cases Gen.heapBuild (isAscending data) (stopI data) nr (nr / 2) inx <;> rfl

theorem ind_mergeWhile_eq_gen (data : List T) (f1 f2 dst : Ptr) (na nb fuel : Nat) (m : Bufs Nat)
    (ia ib k : Nat) :
    mergeWhile data f1 f2 dst na nb fuel m ia ib k =
      Gen.mergeWhile (tlI data) f1 f2 dst na nb fuel m ia ib k := by
  induction fuel generalizing m ia ib k with
  | zero => rfl
  | succ f ih => simp only [mergeWhile, Gen.mergeWhile, decide_eq_true_eq, ih]

theorem ind_mergePair_eq_gen (data : List T) (a b : Bool) (index : List Nat) (np i : Nat)
    (m : Bufs Nat) (last : Ptr) :
    mergePair data a b index np i m last = Gen.mergePair (tlI data) a b index np i m last := by
  simp only [mergePair, Gen.mergePair, ind_mergeWhile_eq_gen]
  split
  · split <;> simp_all
  · rfl

theorem ind_mergePass_eq_gen (data : List T) (a b : Bool) (index : List Nat) (np cnt i : Nat)
    (m : Bufs Nat) (last : Ptr) :
    mergePass data a b index np cnt i m last =
      Gen.mergePass (tlI data) a b index np cnt i m last := by
  induction cnt generalizing i m last with
  | zero => rfl
  | succ c ih =>
    simp only [mergePass, Gen.mergePass, ind_mergePair_eq_gen, ih]
    cases Gen.mergePair (tlI data) a b index np i m last <;> rfl

theorem ind_mergeLoop_eq_gen (data : List T) (nr fuel : Nat) (m : Bufs Nat) (a b : Bool)
    (index : List Nat) (np : Nat) (last : Ptr) :
    mergeLoop data nr fuel m a b index np last =
      Gen.mergeLoop (tlI data) nr fuel m a b index np last := by
  induction fuel generalizing m a b index np last with
  | zero => rfl
  | succ f ih =>
    simp only [mergeLoop, Gen.mergeLoop, ind_mergePass_eq_gen, ih]
    split
    · cases Gen.mergePass (tlI data) a b index np ((np + 1) / 2) 0 m last <;> rfl
    · rfl

theorem ind_merge_eq_gen (data : List T) (inx tmp : List Nat) (nr : Nat) (index : List Nat)
    (nparts : Nat) :
    merge data inx tmp nr index nparts = Gen.merge (tlI data) inx tmp nr index nparts := by
  simp only [merge, Gen.merge, ind_mergeLoop_eq_gen]

end GenSortIndirect

/-! ## Loops as folds, and the two insertion sorts -/

namespace Gen

open GenSort (rd swap rd_set rd_set_self rd_set_ne)

theorem foldl_range'_inv {σ : Type} (f : σ → Nat → σ) (P : Nat → σ → Prop) (n : Nat) :
    ∀ (s : Nat) (init : σ), P s init →
      (∀ i x, s ≤ i → i < s + n → P i x → P (i + 1) (f x i)) →
      P (s + n) ((List.range' s n).foldl f init) := by
  induction n with
  | zero => intro s init h0 _; simpa using h0
  | succ n ih =>
    intro s init h0 hstep
    rw [List.range'_succ, List.foldl_cons]
    have h1 : P (s + 1) (f init s) := hstep s init (Nat.le_refl _) (by omega) h0
    have := ih (s + 1) (f init s) h1 (fun i x hi hlt hp => hstep i x (by omega) (by omega) hp)
    have e : s + 1 + n = s + (n + 1) := by omega
    rw [e] at this
    exact this

theorem foldl_range_inv {σ : Type} (f : σ → Nat → σ) (P : Nat → σ → Prop) (n : Nat)
    (init : σ) (h0 : P 0 init) (hstep : ∀ i x, i < n → P i x → P (i + 1) (f x i)) :
    P n ((List.range n).foldl f init) := by
  have := foldl_range'_inv f P n 0 init h0 (fun i x _ hlt hp => hstep i x (by omega) hp)
  rw [List.range_eq_range']
  simpa using this

variable {α : Type} [Inhabited α] {K : Type} [LinearOrder K]

omit [LinearOrder K] in
/-- Inserting `cur` at cell `j` of a prefix of `n` cells ordered by `R`, the cells from `j`
on moving one place up, leaves `n + 1` cells ordered by `R`. -/
theorem insert_ordered (R : K → K → Prop) (htr : ∀ a b c, R a b → R b c → R a c)
    (key : α → K) (d d2 : List α) (cur : α) (j n : Nat) (hjn : j ≤ n)
    (rlo : ∀ x, x < j → rd d2 x = rd d x) (rmid : rd d2 j = cur)
    (rhi : ∀ x, j < x → x ≤ n → rd d2 x = rd d (x - 1))
    (hs : ∀ p q, p < q → q < n → R (key (rd d p)) (key (rd d q)))
    (hlo : 0 < j → R (key (rd d (j - 1))) (key cur))
    (hhi : ∀ x, j ≤ x → x < n → R (key cur) (key (rd d x))) :
    ∀ p q, p < q → q < n + 1 → R (key (rd d2 p)) (key (rd d2 q)) := by
  intro p q hpq hq
  rcases Nat.lt_trichotomy q j with hqj | hqj | hqj
  · rw [rlo p (by omega), rlo q hqj]; exact hs p q hpq (by omega)
  · subst hqj
    rw [rlo p hpq, rmid]
    by_cases hpe : p = q - 1
    · subst hpe; exact hlo (by omega)
    · exact htr _ _ _ (hs p (q - 1) (by omega) (by omega)) (hlo (by omega))
  · rw [rhi q hqj (by omega)]
    rcases Nat.lt_trichotomy p j with hpj | hpj | hpj
    · rw [rlo p hpj]
      by_cases hqe : q - 1 = j
      · by_cases hpe : p = j - 1
        · subst hpe
          exact htr _ _ _ (hlo (by omega)) (hhi (q - 1) (by omega) (by omega))
        · exact hs p (q - 1) (by omega) (by omega)
      · exact hs p (q - 1) (by omega) (by omega)
    · subst hpj; rw [rmid]; exact hhi (q - 1) (by omega) (by omega)
    · rw [rhi p hpj (by omega)]; exact hs (p - 1) (q - 1) (by omega) (by omega)

theorem insShift_spec (gt : α → α → Bool) (cur : α) (j : Nat) :
    ∀ (d : List α), j < d.length →
      (insShift gt cur j d).2 ≤ j ∧
      (insShift gt cur j d).1.length = d.length ∧
      (∀ p, p < (insShift gt cur j d).2 → rd (insShift gt cur j d).1 p = rd d p) ∧
      (∀ p, (insShift gt cur j d).2 < p → p ≤ j →
        rd (insShift gt cur j d).1 p = rd d (p - 1)) ∧
      (∀ p, j < p → rd (insShift gt cur j d).1 p = rd d p) ∧
      (0 < (insShift gt cur j d).2 → gt (rd d ((insShift gt cur j d).2 - 1)) cur = false) ∧
      (∀ p, (insShift gt cur j d).2 ≤ p → p < j → gt (rd d p) cur = true) ∧
      ((insShift gt cur j d).1.set (insShift gt cur j d).2 cur).Perm (d.set j cur) := by
  induction j with
  | zero =>
    intro d _
    refine ⟨Nat.le_refl _, rfl, fun _ _ => rfl, ?_, fun _ _ => rfl, ?_, ?_, List.Perm.refl _⟩
    · intro p hp1 hp2; simp [insShift] at hp1 hp2; omega
    · intro h; simp [insShift] at h
    · intro p hp1 hp2; omega
  | succ j ih =>
    intro d hj
    by_cases hg : gt (rd d j) cur = true
    · have e : insShift gt cur (j + 1) d = insShift gt cur j (d.set (j + 1) (rd d j)) := by
        simp [insShift, hg]
      rw [e]
      have hlen : j < (d.set (j + 1) (rd d j)).length := by simp; omega
      obtain ⟨h1, h2, h3, h4, h5, h6, h7, h8⟩ := ih (d.set (j + 1) (rd d j)) hlen
      have hr : ∀ p, p ≤ j → rd (d.set (j + 1) (rd d j)) p = rd d p := by
        intro p hp; exact rd_set_ne _ _ (by omega)
      refine ⟨by omega, by simpa using h2, ?_, ?_, ?_, ?_, ?_, ?_⟩
      · intro p hp; rw [h3 p hp, hr p (by omega)]
      · intro p hp1 hp2
        by_cases hpj : p ≤ j
        · rw [h4 p hp1 hpj, hr _ (by omega)]
        · have hpe : p = j + 1 := by omega
          subst hpe
          rw [h5 _ (by omega), rd_set_self _ _ hj]; simp
      · intro p hp; rw [h5 p (by omega), rd_set_ne _ _ (by omega)]
      · intro hpos; rw [← hr _ (by omega)]; exact h6 hpos
      · intro p hp1 hp2
        by_cases hpj : p < j
        · rw [← hr p (by omega)]; exact h7 p hp1 hpj
        · have hpe : p = j := by omega
          subst hpe; exact hg
      · exact h8.trans (GenSort.hole_move_perm d cur hj (by omega) (by omega))
    · have e : insShift gt cur (j + 1) d = (d, j + 1) := by
        simp [insShift, hg]
      rw [e]
      refine ⟨Nat.le_refl _, rfl, fun _ _ => rfl, ?_, fun _ _ => rfl, ?_, ?_, List.Perm.refl _⟩
      · intro p hp1 hp2; simp at hp1; omega
      · intro _; simpa using hg
      · intro p hp1 hp2; simp at hp1; omega

theorem insSortAscDup_spec (key : α → K) (gt : α → α → Bool)
    (hgt : ∀ x y, gt x y = true ↔ key y < key x) (data : List α) (nr : Nat)
    (hnr : nr ≤ data.length) :
    (insSortAscDup gt data nr).1 = nr ∧
    (insSortAscDup gt data nr).2.length = data.length ∧
    (insSortAscDup gt data nr).2.Perm data ∧
    SortedUpTo key (insSortAscDup gt data nr).2 nr ∧
    (∀ p, nr ≤ p → rd (insSortAscDup gt data nr).2 p = rd data p) := by
  refine ⟨rfl, ?_⟩
  unfold insSortAscDup
  simp only
  by_cases h0 : nr = 0
  · subst h0
    simp [SortedUpTo]
  have key1 := foldl_range'_inv
    (fun d i => (insShift gt (rd d i) i d).1.set (insShift gt (rd d i) i d).2 (rd d i))
    (fun m d => d.length = data.length ∧ d.Perm data ∧ SortedUpTo key d m ∧
      ∀ p, m ≤ p → rd d p = rd data p)
    (nr - 1) 1 data
    ⟨rfl, List.Perm.refl _, fun i j hij hj => by omega, fun _ _ => rfl⟩
    (by
      intro i d hi1 hi2 ⟨hlen, hperm, hsort, hrest⟩
      beta_reduce
      have hilt : i < d.length := by omega
      obtain ⟨h1, h2, h3, h4, h5, h6, h7, h8⟩ := insShift_spec gt (rd d i) i d hilt
      generalize insShift gt (rd d i) i d = r at h1 h2 h3 h4 h5 h6 h7 h8 ⊢
      obtain ⟨d', j⟩ := r
      simp only at h1 h2 h3 h4 h5 h6 h7 h8 ⊢
      have hjlt : j < d'.length := by omega
      refine ⟨by simp [h2, hlen], ?_, ?_, ?_⟩
      · refine h8.trans ?_
        have : d.set i (rd d i) = d := by
          apply GenSort.ext_rd (by simp)
          intro p _
          rw [rd_set]; split
          · next h => rw [h.1]
          · rfl
        rw [this]; exact hperm
      · have hcur_lt : ∀ x, j ≤ x → x < i → key (rd d i) ≤ key (rd d x) := fun x hx1 hx2 =>
          le_of_lt ((hgt _ _).1 (h7 x hx1 hx2))
        have hle_cur : 0 < j → key (rd d (j - 1)) ≤ key (rd d i) := by
          intro hpos
          have := h6 hpos
          have hn : ¬ key (rd d i) < key (rd d (j - 1)) := by
            intro hc; rw [(hgt _ _).2 hc] at this; exact Bool.noConfusion this
          exact not_lt.1 hn
        exact insert_ordered (· ≤ ·) (fun _ _ _ => le_trans) key d _ (rd d i) j i h1
          (fun x hx => by rw [rd_set_ne _ _ (by omega), h3 x hx])
          (rd_set_self _ _ hjlt)
          (fun x hx1 hx2 => by rw [rd_set_ne _ _ (by omega), h4 x hx1 hx2])
          hsort hle_cur hcur_lt
      · intro p hp
        rw [rd_set_ne _ _ (by omega), h5 p (by omega)]
        exact hrest p (by omega))
  have e : 1 + (nr - 1) = nr := by omega
  rw [e] at key1
  exact key1

theorem shiftRight_spec (j cnt : Nat) :
    ∀ (d : List α), j + cnt < d.length →
      (GenSort.shiftRight j cnt d).length = d.length ∧
      (∀ p, p ≤ j → rd (GenSort.shiftRight j cnt d) p = rd d p) ∧
      (∀ p, j < p → p ≤ j + cnt → rd (GenSort.shiftRight j cnt d) p = rd d (p - 1)) ∧
      (∀ p, j + cnt < p → rd (GenSort.shiftRight j cnt d) p = rd d p) := by
  induction cnt with
  | zero =>
    intro d _
    refine ⟨rfl, fun _ _ => rfl, ?_, fun _ _ => rfl⟩
    intro p h1 h2; omega
  | succ cnt ih =>
    intro d hlen
    have hl : j + cnt < (d.set (j + cnt + 1) (rd d (j + cnt))).length := by simp; omega
    obtain ⟨h1, h2, h3, h4⟩ := ih (d.set (j + cnt + 1) (rd d (j + cnt))) hl
    simp only [GenSort.shiftRight]
    refine ⟨by simpa using h1, ?_, ?_, ?_⟩
    · intro p hp; rw [h2 p hp, rd_set_ne _ _ (by omega)]
    · intro p hp1 hp2
      by_cases hpc : p ≤ j + cnt
      · rw [h3 p hp1 hpc, rd_set_ne _ _ (by omega)]
      · have hpe : p = j + cnt + 1 := by omega
        subst hpe
        rw [h4 _ (by omega), rd_set_self _ _ (by omega)]; simp
    · intro p hp; rw [h4 p (by omega), rd_set_ne _ _ (by omega)]

theorem insFind_spec (gt : α → α → Bool) (cur : α) (d : List α) (n : Nat) :
    insFind gt cur d n ≤ n ∧
    (0 < insFind gt cur d n → gt (rd d (insFind gt cur d n - 1)) cur = false) ∧
    (∀ p, insFind gt cur d n ≤ p → p < n → gt (rd d p) cur = true) := by
  induction n with
  | zero => simp [insFind]
  | succ n ih =>
    by_cases hg : gt (rd d n) cur = true
    · have e : insFind gt cur d (n + 1) = insFind gt cur d n := by simp [insFind, hg]
      rw [e]
      obtain ⟨h1, h2, h3⟩ := ih
      refine ⟨by omega, h2, ?_⟩
      intro p hp1 hp2
      by_cases hpn : p < n
      · exact h3 p hp1 hpn
      · have : p = n := by omega
        subst this; exact hg
    · have e : insFind gt cur d (n + 1) = n + 1 := by simp [insFind, hg]
      rw [e]
      refine ⟨Nat.le_refl _, ?_, ?_⟩
      · intro _; simpa using hg
      · intro p hp1 hp2; omega

theorem insSortAscNoDup_spec (key : α → K) (gt eq : α → α → Bool)
    (hgt : ∀ x y, gt x y = true ↔ key y < key x)
    (heq : ∀ x y, eq x y = true ↔ key x = key y) (data : List α) (nr : Nat)
    (hnr : nr ≤ data.length) :
    NoDupResult key data nr (insSortAscNoDup gt eq data nr) := by
  unfold insSortAscNoDup
  by_cases h2 : nr < 2
  · simp only [h2, if_true]
    refine ⟨Nat.le_refl _, fun h => h, rfl, ?_, fun p hp => ⟨p, hp, rfl⟩,
      fun q hq => ⟨q, hq, rfl⟩, fun _ _ => rfl⟩
    intro i j hij hj; simp only at hj; omega
  simp only [h2, if_false]
  have key1 := foldl_range'_inv
    (fun (s : Nat × List α) i =>
      if insFind gt (rd s.2 i) s.2 s.1 ≤ 0 ∨
          ¬ (eq (rd s.2 (insFind gt (rd s.2 i) s.2 s.1 - 1)) (rd s.2 i) = true) then
        (s.1 + 1, (GenSort.shiftRight (insFind gt (rd s.2 i) s.2 s.1)
          (s.1 - insFind gt (rd s.2 i) s.2 s.1) s.2).set (insFind gt (rd s.2 i) s.2 s.1)
            (rd s.2 i))
      else (s.1, s.2))
    (fun m s => 1 ≤ s.1 ∧ s.1 ≤ m ∧ s.2.length = data.length ∧ StrictUpTo key s.2 s.1 ∧
      (∀ p, p < s.1 → ∃ q, q < m ∧ rd s.2 p = rd data q) ∧
      (∀ q, q < m → ∃ p, p < s.1 ∧ key (rd s.2 p) = key (rd data q)) ∧
      ∀ p, m ≤ p → rd s.2 p = rd data p)
    (nr - 1) 1 (1, data)
    ⟨Nat.le_refl _, Nat.le_refl _, rfl, fun i j hij hj => by simp only at hj; omega,
      fun p hp => ⟨p, hp, rfl⟩, fun q hq => ⟨q, hq, rfl⟩, fun _ _ => rfl⟩
    (by
      rintro i ⟨n, d⟩ hi1 hi2 ⟨hn1, hn2, hlen, hstrict, hsub, hsup, hrest⟩
      beta_reduce
      simp only at hn1 hn2 hlen hstrict hsub hsup hrest ⊢
      obtain ⟨f1, f2, f3⟩ := insFind_spec gt (rd d i) d n
      generalize insFind gt (rd d i) d n = j at f1 f2 f3 ⊢
      have hcur : rd d i = rd data i := hrest i (Nat.le_refl _)
      by_cases hins : j ≤ 0 ∨ ¬ (eq (rd d (j - 1)) (rd d i) = true)
      · simp only [hins, if_true]
        have hsl : j + (n - j) < d.length := by omega
        obtain ⟨s1, s2, s3, s4⟩ := shiftRight_spec j (n - j) d hsl
        generalize GenSort.shiftRight j (n - j) d = d' at s1 s2 s3 s4 ⊢
        have hjlt : j < d'.length := by omega
        have rlo : ∀ x, x < j → rd (d'.set j (rd d i)) x = rd d x := fun x hx => by
          rw [rd_set_ne _ _ (by omega), s2 x (by omega)]
        have rmid : rd (d'.set j (rd d i)) j = rd d i := rd_set_self _ _ hjlt
        have rhi : ∀ x, j < x → x ≤ n → rd (d'.set j (rd d i)) x = rd d (x - 1) :=
          fun x hx1 hx2 => by rw [rd_set_ne _ _ (by omega), s3 x hx1 (by omega)]
        have hcur_lt : ∀ x, j ≤ x → x < n → key (rd d i) < key (rd d x) := fun x hx1 hx2 =>
          (hgt _ _).1 (f3 x hx1 hx2)
        have hlt_cur : 0 < j → key (rd d (j - 1)) < key (rd d i) := by
          intro hpos
          have h6 := f2 hpos
          have hn : ¬ key (rd d i) < key (rd d (j - 1)) := by
            intro hc; rw [(hgt _ _).2 hc] at h6; exact Bool.noConfusion h6
          have hne : key (rd d (j - 1)) ≠ key (rd d i) := by
            intro hc
            rcases hins with h | h
            · omega
            · exact h ((heq _ _).2 hc)
          exact lt_of_le_of_ne (not_lt.1 hn) hne
        refine ⟨by omega, by omega, by simp [s1, hlen], ?_, ?_, ?_, ?_⟩
        · exact insert_ordered (· < ·) (fun _ _ _ => lt_trans) key d _ (rd d i) j n f1
            rlo rmid rhi hstrict hlt_cur hcur_lt
        · intro p hp
          rcases Nat.lt_trichotomy p j with hpj | hpj | hpj
          · rw [rlo p hpj]
            obtain ⟨q, hq, e⟩ := hsub p (by omega)
            exact ⟨q, by omega, e⟩
          · subst hpj; rw [rmid]
            exact ⟨i, by omega, hcur⟩
          · rw [rhi p hpj (by omega)]
            obtain ⟨q, hq, e⟩ := hsub (p - 1) (by omega)
            exact ⟨q, by omega, e⟩
        · intro q hq
          by_cases hqi : q = i
          · subst hqi
            refine ⟨j, by omega, ?_⟩
            rw [rmid, hcur]
          · obtain ⟨p, hp, e⟩ := hsup q (by omega)
            by_cases hpj : p < j
            · refine ⟨p, by omega, ?_⟩
              rw [rlo p hpj, e]
            · refine ⟨p + 1, by omega, ?_⟩
              rw [rhi (p + 1) (by omega) (by omega)]
              simpa using e
        · intro p hp
          rw [rd_set_ne _ _ (by omega), s4 p (by omega)]
          exact hrest p (by omega)
      · simp only [hins, if_false]
        have hj0 : 0 < j := by
          by_contra hc; exact hins (Or.inl (by omega))
        have hee : key (rd d (j - 1)) = key (rd d i) := by
          by_contra hc; exact hins (Or.inr (fun h => hc ((heq _ _).1 h)))
        refine ⟨hn1, by omega, hlen, hstrict, ?_, ?_, ?_⟩
        · intro p hp
          obtain ⟨q, hq, e⟩ := hsub p hp
          exact ⟨q, by omega, e⟩
        · intro q hq
          by_cases hqi : q = i
          · subst hqi
            exact ⟨j - 1, by omega, by rw [hee, hcur]⟩
          · exact hsup q (by omega)
        · intro p hp; exact hrest p (by omega))
  have e : 1 + (nr - 1) = nr := by omega
  rw [e] at key1
  obtain ⟨k1, k2, k3, k4, k5, k6, k7⟩ := key1
  exact ⟨k2, fun _ => k1, k3, k4, k5, k6, k7⟩

end Gen

/-! ## Heapsort -/

namespace Gen

open GenSort (rd swap rd_set rd_set_self rd_set_ne rd_swap)

variable {α : Type} [Inhabited α] {K : Type} [LinearOrder K]

theorem Desc.self (low : Nat) : Desc low low := ⟨0, by simp⟩

theorem Desc.le {low i : Nat} (h : Desc low i) : low ≤ i := by
  obtain ⟨k, hk⟩ := h
  rw [← hk]; exact Nat.div_le_self _ _

theorem Desc.child {low i c : Nat} (h : Desc low i) (hc : c / 2 = i) : Desc low c := by
  obtain ⟨k, hk⟩ := h
  refine ⟨k + 1, ?_⟩
  rw [pow_succ, Nat.mul_comm, ← Nat.div_div_eq_div_mul, hc, hk]

theorem Desc.parent {low i : Nat} (h : Desc low i) (hne : i ≠ low) : Desc low (i / 2) := by
  obtain ⟨k, hk⟩ := h
  cases k with
  | zero => simp at hk; exact absurd hk hne
  | succ k =>
    refine ⟨k, ?_⟩
    rw [pow_succ, Nat.mul_comm, ← Nat.div_div_eq_div_mul] at hk
    exact hk

theorem siftHole_spec (key : α → K) (gt : α → α → Bool)
    (hgt : ∀ x y, gt x y = true ↔ key y < key x) (low up : Nat) (hlow : 1 ≤ low) (fuel : Nat) :
    ∀ (d : List α) (i : Nat), up ≤ d.length → i ≤ up → Desc low i → up < fuel + i →
      HoleInv key d low up i →
      ∃ d' i', siftHole gt up fuel d i = some (d', i') ∧ HoleInv key d' low up i' ∧
        up < 2 * i' ∧ i' ≤ up ∧ Desc low i' ∧ d'.length = d.length ∧
        (∀ sav, (d'.set (i' - 1) sav).Perm (d.set (i - 1) sav)) ∧
        (∀ p, (p + 1 < i ∨ up ≤ p) → rd d' p = rd d p) := by
  induction fuel with
  | zero =>
    intro d i _ hi _ hf _
    omega
  | succ fuel ih =>
    intro d i hlen hi hdesc hf hinv
    have hil : low ≤ i := hdesc.le
    by_cases hc : 2 * i ≤ up
    · -- one step of the loop
      have hstep : ∀ c1, siftHole gt up (fuel + 1) d i =
          (if 2 * i < up ∧ gt (rd d (2 * i + 1 - 1)) (rd d (2 * i - 1)) = true then
            siftHole gt up fuel (d.set (i - 1) (rd d (2 * i + 1 - 1))) (2 * i + 1)
           else siftHole gt up fuel (d.set (i - 1) (rd d (2 * i - 1))) (2 * i)) ∨ c1 = 0 := by
        intro c1; left
        simp only [siftHole, hc, if_true]
        split <;> rfl
      have hstep := (hstep 1).resolve_right (by omega)
      -- the chosen child
      obtain ⟨c1, hc1, hc1up, hbig, hrun⟩ : ∃ c1, (c1 = 2 * i ∨ c1 = 2 * i + 1) ∧ c1 ≤ up ∧
          (∀ c, c ≤ up → (c = 2 * i ∨ c = 2 * i + 1) →
            key (rd d (c - 1)) ≤ key (rd d (c1 - 1))) ∧
          siftHole gt up (fuel + 1) d i =
            siftHole gt up fuel (d.set (i - 1) (rd d (c1 - 1))) c1 := by
        by_cases hsel : 2 * i < up ∧ gt (rd d (2 * i + 1 - 1)) (rd d (2 * i - 1)) = true
        · refine ⟨2 * i + 1, Or.inr rfl, by omega, ?_, ?_⟩
          · intro c hcu hcc
            rcases hcc with h | h
            · subst h; exact le_of_lt ((hgt _ _).1 hsel.2)
            · subst h; exact le_refl _
          · rw [hstep, if_pos hsel]
        · refine ⟨2 * i, Or.inl rfl, hc, ?_, ?_⟩
          · intro c hcu hcc
            rcases hcc with h | h
            · subst h; exact le_refl _
            · subst h
              have hlt : 2 * i < up := by omega
              have hng : ¬ gt (rd d (2 * i + 1 - 1)) (rd d (2 * i - 1)) = true :=
                fun hg => hsel ⟨hlt, hg⟩
              rw [hgt] at hng
              exact not_lt.1 hng
          · rw [hstep, if_neg hsel]
      have hc1i : c1 / 2 = i := by omega
      have hi1 : i - 1 < d.length := by omega
      have hlen1 : up ≤ (d.set (i - 1) (rd d (c1 - 1))).length := by simpa using hlen
      -- reading the new buffer
      have hrd : ∀ x, 1 ≤ x → rd (d.set (i - 1) (rd d (c1 - 1))) (x - 1) =
          if x = i then rd d (c1 - 1) else rd d (x - 1) := by
        intro x hx
        rw [rd_set]
        by_cases hxi : x = i
        · subst hxi; simp [hi1]
        · have : ¬ (i - 1 = x - 1) := by omega
          simp [this, hxi]
      have hinv1 : HoleInv key (d.set (i - 1) (rd d (c1 - 1))) low up c1 := by
        constructor
        · intro x c hx hcu hcc hxc hcc1
          rw [hrd c (by omega), hrd x (by omega)]
          by_cases hxi : x = i
          · subst hxi
            have hci : c ≠ x := by omega
            simp only [hci, if_false, if_true]
            exact hbig c hcu hcc
          · simp only [hxi, if_false]
            by_cases hci : c = i
            · subst hci
              simp only [if_true]
              have hne : c ≠ low := by omega
              have hx2 : c / 2 = x := by omega
              have := hinv.2 hne c1 hc1up hc1
              rwa [hx2] at this
            · simp only [hci, if_false]
              exact hinv.1 x c hx hcu hcc hxi hci
        · intro _ c hcu hcc
          rw [hrd c (by omega), hc1i, hrd i (by omega)]
          have hci : c ≠ i := by omega
          simp only [hci, if_false, if_true]
          exact hinv.1 c1 c (by omega) hcu hcc (by omega) hci
      obtain ⟨d', i', h1, h2, h3, h4, h5, h6, h7, h8⟩ :=
        ih (d.set (i - 1) (rd d (c1 - 1))) c1 hlen1 hc1up (hdesc.child hc1i) (by omega) hinv1
      refine ⟨d', i', by rw [hrun, h1], h2, h3, h4, h5, by simpa using h6, ?_, ?_⟩
      · intro sav
        exact (h7 sav).trans (GenSort.hole_move_perm d sav hi1 (by omega) (by omega))
      · intro p hp
        rw [h8 p (by omega), rd_set_ne _ _ (by omega)]
    · refine ⟨d, i, ?_, hinv, by omega, hi, hdesc, rfl, fun _ => List.Perm.refl _,
        fun _ _ => rfl⟩
      simp only [siftHole, hc, if_false]

theorem siftUp_spec (key : α → K) (stop : α → α → Bool)
    (hs1 : ∀ x y, stop x y = true → key x ≤ key y)
    (hs2 : ∀ x y, stop x y = false → key y ≤ key x) (low up : Nat) (hlow : 1 ≤ low)
    (fuel : Nat) :
    ∀ (d : List α) (i : Nat), up ≤ d.length → i ≤ up → Desc low i → i < fuel →
      UpInv key d low up i →
      ∃ d', siftUp stop low fuel d i = some d' ∧ HeapOn key d' low up ∧
        d'.length = d.length ∧ d'.Perm d ∧
        (∀ p, (p + 1 < low ∨ up ≤ p) → rd d' p = rd d p) := by
  induction fuel with
  | zero => intro d i _ _ _ hf _; omega
  | succ fuel ih =>
    intro d i hlen hi hdesc hf hinv
    have hil : low ≤ i := hdesc.le
    by_cases hc : i / 2 ≥ low
    · have hne : i ≠ low := by omega
      by_cases hst : stop (rd d (i - 1)) (rd d (i / 2 - 1)) = true
      · refine ⟨d, by simp [siftUp, hc, hst], ?_, rfl, List.Perm.refl _, fun _ _ => rfl⟩
        intro x c hx hcu hcc
        by_cases hci : c = i
        · subst hci
          have : c / 2 = x := by omega
          rw [← this]; exact hs1 _ _ hst
        · exact hinv.1 x c hx hcu hcc hci
      · have hst' : stop (rd d (i - 1)) (rd d (i / 2 - 1)) = false := by
          simpa using hst
        have hpc : key (rd d (i / 2 - 1)) ≤ key (rd d (i - 1)) := hs2 _ _ hst'
        have hrun : siftUp stop low (fuel + 1) d i =
            siftUp stop low fuel (swap d (i / 2 - 1) (i - 1)) (i / 2) := by
          simp [siftUp, hc, hst]
        have hci1 : i / 2 - 1 < d.length := by omega
        have hi1 : i - 1 < d.length := by omega
        have hrd : ∀ x, 1 ≤ x → rd (swap d (i / 2 - 1) (i - 1)) (x - 1) =
            if x = i then rd d (i / 2 - 1) else if x = i / 2 then rd d (i - 1)
            else rd d (x - 1) := by
          intro x hx
          rw [rd_swap _ _ hci1 hi1]
          by_cases hxi : x = i
          · subst hxi; simp
          · have h1 : ¬ (x - 1 = i - 1) := by omega
            by_cases hxc : x = i / 2
            · subst hxc; simp [h1, hxi]
            · have h2 : ¬ (x - 1 = i / 2 - 1) := by omega
              simp [h1, h2, hxi, hxc]
        have hdp : Desc low (i / 2) := hdesc.parent hne
        have hinv1 : UpInv key (swap d (i / 2 - 1) (i - 1)) low up (i / 2) := by
          constructor
          · intro x c hx hcu hcc hcne
            rw [hrd c (by omega), hrd x (by omega)]
            by_cases hxc : x = i / 2
            · subst hxc
              have hxi : i / 2 ≠ i := by omega
              simp only [hxi, if_false, if_true]
              by_cases hci : c = i
              · simp only [hci, if_true]; exact hpc
              · have hcc2 : ¬ c = i / 2 := by omega
                simp only [hci, hcc2, if_false]
                exact le_trans (hinv.1 (i / 2) c hx hcu hcc hci) hpc
            · by_cases hxi : x = i
              · have hci : c ≠ i := by omega
                have hcc2 : ¬ c = i / 2 := by omega
                simp only [hxi, hci, hcc2, if_false, if_true]
                have := hinv.2 hne c hcu (by omega)
                exact this
              · have hci : c ≠ i := by omega
                simp only [hxi, hxc, hci, hcne, if_false]
                exact hinv.1 x c hx hcu hcc hci
          · intro hne2 c hcu hcc
            have hdpp : Desc low (i / 2 / 2) := hdp.parent hne2
            have hpl : low ≤ i / 2 / 2 := hdpp.le
            rw [hrd c (by omega), hrd (i / 2 / 2) (by omega)]
            have h1 : ¬ (i / 2 / 2 = i) := by omega
            have h2 : ¬ (i / 2 / 2 = i / 2) := by omega
            have hcc2 : ¬ c = i / 2 := by omega
            simp only [h1, h2, hcc2, if_false]
            have hgp : key (rd d (i / 2 - 1)) ≤ key (rd d (i / 2 / 2 - 1)) :=
              hinv.1 (i / 2 / 2) (i / 2) hpl (by omega) (by omega) (by omega)
            by_cases hci : c = i
            · simp only [hci, if_true]; exact hgp
            · simp only [hci, if_false]
              exact le_trans (hinv.1 (i / 2) c hc hcu hcc hci) hgp
        obtain ⟨d', h1, h2, h3, h4, h5⟩ :=
          ih (swap d (i / 2 - 1) (i - 1)) (i / 2) (by simpa using hlen) (by omega) hdp
            (by omega) hinv1
        refine ⟨d', by rw [hrun, h1], h2, by simpa using h3,
          h4.trans (GenSort.swap_perm d hci1 hi1), ?_⟩
        intro p hp
        rw [h5 p hp, rd_swap _ _ hci1 hi1]
        have h1 : ¬ (p = i - 1) := by omega
        have h2 : ¬ (p = i / 2 - 1) := by omega
        simp [h1, h2]
    · have hie : i = low := by
        by_contra hne
        exact hc (hdesc.parent hne).le
      refine ⟨d, by simp [siftUp, hc], ?_, rfl, List.Perm.refl _, fun _ _ => rfl⟩
      intro x c hx hcu hcc
      exact hinv.1 x c hx hcu hcc (by omega)

theorem heapAscSiftDown_spec (key : α → K) (gt stop : α → α → Bool)
    (hgt : ∀ x y, gt x y = true ↔ key y < key x)
    (hs1 : ∀ x y, stop x y = true → key x ≤ key y)
    (hs2 : ∀ x y, stop x y = false → key y ≤ key x) (low up : Nat) (hlow : 1 ≤ low)
    (d : List α) (hlu : low ≤ up) (hlen : up ≤ d.length) (hheap : HeapOn key d (low + 1) up) :
    ∃ d', heapAscSiftDown gt stop low up d = some d' ∧ HeapOn key d' low up ∧
      d'.length = d.length ∧ d'.Perm d ∧
      (∀ p, (p + 1 < low ∨ up ≤ p) → rd d' p = rd d p) := by
  have hinv0 : HoleInv key d low up low := by
    constructor
    · intro x c hx hcu hcc hxl _
      exact hheap x c (by omega) hcu hcc
    · intro h; exact absurd rfl h
  obtain ⟨d1, i1, h1, h2, h3, h4, h5, h6, h7, h8⟩ :=
    siftHole_spec key gt hgt low up hlow (up + 1) d low hlen hlu (Desc.self low) (by omega)
      hinv0
  have hil : low ≤ i1 := h5.le
  have hi1 : i1 - 1 < d1.length := by omega
  have hinv1 : UpInv key (d1.set (i1 - 1) (rd d (low - 1))) low up i1 := by
    have hrd : ∀ x, 1 ≤ x → x ≠ i1 →
        rd (d1.set (i1 - 1) (rd d (low - 1))) (x - 1) = rd d1 (x - 1) := by
      intro x hx hxi
      exact rd_set_ne _ _ (by omega)
    constructor
    · intro x c hx hcu hcc hci
      by_cases hxi : x = i1
      · omega
      · rw [hrd c (by omega) hci, hrd x (by omega) hxi]
        exact h2.1 x c hx hcu hcc hxi hci
    · intro _ c hcu hcc
      omega
  obtain ⟨d2, g1, g2, g3, g4, g5⟩ :=
    siftUp_spec key stop hs1 hs2 low up hlow (i1 + 1) (d1.set (i1 - 1) (rd d (low - 1))) i1
      (by simpa [h6] using hlen) h4 h5 (by omega) hinv1
  refine ⟨d2, ?_, g2, by simpa [h6] using g3, ?_, ?_⟩
  · simp only [heapAscSiftDown, h1, g1]
  · refine g4.trans ((h7 _).trans ?_)
    have : d.set (low - 1) (rd d (low - 1)) = d := by
      apply GenSort.ext_rd (by simp)
      intro p _
      rw [rd_set]; split
      · next h => rw [h.1]
      · rfl
    rw [this]
  · intro p hp
    rw [g5 p hp, rd_set_ne _ _ (by omega), h8 p (by omega)]

theorem heapBuild_spec (key : α → K) (gt stop : α → α → Bool)
    (hgt : ∀ x y, gt x y = true ↔ key y < key x)
    (hs1 : ∀ x y, stop x y = true → key x ≤ key y)
    (hs2 : ∀ x y, stop x y = false → key y ≤ key x) (nr : Nat) (j : Nat) :
    ∀ (d : List α), j ≤ nr → nr ≤ d.length → HeapOn key d (j + 1) nr →
      ∃ d', heapBuild gt stop nr j d = some d' ∧ HeapOn key d' 1 nr ∧
        d'.length = d.length ∧ d'.Perm d ∧ (∀ p, nr ≤ p → rd d' p = rd d p) := by
  induction j with
  | zero =>
    intro d _ _ hh
    exact ⟨d, rfl, hh, rfl, List.Perm.refl _, fun _ _ => rfl⟩
  | succ j ih =>
    intro d hj hlen hh
    obtain ⟨d1, h1, h2, h3, h4, h5⟩ :=
      heapAscSiftDown_spec key gt stop hgt hs1 hs2 (j + 1) nr (by omega) d hj hlen hh
    obtain ⟨d2, g1, g2, g3, g4, g5⟩ := ih d1 (by omega) (by omega) h2
    refine ⟨d2, by simp only [heapBuild, h1, g1], g2, by omega, g4.trans h4, ?_⟩
    intro p hp
    rw [g5 p hp, h5 p (Or.inr hp)]

theorem heap_root_max (key : α → K) (d : List α) (up : Nat) (hh : HeapOn key d 1 up) :
    ∀ x, 1 ≤ x → x ≤ up → key (rd d (x - 1)) ≤ key (rd d (1 - 1)) := by
  intro x
  induction x using Nat.strong_induction_on with
  | _ x ih =>
    intro hx hxu
    by_cases h1 : x = 1
    · subst h1; exact le_refl _
    · have hp := ih (x / 2) (by omega) (by omega) (by omega)
      exact le_trans (hh (x / 2) x (by omega) hxu (by omega)) hp

theorem heapExtract_spec (key : α → K) (gt stop : α → α → Bool)
    (hgt : ∀ x y, gt x y = true ↔ key y < key x)
    (hs1 : ∀ x y, stop x y = true → key x ≤ key y)
    (hs2 : ∀ x y, stop x y = false → key y ≤ key x) (nr : Nat) (j : Nat) :
    ∀ (d : List α), j ≤ nr → nr ≤ d.length → HeapOn key d 1 j →
      (∀ p q, j ≤ p → p < q → q < nr → key (rd d p) ≤ key (rd d q)) →
      (∀ p q, p < j → j ≤ q → q < nr → key (rd d p) ≤ key (rd d q)) →
      ∃ d', heapExtract gt stop j d = some d' ∧ SortedUpTo key d' nr ∧
        d'.length = d.length ∧ d'.Perm d ∧ (∀ p, nr ≤ p → rd d' p = rd d p) := by
  induction j with
  | zero =>
    intro d _ _ _ hs _
    exact ⟨d, rfl, fun p q hpq hq => hs p q (Nat.zero_le _) hpq hq, rfl, List.Perm.refl _,
      fun _ _ => rfl⟩
  | succ j ih =>
    intro d hj hlen hh hs hcross
    by_cases hj2 : j + 1 ≥ 2
    · have h0 : 0 < d.length := by omega
      have hjl : j < d.length := by omega
      have hrd1 : ∀ p, rd (swap d (1 - 1) (j + 1 - 1)) p =
          if p = j then rd d 0 else if p = 0 then rd d j else rd d p := by
        intro p
        have := rd_swap d p h0 hjl
        simpa using this
      have hheap1 : HeapOn key (swap d (1 - 1) (j + 1 - 1)) (1 + 1) (j + 1 - 1) := by
        intro x c hx hcu hcc
        rw [hrd1, hrd1]
        have e1 : ¬ (c - 1 = j) := by omega
        have e2 : ¬ (c - 1 = 0) := by omega
        have e3 : ¬ (x - 1 = j) := by omega
        have e4 : ¬ (x - 1 = 0) := by omega
        simp only [e1, e2, e3, e4, if_false]
        exact hh x c (by omega) (by omega) hcc
      obtain ⟨d1, h1, h2, h3, h4, h5⟩ :=
        heapAscSiftDown_spec key gt stop hgt hs1 hs2 1 (j + 1 - 1) (Nat.le_refl _)
          (swap d (1 - 1) (j + 1 - 1)) (by omega) (by simp; omega) hheap1
      have hlen1 : d1.length = d.length := by simpa using h3
      -- the cells from `j` on
      have hhi : ∀ p, j ≤ p → rd d1 p = if p = j then rd d 0 else rd d p := by
        intro p hp
        rw [h5 p (Or.inr (by omega)), hrd1]
        by_cases hpj : p = j
        · simp [hpj]
        · have : ¬ p = 0 := by omega
          simp [hpj, this]
      -- the cells below `j` come from the cells `0 .. j` of `d`
      have hlo : ∀ p, p < j → ∃ p', p' ≤ j ∧ rd d1 p = rd d p' := by
        intro p hp
        have hdrop : d1.drop j = (swap d (1 - 1) (j + 1 - 1)).drop j := by
          apply GenSort.drop_eq_of_rd j h3
          intro q hq _
          exact h5 q (Or.inr (by omega))
        have hperm := GenSort.take_perm_of_drop_eq j h4 hdrop
        have hmem : rd d1 p ∈ d1.take j := by
          rw [← GenSort.rd_take d1 hp]
          exact GenSort.rd_mem _ (by simp; omega)
        have hmem2 := hperm.mem_iff.1 hmem
        obtain ⟨q, hq, e⟩ := List.mem_iff_getElem.1 hmem2
        have hqj : q < j := by simp at hq; omega
        have e2 : rd (swap d (1 - 1) (j + 1 - 1)) q = rd d1 p := by
          rw [← GenSort.rd_take _ hqj, GenSort.rd_of_lt _ hq]; exact e
        rw [hrd1] at e2
        have hqne : ¬ q = j := by omega
        by_cases hq0 : q = 0
        · subst hq0
          have hj0 : ¬ (0 = j) := by omega
          simp only [hj0, if_false, if_true] at e2
          exact ⟨j, Nat.le_refl _, e2.symm⟩
        · exact ⟨q, by omega, by simp only [hqne, hq0, if_false] at e2; exact e2.symm⟩
      have hroot : ∀ p', p' ≤ j → key (rd d p') ≤ key (rd d 0) := by
        intro p' hp'
        have := heap_root_max key d (j + 1) hh (p' + 1) (by omega) (by omega)
        simpa using this
      obtain ⟨d2, g1, g2, g3, g4, g5⟩ := ih d1 (by omega) (by omega)
        (by simpa using h2)
        (by
          intro p q hp hpq hq
          rw [hhi p hp, hhi q (by omega)]
          have hqj : ¬ q = j := by omega
          simp only [hqj, if_false]
          by_cases hpj : p = j
          · simp only [hpj, if_true]
            exact hcross 0 q (by omega) (by omega) hq
          · simp only [hpj, if_false]
            exact hs p q (by omega) hpq hq)
        (by
          intro p q hp hq hqn
          obtain ⟨p', hp', e⟩ := hlo p hp
          rw [e, hhi q hq]
          by_cases hqj : q = j
          · simp only [hqj, if_true]; exact hroot p' hp'
          · simp only [hqj, if_false]
            exact hcross p' q (by omega) (by omega) hqn)
      refine ⟨d2, ?_, g2, by omega, g4.trans (h4.trans (GenSort.swap_perm d h0 hjl)), ?_⟩
      · simp only [heapExtract, hj2, if_true, h1, g1]
      · intro p hp
        rw [g5 p hp, hhi p (by omega)]
        have : ¬ p = j := by omega
        simp [this]
    · have hj0 : j = 0 := by omega
      subst hj0
      refine ⟨d, by simp [heapExtract], ?_, rfl, List.Perm.refl _, fun _ _ => rfl⟩
      intro p q hpq hq
      by_cases hp0 : p = 0
      · subst hp0; exact hcross 0 q (by omega) (by omega) hq
      · exact hs p q (by omega) hpq hq

theorem heapSortAsc_gen_spec (key : α → K) (gt stop : α → α → Bool)
    (hgt : ∀ x y, gt x y = true ↔ key y < key x)
    (hs1 : ∀ x y, stop x y = true → key x ≤ key y)
    (hs2 : ∀ x y, stop x y = false → key y ≤ key x) (data : List α) (nr : Nat)
    (hnr : nr ≤ data.length) :
    ∃ d', heapSortAsc gt stop data nr = some d' ∧ SortedUpTo key d' nr ∧
      d'.length = data.length ∧ d'.Perm data ∧ (∀ p, nr ≤ p → rd d' p = rd data p) := by
  have hh0 : HeapOn key data (nr / 2 + 1) nr := by
    intro x c hx hcu hcc; omega
  obtain ⟨d1, h1, h2, h3, h4, h5⟩ :=
    heapBuild_spec key gt stop hgt hs1 hs2 nr (nr / 2) data (by omega) hnr hh0
  obtain ⟨d2, g1, g2, g3, g4, g5⟩ :=
    heapExtract_spec key gt stop hgt hs1 hs2 nr nr d1 (Nat.le_refl _) (by omega) h2
      (fun p q hp hpq hq => by omega) (fun p q hp hq hqn => by omega)
  refine ⟨d2, by simp only [heapSortAsc, h1, g1], g2, by omega, g4.trans h4, ?_⟩
  intro p hp
  rw [g5 p hp, h5 p hp]

end Gen

/-! ## Median of three and the partition loop of the direct engine -/

namespace GenSort

variable {T : Type} [LinearOrder T] [Inhabited T]

theorem scanUp_spec (par : T) (d : List T) (fuel : Nat) :
    ∀ (sf m : Nat), sf < m → m ≤ sf + fuel → par ≤ rd d m →
      ∃ s, scanUp par d fuel sf = some s ∧ sf < s ∧ s ≤ m ∧ par ≤ rd d s ∧
        ∀ p, sf < p → p < s → rd d p < par := by
  induction fuel with
  | zero => intro sf m h1 h2 _; omega
  | succ fuel ih =>
    intro sf m h1 h2 hm
    by_cases hlt : rd d (sf + 1) < par
    · have hne : sf + 1 ≠ m := by
        intro h; rw [h] at hlt; exact absurd hlt (not_lt.2 hm)
      obtain ⟨s, e, g1, g2, g3, g4⟩ := ih (sf + 1) m (by omega) (by omega) hm
      refine ⟨s, by simp [scanUp, hlt, e], by omega, g2, g3, ?_⟩
      intro p hp1 hp2
      by_cases hp : p = sf + 1
      · subst hp; exact hlt
      · exact g4 p (by omega) hp2
    · refine ⟨sf + 1, by simp [scanUp, hlt], by omega, by omega, not_lt.1 hlt, ?_⟩
      intro p hp1 hp2; omega

theorem scanDown_spec (par : T) (d : List T) (fuel : Nat) :
    ∀ (sl m : Nat), m < sl → sl ≤ m + fuel → rd d m ≤ par →
      ∃ s, scanDown par d fuel sl = some s ∧ s < sl ∧ m ≤ s ∧ rd d s ≤ par ∧
        ∀ p, s < p → p < sl → par < rd d p := by
  induction fuel with
  | zero => intro sl m h1 h2 _; omega
  | succ fuel ih =>
    intro sl m h1 h2 hm
    by_cases hgt : rd d (sl - 1) > par
    · have hne : sl - 1 ≠ m := by
        intro h; rw [h] at hgt; exact absurd hgt (not_lt.2 hm)
      obtain ⟨s, e, g1, g2, g3, g4⟩ := ih (sl - 1) m (by omega) (by omega) hm
      refine ⟨s, by simp [scanDown, hgt, e], by omega, g2, g3, ?_⟩
      intro p hp1 hp2
      by_cases hp : p = sl - 1
      · subst hp; exact hgt
      · exact g4 p hp1 (by omega)
    · refine ⟨sl - 1, by simp [scanDown, hgt], by omega, by omega, not_lt.1 hgt, ?_⟩
      intro p hp1 hp2; omega

/-- The partition loop stops, and splits the range around `par`. -/
theorem partitionLoop_spec (par : T) (lo hi : Nat) (fuel : Nat) :
    ∀ (d : List T) (sf sl : Nat), lo ≤ sf → sf < sl → sl ≤ hi → hi < d.length →
      sl - sf ≤ fuel →
      (∀ p, lo ≤ p → p ≤ sf → rd d p ≤ par) →
      (∀ p, sl ≤ p → p ≤ hi → par ≤ rd d p) →
      (∃ m, sf < m ∧ m < hi ∧ par ≤ rd d m) →
      ∃ d' s, partitionLoop par lo hi fuel d sf sl = some (d', s) ∧ sf < s ∧ s < hi ∧
        d'.length = d.length ∧ d'.Perm d ∧
        (∀ p, lo ≤ p → p < s → rd d' p ≤ par) ∧
        (∀ p, s ≤ p → p ≤ hi → par ≤ rd d' p) ∧
        (∀ p, (p ≤ sf ∨ sl ≤ p) → rd d' p = rd d p) := by
  induction fuel with
  | zero => intro d sf sl _ h1 _ _ h2; omega
  | succ fuel ih =>
    intro d sf sl hlo hlt hhi hlen hfuel hleft hright hstop
    obtain ⟨m, hm1, hm2, hm3⟩ := hstop
    obtain ⟨sf1, e1, a1, a2, a3, a4⟩ := scanUp_spec par d (hi - sf) sf m hm1 (by omega) hm3
    obtain ⟨sl1, e2, b1, b2, b3, b4⟩ :=
      scanDown_spec par d (sl - lo) sl sf hlt (by omega) (hleft sf hlo (Nat.le_refl _))
    by_cases hcross : sf1 ≥ sl1
    · refine ⟨d, sf1, by simp [partitionLoop, e1, e2, hcross], a1, by omega, rfl,
        List.Perm.refl _, ?_, ?_, fun _ _ => rfl⟩
      · intro p hp1 hp2
        by_cases hps : p ≤ sf
        · exact hleft p hp1 hps
        · exact le_of_lt (a4 p (by omega) hp2)
      · intro p hp1 hp2
        by_cases hps : sl ≤ p
        · exact hright p hps hp2
        · by_cases hpe : p = sf1
          · subst hpe; exact a3
          · exact le_of_lt (b4 p (by omega) (by omega))
    · have hlt1 : sf1 < sl1 := by omega
      have hsf1 : sf1 < d.length := by omega
      have hsl1 : sl1 < d.length := by omega
      obtain ⟨d', s, e3, c1, c2, c3, c4, c5, c6, c7⟩ :=
        ih (swap d sf1 sl1) sf1 sl1 (by omega) hlt1 (by omega) (by simpa using hlen)
          (by omega)
          (by
            intro p hp1 hp2
            rw [rd_swap _ _ hsf1 hsl1]
            have h1 : ¬ p = sl1 := by omega
            by_cases hpe : p = sf1
            · rw [hpe, if_neg (by omega), if_pos rfl]; exact b3
            · simp only [h1, hpe, if_false]
              by_cases hps : p ≤ sf
              · exact hleft p hp1 hps
              · exact le_of_lt (a4 p (by omega) (by omega)))
          (by
            intro p hp1 hp2
            rw [rd_swap _ _ hsf1 hsl1]
            by_cases hpe : p = sl1
            · rw [hpe, if_pos rfl]; exact a3
            · have h1 : ¬ p = sf1 := by omega
              simp only [h1, hpe, if_false]
              by_cases hps : sl ≤ p
              · exact hright p hps hp2
              · exact le_of_lt (b4 p (by omega) (by omega)))
          ⟨sl1, hlt1, by omega, by rw [rd_swap _ _ hsf1 hsl1, if_pos rfl]; exact a3⟩
      refine ⟨d', s, by simp [partitionLoop, e1, e2, hcross, e3], by omega, c2,
        by simpa using c3, c4.trans (swap_perm d hsf1 hsl1), c5, c6, ?_⟩
      intro p hp
      rw [c7 p (by omega), rd_swap _ _ hsf1 hsl1]
      have h1 : ¬ p = sl1 := by omega
      have h2 : ¬ p = sf1 := by omega
      simp [h1, h2]

/-- One conditional exchange `if (data[x] < data[y]) swap (data[x], data[y])`. -/
theorem condSwap_spec (d : List T) (x y : Nat) (hx : x < d.length) (hy : y < d.length)
    (hxy : x ≠ y) :
    rd (if rd d x < rd d y then swap d x y else d) y ≤
        rd (if rd d x < rd d y then swap d x y else d) x ∧
      (if rd d x < rd d y then swap d x y else d).length = d.length ∧
      (if rd d x < rd d y then swap d x y else d).Perm d ∧
      (∀ p, p ≠ x → p ≠ y → rd (if rd d x < rd d y then swap d x y else d) p = rd d p) ∧
      ((rd (if rd d x < rd d y then swap d x y else d) x = rd d x ∧
          rd (if rd d x < rd d y then swap d x y else d) y = rd d y) ∨
        (rd (if rd d x < rd d y then swap d x y else d) x = rd d y ∧
          rd (if rd d x < rd d y then swap d x y else d) y = rd d x)) := by
  by_cases h : rd d x < rd d y
  · rw [if_pos h]
    have e1 : rd (swap d x y) y = rd d x := by rw [rd_swap _ _ hx hy]; simp
    have e2 : rd (swap d x y) x = rd d y := by
      rw [rd_swap _ _ hx hy]; simp [hxy]
    refine ⟨by rw [e1, e2]; exact le_of_lt h, length_swap _ _ _, swap_perm d hx hy, ?_,
      Or.inr ⟨e2, e1⟩⟩
    intro p hp1 hp2
    rw [rd_swap _ _ hx hy]; simp [hp1, hp2]
  · rw [if_neg h]
    exact ⟨not_lt.1 h, rfl, List.Perm.refl _, fun _ _ _ => rfl, Or.inl ⟨rfl, rfl⟩⟩

theorem median3_spec (d : List T) (sf i sl : Nat) (h1 : sf < i) (h2 : i < sl)
    (h3 : sl < d.length) :
    rd (median3 d sf i sl) sf ≤ rd (median3 d sf i sl) sl ∧
      rd (median3 d sf i sl) sl ≤ rd (median3 d sf i sl) i ∧
      (median3 d sf i sl).length = d.length ∧ (median3 d sf i sl).Perm d ∧
      (∀ p, p ≠ sf → p ≠ i → p ≠ sl → rd (median3 d sf i sl) p = rd d p) := by
  dsimp only [median3]
  obtain ⟨a1, a2, a3, a4, _⟩ := condSwap_spec d i sf (by omega) (by omega)
    (by omega)
  generalize (if rd d i < rd d sf then swap d i sf else d) = d1 at a1 a2 a3 a4 ⊢
  obtain ⟨b1, b2, b3, b4, b5⟩ := condSwap_spec d1 sl sf (by omega) (by omega)
    (by omega)
  have b6 := b4 i (by omega) (by omega)
  generalize (if rd d1 sl < rd d1 sf then swap d1 sl sf else d1) = d2 at b1 b2 b3 b4 b5 b6 ⊢
  obtain ⟨c1, c2, c3, c4, c5⟩ := condSwap_spec d2 i sl (by omega) (by omega)
    (by omega)
  have c6 := c4 sf (by omega) (by omega)
  generalize (if rd d2 i < rd d2 sl then swap d2 i sl else d2) = d3 at c1 c2 c3 c4 c5 c6 ⊢
  have hsfi : rd d2 sf ≤ rd d2 i := by
    rw [b6]
    rcases b5 with ⟨_, e⟩ | ⟨e', e⟩
    · rw [e]; exact a1
    · rw [e]
      have : rd d2 sf ≤ rd d2 sl := b1
      rw [e, e'] at this
      exact le_trans this a1
  refine ⟨?_, c1, by omega, c3.trans (b3.trans a3), ?_⟩
  · rw [c6]
    rcases c5 with ⟨_, e⟩ | ⟨_, e⟩
    · rw [e]; exact b1
    · rw [e]; exact hsfi
  · intro p hp1 hp2 hp3
    rw [c4 p hp2 hp3, b4 p hp3 hp1, a4 p hp2 hp1]

/-- The partition step of `quickSortAsc` and `kthLargest` on the range `lo .. hi` with at
least three cells: median of three, partition loop and the closing swap. -/
theorem partition_step (d : List T) (lo hi : Nat) (h1 : lo + 1 < hi) (h3 : hi < d.length)
    (fuel : Nat) (hfuel : hi - lo ≤ fuel) :
    ∃ d1 s, partitionLoop (rd (median3 d lo ((lo + hi) / 2) hi) hi) lo hi fuel
        (median3 d lo ((lo + hi) / 2) hi) lo hi = some (d1, s) ∧
      lo < s ∧ s < hi ∧ (swap d1 s hi).length = d.length ∧ (swap d1 s hi).Perm d ∧
      (∀ p, lo ≤ p → p < s → rd (swap d1 s hi) p ≤ rd (swap d1 s hi) s) ∧
      (∀ p, s < p → p ≤ hi → rd (swap d1 s hi) s ≤ rd (swap d1 s hi) p) ∧
      (∀ p, (p < lo ∨ hi < p) → rd (swap d1 s hi) p = rd d p) ∧
      rd (swap d1 s hi) s = rd (median3 d lo ((lo + hi) / 2) hi) hi := by
  obtain ⟨m1, m2, m3, m4, m5⟩ := median3_spec d lo ((lo + hi) / 2) hi
    (by omega) (by omega) h3
  generalize median3 d lo ((lo + hi) / 2) hi = d0 at m1 m2 m3 m4 m5 ⊢
  obtain ⟨d1, s, e, a1, a2, a3, a4, a5, a6, a7⟩ :=
    partitionLoop_spec (rd d0 hi) lo hi fuel d0 lo hi (Nat.le_refl _) (by omega)
      (Nat.le_refl _) (by omega) hfuel
      (by intro p hp1 hp2; have : p = lo := by omega
          subst this; exact m1)
      (by intro p hp1 hp2; have : p = hi := by omega
          subst this; exact le_refl _)
      ⟨(lo + hi) / 2, by omega, by omega, m2⟩
  have hs : s < d1.length := by omega
  have hh : hi < d1.length := by omega
  have ehi : rd d1 hi = rd d0 hi := a7 hi (Or.inr (Nat.le_refl _))
  have es : rd (swap d1 s hi) s = rd d0 hi := by
    rw [rd_swap _ _ hs hh]
    have : ¬ s = hi := by omega
    simp [this, ehi]
  refine ⟨d1, s, e, a1, a2, by simp [a3, m3], (swap_perm d1 hs hh).trans (a4.trans m4),
    ?_, ?_, ?_, es⟩
  · intro p hp1 hp2
    rw [es, rd_swap _ _ hs hh]
    have h1 : ¬ p = hi := by omega
    have h2 : ¬ p = s := by omega
    simp only [h1, h2, if_false]
    exact a5 p hp1 hp2
  · intro p hp1 hp2
    rw [es, rd_swap _ _ hs hh]
    have h2 : ¬ p = s := by omega
    by_cases hpe : p = hi
    · rw [if_pos hpe]; exact a6 s (Nat.le_refl _) (by omega)
    · simp only [hpe, h2, if_false]
      exact a6 p (by omega) hp2
  · intro p hp
    rw [rd_swap _ _ hs hh]
    have h1 : ¬ p = hi := by omega
    have h2 : ¬ p = s := by omega
    simp only [h1, h2, if_false]
    rw [a7 p (by omega), m5 p (by omega) (by omega) (by omega)]

end GenSort

/-! ## The quicksort kernel and the selection of the direct engine -/

namespace GenSort

variable {T : Type} [LinearOrder T] [Inhabited T]

theorem drop_perm_of_take_eq {α : Type} {l l' : List α} (n : Nat) (hp : l'.Perm l)
    (ht : l'.take n = l.take n) : (l'.drop n).Perm (l.drop n) := by
  have h1 : (l'.take n ++ l'.drop n).Perm (l.take n ++ l.drop n) := by
    simpa using hp
  rw [ht] at h1
  exact (List.perm_append_left_iff _).1 h1

/-- A permutation that leaves the cells outside `lo .. hi` alone permutes the cells
`lo .. hi` among themselves. -/
theorem range_perm {α : Type} [Inhabited α] {d d' : List α} (lo hi : Nat)
    (hlen : d'.length = d.length) (hperm : d'.Perm d)
    (hout : ∀ p, (p < lo ∨ hi < p) → rd d' p = rd d p) :
    ((d'.take (hi + 1)).drop lo).Perm ((d.take (hi + 1)).drop lo) := by
  have h1 : (d'.take (hi + 1)).Perm (d.take (hi + 1)) :=
    take_perm_of_drop_eq (hi + 1) hperm
      (drop_eq_of_rd (hi + 1) hlen (fun p hp _ => hout p (Or.inr (by omega))))
  apply drop_perm_of_take_eq lo h1
  rw [List.take_take, List.take_take]
  exact take_eq_of_rd _ hlen
    (fun p hp _ => hout p (Or.inl (lt_of_lt_of_le hp (Nat.min_le_left _ _))))

theorem range_mem {α : Type} [Inhabited α] {d d' : List α} (lo hi : Nat)
    (hlen : d'.length = d.length) (hperm : d'.Perm d)
    (hout : ∀ p, (p < lo ∨ hi < p) → rd d' p = rd d p) (hhi : hi < d.length) :
    ∀ q, lo ≤ q → q ≤ hi → ∃ q', lo ≤ q' ∧ q' ≤ hi ∧ rd d' q = rd d q' := by
  intro q hq1 hq2
  have hp := range_perm lo hi hlen hperm hout
  have hm : rd d' q ∈ (d'.take (hi + 1)).drop lo := by
    have e : rd d' q = rd ((d'.take (hi + 1)).drop lo) (q - lo) := by
      rw [rd_drop, rd_take _ (by omega)]
      congr 1; omega
    rw [e]
    exact rd_mem _ (by simp; omega)
  have hm2 := hp.mem_iff.1 hm
  obtain ⟨t, ht, e⟩ := List.mem_iff_getElem.1 hm2
  have ht' : t < hi + 1 - lo := by simp at ht; omega
  refine ⟨lo + t, by omega, by omega, ?_⟩
  rw [← e, ← rd_of_lt _ ht, rd_drop, rd_take _ (by omega)]

theorem swap_comm {α : Type} [Inhabited α] (l : List α) {i j : Nat} (hi : i < l.length)
    (hj : j < l.length) : swap l i j = swap l j i := by
  apply ext_rd (by simp)
  intro p _
  rw [rd_swap _ _ hi hj, rd_swap _ _ hj hi]
  by_cases h1 : p = i
  · by_cases h2 : p = j
    · subst h1; subst h2; simp
    · subst h1; simp [h2]
  · simp [h1]

omit [Inhabited T] in
theorem gtD_iff (x y : T) : gtD x y = true ↔ id y < id x := by
  simp [gtD]

omit [Inhabited T] in
theorem stopD_true (x y : T) (h : stopD x y = true) : id x ≤ id y := by
  simp [stopD] at h; exact h

omit [Inhabited T] in
theorem stopD_false (x y : T) (h : stopD x y = false) : id y ≤ id x := by
  simp [stopD] at h; exact le_of_lt h

/-- On fewer than `2^30` cells `heapSortAsc` returns, and leaves the first `nr` cells
sorted, the buffer a permutation of what it was and the cells from `nr` on untouched. -/
theorem heapSortAsc_spec (data : List T) (nr : Nat) (hnr : nr ≤ data.length)
    (hb : nr < 2 ^ 30) :
    ∃ d', heapSortAsc data nr = some d' ∧ Gen.SortedUpTo id d' nr ∧
      d'.length = data.length ∧ d'.Perm data ∧ (∀ p, nr ≤ p → rd d' p = rd data p) := by
  rw [heapSortAsc_eq_gen data nr hb]
  exact Gen.heapSortAsc_gen_spec id gtD stopD gtD_iff stopD_true stopD_false data nr hnr

theorem quickSortAscAux_spec (fuel : Nat) :
    ∀ (data : List T) (nr : Nat) (multiThread : Bool) (rec_lim : Int),
      nr ≤ data.length → nr < 2 ^ 30 → rec_lim < (fuel : Int) →
      ∃ d', quickSortAscAux fuel data nr multiThread rec_lim = some d' ∧
        d'.length = data.length ∧ d'.Perm data ∧ (∀ p, nr ≤ p → rd d' p = rd data p) := by
  induction fuel with
  | zero =>
    intro data nr mt rec_lim hnr hb hrec
    by_cases h32 : nr ≤ 32
    · exact ⟨data, by simp [quickSortAscAux, h32], rfl, List.Perm.refl _, fun _ _ => rfl⟩
    · have hneg : rec_lim < 0 := by simpa using hrec
      obtain ⟨d', e, _, h2, h3, h4⟩ := heapSortAsc_spec data nr hnr hb
      exact ⟨d', by simp [quickSortAscAux, h32, hneg, e], h2, h3, h4⟩
  | succ fuel ih =>
    intro data nr mt rec_lim hnr hb hrec
    by_cases h32 : nr ≤ 32
    · exact ⟨data, by simp [quickSortAscAux, h32], rfl, List.Perm.refl _, fun _ _ => rfl⟩
    by_cases hneg : rec_lim < 0
    · obtain ⟨d', e, _, h2, h3, h4⟩ := heapSortAsc_spec data nr hnr hb
      exact ⟨d', by simp [quickSortAscAux, h32, hneg, e], h2, h3, h4⟩
    have hps := partition_step data 0 (nr - 1) (by omega) (by omega) nr
      (by omega)
    rw [Nat.zero_add] at hps
    obtain ⟨d1, s, e, a1, a2, a3, a4, _, _, a7, _⟩ := hps
    obtain ⟨d3, e3, b1, b2, b3⟩ := ih (swap d1 s (nr - 1)) s false (rec_lim - 1)
      (by omega) (by omega) (by push_cast at hrec; omega)
    obtain ⟨r, e4, c1, c2, c3⟩ := ih (d3.drop (s + 1)) (nr - s - 1) false (rec_lim - 1)
      (by simp; omega) (by omega) (by push_cast at hrec; omega)
    have hr : quickSortAscAux (fuel + 1) data nr mt rec_lim = some (d3.take (s + 1) ++ r) := by
      simp only [quickSortAscAux, if_neg h32, if_neg hneg, e, e3, e4, ite_self]
    have hlt : (d3.take (s + 1)).length = s + 1 := by simp; omega
    refine ⟨d3.take (s + 1) ++ r, hr, ?_, ?_, ?_⟩
    · simp at c1 ⊢; omega
    · have h1 : (d3.take (s + 1) ++ r).Perm (d3.take (s + 1) ++ d3.drop (s + 1)) :=
        List.Perm.append_left _ c2
      rw [List.take_append_drop] at h1
      exact h1.trans (b2.trans a4)
    · intro p hp
      rw [rd_append_right _ _ (by omega), hlt, c3 _ (by omega), rd_drop]
      have : s + 1 + (p - (s + 1)) = p := by omega
      rw [this, b3 p (by omega), a7 p (Or.inr (by omega))]

/-- On fewer than `2^30` cells `quickSortAsc` returns, and leaves the buffer a permutation
of what it was with the cells from `nr` on untouched. -/
theorem quickSortAsc_spec (data : List T) (nr : Nat) (multiThread : Bool) (rec_lim : Int)
    (hnr : nr ≤ data.length) (hb : nr < 2 ^ 30) :
    ∃ d', quickSortAsc data nr multiThread rec_lim = some d' ∧
      d'.length = data.length ∧ d'.Perm data ∧ (∀ p, nr ≤ p → rd d' p = rd data p) := by
  unfold quickSortAsc
  apply quickSortAscAux_spec
  · exact hnr
  · exact hb
  · push_cast
    have := Int.self_le_toNat rec_lim
    omega

theorem kthLoop_spec (k nr : Nat) (fuel : Nat) :
    ∀ (d : List T) (st en : Nat), st ≤ k → k ≤ en → en < nr → nr ≤ d.length →
      en - st < fuel →
      (∀ p q, p < st → st ≤ q → q < nr → rd d p ≤ rd d q) →
      (∀ p q, p ≤ en → en < q → q < nr → rd d p ≤ rd d q) →
      ∃ d' st' en', Gen.kthLoop k fuel d st en = some (d', st', en') ∧
        st' ≤ k ∧ k ≤ en' ∧ en' ≤ st' + 1 ∧ st' ≤ en' ∧ en' < nr ∧
        d'.length = d.length ∧ d'.Perm d ∧
        (∀ p q, p < st' → st' ≤ q → q < nr → rd d' p ≤ rd d' q) ∧
        (∀ p q, p ≤ en' → en' < q → q < nr → rd d' p ≤ rd d' q) ∧
        (∀ p, (p < st ∨ en < p) → rd d' p = rd d p) := by
  induction fuel with
  | zero => intro d st en _ _ _ _ h; omega
  | succ fuel ih =>
    intro d st en hst hen hnr hlen hfuel inv1 inv2
    by_cases hgo : en > st + 1
    · obtain ⟨d1, s, e, a1, a2, a3, a4, a5, a6, a7, _⟩ :=
        partition_step d st en (by omega) (by omega) (en - st + 1) (by omega)
      have hrm := range_mem st en a3 a4 a7 (by omega)
      have hrun : Gen.kthLoop k (fuel + 1) d st en =
          Gen.kthLoop k fuel (swap d1 s en) (if s ≤ k then s else st)
            (if s ≥ k then s else en) := by
        simp only [Gen.kthLoop, if_pos hgo, e]
      generalize swap d1 s en = d2 at a3 a4 a5 a6 a7 hrm hrun
      have G1 : ∀ p q, p < st → st ≤ q → q < nr → rd d2 p ≤ rd d2 q := by
        intro p q hp hq hqn
        rw [a7 p (Or.inl hp)]
        by_cases hqe : q ≤ en
        · obtain ⟨q', h1, h2, e'⟩ := hrm q hq hqe
          rw [e']; exact inv1 p q' hp h1 (by omega)
        · rw [a7 q (Or.inr (by omega))]; exact inv1 p q hp hq hqn
      have G2 : ∀ p q, p ≤ en → en < q → q < nr → rd d2 p ≤ rd d2 q := by
        intro p q hp hq hqn
        rw [a7 q (Or.inr hq)]
        by_cases hps : st ≤ p
        · obtain ⟨p', h1, h2, e'⟩ := hrm p hps hp
          rw [e']; exact inv2 p' q h2 hq hqn
        · rw [a7 p (Or.inl (by omega))]; exact inv2 p q hp hq hqn
      have I1 : ∀ p q, p < s → s ≤ q → q < nr → rd d2 p ≤ rd d2 q := by
        intro p q hp hq hqn
        by_cases hps : p < st
        · exact G1 p q hps (by omega) hqn
        · by_cases hqe : q ≤ en
          · by_cases hqs : q = s
            · subst hqs; exact a5 p (by omega) hp
            · exact le_trans (a5 p (by omega) hp) (a6 q (by omega) hqe)
          · exact G2 p q (by omega) (by omega) hqn
      have I2 : ∀ p q, p ≤ s → s < q → q < nr → rd d2 p ≤ rd d2 q := by
        intro p q hp hq hqn
        by_cases hqe : en < q
        · exact G2 p q (by omega) hqe hqn
        · by_cases hps : p < st
          · exact G1 p q hps (by omega) hqn
          · by_cases hpe : p = s
            · subst hpe; exact a6 q hq (by omega)
            · exact le_trans (a5 p (by omega) (by omega)) (a6 q hq (by omega))
      have hs1 : ∀ p q, p < (if s ≤ k then s else st) → (if s ≤ k then s else st) ≤ q →
          q < nr → rd d2 p ≤ rd d2 q := by
        split
        · exact I1
        · exact G1
      have hs2 : ∀ p q, p ≤ (if s ≥ k then s else en) → (if s ≥ k then s else en) < q →
          q < nr → rd d2 p ≤ rd d2 q := by
        split
        · exact I2
        · exact G2
      have b1 : (if s ≤ k then s else st) ≤ k := by split <;> omega
      have b2 : k ≤ (if s ≥ k then s else en) := by split <;> omega
      have b3 : (if s ≥ k then s else en) - (if s ≤ k then s else st) < fuel := by
        split <;> split <;> omega
      have b4 : st ≤ (if s ≤ k then s else st) := by split <;> omega
      have b5 : (if s ≥ k then s else en) ≤ en := by split <;> omega
      generalize (if s ≤ k then s else st) = st1 at hs1 hs2 b1 b2 b3 b4 b5 hrun
      generalize (if s ≥ k then s else en) = en1 at hs1 hs2 b1 b2 b3 b4 b5 hrun
      obtain ⟨d', st', en', e', c1, c2, c3, c4, c5, c6, c7, c8, c9, c10⟩ :=
        ih d2 st1 en1 b1 b2 (by omega) (by omega) b3 hs1 hs2
      refine ⟨d', st', en', by rw [hrun, e'], c1, c2, c3, c4, c5, by omega, c7.trans a4,
        c8, c9, ?_⟩
      intro p hp
      rw [c10 p (by omega), a7 p hp]
    · refine ⟨d, st, en, by simp [Gen.kthLoop, hgo], hst, hen, by omega, by omega, hnr, rfl,
        List.Perm.refl _, inv1, inv2, fun _ _ => rfl⟩

/-- What `Gen.kthLargest` returns for a valid rank, and how it leaves the buffer: a permutation
of the input with the returned value at cell `k`, nothing larger before it and nothing
smaller behind it. -/
theorem kthLargest_spec (data : List T) (nr k : Nat) (hk : k < nr) (hnr : nr ≤ data.length) :
    ∃ d', Gen.kthLargest data nr k = some (.ok (rd d' k), d') ∧ d'.length = data.length ∧
      d'.Perm data ∧ (∀ p, p < k → rd d' p ≤ rd d' k) ∧
      (∀ q, k < q → q < nr → rd d' k ≤ rd d' q) ∧ (∀ p, nr ≤ p → rd d' p = rd data p) := by
  obtain ⟨d1, st, en, e, c1, c2, c3, c4, c5, c6, c7, c8, c9, c10⟩ :=
    kthLoop_spec k nr nr data 0 (nr - 1) (Nat.zero_le _) (by omega) (by omega) hnr (by omega)
      (fun p q hp _ _ => by omega) (fun p q hp hq hqn => by omega)
  have hst : st < d1.length := by omega
  have hen : en < d1.length := by omega
  have hkn : ¬ k ≥ nr := by omega
  by_cases h2 : en = st + 1
  · obtain ⟨s1, s2, s3, s4, _⟩ := condSwap_spec d1 en st hen hst (by omega)
    have hres : Gen.kthLargest data nr k =
        some (.ok (rd (if rd d1 en < rd d1 st then swap d1 en st else d1) k),
          (if rd d1 en < rd d1 st then swap d1 en st else d1)) := by
      have hsw : swap d1 st en = swap d1 en st := swap_comm d1 hst hen
      simp only [Gen.kthLargest, if_neg hkn, e, if_pos h2, hsw]
    have hrm := range_mem st en s2 s3 (fun p hp => s4 p (by omega) (by omega)) hen
    generalize (if rd d1 en < rd d1 st then swap d1 en st else d1) = d2 at s1 s2 s3 s4 hres hrm
    refine ⟨d2, hres, by omega, s3.trans c7, ?_, ?_, ?_⟩
    · intro p hp
      by_cases hps : p < st
      · rw [s4 p (by omega) (by omega)]
        obtain ⟨k', h1, h2', e'⟩ := hrm k c1 c2
        rw [e']; exact c8 p k' hps h1 (by omega)
      · have hke : k = en := by omega
        have hpe : p = st := by omega
        rw [hke, hpe]; exact s1
    · intro q hq hqn
      by_cases hqe : en < q
      · rw [s4 q (by omega) (by omega)]
        obtain ⟨k', h1, h2', e'⟩ := hrm k c1 c2
        rw [e']; exact c9 k' q h2' hqe hqn
      · have hke : k = st := by omega
        have hqe' : q = en := by omega
        rw [hke, hqe']; exact s1
    · intro p hp
      rw [s4 p (by omega) (by omega), c10 p (Or.inr (by omega))]
  · have hse : st = en := by omega
    have hks : k = st := by omega
    refine ⟨d1, by simp only [Gen.kthLargest, if_neg hkn, e, if_neg h2], c6, c7, ?_, ?_, ?_⟩
    · intro p hp; exact c8 p k (by omega) (by omega) hk
    · intro q hq hqn; exact c9 k q (by omega) (by omega) hqn
    · intro p hp; exact c10 p (Or.inr (by omega))

end GenSort

/-! ## The 32-bit conversions on lengths that fit -/

namespace GenSort

variable {T : Type} [LinearOrder T] [Inhabited T]

theorem toInt_of_lt {n : Nat} (h : n < 2 ^ 31) : toInt n = (n : Int) := by
  have h1 : n % 2 ^ 32 = n := Nat.mod_eq_of_lt (by omega)
  simp only [toInt, h1, if_pos h]

theorem toUInt_natCast {n : Nat} (h : n < 2 ^ 32) : toUInt (n : Int) = n := by
  unfold toUInt
  have h1 : ((n : Int) % 2 ^ 32) = ((n % 2 ^ 32 : Nat) : Int) := by
    push_cast; rfl
  rw [h1, Nat.mod_eq_of_lt h, Int.toNat_ofNat]

/-- A kernel entered with a length below `2^31` receives that length. -/
theorem atInt_of_lt {α : Type} {n : Nat} (h : n < 2 ^ 31) (neg : α) (kernel : Nat → α) :
    atInt (toInt n) neg kernel = kernel n := by
  have h0 : ¬ ((n : Int) < 0) := by omega
  simp only [atInt, toInt_of_lt h, if_neg h0, Int.toNat_ofNat]

/-- The scan upwards stops at `sf + fuel` at the latest. -/
theorem scanUp_le (par : T) (data : List T) (fuel : Nat) :
    ∀ sf s, scanUp par data fuel sf = some s → sf < s ∧ s ≤ sf + fuel := by
  induction fuel with
  | zero => intro sf s h; simp [scanUp] at h
  | succ f ih =>
    intro sf s h
    simp only [scanUp] at h
    split at h
    · have := ih _ _ h; omega
    · have e := Option.some.inj h; omega

/-- The position the partition loop returns lies behind its start and not behind `hi`. -/
theorem partitionLoop_le (par : T) (lo hi : Nat) (fuel : Nat) :
    ∀ (data : List T) (sf sl : Nat) (d : List T) (s : Nat),
      partitionLoop par lo hi fuel data sf sl = some (d, s) → sf < s ∧ s ≤ hi := by
  induction fuel with
  | zero => intro data sf sl d s h; simp [partitionLoop] at h
  | succ f ih =>
    intro data sf sl d s h
    simp only [partitionLoop] at h
    cases h1 : scanUp par data (hi - sf) sf with
    | none => rw [h1] at h; exact Option.noConfusion h
    | some sf1 =>
      rw [h1] at h
      obtain ⟨u1, u2⟩ := scanUp_le par data _ _ _ h1
      cases h2 : scanDown par data (sl - lo) sl with
      | none => rw [h2] at h; exact Option.noConfusion h
      | some sl1 =>
        rw [h2] at h
        simp only at h
        split at h
        · have e := Option.some.inj h
          have e2 := (Prod.mk.inj e).2
          omega
        · have := ih _ _ _ _ _ h
          omega

/-- On positions below `2^30` and a rank below `2^31` the loop of `kthLargest` is the loop
on natural numbers. -/
theorem kthLoop_eq_gen (k : Nat) (hk : k < 2 ^ 31) (fuel : Nat) :
    ∀ (data : List T) (st en : Nat), st < 2 ^ 30 → en < 2 ^ 30 →
      kthLoop (toInt k) fuel data st en = Gen.kthLoop k fuel data st en := by
  induction fuel with
  | zero => intro data st en _ _; rfl
  | succ f ih =>
    intro data st en hst hen
    simp only [kthLoop, Gen.kthLoop]
    by_cases hgo : en > st + 1
    · have hsum : st + en < 2 ^ 31 := by omega
      simp only [if_pos hgo, if_pos hsum]
      cases hp : partitionLoop (rd (median3 data st ((st + en) / 2) en) en) st en (en - st + 1)
          (median3 data st ((st + en) / 2) en) st en with
      | none => rfl
      | some r =>
        obtain ⟨d1, sf⟩ := r
        obtain ⟨p1, p2⟩ := partitionLoop_le _ _ _ _ _ _ _ _ _ hp
        simp only [toInt_of_lt hk, Nat.cast_le, ge_iff_le]
        rw [← toInt_of_lt hk]
        apply ih
        · split <;> omega
        · split <;> omega
    · simp only [if_neg hgo]

/-- For a length up to `2^30` the direct `kthLargest` is the one on natural numbers. -/
theorem kthLargest_eq_gen (data : List T) (nr k : Nat) (hnr : nr ≤ 2 ^ 30) :
    kthLargest data nr k = Gen.kthLargest data nr k := by
  simp only [kthLargest, Gen.kthLargest]
  by_cases hk : k ≥ nr
  · simp only [if_pos hk]
  · simp only [if_neg hk]
    have h31 : nr < 2 ^ 31 := by omega
    have e1 : toInt nr - 1 = ((nr - 1 : Nat) : Int) := by
      rw [toInt_of_lt h31]; omega
    have e2 : ¬ (((nr - 1 : Nat) : Int) < -(2 ^ 31)) := by omega
    have e3 : ¬ (((nr - 1 : Nat) : Int) < 0) := by omega
    simp only [e1, if_neg e2, if_neg e3, Int.toNat_ofNat]
    rw [kthLoop_eq_gen k (by omega) nr data 0 (nr - 1) (by norm_num) (by omega)]

/-- For a length below `2^31` the engine `insSort` is the kernel and the reversal. -/
theorem insSort_small (data : List T) (nr : Nat) (ord : CasaSort.Order) (opt : Nat)
    (h : nr < 2 ^ 31) :
    insSort data nr ord opt =
      if ord = CasaSort.Order.Descending then
        ((insSortAsc data nr opt).1,
          reverse (insSortAsc data nr opt).2 none (insSortAsc data nr opt).1)
      else insSortAsc data nr opt := by
  simp only [insSort, atInt_of_lt h]

/-- For a length below `2^31` the engine `quickSort` is the budget loop, the kernel and
`insSort`. -/
theorem quickSort_small (data : List T) (nr : Nat) (ord : CasaSort.Order) (opt : Nat)
    (h : nr < 2 ^ 31) :
    quickSort data nr ord opt =
      (recLimitLoop (nr + 1) nr 0).bind (fun rec_limit =>
        (quickSortAsc data nr true (rec_limit * 2)).bind (fun d =>
          some (insSort d nr ord opt))) := by
  simp only [quickSort, atInt_of_lt h]
  cases recLimitLoop (nr + 1) nr 0 with
  | none => rfl
  | some rl =>
    simp only [Option.some_bind]
    cases quickSortAsc data nr true (rl * 2) <;> rfl

/-- For a length below `2^31` the engine `heapSort` is the kernel, the duplicate-dropping
pass and the reversal. -/
theorem heapSort_small (data : List T) (nr : Nat) (ord : CasaSort.Order) (opt : Nat)
    (h : nr < 2 ^ 31) :
    heapSort data nr ord opt =
      (heapSortAsc data nr).bind (fun d =>
        if ord = CasaSort.Order.Descending then
          some ((if opt &&& CasaSort.NoDuplicates ≠ 0 then insSortAscNoDup d nr else (nr, d)).1,
            reverse (if opt &&& CasaSort.NoDuplicates ≠ 0 then insSortAscNoDup d nr
              else (nr, d)).2 none
              (if opt &&& CasaSort.NoDuplicates ≠ 0 then insSortAscNoDup d nr else (nr, d)).1)
        else some (if opt &&& CasaSort.NoDuplicates ≠ 0 then insSortAscNoDup d nr
          else (nr, d))) := by
  simp only [heapSort, atInt_of_lt h]
  cases heapSortAsc data nr <;> rfl

end GenSort

/-! ## The quicksort kernel of the indirect engine -/

namespace GenSortIndirect

variable {T : Type} [LinearOrder T] [Inhabited T]

open GenSort (rd swap rd_swap rd_set rd_of_lt swap_perm length_swap)

theorem lexKey_lt (data : List T) (a b : Nat) :
    lexKey data a < lexKey data b ↔
      rd data a < rd data b ∨ (rd data a = rd data b ∧ a < b) :=
  Prod.Lex.lt_iff _ _

omit [LinearOrder T] in
theorem lexKey_inj (data : List T) {a b : Nat} (h : lexKey data a = lexKey data b) : a = b := by
  have := congrArg (fun x => (ofLex x).2) h
  simpa [lexKey] using this

theorem isAscending_iff (data : List T) (a b : Nat) :
    isAscending data a b = true ↔ lexKey data b < lexKey data a := by
  rw [lexKey_lt]
  simp only [isAscending, decide_eq_true_eq, gt_iff_lt]
  constructor
  · rintro (h | ⟨h1, h2⟩)
    · exact Or.inl h
    · exact Or.inr ⟨h1.symm, h2⟩
  · rintro (h | ⟨h1, h2⟩)
    · exact Or.inl h
    · exact Or.inr ⟨h1.symm, h2⟩

theorem stopI_true (data : List T) (x y : Nat) (h : stopI data x y = true) :
    lexKey data x ≤ lexKey data y :=
  le_of_lt ((isAscending_iff data y x).1 h)

theorem stopI_false (data : List T) (x y : Nat) (h : stopI data x y = false) :
    lexKey data y ≤ lexKey data x := by
  have : ¬ (lexKey data x < lexKey data y) := by
    intro hc
    have := (isAscending_iff data y x).2 hc
    simp only [stopI] at h
    rw [h] at this
    exact Bool.noConfusion this
  exact not_lt.1 this

/-- The indirect `heapSortAsc` returns, and leaves the first `nr` cells ordered by value
and position, the index array a permutation of what it was and the cells from `nr` on
untouched. -/
theorem ind_heapSortAsc_spec (inx : List Nat) (data : List T) (nr : Nat) (hnr : nr ≤ inx.length) :
    ∃ x', heapSortAsc inx data nr = some x' ∧ Gen.SortedUpTo (lexKey data) x' nr ∧
      x'.length = inx.length ∧ x'.Perm inx ∧ (∀ p, nr ≤ p → rd x' p = rd inx p) := by
  rw [ind_heapSortAsc_eq_gen]
  exact Gen.heapSortAsc_gen_spec (lexKey data) (isAscending data) (stopI data)
    (isAscending_iff data) (stopI_true data) (stopI_false data) inx nr hnr

theorem upCond_iff (data : List T) (partInx x : Nat) :
    (rd data x < rd data partInx ∨ (rd data partInx = rd data x ∧ x < partInx)) ↔
      lexKey data x < lexKey data partInx := by
  rw [lexKey_lt]
  constructor
  · rintro (h | ⟨h1, h2⟩)
    · exact Or.inl h
    · exact Or.inr ⟨h1.symm, h2⟩
  · rintro (h | ⟨h1, h2⟩)
    · exact Or.inl h
    · exact Or.inr ⟨h1.symm, h2⟩

theorem downCond_iff (data : List T) (partInx x : Nat) :
    (rd data x > rd data partInx ∨ (rd data partInx = rd data x ∧ x > partInx)) ↔
      lexKey data partInx < lexKey data x := by
  rw [lexKey_lt]

theorem ind_scanUp_spec (data : List T) (partInx : Nat) (inx : List Nat) (fuel : Nat) :
    ∀ (sf m : Nat), sf ≤ m → m < sf + fuel →
      ¬ (lexKey data (rd inx m) < lexKey data partInx) →
      ∃ s, scanUp data (rd data partInx) partInx inx fuel sf = some s ∧ sf ≤ s ∧ s ≤ m ∧
        ¬ (lexKey data (rd inx s) < lexKey data partInx) ∧
        ∀ p, sf ≤ p → p < s → lexKey data (rd inx p) < lexKey data partInx := by
  induction fuel with
  | zero => intro sf m h1 h2 _; omega
  | succ fuel ih =>
    intro sf m h1 h2 hm
    by_cases hc : lexKey data (rd inx sf) < lexKey data partInx
    · have hne : sf ≠ m := by
        intro h; rw [h] at hc; exact hm hc
      obtain ⟨s, e, g1, g2, g3, g4⟩ := ih (sf + 1) m (by omega) (by omega) hm
      refine ⟨s, ?_, by omega, g2, g3, ?_⟩
      · simp only [scanUp, if_pos ((upCond_iff data partInx _).2 hc), e]
      · intro p hp1 hp2
        by_cases hp : p = sf
        · subst hp; exact hc
        · exact g4 p (by omega) hp2
    · refine ⟨sf, ?_, Nat.le_refl _, h1, hc, ?_⟩
      · simp only [scanUp, if_neg (fun h => hc ((upCond_iff data partInx _).1 h))]
      · intro p hp1 hp2; omega

theorem ind_scanDown_spec (data : List T) (partInx : Nat) (inx : List Nat) (fuel : Nat) :
    ∀ (sl m : Nat), m ≤ sl → sl < m + fuel →
      ¬ (lexKey data partInx < lexKey data (rd inx m)) →
      ∃ s, scanDown data (rd data partInx) partInx inx fuel sl = some s ∧ s ≤ sl ∧ m ≤ s ∧
        ¬ (lexKey data partInx < lexKey data (rd inx s)) ∧
        ∀ p, s < p → p ≤ sl → lexKey data partInx < lexKey data (rd inx p) := by
  induction fuel with
  | zero => intro sl m h1 h2 _; omega
  | succ fuel ih =>
    intro sl m h1 h2 hm
    by_cases hc : lexKey data partInx < lexKey data (rd inx sl)
    · have hne : sl ≠ m := by
        intro h; rw [h] at hc; exact hm hc
      obtain ⟨s, e, g1, g2, g3, g4⟩ := ih (sl - 1) m (by omega) (by omega) hm
      refine ⟨s, ?_, by omega, g2, g3, ?_⟩
      · simp only [scanDown, if_pos ((downCond_iff data partInx _).2 hc), e]
      · intro p hp1 hp2
        by_cases hp : p = sl
        · subst hp; exact hc
        · exact g4 p hp1 (by omega)
    · refine ⟨sl, ?_, Nat.le_refl _, h1, hc, ?_⟩
      · simp only [scanDown, if_neg (fun h => hc ((downCond_iff data partInx _).1 h))]
      · intro p hp1 hp2; omega

/-- The indirect partition loop stops, and splits the range around the pivot. -/
theorem ind_partitionLoop_spec (data : List T) (partInx hi : Nat) (fuel : Nat) :
    ∀ (inx : List Nat) (sf sl : Nat), 1 ≤ sf → sf < sl → sl < hi → hi < inx.length →
      rd inx hi = partInx → (∀ p, p < hi → rd inx p ≠ partInx) →
      ((lexKey data (rd inx sf) < lexKey data partInx ∧
          lexKey data partInx < lexKey data (rd inx sl) ∧ sl ≤ sf + fuel) ∨
        sl + 2 ≤ sf + fuel) →
      (∀ p, p < sf → lexKey data (rd inx p) ≤ lexKey data partInx) →
      (∀ p, sl < p → p ≤ hi → lexKey data partInx ≤ lexKey data (rd inx p)) →
      ∃ x' s, partitionLoop data (rd data partInx) partInx hi fuel inx sf sl = some (x', s) ∧
        sf ≤ s ∧ s ≤ hi ∧ x'.length = inx.length ∧ x'.Perm inx ∧
        (∀ p, p < s → lexKey data (rd x' p) ≤ lexKey data partInx) ∧
        (∀ p, s ≤ p → p ≤ hi → lexKey data partInx ≤ lexKey data (rd x' p)) ∧
        (∀ p, (p < sf ∨ sl < p) → rd x' p = rd inx p) := by
  induction fuel with
  | zero => intro inx sf sl _ h1 _ _ _ _ h2; omega
  | succ fuel ih =>
    intro inx sf sl h1 hlt hhi hlen hpiv hne hfuel hleft hright
    have hkp : ¬ (lexKey data (rd inx hi) < lexKey data partInx) := by
      rw [hpiv]; exact lt_irrefl _
    obtain ⟨sf1, e1, a1, a2, a3, a4⟩ :=
      ind_scanUp_spec data partInx inx (hi - sf + 1) sf hi (by omega) (by omega) hkp
    have hk0 : ¬ (lexKey data partInx < lexKey data (rd inx 0)) :=
      not_lt.2 (hleft 0 (by omega))
    obtain ⟨sl1, e2, b1, b2, b3, b4⟩ :=
      ind_scanDown_spec data partInx inx (sl + 1) sl 0 (Nat.zero_le _) (by omega) hk0
    by_cases hcross : sf1 ≥ sl1
    · refine ⟨inx, sf1, by simp [partitionLoop, e1, e2, hcross], a1, a2, rfl,
        List.Perm.refl _, ?_, ?_, fun _ _ => rfl⟩
      · intro p hp
        by_cases hps : p < sf
        · exact hleft p hps
        · exact le_of_lt (a4 p (by omega) hp)
      · intro p hp1 hp2
        by_cases hps : sl < p
        · exact hright p hps hp2
        · by_cases hpe : p = sf1
          · subst hpe; exact not_lt.1 a3
          · exact le_of_lt (b4 p (by omega) (by omega))
    · have hlt1 : sf1 < sl1 := by omega
      have hsf1 : sf1 < inx.length := by omega
      have hsl1 : sl1 < inx.length := by omega
      -- the scans have moved when the cells at `sf` and `sl` were on the right side
      have hmove : sl1 ≤ sf1 + fuel := by
        rcases hfuel with ⟨s1, s2, s3⟩ | h
        · have : sf1 ≠ sf := by
            intro h; rw [h] at a3; exact a3 s1
          have : sl1 ≠ sl := by
            intro h; rw [h] at b3; exact b3 s2
          omega
        · omega
      have hsf1k : lexKey data partInx < lexKey data (rd inx sf1) := by
        rcases lt_or_eq_of_le (not_lt.1 a3) with h | h
        · exact h
        · exact absurd (lexKey_inj data h).symm (hne sf1 (by omega))
      have hsl1k : lexKey data (rd inx sl1) < lexKey data partInx := by
        rcases lt_or_eq_of_le (not_lt.1 b3) with h | h
        · exact h
        · exact absurd (lexKey_inj data h) (hne sl1 (by omega))
      have hrs : ∀ p, rd (swapInx inx sf1 sl1) p =
          if p = sl1 then rd inx sf1 else if p = sf1 then rd inx sl1 else rd inx p :=
        fun p => rd_swap inx p hsf1 hsl1
      obtain ⟨x', s, e3, c1, c2, c3, c4, c5, c6, c7⟩ :=
        ih (swapInx inx sf1 sl1) sf1 sl1 (by omega) hlt1 (by omega)
          (by simp [swapInx]; omega)
          (by rw [hrs, if_neg (by omega), if_neg (by omega)]; exact hpiv)
          (by
            intro p hp
            rw [hrs]
            by_cases h1 : p = sl1
            · rw [if_pos h1]; exact hne sf1 (by omega)
            · rw [if_neg h1]
              by_cases h2 : p = sf1
              · rw [if_pos h2]; exact hne sl1 (by omega)
              · rw [if_neg h2]; exact hne p hp)
          (Or.inl ⟨by rw [hrs, if_neg (by omega), if_pos rfl]; exact hsl1k,
            by rw [hrs, if_pos rfl]; exact hsf1k, hmove⟩)
          (by
            intro p hp
            rw [hrs, if_neg (by omega), if_neg (by omega)]
            by_cases hps : p < sf
            · exact hleft p hps
            · exact le_of_lt (a4 p (by omega) hp))
          (by
            intro p hp1 hp2
            rw [hrs, if_neg (by omega), if_neg (by omega)]
            by_cases hps : sl < p
            · exact hright p hps hp2
            · exact le_of_lt (b4 p hp1 (by omega)))
      refine ⟨x', s, by simp [partitionLoop, e1, e2, hcross, e3], by omega, c2,
        by simpa [swapInx] using c3, c4.trans (swap_perm inx hsf1 hsl1), c5, c6, ?_⟩
      intro p hp
      rw [c7 p (by omega), hrs, if_neg (by omega), if_neg (by omega)]

theorem nodup_take_rd_ne {l : List Nat} {n p q : Nat} (hn : n ≤ l.length)
    (hnd : (l.take n).Nodup) (hp : p < n) (hq : q < n) (hpq : p ≠ q) : rd l p ≠ rd l q := by
  intro h
  have h1 : p < (l.take n).length := by simp; omega
  have h2 : q < (l.take n).length := by simp; omega
  have e : (l.take n)[p] = (l.take n)[q] := by
    rw [← rd_of_lt _ h1, ← rd_of_lt _ h2, GenSort.rd_take _ hp, GenSort.rd_take _ hq]
    exact h
  exact hpq ((List.Nodup.getElem_inj_iff hnd).1 e)

/-- One conditional exchange `if (isAscending (data, inx[x], inx[y])) swapInx (inx[x], inx[y])`. -/
theorem ind_condSwap_spec (data : List T) (inx : List Nat) (x y : Nat) (hx : x < inx.length)
    (hy : y < inx.length) (hxy : x ≠ y) :
    lexKey data (rd (if isAscending data (rd inx x) (rd inx y) then swapInx inx x y
        else inx) x) ≤
      lexKey data (rd (if isAscending data (rd inx x) (rd inx y) then swapInx inx x y
        else inx) y) ∧
    (if isAscending data (rd inx x) (rd inx y) then swapInx inx x y else inx).length =
      inx.length ∧
    (if isAscending data (rd inx x) (rd inx y) then swapInx inx x y else inx).Perm inx ∧
    (∀ p, p ≠ x → p ≠ y →
      rd (if isAscending data (rd inx x) (rd inx y) then swapInx inx x y else inx) p =
        rd inx p) ∧
    ((rd (if isAscending data (rd inx x) (rd inx y) then swapInx inx x y else inx) x =
          rd inx x ∧
        rd (if isAscending data (rd inx x) (rd inx y) then swapInx inx x y else inx) y =
          rd inx y) ∨
      (rd (if isAscending data (rd inx x) (rd inx y) then swapInx inx x y else inx) x =
          rd inx y ∧
        rd (if isAscending data (rd inx x) (rd inx y) then swapInx inx x y else inx) y =
          rd inx x)) := by
  by_cases h : isAscending data (rd inx x) (rd inx y) = true
  · rw [if_pos h]
    have e1 : rd (swapInx inx x y) y = rd inx x := by
      rw [swapInx, rd_swap _ _ hx hy]; simp
    have e2 : rd (swapInx inx x y) x = rd inx y := by
      rw [swapInx, rd_swap _ _ hx hy]; simp [hxy]
    refine ⟨by rw [e1, e2]; exact le_of_lt ((isAscending_iff _ _ _).1 h),
      by simp [swapInx], swap_perm inx hx hy, ?_, Or.inr ⟨e2, e1⟩⟩
    intro p hp1 hp2
    rw [swapInx, rd_swap _ _ hx hy]; simp [hp1, hp2]
  · rw [if_neg h]
    refine ⟨?_, rfl, List.Perm.refl _, fun _ _ _ => rfl, Or.inl ⟨rfl, rfl⟩⟩
    rw [isAscending_iff] at h
    exact not_lt.1 h

theorem ind_median3_spec (data : List T) (inx : List Nat) (sf mid sl : Nat) (h1 : sf < mid)
    (h2 : mid < sl) (h3 : sl < inx.length) :
    lexKey data (rd (median3 data inx sf mid sl) sf) ≤
        lexKey data (rd (median3 data inx sf mid sl) sl) ∧
      lexKey data (rd (median3 data inx sf mid sl) sl) ≤
        lexKey data (rd (median3 data inx sf mid sl) mid) ∧
      (median3 data inx sf mid sl).length = inx.length ∧
      (median3 data inx sf mid sl).Perm inx ∧
      (∀ p, p ≠ sf → p ≠ mid → p ≠ sl → rd (median3 data inx sf mid sl) p = rd inx p) := by
  dsimp only [median3]
  obtain ⟨a1, a2, a3, a4, _⟩ := ind_condSwap_spec data inx sf mid (by omega) (by omega) (by omega)
  generalize (if isAscending data (rd inx sf) (rd inx mid) then swapInx inx sf mid
    else inx) = x1 at a1 a2 a3 a4 ⊢
  obtain ⟨b1, b2, b3, b4, b5⟩ := ind_condSwap_spec data x1 sf sl (by omega) (by omega) (by omega)
  have b6 := b4 mid (by omega) (by omega)
  generalize (if isAscending data (rd x1 sf) (rd x1 sl) then swapInx x1 sf sl
    else x1) = x2 at b1 b2 b3 b4 b5 b6 ⊢
  obtain ⟨c1, c2, c3, c4, c5⟩ := ind_condSwap_spec data x2 sl mid (by omega) (by omega) (by omega)
  have c6 := c4 sf (by omega) (by omega)
  generalize (if isAscending data (rd x2 sl) (rd x2 mid) then swapInx x2 sl mid
    else x2) = x3 at c1 c2 c3 c4 c5 c6 ⊢
  have hsfm : lexKey data (rd x2 sf) ≤ lexKey data (rd x2 mid) := by
    rw [b6]
    rcases b5 with ⟨e, _⟩ | ⟨e, e'⟩
    · rw [e]; exact a1
    · have : lexKey data (rd x2 sf) ≤ lexKey data (rd x2 sl) := b1
      rw [e'] at this
      exact le_trans this a1
  refine ⟨?_, c1, by omega, c3.trans (b3.trans a3), ?_⟩
  · rw [c6]
    rcases c5 with ⟨e, _⟩ | ⟨e, _⟩
    · rw [e]; exact b1
    · rw [e]; exact hsfm
  · intro p hp1 hp2 hp3
    rw [c4 p hp3 hp2, b4 p hp1 hp3, a4 p hp1 hp2]

theorem ind_quickSortAscAux_spec (data : List T) (fuel : Nat) :
    ∀ (inx : List Nat) (nr : Nat) (multiThread : Bool) (rec_lim : Int),
      nr ≤ inx.length → (inx.take nr).Nodup → rec_lim < (fuel : Int) →
      ∃ x', quickSortAscAux data fuel inx nr multiThread rec_lim = some x' ∧
        x'.length = inx.length ∧ x'.Perm inx ∧ (∀ p, nr ≤ p → rd x' p = rd inx p) := by
  induction fuel with
  | zero =>
    intro inx nr mt rec_lim hnr _ hrec
    by_cases h32 : nr ≤ 32
    · exact ⟨inx, by simp [quickSortAscAux, h32], rfl, List.Perm.refl _, fun _ _ => rfl⟩
    · have hneg : rec_lim < 0 := by simpa using hrec
      obtain ⟨d', e, _, h2, h3, h4⟩ := ind_heapSortAsc_spec inx data nr hnr
      exact ⟨d', by simp [quickSortAscAux, h32, hneg, e], h2, h3, h4⟩
  | succ fuel ih =>
    intro inx nr mt rec_lim hnr hnd hrec
    by_cases h32 : nr ≤ 32
    · exact ⟨inx, by simp [quickSortAscAux, h32], rfl, List.Perm.refl _, fun _ _ => rfl⟩
    by_cases hneg : rec_lim < 0
    · obtain ⟨d', e, _, h2, h3, h4⟩ := ind_heapSortAsc_spec inx data nr hnr
      exact ⟨d', by simp [quickSortAscAux, h32, hneg, e], h2, h3, h4⟩
    obtain ⟨m1, m2, m3, m4, m5⟩ := ind_median3_spec data inx 0 ((nr - 1) / 2) (nr - 1)
      (by omega) (by omega) (by omega)
    generalize hx0 : median3 data inx 0 ((nr - 1) / 2) (nr - 1) = x0 at m1 m2 m3 m4 m5
    -- the first `nr` cells of `x0` are pairwise different
    have hnd0 : (x0.take nr).Nodup := by
      have hp : (x0.take nr).Perm (inx.take nr) :=
        GenSort.take_perm_of_drop_eq nr m4
          (GenSort.drop_eq_of_rd nr m3 (fun p hp _ => m5 p (by omega) (by omega) (by omega)))
      exact hp.nodup_iff.2 hnd
    have hne : ∀ p, p < nr - 1 → rd x0 p ≠ rd x0 (nr - 1) := fun p hp =>
      nodup_take_rd_ne (by omega) hnd0 (by omega) (by omega) (by omega)
    have hk0 : lexKey data (rd x0 0) ≤ lexKey data (rd x0 (nr - 1)) := m1
    obtain ⟨x1, s, e, a1, a2, a3, a4, _, _, a7⟩ :=
      ind_partitionLoop_spec data (rd x0 (nr - 1)) (nr - 1) nr x0 (0 + 1) (nr - 1 - 1)
        (by omega) (by omega) (by omega) (by omega) rfl hne (Or.inr (by omega))
        (by intro p hp
            have : p = 0 := by omega
            subst this; exact hk0)
        (by intro p hp1 hp2
            have : p = nr - 1 := by omega
            subst this; exact le_refl _)
    have hs : s < x1.length := by omega
    have hh : nr - 1 < x1.length := by omega
    have hperm2 : (swapInx x1 s (nr - 1)).Perm inx :=
      (swap_perm x1 hs hh).trans (a4.trans m4)
    have hrest2 : ∀ p, nr ≤ p → rd (swapInx x1 s (nr - 1)) p = rd inx p := by
      intro p hp
      rw [swapInx, rd_swap _ _ hs hh, if_neg (by omega), if_neg (by omega),
        a7 p (Or.inr (by omega)), m5 p (by omega) (by omega) (by omega)]
    have hlen2 : (swapInx x1 s (nr - 1)).length = inx.length := by
      simp [swapInx]; omega
    have hnd2 : ((swapInx x1 s (nr - 1)).take nr).Nodup := by
      have hp : ((swapInx x1 s (nr - 1)).take nr).Perm (inx.take nr) :=
        GenSort.take_perm_of_drop_eq nr hperm2
          (GenSort.drop_eq_of_rd nr hlen2 (fun p hp _ => hrest2 p hp))
      exact hp.nodup_iff.2 hnd
    generalize hx2 : swapInx x1 s (nr - 1) = x2 at hperm2 hrest2 hlen2 hnd2
    obtain ⟨x3, e3, b1, b2, b3⟩ := ih x2 s false (rec_lim - 1) (by omega)
      (by
        have : (x2.take s) = (x2.take nr).take s := by
          rw [List.take_take]; congr 1; omega
        rw [this]
        exact hnd2.sublist (List.take_sublist _ _))
      (by push_cast at hrec; omega)
    have hnd3 : (x3.take nr).Nodup := by
      have hp : (x3.take nr).Perm (x2.take nr) :=
        GenSort.take_perm_of_drop_eq nr b2
          (GenSort.drop_eq_of_rd nr b1 (fun p hp _ => b3 p (by omega)))
      exact hp.nodup_iff.2 hnd2
    obtain ⟨r, e4, c1, c2, c3⟩ := ih (x3.drop (s + 1)) (nr - s - 1) false (rec_lim - 1)
      (by simp; omega)
      (by
        have : (x3.drop (s + 1)).take (nr - s - 1) = (x3.take nr).drop (s + 1) := by
          rw [List.drop_take]
          congr 1
        rw [this]
        exact hnd3.sublist (List.drop_sublist _ _))
      (by push_cast at hrec; omega)
    have hr : quickSortAscAux data (fuel + 1) inx nr mt rec_lim =
        some (x3.take (s + 1) ++ r) := by
      simp only [quickSortAscAux, if_neg h32, if_neg hneg, hx0, e, hx2, e3, e4, ite_self]
    have hlt : (x3.take (s + 1)).length = s + 1 := by simp; omega
    refine ⟨x3.take (s + 1) ++ r, hr, ?_, ?_, ?_⟩
    · simp at c1 ⊢; omega
    · have h1 : (x3.take (s + 1) ++ r).Perm (x3.take (s + 1) ++ x3.drop (s + 1)) :=
        List.Perm.append_left _ c2
      rw [List.take_append_drop] at h1
      exact h1.trans (b2.trans hperm2)
    · intro p hp
      rw [GenSort.rd_append_right _ _ (by omega), hlt, c3 _ (by omega), GenSort.rd_drop]
      have : s + 1 + (p - (s + 1)) = p := by omega
      rw [this, b3 p (by omega), hrest2 p hp]

/-- The indirect `quickSortAsc` returns when the first `nr` cells of the index array are
pairwise different, and leaves the index array a permutation of what it was with the cells
from `nr` on untouched. -/
theorem ind_quickSortAsc_spec (inx : List Nat) (data : List T) (nr : Nat) (multiThread : Bool)
    (rec_lim : Int) (hnr : nr ≤ inx.length) (hnd : (inx.take nr).Nodup) :
    ∃ x', quickSortAsc inx data nr multiThread rec_lim = some x' ∧
      x'.length = inx.length ∧ x'.Perm inx ∧ (∀ p, nr ≤ p → rd x' p = rd inx p) := by
  unfold quickSortAsc
  apply ind_quickSortAscAux_spec
  · exact hnr
  · exact hnd
  · push_cast
    have := Int.self_le_toNat rec_lim
    omega

end GenSortIndirect

/-! ## `reverse` and `objcopy` -/

namespace GenSort

variable {α : Type} [Inhabited α]

open Gen (foldl_range_inv foldl_range'_inv)

theorem reverse_inplace_rd (data : List α) (nr : Nat) (hnr : nr ≤ data.length) :
    (reverse data none nr).length = data.length ∧
      (∀ p, p < nr → rd (reverse data none nr) p = rd data (nr - 1 - p)) ∧
      (∀ p, nr ≤ p → rd (reverse data none nr) p = rd data p) := by
  unfold reverse
  have h := foldl_range_inv
    (fun d i => (d.set i (rd d (nr - 1 - i))).set (nr - i - 1) (rd d i))
    (fun m d => d.length = data.length ∧
      (∀ p, (p < m ∨ (nr - m ≤ p ∧ p < nr)) → rd d p = rd data (nr - 1 - p)) ∧
      (∀ p, ((m ≤ p ∧ p < nr - m) ∨ nr ≤ p) → rd d p = rd data p))
    (nr / 2) data
    ⟨rfl, fun p hp => by omega, fun _ _ => rfl⟩
    (by
      intro i d hi ⟨h1, h2, h3⟩
      have e : nr - i - 1 = nr - 1 - i := by omega
      have hi1 : i < d.length := by omega
      have hj1 : nr - 1 - i < d.length := by omega
      have hsw : (d.set i (rd d (nr - 1 - i))).set (nr - i - 1) (rd d i) =
          swap d i (nr - 1 - i) := by rw [e]; rfl
      beta_reduce
      rw [hsw]
      refine ⟨by simp [h1], ?_, ?_⟩
      · intro p hp
        rw [rd_swap _ _ hi1 hj1]
        by_cases hp1 : p = nr - 1 - i
        · rw [if_pos hp1, h3 i (Or.inl ⟨Nat.le_refl _, by omega⟩)]
          congr 1; omega
        · rw [if_neg hp1]
          by_cases hp2 : p = i
          · rw [if_pos hp2, h3 (nr - 1 - i) (Or.inl ⟨by omega, by omega⟩), hp2]
          · rw [if_neg hp2]
            exact h2 p (by omega)
      · intro p hp
        rw [rd_swap _ _ hi1 hj1, if_neg (by omega), if_neg (by omega)]
        exact h3 p (by omega))
  obtain ⟨h1, h2, h3⟩ := h
  refine ⟨h1, ?_, fun p hp => h3 p (Or.inr hp)⟩
  intro p hp
  by_cases hm : p < nr / 2 ∨ (nr - nr / 2 ≤ p ∧ p < nr)
  · exact h2 p hm
  · rw [h3 p (Or.inl ⟨by omega, by omega⟩)]
    congr 1; omega

theorem reverse_copy_rd (data res : List α) (nr : Nat) (hnr : nr ≤ data.length) :
    (reverse data (some res) nr).length = data.length ∧
      (∀ p, p < nr → rd (reverse data (some res) nr) p = rd res (nr - 1 - p)) ∧
      (∀ p, nr ≤ p → rd (reverse data (some res) nr) p = rd data p) := by
  unfold reverse
  have h := foldl_range_inv
    (fun d i => d.set i (rd res (nr - 1 - i)))
    (fun m d => d.length = data.length ∧
      (∀ p, p < m → rd d p = rd res (nr - 1 - p)) ∧ (∀ p, m ≤ p → rd d p = rd data p))
    nr data ⟨rfl, fun p hp => by omega, fun _ _ => rfl⟩
    (by
      intro i d hi ⟨h1, h2, h3⟩
      beta_reduce
      refine ⟨by simp [h1], ?_, ?_⟩
      · intro p hp
        rw [rd_set]
        by_cases hp2 : i = p
        · have : i < d.length := by omega
          subst hp2
          simp [this]
        · simp only [hp2, false_and, if_false]
          exact h2 p (by omega)
      · intro p hp
        rw [rd_set_ne _ _ (by omega)]
        exact h3 p (by omega))
  exact h

theorem objcopy_rd (dst src : List α) (n : Nat) (hn : n ≤ dst.length) :
    (objcopy dst src n).length = dst.length ∧
      (∀ p, p < n → rd (objcopy dst src n) p = rd src p) ∧
      (∀ p, n ≤ p → rd (objcopy dst src n) p = rd dst p) := by
  unfold objcopy
  have h := foldl_range_inv
    (fun d i => d.set i (rd src i))
    (fun m d => d.length = dst.length ∧
      (∀ p, p < m → rd d p = rd src p) ∧ (∀ p, m ≤ p → rd d p = rd dst p))
    n dst ⟨rfl, fun p hp => by omega, fun _ _ => rfl⟩
    (by
      intro i d hi ⟨h1, h2, h3⟩
      beta_reduce
      refine ⟨by simp [h1], ?_, ?_⟩
      · intro p hp
        rw [rd_set]
        by_cases hp2 : i = p
        · have : i < d.length := by omega
          subst hp2
          simp [this]
        · simp only [hp2, false_and, if_false]
          exact h2 p (by omega)
      · intro p hp
        rw [rd_set_ne _ _ (by omega)]
        exact h3 p (by omega))
  exact h

theorem rd_reverse (l : List α) {p : Nat} (hp : p < l.length) :
    rd l.reverse p = rd l (l.length - 1 - p) := by
  rw [rd_of_lt _ (by simpa using hp), rd_of_lt _ (by omega), List.getElem_reverse]

/-- In place, `reverse` turns the first `nr` cells around and leaves the others. -/
theorem reverse_inplace_eq (data : List α) (nr : Nat) (hnr : nr ≤ data.length) :
    reverse data none nr = (data.take nr).reverse ++ data.drop nr := by
  obtain ⟨h1, h2, h3⟩ := reverse_inplace_rd data nr hnr
  apply ext_rd (by simp [h1]; omega)
  intro p hp
  by_cases hpn : p < nr
  · rw [h2 p hpn, rd_append_left _ _ (by simp; omega), rd_reverse _ (by simp; omega)]
    simp only [List.length_take, Nat.min_eq_left hnr]
    rw [rd_take _ (by omega)]
  · rw [h3 p (by omega), rd_append_right _ _ (by simp; omega), rd_drop]
    simp only [List.length_reverse, List.length_take, Nat.min_eq_left hnr]
    congr 1; omega

/-- From another buffer, `reverse` writes the first `nr` cells of `res` backwards. -/
theorem reverse_copy_eq (data res : List α) (nr : Nat) (hnr : nr ≤ data.length)
    (hres : nr ≤ res.length) :
    reverse data (some res) nr = (res.take nr).reverse ++ data.drop nr := by
  obtain ⟨h1, h2, h3⟩ := reverse_copy_rd data res nr hnr
  apply ext_rd (by simp [h1]; omega)
  intro p hp
  by_cases hpn : p < nr
  · rw [h2 p hpn, rd_append_left _ _ (by simp; omega), rd_reverse _ (by simp; omega)]
    simp only [List.length_take, Nat.min_eq_left hres]
    rw [rd_take _ (by omega)]
  · rw [h3 p (by omega), rd_append_right _ _ (by simp; omega), rd_drop]
    simp only [List.length_reverse, List.length_take, Nat.min_eq_left hres]
    congr 1; omega

theorem objcopy_eq (dst src : List α) (n : Nat) (hn : n ≤ dst.length) (hs : n ≤ src.length) :
    objcopy dst src n = src.take n ++ dst.drop n := by
  obtain ⟨h1, h2, h3⟩ := objcopy_rd dst src n hn
  apply ext_rd (by simp [h1]; omega)
  intro p hp
  by_cases hpn : p < n
  · rw [h2 p hpn, rd_append_left _ _ (by simp; omega), rd_take _ hpn]
  · rw [h3 p (by omega), rd_append_right _ _ (by simp; omega), rd_drop]
    simp only [List.length_take, Nat.min_eq_left hs]
    congr 1; omega

end GenSort

/-! ## The scan and stitch phases of `parSort` -/

namespace GenSort

open Gen (foldl_range_inv foldl_range'_inv)

theorem runStarts_length_pos (inv : Nat → Bool) (lo hi : Nat) :
    0 < (runStarts inv lo hi).length := by
  simp [runStarts]

theorem runStarts_self (inv : Nat → Bool) (lo : Nat) : runStarts inv lo (lo + 1) = [lo] := by
  simp [runStarts]

theorem runStarts_succ (inv : Nat → Bool) (lo k : Nat) (h : lo < k) :
    runStarts inv lo (k + 1) = runStarts inv lo k ++ (if inv k then [k] else []) := by
  unfold runStarts
  have e : k + 1 - (lo + 1) = (k - (lo + 1)) + 1 := by omega
  rw [e, List.range'_concat, List.filter_append]
  have e2 : lo + 1 + 1 * (k - (lo + 1)) = k := by omega
  rw [e2]
  by_cases hk : inv k = true
  · simp [hk]
  · simp [hk]

theorem runStarts_length_le (inv : Nat → Bool) (lo hi : Nat) (h : lo < hi) :
    (runStarts inv lo hi).length ≤ hi - lo := by
  unfold runStarts
  have := List.length_filter_le inv (List.range' (lo + 1) (hi - (lo + 1)))
  simp only [List.length_cons, List.length_range'] at this ⊢
  omega

theorem runStarts_split (inv : Nat → Bool) (lo mid hi : Nat) (h1 : lo < mid) (h2 : mid < hi) :
    runStarts inv lo hi =
      runStarts inv lo mid ++ (if inv mid then [mid] else []) ++ (runStarts inv mid hi).tail := by
  unfold runStarts
  have e2 : lo + 1 + 1 * (mid - (lo + 1)) = mid := by omega
  have hs : List.range' (lo + 1) (hi - (lo + 1)) =
      List.range' (lo + 1) (mid - (lo + 1)) ++ List.range' mid (hi - (mid + 1) + 1) := by
    have := List.range'_append (lo + 1) (mid - (lo + 1)) (hi - (mid + 1) + 1) 1
    rw [e2] at this
    rw [this]; congr 1; omega
  rw [hs, List.range'_succ, List.filter_append, List.filter_cons]
  by_cases hk : inv mid = true
  · simp [hk]
  · simp [hk]

theorem rd_tail {α : Type} [Inhabited α] (l : List α) (q : Nat) : rd l.tail q = rd l (q + 1) := by
  cases l with
  | nil => simp [rd]
  | cons a l => simp [rd]

theorem rd_cons_zero {α : Type} [Inhabited α] (a : α) (l : List α) : rd (a :: l) 0 = a := by
  simp [rd]

theorem rd_runStarts_zero (inv : Nat → Bool) (lo hi : Nat) : rd (runStarts inv lo hi) 0 = lo :=
  rd_cons_zero _ _

theorem sliceBounds_spec (nr nthr : Nat) :
    (sliceBounds nr nthr).length = nthr + 1 ∧
      (∀ i, i < nthr → rd (sliceBounds nr nthr) i = i * (nr / nthr)) ∧
      rd (sliceBounds nr nthr) nthr = nr := by
  unfold sliceBounds
  have h := foldl_range_inv
    (fun (t : List Nat) i => t.set i (i * (nr / nthr)))
    (fun m t => t.length = nthr + 1 ∧ ∀ i, i < m → rd t i = i * (nr / nthr))
    nthr (List.replicate (nthr + 1) 0) ⟨by simp, fun i hi => by omega⟩
    (by
      intro i t hi ⟨h1, h2⟩
      beta_reduce
      refine ⟨by simp [h1], ?_⟩
      intro j hj
      by_cases hji : j = i
      · subst hji; rw [rd_set_self _ _ (by omega)]
      · rw [rd_set_ne _ _ (fun h => hji h.symm)]; exact h2 j (by omega))
  obtain ⟨h1, h2⟩ := h
  dsimp only
  refine ⟨by simp [h1], ?_, ?_⟩
  · intro i hi
    rw [rd_set_ne _ _ (by omega)]; exact h2 i hi
  · rw [rd_set_self _ _ (by omega)]

/-- The slice bounds start at `0`, end at `nr` and increase strictly when there are at most
as many workers as cells. -/
theorem sliceBounds_mono (nr nthr : Nat) (h1 : 1 ≤ nthr) (h2 : nthr ≤ nr) :
    rd (sliceBounds nr nthr) 0 = 0 ∧ rd (sliceBounds nr nthr) nthr = nr ∧
      ∀ i, i < nthr → rd (sliceBounds nr nthr) i < rd (sliceBounds nr nthr) (i + 1) := by
  obtain ⟨_, a2, a3⟩ := sliceBounds_spec nr nthr
  have hstep : 1 ≤ nr / nthr := (Nat.one_le_div_iff (by omega)).2 h2
  have hmul : nthr * (nr / nthr) ≤ nr := Nat.mul_div_le nr nthr
  refine ⟨by rw [a2 0 (by omega)]; simp, a3, ?_⟩
  intro i hi
  rw [a2 i hi]
  by_cases hl : i + 1 < nthr
  · rw [a2 (i + 1) hl]
    nlinarith
  · have : i + 1 = nthr := by omega
    rw [this, a3]
    have : (i + 1) * (nr / nthr) ≤ nr := by rw [this]; exact hmul
    nlinarith

theorem scanSlice_spec (inv : Nat → Bool) (tinx : List Nat) (i : Nat) (index : List Nat)
    (hlt : rd tinx i < rd tinx (i + 1)) (hlen : rd tinx (i + 1) ≤ index.length) :
    (scanSlice inv tinx i index).2 = (runStarts inv (rd tinx i) (rd tinx (i + 1))).length ∧
      (scanSlice inv tinx i index).1.length = index.length ∧
      (∀ q, q < (scanSlice inv tinx i index).2 →
        rd (scanSlice inv tinx i index).1 (rd tinx i + q) =
          rd (runStarts inv (rd tinx i) (rd tinx (i + 1))) q) ∧
      (∀ p, (p < rd tinx i ∨ rd tinx (i + 1) ≤ p) →
        rd (scanSlice inv tinx i index).1 p = rd index p) := by
  unfold scanSlice
  generalize rd tinx i = t at hlt ⊢
  generalize rd tinx (i + 1) = t' at hlt hlen ⊢
  have h := foldl_range'_inv
    (fun (s : List Nat × Nat) j => if inv j then (s.1.set (t + s.2) j, s.2 + 1) else s)
    (fun k s => s.2 = (runStarts inv t k).length ∧ s.1.length = index.length ∧
      (∀ q, q < s.2 → rd s.1 (t + q) = rd (runStarts inv t k) q) ∧
      (∀ p, (p < t ∨ k ≤ p) → rd s.1 p = rd index p))
    (t' - (t + 1)) (t + 1) (index.set t t, 1)
    (by
      refine ⟨by simp [runStarts_self], by simp, ?_, ?_⟩
      · intro q hq
        have : q = 0 := by simp only at hq; omega
        subst this
        rw [runStarts_self]
        simp only [Nat.add_zero]
        rw [rd_set_self _ _ (by omega), rd_cons_zero]
      · intro p hp
        simp only
        rw [rd_set_ne _ _ (by omega)])
    (by
      rintro k ⟨idx, n⟩ hk1 hk2 ⟨h1, h2, h3, h4⟩
      simp only at h1 h2 h3 h4
      have hle := runStarts_length_le inv t k (by omega)
      beta_reduce
      rw [runStarts_succ inv t k (by omega)]
      by_cases hinv : inv k = true
      · simp only [hinv, if_true]
        refine ⟨by simp [h1], by simp [h2], ?_, ?_⟩
        · intro q hq
          by_cases hqn : q < n
          · rw [rd_set_ne _ _ (by omega), h3 q hqn, rd_append_left _ _ (by omega)]
          · have hqe : q = n := by omega
            subst hqe
            rw [rd_set_self _ _ (by omega), rd_append_right _ _ (by omega), h1]
            simp [rd]
        · intro p hp
          rw [rd_set_ne _ _ (by omega)]
          exact h4 p (by omega)
      · simp only [hinv, if_false]
        refine ⟨by simp [h1], h2, ?_, fun p hp => h4 p (by omega)⟩
        intro q hq
        simpa using h3 q hq)
  have e : t + 1 + (t' - (t + 1)) = t' := by omega
  rw [e] at h
  exact h

theorem Slices.bound_mono {tinx : List Nat} {nr nthr : Nat} (h : Slices tinx nr nthr) :
    ∀ j i, i ≤ j → j ≤ nthr → rd tinx i ≤ rd tinx j := by
  intro j
  induction j with
  | zero => intro i hi _; have : i = 0 := by omega
            subst this; exact Nat.le_refl _
  | succ j ih =>
    intro i hi hj
    by_cases hij : i = j + 1
    · subst hij; exact Nat.le_refl _
    · exact Nat.le_trans (ih i (by omega) (by omega)) (Nat.le_of_lt (h.step j (by omega)))

theorem Slices.bound_le {tinx : List Nat} {nr nthr : Nat} (h : Slices tinx nr nthr) (i : Nat)
    (hi : i ≤ nthr) : rd tinx i ≤ nr := by
  have := h.bound_mono nthr i hi (Nat.le_refl _)
  rwa [h.last] at this

theorem scanAll_spec (inv : Nat → Bool) (tinx : List Nat) (nr nthr : Nat)
    (hs : Slices tinx nr nthr) (index np : List Nat) (hlen : index.length = nr + 1)
    (hnp : np.length = nthr) :
    (scanAll inv tinx nthr index np).1.length = nr + 1 ∧
      (scanAll inv tinx nthr index np).2.length = nthr ∧
      ∀ i, i < nthr →
        rd (scanAll inv tinx nthr index np).2 i =
          (runStarts inv (rd tinx i) (rd tinx (i + 1))).length ∧
        ∀ q, q < (runStarts inv (rd tinx i) (rd tinx (i + 1))).length →
          rd (scanAll inv tinx nthr index np).1 (rd tinx i + q) =
            rd (runStarts inv (rd tinx i) (rd tinx (i + 1))) q := by
  unfold scanAll
  have h := foldl_range_inv
    (fun (s : List Nat × List Nat) i =>
      ((scanSlice inv tinx i s.1).1, s.2.set i (scanSlice inv tinx i s.1).2))
    (fun m s => s.1.length = nr + 1 ∧ s.2.length = nthr ∧
      ∀ i, i < m →
        rd s.2 i = (runStarts inv (rd tinx i) (rd tinx (i + 1))).length ∧
        ∀ q, q < (runStarts inv (rd tinx i) (rd tinx (i + 1))).length →
          rd s.1 (rd tinx i + q) = rd (runStarts inv (rd tinx i) (rd tinx (i + 1))) q)
    nthr (index, np) ⟨hlen, hnp, fun i hi => by omega⟩
    (by
      rintro m ⟨idx, n⟩ hm ⟨h1, h2, h3⟩
      dsimp only at h1 h2 h3
      have hle : rd tinx (m + 1) ≤ nr := hs.bound_le (m + 1) (by omega)
      obtain ⟨a1, a2, a3, a4⟩ := scanSlice_spec inv tinx m idx (hs.step m hm) (by omega)
      beta_reduce
      dsimp only
      refine ⟨by rw [a2, h1], by simp [h2], ?_⟩
      intro i hi
      by_cases him : i = m
      · subst him
        refine ⟨by rw [rd_set_self _ _ (by omega)]; exact a1, ?_⟩
        intro q hq
        exact a3 q (by rw [a1]; exact hq)
      · have hil : i < m := by omega
        obtain ⟨b1, b2⟩ := h3 i hil
        refine ⟨by rw [rd_set_ne _ _ (by omega)]; exact b1, ?_⟩
        intro q hq
        have hb := runStarts_length_le inv (rd tinx i) (rd tinx (i + 1)) (hs.step i (by omega))
        have hmono := hs.bound_mono m (i + 1) (by omega) (by omega)
        rw [a4 _ (Or.inl (by omega))]
        exact b2 q hq)
  exact h

/-- The stitch loop leaves in `index` the run starts of the whole buffer. -/
theorem stitch_spec (inv junc : Nat → Bool) (tinx np : List Nat) (nr nthr : Nat)
    (hs : Slices tinx nr nthr) (hn : 1 ≤ nthr)
    (hj : ∀ i, 1 ≤ i → i < nthr → junc i = inv (rd tinx i)) (index : List Nat)
    (hlen : index.length = nr + 1)
    (hsl : ∀ i, i < nthr →
      rd np i = (runStarts inv (rd tinx i) (rd tinx (i + 1))).length ∧
      ∀ q, q < (runStarts inv (rd tinx i) (rd tinx (i + 1))).length →
        rd index (rd tinx i + q) = rd (runStarts inv (rd tinx i) (rd tinx (i + 1))) q) :
    (stitch junc tinx np nthr index).2 = (runStarts inv 0 nr).length ∧
      (stitch junc tinx np nthr index).1.length = nr + 1 ∧
      ∀ q, q < (runStarts inv 0 nr).length →
        rd (stitch junc tinx np nthr index).1 q = rd (runStarts inv 0 nr) q := by
  unfold stitch
  have h := foldl_range'_inv
    (fun (s : List Nat × Nat) i =>
      if (if junc i then (s.1.set s.2 (rd s.1 (rd tinx i)), s.2 + 1) else s).2 =
          rd tinx i + 1 then
        ((if junc i then (s.1.set s.2 (rd s.1 (rd tinx i)), s.2 + 1) else s).1,
          (if junc i then (s.1.set s.2 (rd s.1 (rd tinx i)), s.2 + 1) else s).2 +
            (rd np i - 1))
      else
        (List.range' 1 (rd np i - 1)).foldl
          (fun (u : List Nat × Nat) j => (u.1.set u.2 (rd u.1 (rd tinx i + j)), u.2 + 1))
          (if junc i then (s.1.set s.2 (rd s.1 (rd tinx i)), s.2 + 1) else s))
    (fun m s => s.2 = (runStarts inv 0 (rd tinx m)).length ∧ s.1.length = nr + 1 ∧
      (∀ q, q < s.2 → rd s.1 q = rd (runStarts inv 0 (rd tinx m)) q) ∧
      ∀ i, m ≤ i → i < nthr →
        ∀ q, q < (runStarts inv (rd tinx i) (rd tinx (i + 1))).length →
          rd s.1 (rd tinx i + q) = rd (runStarts inv (rd tinx i) (rd tinx (i + 1))) q)
    (nthr - 1) 1 (index, rd np 0)
    (by
      have h0 := hsl 0 (by omega)
      rw [hs.first] at h0
      refine ⟨?_, hlen, ?_, fun i _ hi => (hsl i hi).2⟩
      · simpa using h0.1
      · intro q hq
        have := h0.2 q (by simp only at hq; rw [← h0.1]; exact hq)
        simpa using this)
    (by
      rintro m ⟨idx, n⟩ hm1 hm2 ⟨h1, h2, h3, h4⟩
      dsimp only at h1 h2 h3 h4
      have hmn : m < nthr := by omega
      have ht0 : 0 < rd tinx m := by
        have := hs.bound_mono m 1 hm1 (by omega)
        have := hs.step 0 (by omega)
        rw [hs.first, Nat.zero_add] at this
        omega
      have htt : rd tinx m < rd tinx (m + 1) := hs.step m hmn
      have htn : rd tinx (m + 1) ≤ nr := hs.bound_le (m + 1) (by omega)
      have hB := runStarts_length_le inv 0 (rd tinx m) ht0
      have hS := runStarts_length_le inv (rd tinx m) (rd tinx (m + 1)) htt
      have hSpos := runStarts_length_pos inv (rd tinx m) (rd tinx (m + 1))
      have hnpm := (hsl m hmn).1
      have hsplit := runStarts_split inv 0 (rd tinx m) (rd tinx (m + 1)) ht0 htt
      have hidt : rd idx (rd tinx m) = rd tinx m := by
        have := h4 m (Nat.le_refl _) hmn 0 hSpos
        rw [rd_runStarts_zero] at this
        simpa using this
      beta_reduce
      rw [hj m hm1 hmn, hnpm, hidt]
      generalize hS1 : runStarts inv (rd tinx m) (rd tinx (m + 1)) = S at hS hSpos hsplit
      generalize hB1 : runStarts inv 0 (rd tinx m) = B at hB h1 h3 hsplit
      generalize ht : rd tinx m = t at ht0 htt hB hS hsplit hidt hS1 hB1
      -- after the junction test
      obtain ⟨s1, hs1, c1, c2, c3, c4⟩ : ∃ s1 : List Nat × Nat,
          s1 = (if inv t then (idx.set n t, n + 1) else (idx, n)) ∧
          s1.2 = (B ++ if inv t then [t] else []).length ∧ s1.1.length = nr + 1 ∧
          (∀ q, q < s1.2 → rd s1.1 q = rd (B ++ if inv t then [t] else []) q) ∧
          (∀ i, m ≤ i → i < nthr →
            ∀ q, q < (runStarts inv (rd tinx i) (rd tinx (i + 1))).length →
              rd s1.1 (rd tinx i + q) = rd (runStarts inv (rd tinx i) (rd tinx (i + 1))) q) := by
        refine ⟨_, rfl, ?_⟩
        by_cases hinv : inv t = true
        · simp only [hinv, if_true]
          refine ⟨by simp [h1], by simp [h2], ?_, ?_⟩
          · intro q hq
            by_cases hqn : q < n
            · rw [rd_set_ne _ _ (by omega), h3 q hqn, rd_append_left _ _ (by omega)]
            · have hqe : q = n := by omega
              subst hqe
              rw [rd_set_self _ _ (by omega), rd_append_right _ _ (by omega), h1]
              simp [rd]
          · intro i hi1 hi2 q hq
            have hmono := hs.bound_mono i m hi1 (by omega)
            rw [ht] at hmono
            by_cases hp : n = rd tinx i + q
            · rw [← hp, rd_set_self _ _ (by omega)]
              have hq0 : q = 0 := by omega
              subst hq0
              rw [rd_runStarts_zero]
              omega
            · rw [rd_set_ne _ _ hp]
              exact h4 i hi1 hi2 q hq
        · simp only [hinv, Bool.false_eq_true, if_false, List.append_nil]
          exact ⟨h1, h2, h3, h4⟩
      rw [← hs1]
      generalize hB2 : (B ++ if inv t then [t] else []) = B' at c1 c3 hsplit
      have hB'le : B'.length ≤ t + 1 := by
        rw [← hB2]
        by_cases hinv : inv t = true
        · simp [hinv]; omega
        · simp [hinv]; omega
      have hScells : ∀ q, q < S.length → rd s1.1 (t + q) = rd S q := by
        intro q hq
        have := c4 m (Nat.le_refl _) hmn q (by rw [ht, hS1]; exact hq)
        rw [ht, hS1] at this
        exact this
      have hlater : ∀ i, m + 1 ≤ i → i < nthr →
          ∀ q, q < (runStarts inv (rd tinx i) (rd tinx (i + 1))).length →
            rd s1.1 (rd tinx i + q) = rd (runStarts inv (rd tinx i) (rd tinx (i + 1))) q :=
        fun i hi1 hi2 => c4 i (by omega) hi2
      obtain ⟨idx1, n1⟩ := s1
      dsimp only at c1 c2 c3 hScells hlater ⊢
      rw [hsplit]
      by_cases hfull : n1 = t + 1
      · rw [if_pos hfull]
        refine ⟨by simp [c1] <;> omega, c2, ?_, hlater⟩
        intro q hq
        by_cases hqn : q < n1
        · rw [c3 q hqn, rd_append_left _ _ (by omega)]
        · rw [rd_append_right _ _ (by omega), rd_tail, ← c1]
          have := hScells (q - n1 + 1) (by simp only at hq; omega)
          rw [← this]
          congr 1; omega
      · rw [if_neg hfull]
        have hn1 : n1 ≤ t := by omega
        have hin := foldl_range'_inv
          (fun (u : List Nat × Nat) j => (u.1.set u.2 (rd u.1 (t + j)), u.2 + 1))
          (fun j u => u.2 = n1 + (j - 1) ∧ u.1.length = nr + 1 ∧
            (∀ q, q < u.2 → rd u.1 q = rd (B' ++ S.tail) q) ∧
            (∀ q, j ≤ q → q < S.length → rd u.1 (t + q) = rd S q) ∧
            (∀ i, m + 1 ≤ i → i < nthr →
              ∀ q, q < (runStarts inv (rd tinx i) (rd tinx (i + 1))).length →
                rd u.1 (rd tinx i + q) =
                  rd (runStarts inv (rd tinx i) (rd tinx (i + 1))) q))
          (S.length - 1) 1 (idx1, n1)
          ⟨by simp, c2, fun q hq => by
              simp only [Nat.sub_self, Nat.add_zero] at hq
              rw [c3 q hq, rd_append_left _ _ (by omega)],
            fun q _ hq => hScells q hq, hlater⟩
          (by
            rintro j ⟨ix, k⟩ hj1 hj2 ⟨d1, d2, d3, d4, d5⟩
            dsimp only at d1 d2 d3 d4 d5
            beta_reduce
            dsimp only
            refine ⟨by omega, by simp [d2], ?_, ?_, ?_⟩
            · intro q hq
              by_cases hqk : q < k
              · rw [rd_set_ne _ _ (by omega)]; exact d3 q hqk
              · have hqe : q = k := by omega
                subst hqe
                rw [rd_set_self _ _ (by omega), d4 j (Nat.le_refl _) (by omega),
                  rd_append_right _ _ (by omega), rd_tail]
                congr 1; omega
            · intro q hq1 hq2
              rw [rd_set_ne _ _ (by omega)]
              exact d4 q (by omega) hq2
            · intro i hi1 hi2 q hq
              have hmono := hs.bound_mono i (m + 1) hi1 (by omega)
              rw [rd_set_ne _ _ (by omega)]
              exact d5 i hi1 hi2 q hq)
        have e : 1 + (S.length - 1) = S.length := by omega
        rw [e] at hin
        obtain ⟨d1, d2, d3, _, d5⟩ := hin
        refine ⟨by rw [d1]; simp [c1] <;> omega, d2, d3, d5⟩)
  have e : 1 + (nthr - 1) = nthr := by omega
  rw [e, hs.last] at h
  obtain ⟨h1, h2, h3, _⟩ := h
  exact ⟨h1, h2, fun q hq => h3 q (by rw [h1]; exact hq)⟩

end GenSort

/-! ## What the scan and stitch phases hand to the merge -/

namespace GenSort

theorem RunIndex.mono {index : List Nat} {np nr : Nat} (h : RunIndex index np nr) :
    ∀ j i, i ≤ j → j ≤ np → rd index i ≤ rd index j := by
  intro j
  induction j with
  | zero => intro i hi _; have : i = 0 := by omega
            subst this; exact Nat.le_refl _
  | succ j ih =>
    intro i hi hj
    by_cases hij : i = j + 1
    · subst hij; exact Nat.le_refl _
    · exact Nat.le_trans (ih i (by omega) (by omega)) (Nat.le_of_lt (h.incr j (by omega)))

theorem RunIndex.le_nr {index : List Nat} {np nr : Nat} (h : RunIndex index np nr) (i : Nat)
    (hi : i ≤ np) : rd index i ≤ nr := by
  have := h.mono np i hi (Nat.le_refl _)
  rwa [h.last] at this

theorem RunIndex.np_le {index : List Nat} {np nr : Nat} (h : RunIndex index np nr) :
    ∀ t, t ≤ np → t ≤ rd index t := by
  intro t
  induction t with
  | zero => intro _; exact Nat.zero_le _
  | succ t ih =>
    intro ht
    have := h.incr t (by omega)
    have := ih (by omega)
    omega

theorem runStarts_pairwise (inv : Nat → Bool) (lo hi : Nat) :
    (runStarts inv lo hi).Pairwise (· < ·) := by
  unfold runStarts
  rw [List.pairwise_cons]
  constructor
  · intro x hx
    have := (List.mem_filter.1 hx).1
    rw [List.mem_range'_1] at this
    omega
  · apply List.Pairwise.sublist (List.filter_sublist _)
    exact List.pairwise_lt_range' _ _

theorem runStarts_mem (inv : Nat → Bool) (lo hi j : Nat) :
    j ∈ runStarts inv lo hi ↔ j = lo ∨ (lo < j ∧ j < hi ∧ inv j = true) := by
  unfold runStarts
  rw [List.mem_cons, List.mem_filter, List.mem_range'_1]
  constructor
  · rintro (h | ⟨⟨h1, h2⟩, h3⟩)
    · exact Or.inl h
    · exact Or.inr ⟨by omega, by omega, h3⟩
  · rintro (h | ⟨h1, h2, h3⟩)
    · exact Or.inl h
    · exact Or.inr ⟨⟨by omega, by omega⟩, h3⟩

/-- What `findRuns` returns when there are at most as many workers as cells: the run starts
of the whole buffer, closed by `nr`. -/
theorem findRuns_spec (inv junc : Nat → Bool) (nr nthr : Nat) (h1 : 1 ≤ nthr) (h2 : nthr ≤ nr)
    (hj : ∀ i, 1 ≤ i → i < nthr → junc i = inv (rd (sliceBounds nr nthr) i)) :
    (findRuns inv junc nr nthr).2 = (runStarts inv 0 nr).length ∧
      (findRuns inv junc nr nthr).1.length = nr + 1 ∧
      (∀ q, q < (runStarts inv 0 nr).length →
        rd (findRuns inv junc nr nthr).1 q = rd (runStarts inv 0 nr) q) ∧
      rd (findRuns inv junc nr nthr).1 (findRuns inv junc nr nthr).2 = nr := by
  obtain ⟨m1, m2, m3⟩ := sliceBounds_mono nr nthr h1 h2
  have hs : Slices (sliceBounds nr nthr) nr nthr := ⟨m1, m2, m3⟩
  obtain ⟨a1, a2, a3⟩ := scanAll_spec inv (sliceBounds nr nthr) nr nthr hs
    (List.replicate (nr + 1) 0) (List.replicate nthr 0) (by simp) (by simp)
  obtain ⟨b1, b2, b3⟩ := stitch_spec inv junc (sliceBounds nr nthr) _ nr nthr hs h1 hj _ a1 a3
  have hle := runStarts_length_le inv 0 nr (by omega)
  unfold findRuns
  dsimp only
  rw [b1]
  refine ⟨rfl, by simp [b2], ?_, ?_⟩
  · intro q hq
    rw [rd_set_ne _ _ (by omega)]
    exact b3 q hq
  · rw [rd_set_self _ _ (by omega)]

/-- The boundaries `findRuns` returns are run boundaries, and no run test holds strictly
inside a run. -/
theorem findRuns_runIndex (inv junc : Nat → Bool) (nr nthr : Nat) (h1 : 1 ≤ nthr)
    (h2 : nthr ≤ nr)
    (hj : ∀ i, 1 ≤ i → i < nthr → junc i = inv (rd (sliceBounds nr nthr) i)) :
    RunIndex (findRuns inv junc nr nthr).1 (findRuns inv junc nr nthr).2 nr ∧
      (∀ t, t < (findRuns inv junc nr nthr).2 → ∀ j,
        rd (findRuns inv junc nr nthr).1 t < j → j < rd (findRuns inv junc nr nthr).1 (t + 1) →
          inv j = false) ∧
      ((findRuns inv junc nr nthr).2 = nr ↔ ∀ j, 1 ≤ j → j < nr → inv j = true) := by
  obtain ⟨c1, c2, c3, c4⟩ := findRuns_spec inv junc nr nthr h1 h2 hj
  generalize (findRuns inv junc nr nthr).1 = index at c1 c2 c3 c4 ⊢
  generalize (findRuns inv junc nr nthr).2 = np at c1 c2 c3 c4 ⊢
  have hpw := runStarts_pairwise inv 0 nr
  have hle := runStarts_length_le inv 0 nr (by omega)
  have hpos := runStarts_length_pos inv 0 nr
  rw [← c1] at hle hpos c3
  have hB : ∀ q, q < np → rd index q ∈ runStarts inv 0 nr := by
    intro q hq
    rw [c3 q hq]; exact rd_mem _ (by omega)
  have hlt : ∀ q, q < np → rd index q < nr := by
    intro q hq
    rcases (runStarts_mem inv 0 nr _).1 (hB q hq) with h | ⟨_, h, _⟩
    · omega
    · exact h
  have hincr : ∀ p q, p < q → q < np → rd index p < rd index q := by
    intro p q hpq hq
    have hp' : p < (runStarts inv 0 nr).length := by omega
    have hq' : q < (runStarts inv 0 nr).length := by omega
    rw [c3 p (by omega), c3 q hq, rd_of_lt _ hp', rd_of_lt _ hq']
    exact (List.pairwise_iff_getElem.1 hpw) p q hp' hq' hpq
  have hri : RunIndex index np nr := by
    refine ⟨hpos, ?_, c4, ?_, by omega⟩
    · rw [c3 0 hpos, rd_runStarts_zero]
    · intro t ht
      by_cases htl : t + 1 < np
      · exact hincr t (t + 1) (by omega) htl
      · have : t + 1 = np := by omega
        rw [this, c4]; exact hlt t ht
  refine ⟨hri, ?_, ?_⟩
  · intro t ht j hj1 hj2
    by_contra hinv
    have hinv' : inv j = true := by simpa using hinv
    have hjn : j < nr := by
      have := hri.le_nr (t + 1) (by omega)
      omega
    have hmem : j ∈ runStarts inv 0 nr :=
      (runStarts_mem inv 0 nr j).2 (Or.inr ⟨by omega, hjn, hinv'⟩)
    obtain ⟨r, hr, e⟩ := List.mem_iff_getElem.1 hmem
    rw [← c1] at hr
    have e' : rd index r = j := by rw [c3 r hr, rd_of_lt _ (by omega)]; exact e
    -- `r` would lie strictly between `t` and `t + 1`
    have h1 : t < r := by
      by_contra hc
      have : r ≤ t := by omega
      have := hri.mono t r this (by omega)
      omega
    have h2 : r < t + 1 := by
      by_contra hc
      have := hri.mono r (t + 1) (by omega) (by omega)
      omega
    omega
  · have c1' : np = ((List.range' 1 (nr - 1)).filter inv).length + 1 := by
      rw [c1]; simp [runStarts]
    have hrl : (List.range' 1 (nr - 1)).length = nr - 1 := by simp
    constructor
    · intro hnp j hj1 hj2
      have hlen : ((List.range' 1 (nr - 1)).filter inv).length =
          (List.range' 1 (nr - 1)).length := by omega
      exact List.filter_length_eq_length.1 hlen j (by rw [List.mem_range'_1]; omega)
    · intro hall
      have hlen : ((List.range' 1 (nr - 1)).filter inv).length =
          (List.range' 1 (nr - 1)).length := by
        apply List.filter_length_eq_length.2
        intro j hj
        rw [List.mem_range'_1] at hj
        exact hall j (by omega) (by omega)
      omega

end GenSort

/-! ## The merge of two adjacent runs -/

namespace Gen

open GenSort (rd rd_set rd_set_self rd_set_ne Bufs Ptr)

variable {α : Type} [Inhabited α]

theorem rd_eq_cell (m : Bufs α) (p : Ptr) (i : Nat) : m.rd p i = cell m p.1 (p.2 + i) := by
  obtain ⟨c, o⟩ := p
  cases c <;> simp [Bufs.rd, cell, Bufs.buf]

theorem buf_wr (m : Bufs α) (p : Ptr) (k : Nat) (v : α) (c : Bool) :
    (m.wr p k v).buf c = if c = p.1 then (m.buf c).set (p.2 + k) v else m.buf c := by
  obtain ⟨b, o⟩ := p
  cases b <;> cases c <;> simp [Bufs.wr, Bufs.buf]

theorem length_buf_wr (m : Bufs α) (p : Ptr) (k : Nat) (v : α) (c : Bool) :
    ((m.wr p k v).buf c).length = (m.buf c).length := by
  rw [buf_wr]; split <;> simp

theorem cell_wr (m : Bufs α) (p : Ptr) (k : Nat) (v : α) (c : Bool) (x : Nat) :
    cell (m.wr p k v) c x =
      if c = p.1 ∧ p.2 + k = x ∧ x < (m.buf c).length then v else cell m c x := by
  unfold cell
  rw [buf_wr]
  by_cases hc : c = p.1
  · simp only [hc, if_true, true_and]
    rw [rd_set]
    by_cases hx : p.2 + k = x
    · subst hx; simp
    · simp [hx]
  · simp [hc]

theorem length_runList (m : Bufs α) (p : Ptr) (n : Nat) : (runList m p n).length = n := by
  simp [runList]

theorem rd_runList (m : Bufs α) (p : Ptr) {n q : Nat} (h : q < n) :
    rd (runList m p n) q = cell m p.1 (p.2 + q) := by
  rw [GenSort.rd_of_lt _ (by simpa [runList] using h)]
  simp [runList, rd_eq_cell]

theorem drop_cons_rd {l : List α} {k : Nat} {z : α} {r : List α} (h : l.drop k = z :: r) :
    rd l k = z ∧ l.drop (k + 1) = r := by
  have hk : k < l.length := by
    by_contra hc
    rw [List.drop_eq_nil_of_le (by omega)] at h
    exact List.noConfusion h
  rw [List.drop_eq_getElem_cons hk] at h
  injection h with h1 h2
  exact ⟨by rw [GenSort.rd_of_lt _ hk]; exact h1, h2⟩

theorem drop_rd_cons (l : List α) {k : Nat} (hk : k < l.length) :
    l.drop k = rd l k :: l.drop (k + 1) := by
  rw [GenSort.rd_of_lt _ hk]; exact List.drop_eq_getElem_cons hk

theorem mergeWhile_spec (tl : α → α → Bool) (m0 : Bufs α) (a b c : Bool) (hab : a ≠ b)
    (o na nb : Nat) (A B : List α) (hA : A.length = na) (hB : B.length = nb)
    (hb : o + na + nb ≤ (m0.buf b).length) (fuel : Nat) :
    ∀ (m : Bufs α) (ia ib : Nat), (na - ia) + (nb - ib) < fuel →
      MergeInv tl m0 m a b c o na nb A B ia ib →
      ∃ m' ia' ib', mergeWhile tl (a, o) (c, o + na) (b, o) na nb fuel m ia ib (ia + ib) =
          some (m', ia', ib', ia' + ib') ∧
        MergeInv tl m0 m' a b c o na nb A B ia' ib' ∧ (ia' = na ∨ ib' = nb) := by
  induction fuel with
  | zero => intro m ia ib h _; omega
  | succ fuel ih =>
    intro m ia ib hf hinv
    by_cases hgo : ia < na ∧ ib < nb
    · have e1 : m.rd (a, o) ia = rd A ia := by
        rw [rd_eq_cell]; exact hinv.left ia hgo.1
      have e2 : m.rd (c, o + na) ib = rd B ib := by
        rw [rd_eq_cell]; exact hinv.right ib (Nat.le_refl _) hgo.2
      have hdA := drop_rd_cons A (k := ia) (by omega)
      have hdB := drop_rd_cons B (k := ib) (by omega)
      have hrest := hinv.rest
      rw [hdA, hdB, List.cons_merge_cons] at hrest
      by_cases htl : tl (rd A ia) (rd B ib) = true
      · rw [if_pos htl] at hrest
        obtain ⟨r1, r2⟩ := drop_cons_rd hrest
        have hinv' : MergeInv tl m0 (m.wr (b, o) (ia + ib) (rd A ia)) a b c o na nb A B
            (ia + 1) ib := by
          refine ⟨by omega, hinv.ib_le, ?_, ?_, ?_, ?_, ?_, ?_, ?_⟩
          · intro q hq
            rw [cell_wr]
            by_cases hqe : q = ia + ib
            · subst hqe
              have : o + (ia + ib) < (m.buf b).length := by rw [hinv.lenb]; omega
              simp only [true_and, this, and_self, if_true]
              exact r1.symm
            · have : ¬ ((b, o).2 + (ia + ib) = o + q) := by simp only; omega
              simp only [this, false_and, and_false, if_false]
              exact hinv.out q (by omega)
          · have e : ia + 1 + ib = ia + ib + 1 := by omega
            rw [e, r2, ← hdB]
          · intro i hi
            rw [cell_wr]
            simp only [hab, false_and, if_false]
            exact hinv.left i hi
          · intro i hi1 hi2
            rw [cell_wr]
            have : ¬ ((b, o).2 + (ia + ib) = o + na + i) := by simp only; omega
            simp only [this, false_and, and_false, if_false]
            exact hinv.right i hi1 hi2
          · intro x hx
            rw [cell_wr]
            have : ¬ ((b, o).2 + (ia + ib) = x) := by simp only; omega
            simp only [this, false_and, and_false, if_false]
            exact hinv.frame x hx
          · rw [buf_wr]; simp only [hab, if_false]; exact hinv.bufa
          · rw [length_buf_wr]; exact hinv.lenb
        obtain ⟨m', ia', ib', e, h1, h2⟩ := ih _ (ia + 1) ib (by omega) hinv'
        refine ⟨m', ia', ib', ?_, h1, h2⟩
        have e3 : ia + 1 + ib = ia + ib + 1 := by omega
        rw [e3] at e
        simp only [mergeWhile, if_pos hgo, e1, e2, if_pos htl, e]
      · rw [if_neg htl] at hrest
        obtain ⟨r1, r2⟩ := drop_cons_rd hrest
        have hinv' : MergeInv tl m0 (m.wr (b, o) (ia + ib) (rd B ib)) a b c o na nb A B
            ia (ib + 1) := by
          refine ⟨hinv.ia_le, by omega, ?_, ?_, ?_, ?_, ?_, ?_, ?_⟩
          · intro q hq
            rw [cell_wr]
            by_cases hqe : q = ia + ib
            · subst hqe
              have : o + (ia + ib) < (m.buf b).length := by rw [hinv.lenb]; omega
              simp only [true_and, this, and_self, if_true]
              exact r1.symm
            · have : ¬ ((b, o).2 + (ia + ib) = o + q) := by simp only; omega
              simp only [this, false_and, and_false, if_false]
              exact hinv.out q (by omega)
          · have e : ia + (ib + 1) = ia + ib + 1 := by omega
            rw [e, r2, ← hdA]
          · intro i hi
            rw [cell_wr]
            simp only [hab, false_and, if_false]
            exact hinv.left i hi
          · intro i hi1 hi2
            rw [cell_wr]
            have : ¬ ((b, o).2 + (ia + ib) = o + na + i) := by simp only; omega
            simp only [this, false_and, and_false, if_false]
            exact hinv.right i (by omega) hi2
          · intro x hx
            rw [cell_wr]
            have : ¬ ((b, o).2 + (ia + ib) = x) := by simp only; omega
            simp only [this, false_and, and_false, if_false]
            exact hinv.frame x hx
          · rw [buf_wr]; simp only [hab, if_false]; exact hinv.bufa
          · rw [length_buf_wr]; exact hinv.lenb
        obtain ⟨m', ia', ib', e, h1, h2⟩ := ih _ ia (ib + 1) (by omega) hinv'
        refine ⟨m', ia', ib', ?_, h1, h2⟩
        have e3 : ia + (ib + 1) = ia + ib + 1 := by omega
        rw [e3] at e
        simp only [mergeWhile, if_pos hgo, e1, e2, if_neg htl, e]
    · refine ⟨m, ia, ib, by simp only [mergeWhile, if_neg hgo], hinv, ?_⟩
      have := hinv.ia_le
      have := hinv.ib_le
      by_contra hc
      push_neg at hc
      exact hgo ⟨by omega, by omega⟩

theorem mergeCopy_left (tl : α → α → Bool) (m0 : Bufs α) (a b c : Bool) (hab : a ≠ b)
    (o na nb : Nat) (A B : List α) (hA : A.length = na) (hB : B.length = nb)
    (hb : o + na + nb ≤ (m0.buf b).length) (m : Bufs α) (ia : Nat)
    (hinv : MergeInv tl m0 m a b c o na nb A B ia nb) :
    MergeInv tl m0 (GenSort.mergeCopy (a, o) (b, o) ia na m (ia + nb)).1 a b c o na nb A B
      na nb := by
  unfold GenSort.mergeCopy
  have h := foldl_range'_inv
    (fun (s : Bufs α × Nat) p => (s.1.wr (b, o) s.2 (s.1.rd (a, o) p), s.2 + 1))
    (fun p s => s.2 = p + nb ∧ MergeInv tl m0 s.1 a b c o na nb A B p nb)
    (na - ia) ia (m, ia + nb) ⟨rfl, hinv⟩
    (by
      rintro p ⟨m1, k⟩ hp1 hp2 ⟨hk, hi⟩
      dsimp only at hk hi
      subst hk
      beta_reduce
      dsimp only
      refine ⟨by omega, ?_⟩
      have hpna : p < na := by have := hinv.ia_le; omega
      have e1 : m1.rd (a, o) p = rd A p := by
        rw [rd_eq_cell]; exact hi.left p hpna
      rw [e1]
      have hrest := hi.rest
      have hBd : B.drop nb = [] := List.drop_eq_nil_of_le (by omega)
      rw [hBd, List.merge_right, drop_rd_cons A (k := p) (by omega)] at hrest
      obtain ⟨r1, r2⟩ := drop_cons_rd hrest
      refine ⟨by omega, Nat.le_refl _, ?_, ?_, ?_, ?_, ?_, ?_, ?_⟩
      · intro q hq
        rw [cell_wr]
        by_cases hqe : q = p + nb
        · subst hqe
          have : o + (p + nb) < (m1.buf b).length := by rw [hi.lenb]; omega
          simp only [true_and, this, and_self, if_true]
          exact r1.symm
        · have : ¬ ((b, o).2 + (p + nb) = o + q) := by simp only; omega
          simp only [this, false_and, and_false, if_false]
          exact hi.out q (by omega)
      · have e : p + 1 + nb = p + nb + 1 := by omega
        rw [e, r2, hBd, List.merge_right]
      · intro i hi'
        rw [cell_wr]
        simp only [hab, false_and, if_false]
        exact hi.left i hi'
      · intro i hi1 hi2; omega
      · intro x hx
        rw [cell_wr]
        have : ¬ ((b, o).2 + (p + nb) = x) := by simp only; omega
        simp only [this, false_and, and_false, if_false]
        exact hi.frame x hx
      · rw [buf_wr]; simp only [hab, if_false]; exact hi.bufa
      · rw [length_buf_wr]; exact hi.lenb)
  have e : ia + (na - ia) = na := by have := hinv.ia_le; omega
  rw [e] at h
  exact h.2

theorem mergeCopy_right (tl : α → α → Bool) (m0 : Bufs α) (a b c : Bool) (hab : a ≠ b)
    (o na nb : Nat) (A B : List α) (hA : A.length = na) (hB : B.length = nb)
    (hb : o + na + nb ≤ (m0.buf b).length) (m : Bufs α) (ib : Nat)
    (hinv : MergeInv tl m0 m a b c o na nb A B na ib) :
    MergeInv tl m0 (GenSort.mergeCopy (c, o + na) (b, o) ib nb m (na + ib)).1 a b c o na nb
      A B na nb := by
  unfold GenSort.mergeCopy
  have h := foldl_range'_inv
    (fun (s : Bufs α × Nat) p => (s.1.wr (b, o) s.2 (s.1.rd (c, o + na) p), s.2 + 1))
    (fun p s => s.2 = na + p ∧ MergeInv tl m0 s.1 a b c o na nb A B na p)
    (nb - ib) ib (m, na + ib) ⟨rfl, hinv⟩
    (by
      rintro p ⟨m1, k⟩ hp1 hp2 ⟨hk, hi⟩
      dsimp only at hk hi
      subst hk
      beta_reduce
      dsimp only
      refine ⟨by omega, ?_⟩
      have hpnb : p < nb := by have := hinv.ib_le; omega
      have e1 : m1.rd (c, o + na) p = rd B p := by
        rw [rd_eq_cell]; exact hi.right p (Nat.le_refl _) hpnb
      rw [e1]
      have hrest := hi.rest
      have hAd : A.drop na = [] := List.drop_eq_nil_of_le (by omega)
      rw [hAd, List.nil_merge, drop_rd_cons B (k := p) (by omega)] at hrest
      obtain ⟨r1, r2⟩ := drop_cons_rd hrest
      refine ⟨Nat.le_refl _, by omega, ?_, ?_, ?_, ?_, ?_, ?_, ?_⟩
      · intro q hq
        rw [cell_wr]
        by_cases hqe : q = na + p
        · subst hqe
          have : o + (na + p) < (m1.buf b).length := by rw [hi.lenb]; omega
          simp only [true_and, this, and_self, if_true]
          exact r1.symm
        · have : ¬ ((b, o).2 + (na + p) = o + q) := by simp only; omega
          simp only [this, false_and, and_false, if_false]
          exact hi.out q (by omega)
      · have e : na + (p + 1) = na + p + 1 := by omega
        rw [e, r2, hAd, List.nil_merge]
      · intro i hi'
        rw [cell_wr]
        simp only [hab, false_and, if_false]
        exact hi.left i hi'
      · intro i hi1 hi2
        rw [cell_wr]
        have : ¬ ((b, o).2 + (na + p) = o + na + i) := by simp only; omega
        simp only [this, false_and, and_false, if_false]
        exact hi.right i (by omega) hi2
      · intro x hx
        rw [cell_wr]
        have : ¬ ((b, o).2 + (na + p) = x) := by simp only; omega
        simp only [this, false_and, and_false, if_false]
        exact hi.frame x hx
      · rw [buf_wr]; simp only [hab, if_false]; exact hi.bufa
      · rw [length_buf_wr]; exact hi.lenb)
  have e : ib + (nb - ib) = nb := by have := hinv.ib_le; omega
  rw [e] at h
  exact h.2

/-- Merging the run of `na` cells at `a + o` with the run of `nb` cells at `c + o + na` into
`b + o`, `b` being another buffer than `a`: the inner loop stops, and after the closing copy
the `na + nb` cells at `b + o` hold the merge of the two runs.  The second run may lie in
the destination buffer itself. -/
theorem mergeRuns_spec (tl : α → α → Bool) (m0 : Bufs α) (a b c : Bool) (hab : a ≠ b)
    (o na nb : Nat) (hb : o + na + nb ≤ (m0.buf b).length) :
    ∃ m1 ia ib k, mergeWhile tl (a, o) (c, o + na) (b, o) na nb (na + nb + 1) m0 0 0 0 =
        some (m1, ia, ib, k) ∧
      MergeInv tl m0
        (if ia < na then (GenSort.mergeCopy (a, o) (b, o) ia na m1 k).1
          else (GenSort.mergeCopy (c, o + na) (b, o) ib nb m1 k).1)
        a b c o na nb (runList m0 (a, o) na) (runList m0 (c, o + na) nb) na nb := by
  have hA := length_runList m0 (a, o) na
  have hB := length_runList m0 (c, o + na) nb
  have hinv0 : MergeInv tl m0 m0 a b c o na nb (runList m0 (a, o) na)
      (runList m0 (c, o + na) nb) 0 0 := by
    refine ⟨Nat.zero_le _, Nat.zero_le _, fun q hq => by omega, by simp, ?_, ?_,
      fun _ _ => rfl, rfl, rfl⟩
    · intro i hi; rw [rd_runList _ _ hi]
    · intro i _ hi; rw [rd_runList _ _ hi]
  obtain ⟨m1, ia, ib, e, h1, h2⟩ :=
    mergeWhile_spec tl m0 a b c hab o na nb _ _ hA hB hb (na + nb + 1) m0 0 0 (by omega) hinv0
  refine ⟨m1, ia, ib, ia + ib, e, ?_⟩
  by_cases hia : ia < na
  · rw [if_pos hia]
    have hib : ib = nb := by omega
    subst hib
    exact mergeCopy_left tl m0 a b c hab o na _ _ _ hA hB hb m1 ia h1
  · rw [if_neg hia]
    have hia' : ia = na := by have := h1.ia_le; omega
    subst hia'
    exact mergeCopy_right tl m0 a b c hab o _ nb _ _ hA hB hb m1 ib h1

end Gen

/-! ## The merge passes -/

namespace Gen

open GenSort (rd rd_set rd_set_self rd_set_ne Bufs Ptr RunIndex)

variable {α : Type} [Inhabited α]

theorem runList_congr (m m' : Bufs α) (p : Ptr) (n : Nat)
    (h : ∀ q, q < n → cell m' p.1 (p.2 + q) = cell m p.1 (p.2 + q)) :
    runList m' p n = runList m p n := by
  apply GenSort.ext_rd (by simp [length_runList])
  intro q hq
  rw [length_runList] at hq
  rw [rd_runList _ _ hq, rd_runList _ _ hq, h q hq]

theorem runList_eq_of_rd (m : Bufs α) (p : Ptr) (n : Nat) (L : List α) (hL : L.length = n)
    (h : ∀ q, q < n → cell m p.1 (p.2 + q) = rd L q) : runList m p n = L := by
  apply GenSort.ext_rd (by simp [length_runList, hL])
  intro q hq
  rw [length_runList] at hq
  rw [rd_runList _ _ hq, h q hq]

theorem length_merge (tl : α → α → Bool) (A B : List α) :
    (List.merge A B tl).length = A.length + B.length := by
  have h : (List.merge A B tl).Perm (A ++ B) := List.merge_perm_append tl
  simpa using h.length_eq

theorem mergePair_step (tl : α → α → Bool) (P : Nat → List α → Prop)
    (hP : ∀ o A B, P o A → P (o + A.length) B → P o (List.merge A B tl))
    (mS m : Bufs α) (a b : Bool) (hab : a ≠ b) (index : List Nat) (np nr : Nat)
    (lastS last : Ptr) (i : Nat) (hL : Layout P mS a index np nr lastS)
    (hI : PassInv P mS m a b index np lastS last i) :
    ∃ m' last', mergePair tl a b index np i m last = some (m', last') ∧
      PassInv P mS m' a b index np lastS last' (i + 2) := by
  have hri := hL.ri
  by_cases hgo : i + 1 < np
  · -- a pair of runs is merged
    have hi2 : i + 2 ≤ np := by omega
    have hev := hI.even
    have hE : i + 2 ≤ 2 * (np / 2) := by omega
    have h01 := hri.incr i (by omega)
    have h12 : rd index (i + 1) < rd index (i + 2) := hri.incr (i + 1) (by omega)
    have h2n := hri.le_nr (i + 2) hi2
    have hlast : last = lastS := hI.lastOld (by omega)
    generalize hc : (if i + 2 = np then lastS.1 else a) = c
    have hf2 : (if i = np - 2 then last else (a, rd index (i + 1))) =
        (c, rd index i + (rd index (i + 1) - rd index i)) := by
      have e : rd index i + (rd index (i + 1) - rd index i) = rd index (i + 1) := by omega
      rw [e, ← hc]
      by_cases h : i + 2 = np
      · have h' : i = np - 2 := by omega
        rw [if_pos h', if_pos h, hlast]
        have := hL.lastOff
        have e2 : np - 1 = i + 1 := by omega
        rw [e2] at this
        rw [← this]
      · have h' : ¬ i = np - 2 := by omega
        rw [if_neg h', if_neg h]
    have hbound : rd index i + (rd index (i + 1) - rd index i) +
        (rd index (i + 2) - rd index (i + 1)) ≤ (m.buf b).length := by
      have := hL.len b
      rw [hI.lenb]; omega
    obtain ⟨m1, ia, ib, k, e, hM⟩ := mergeRuns_spec tl m a b c hab (rd index i)
      (rd index (i + 1) - rd index i) (rd index (i + 2) - rd index (i + 1)) hbound
    -- the two runs read are the runs `i` and `i + 1` of the layout
    have hA : runList m (a, rd index i) (rd index (i + 1) - rd index i) =
        runOf mS a index np lastS i := by
      unfold runOf loc
      rw [if_neg (by omega)]
      apply runList_congr
      intro q _
      simp only [cell, hI.bufa]
    have hB : runList m (c, rd index i + (rd index (i + 1) - rd index i))
        (rd index (i + 2) - rd index (i + 1)) = runOf mS a index np lastS (i + 1) := by
      unfold runOf loc
      have e : rd index i + (rd index (i + 1) - rd index i) = rd index (i + 1) := by omega
      rw [e]
      by_cases h : i + 2 = np
      · have h' : i + 1 + 1 = np := by omega
        rw [if_pos h']
        have hoff := hL.lastOff
        have e2 : np - 1 = i + 1 := by omega
        rw [e2] at hoff
        have hls : lastS = (c, rd index (i + 1)) := by
          rw [← hc, if_pos h, ← hoff]
        rw [← hls]
        apply runList_congr
        intro q _
        by_cases hcb : lastS.1 = b
        · rw [hcb]
          apply hI.above
          have := Nat.min_le_left i (2 * (np / 2))
          have := hri.mono i (min i (2 * (np / 2))) (Nat.min_le_left _ _) (by omega)
          omega
        · have hca : lastS.1 = a := by
            cases hx : lastS.1 <;> cases a <;> cases b <;> simp_all
          rw [hca]
          simp only [cell, hI.bufa]
      · have h' : ¬ i + 1 + 1 = np := by omega
        rw [if_neg h']
        rw [← hc, if_neg h]
        apply runList_congr
        intro q _
        simp only [cell, hI.bufa]
    rw [hA, hB] at hM
    have hPA := hL.runs i (by omega)
    have hPB := hL.runs (i + 1) (by omega)
    have hlenA : (runOf mS a index np lastS i).length = rd index (i + 1) - rd index i := by
      simp [runOf, length_runList]
    have hlenB : (runOf mS a index np lastS (i + 1)).length =
        rd index (i + 2) - rd index (i + 1) := by
      simp [runOf, length_runList]
    generalize hm2 : (if ia < rd index (i + 1) - rd index i then
      (GenSort.mergeCopy (a, rd index i) (b, rd index i) ia (rd index (i + 1) - rd index i)
        m1 k).1
      else (GenSort.mergeCopy (c, rd index i + (rd index (i + 1) - rd index i))
        (b, rd index i) ib (rd index (i + 2) - rd index (i + 1)) m1 k).1) = m2 at hM
    refine ⟨m2, if i = np - 2 then (b, rd index i) else last, ?_, ?_⟩
    · have hgo' : i < np - 1 := by omega
      simp only [mergePair, if_pos hgo', hf2, e]
      rw [← hm2]
      by_cases hia : ia < rd index (i + 1) - rd index i
      · rw [if_pos hia, if_pos hia]
      · rw [if_neg hia, if_neg hia]
    · have hmin : min (i + 2) (2 * (np / 2)) = i + 2 := Nat.min_eq_left hE
      refine ⟨by have := hI.even; omega, hM.bufa.trans hI.bufa, hM.lenb.trans hI.lenb,
        ?_, ?_, ?_, ?_⟩
      · intro x hx
        rw [hmin] at hx
        rw [hM.frame x (Or.inr (by omega))]
        apply hI.above
        have := hri.mono i (min i (2 * (np / 2))) (Nat.min_le_left _ _) (by omega)
        omega
      · intro t ht1 ht2 ht3
        by_cases hti : t < i
        · have hold := hI.done t ht1 ht2 hti
          have hmono := hri.mono i (t + 2) (by omega) (by omega)
          have hte : runList m2 (b, rd index t) (rd index (t + 2) - rd index t) =
              runList m (b, rd index t) (rd index (t + 2) - rd index t) := by
            apply runList_congr
            intro q hq
            exact hM.frame _ (Or.inl (by simp only; omega))
          rw [hte]; exact hold
        · have hte : t = i := by omega
          subst hte
          have hmerge : runList m2 (b, rd index t) (rd index (t + 2) - rd index t) =
              List.merge (runOf mS a index np lastS t) (runOf mS a index np lastS (t + 1))
                tl := by
            apply runList_eq_of_rd
            · rw [length_merge, hlenA, hlenB]; omega
            · intro q hq
              exact hM.out q (by omega)
          rw [hmerge]
          apply hP _ _ _ hPA
          rw [hlenA]
          have e : rd index t + (rd index (t + 1) - rd index t) = rd index (t + 1) := by
            omega
          rw [e]; exact hPB
      · rintro ⟨h1, h2⟩
        have h' : i = np - 2 := by omega
        rw [if_pos h', ← h']
      · intro h
        have h' : ¬ i = np - 2 := by
          intro hc'
          apply h
          have := hI.even
          exact ⟨by omega, by omega⟩
        rw [if_neg h']
        exact hlast
  · -- nothing is left to merge
    refine ⟨m, last, by simp only [mergePair]; rw [if_neg (by omega)], ?_⟩
    have hev := hI.even
    have hmin1 : min i (2 * (np / 2)) = 2 * (np / 2) := Nat.min_eq_right (by omega)
    have hmin2 : min (i + 2) (2 * (np / 2)) = 2 * (np / 2) := Nat.min_eq_right (by omega)
    refine ⟨by omega, hI.bufa, hI.lenb, ?_, ?_, ?_, ?_⟩
    · intro x hx
      rw [hmin2] at hx
      exact hI.above x (by rw [hmin1]; exact hx)
    · intro t ht1 ht2 ht3
      exact hI.done t ht1 ht2 (by omega)
    · rintro ⟨h1, h2⟩
      exact hI.lastNew ⟨h1, by omega⟩
    · intro h
      exact hI.lastOld (fun hc => h ⟨hc.1, by omega⟩)

theorem mergePass_spec (tl : α → α → Bool) (P : Nat → List α → Prop)
    (hP : ∀ o A B, P o A → P (o + A.length) B → P o (List.merge A B tl))
    (mS : Bufs α) (a b : Bool) (hab : a ≠ b) (index : List Nat) (np nr : Nat)
    (lastS : Ptr) (hL : Layout P mS a index np nr lastS) (cnt : Nat) :
    ∀ (m : Bufs α) (last : Ptr) (i : Nat), PassInv P mS m a b index np lastS last i →
      ∃ m' last', mergePass tl a b index np cnt i m last = some (m', last') ∧
        PassInv P mS m' a b index np lastS last' (i + 2 * cnt) := by
  induction cnt with
  | zero => intro m last i hI; exact ⟨m, last, rfl, hI⟩
  | succ cnt ih =>
    intro m last i hI
    obtain ⟨m1, last1, e1, h1⟩ := mergePair_step tl P hP mS m a b hab index np nr lastS last i
      hL hI
    obtain ⟨m2, last2, e2, h2⟩ := ih m1 last1 (i + 2) h1
    refine ⟨m2, last2, by simp only [mergePass, e1, e2], ?_⟩
    have e : i + 2 + 2 * cnt = i + 2 * (cnt + 1) := by omega
    rw [← e]; exact h2

end Gen

/-! ## The merge loop -/

namespace Gen

open GenSort (rd rd_set rd_set_self rd_set_ne Bufs Ptr RunIndex)

variable {α : Type} [Inhabited α]

theorem collapseIndex_spec (index : List Nat) (np : Nat) (hlen : np < index.length) :
    (GenSort.collapseIndex index np).2 = (np + 1) / 2 ∧
      (GenSort.collapseIndex index np).1.length = index.length ∧
      (∀ t, t < (np + 1) / 2 → rd (GenSort.collapseIndex index np).1 t = rd index (2 * t)) ∧
      (∀ p, (np + 1) / 2 ≤ p → rd (GenSort.collapseIndex index np).1 p = rd index p) := by
  unfold GenSort.collapseIndex
  have h := foldl_range_inv
    (fun (s : List Nat × Nat) t => (s.1.set s.2 (rd s.1 (2 * t)), s.2 + 1))
    (fun t s => s.2 = t ∧ s.1.length = index.length ∧
      (∀ t', t' < t → rd s.1 t' = rd index (2 * t')) ∧ (∀ p, t ≤ p → rd s.1 p = rd index p))
    ((np + 1) / 2) (index, 0) ⟨rfl, rfl, fun t' h => by omega, fun _ _ => rfl⟩
    (by
      rintro t ⟨idx, k⟩ ht ⟨h1, h2, h3, h4⟩
      dsimp only at h1 h2 h3 h4
      subst h1
      beta_reduce
      dsimp only
      refine ⟨rfl, by simp [h2], ?_, ?_⟩
      · intro t' ht'
        by_cases he : t' = k
        · subst he
          rw [rd_set_self _ _ (by omega), h4 _ (by omega)]
        · rw [rd_set_ne _ _ (fun h => he h.symm)]
          exact h3 t' (by omega)
      · intro p hp
        rw [rd_set_ne _ _ (by omega)]
        exact h4 p (by omega))
  exact h

theorem Frame.refl (m : Bufs α) (nr : Nat) : Frame m m nr := fun _ => ⟨rfl, fun _ _ => rfl⟩

theorem Frame.trans {m1 m2 m3 : Bufs α} {nr : Nat} (h1 : Frame m1 m2 nr)
    (h2 : Frame m2 m3 nr) : Frame m1 m3 nr := fun c =>
  ⟨(h2 c).1.trans (h1 c).1, fun x hx => ((h2 c).2 x hx).trans ((h1 c).2 x hx)⟩

theorem bool_ne_cases {a b c : Bool} (hab : a ≠ b) : c = a ∨ c = b := by
  cases a <;> cases b <;> cases c <;> simp_all

/-- A finished pass leaves a layout with half as many runs, in the other buffer. -/
theorem layout_after_pass (P : Nat → List α → Prop) (mS m : Bufs α) (a b : Bool)
    (hab : a ≠ b) (index : List Nat) (np nr : Nat) (lastS last : Ptr) (i : Nat)
    (hL : Layout P mS a index np nr lastS) (hnp : 2 ≤ np) (hi : np ≤ i)
    (hI : PassInv P mS m a b index np lastS last i) :
    Layout P m b
        ((GenSort.collapseIndex index np).1.set (GenSort.collapseIndex index np).2 nr)
        (GenSort.collapseIndex index np).2 nr last ∧
      Frame mS m nr := by
  have hri := hL.ri
  obtain ⟨c1, c2, c3, c4⟩ := collapseIndex_spec index np hri.length
  generalize (GenSort.collapseIndex index np).1 = idx at c2 c3 c4 ⊢
  generalize (GenSort.collapseIndex index np).2 = np' at c1 ⊢
  subst c1
  have hlen' : (np + 1) / 2 < idx.length := by have := hri.length; omega
  have hrdlt : ∀ t, t < (np + 1) / 2 → rd (idx.set ((np + 1) / 2) nr) t = rd index (2 * t) := by
    intro t ht
    rw [rd_set_ne _ _ (by omega)]; exact c3 t ht
  have hrdnp : rd (idx.set ((np + 1) / 2) nr) ((np + 1) / 2) = nr := rd_set_self _ _ hlen'
  have hrdnext : ∀ t, t < (np + 1) / 2 →
      rd (idx.set ((np + 1) / 2) nr) (t + 1) = rd index (min (2 * t + 2) np) := by
    intro t ht
    by_cases hl : t + 1 < (np + 1) / 2
    · rw [hrdlt (t + 1) hl]
      rw [Nat.min_eq_left (by omega)]
      congr 1
    · have : t + 1 = (np + 1) / 2 := by omega
      rw [this, hrdnp, Nat.min_eq_right (by omega), hri.last]
  have hev := hI.even
  have hframe : Frame mS m nr := by
    intro c
    rcases bool_ne_cases hab (c := c) with h | h
    · subst h; rw [hI.bufa]; exact ⟨rfl, fun _ _ => by simp only [cell, hI.bufa]⟩
    · subst h
      refine ⟨hI.lenb, fun x hx => hI.above x ?_⟩
      have := hri.le_nr (min i (2 * (np / 2))) (by
        have := Nat.min_le_right i (2 * (np / 2)); omega)
      omega
  refine ⟨⟨⟨by omega, ?_, hrdnp, ?_, by simpa using hlen'⟩, ?_, ?_, ?_, ?_⟩, hframe⟩
  · rw [hrdlt 0 (by omega)]; exact hri.first
  · intro t ht
    rw [hrdlt t ht, hrdnext t ht]
    have h1 := hri.incr (2 * t) (by omega)
    have h2 := hri.mono (min (2 * t + 2) np) (2 * t + 1) (by
      rw [Nat.le_min]; omega) (Nat.min_le_right _ _)
    omega
  · -- the offset of `last`
    rw [hrdlt _ (by omega)]
    by_cases hpar : np % 2 = 0
    · rw [hI.lastNew ⟨hpar, hi⟩]
      dsimp only
      congr 1; omega
    · rw [hI.lastOld (fun h => hpar h.1), hL.lastOff]
      congr 1; omega
  · intro h1
    have : np = 2 := by omega
    subst this
    rw [hI.lastNew ⟨rfl, hi⟩]
  · intro t ht
    rw [hrdlt t ht]
    unfold runOf
    rw [hrdnext t ht, hrdlt t ht]
    by_cases hpair : 2 * t + 1 < np
    · have hmin : min (2 * t + 2) np = 2 * t + 2 := Nat.min_eq_left (by omega)
      have hloc : loc b (idx.set ((np + 1) / 2) nr) ((np + 1) / 2) last t =
          (b, rd index (2 * t)) := by
        unfold loc
        by_cases hl : t + 1 = (np + 1) / 2
        · rw [if_pos hl, hI.lastNew ⟨by omega, hi⟩]
          congr 2; omega
        · rw [if_neg hl, hrdlt t ht]
      rw [hloc, hmin]
      exact hI.done (2 * t) (by omega) hpair (by omega)
    · have hodd : np % 2 = 1 := by omega
      have ht2 : 2 * t = np - 1 := by omega
      have hmin : min (2 * t + 2) np = np := Nat.min_eq_right (by omega)
      have hloc : loc b (idx.set ((np + 1) / 2) nr) ((np + 1) / 2) last t = lastS := by
        unfold loc
        rw [if_pos (by omega)]
        exact hI.lastOld (fun h => by omega)
      rw [hloc, hmin, ht2]
      have hold := hL.runs (np - 1) (by omega)
      unfold runOf loc at hold
      rw [if_pos (by omega)] at hold
      have e : np - 1 + 1 = np := by omega
      rw [e] at hold
      have hcong : runList m lastS (rd index np - rd index (np - 1)) =
          runList mS lastS (rd index np - rd index (np - 1)) := by
        apply runList_congr
        intro q _
        rcases bool_ne_cases hab (c := lastS.1) with h | h
        · rw [h]; simp only [cell, hI.bufa]
        · rw [h]
          apply hI.above
          rw [hL.lastOff]
          have : min i (2 * (np / 2)) = np - 1 := by
            rw [Nat.min_eq_right (by omega)]; omega
          rw [this]; omega
      rw [hcong]; exact hold
  · intro c
    rw [(hframe c).1]; exact hL.len c

theorem passInv_start (P : Nat → List α → Prop) (m : Bufs α) (a b : Bool) (index : List Nat)
    (np : Nat) (last : Ptr) (hnp : 2 ≤ np) : PassInv P m m a b index np last last 0 :=
  ⟨rfl, rfl, rfl, fun _ _ => rfl, fun t _ _ h => by omega, fun h => by omega, fun _ => rfl⟩

theorem mergeLoop_spec (tl : α → α → Bool) (P : Nat → List α → Prop)
    (hP : ∀ o A B, P o A → P (o + A.length) B → P o (List.merge A B tl)) (nr : Nat)
    (fuel : Nat) :
    ∀ (m : Bufs α) (a b : Bool) (index : List Nat) (np : Nat) (last : Ptr), a ≠ b →
      np ≤ fuel → Layout P m a index np nr last →
      ∃ m' a' idx', mergeLoop tl nr fuel m a b index np last = some (m', a', idx') ∧
        P 0 (runList m' (a', 0) nr) ∧ Frame m m' nr := by
  induction fuel with
  | zero =>
    intro m a b index np last _ hf hL
    have := hL.ri.pos
    omega
  | succ fuel ih =>
    intro m a b index np last hab hf hL
    by_cases hgo : np > 1
    · obtain ⟨m1, last1, e1, hI⟩ := mergePass_spec tl P hP m a b hab index np nr last hL
        ((np + 1) / 2) m last 0 (passInv_start P m a b index np last (by omega))
      obtain ⟨hL1, hF1⟩ := layout_after_pass P m m1 a b hab index np nr last last1
        (0 + 2 * ((np + 1) / 2)) hL (by omega) (by omega) hI
      have hnp' := (collapseIndex_spec index np hL.ri.length).1
      obtain ⟨m2, a2, idx2, e2, h1, h2⟩ := ih m1 b a _ _ last1 (fun h => hab h.symm)
        (by rw [hnp']; omega) hL1
      refine ⟨m2, a2, idx2, ?_, h1, hF1.trans h2⟩
      simp only [mergeLoop, if_pos hgo, e1, e2]
    · have hnp1 : np = 1 := by have := hL.ri.pos; omega
      subst hnp1
      refine ⟨m, a, index, by simp only [mergeLoop, if_neg hgo], ?_, Frame.refl _ _⟩
      have h := hL.runs 0 (by omega)
      unfold runOf loc at h
      rw [if_pos rfl, hL.ri.first] at h
      have h1 := hL.lastBuf rfl
      have h2 := hL.lastOff
      rw [hL.ri.first] at h2
      have hl : last = (a, 0) := by
        obtain ⟨x, y⟩ := last
        simp only at h1 h2
        rw [h1, h2]
      rw [hl, hL.ri.last] at h
      simpa using h

/-- The merge of the runs given by run boundaries: it returns, the first `nr` cells of the
buffer it returns have the property `P` that every run has and that merging two adjacent
runs keeps, and both buffers keep their lengths and their cells from `nr` on. -/
theorem merge_spec (tl : α → α → Bool) (P : Nat → List α → Prop)
    (hP : ∀ o A B, P o A → P (o + A.length) B → P o (List.merge A B tl))
    (data tmp : List α) (nr : Nat) (index : List Nat) (nparts : Nat)
    (hd : nr ≤ data.length) (ht : nr ≤ tmp.length) (hri : RunIndex index nparts nr)
    (hruns : ∀ t, t < nparts →
      P (rd index t) ((data.drop (rd index t)).take (rd index (t + 1) - rd index t))) :
    ∃ m a idx, merge tl data tmp nr index nparts = some (m, a, idx) ∧
      P 0 ((m.buf a).take nr) ∧ m.data.length = data.length ∧ m.tmp.length = tmp.length ∧
      (∀ x, nr ≤ x → rd m.data x = rd data x) := by
  have hL : Layout P ⟨data, tmp⟩ false index nparts nr (false, rd index (nparts - 1)) := by
    refine ⟨hri, rfl, fun _ => rfl, ?_, ?_⟩
    · intro t htn
      have hloc : loc false index nparts (false, rd index (nparts - 1)) t =
          (false, rd index t) := by
        unfold loc
        by_cases h : t + 1 = nparts
        · rw [if_pos h]; congr 2; omega
        · rw [if_neg h]
      unfold runOf
      rw [hloc]
      have hle := hri.le_nr (t + 1) (by omega)
      have hlt := hri.incr t htn
      have e : runList (⟨data, tmp⟩ : Bufs α) (false, rd index t)
          (rd index (t + 1) - rd index t) =
          (data.drop (rd index t)).take (rd index (t + 1) - rd index t) := by
        apply runList_eq_of_rd
        · simp; omega
        · intro q hq
          rw [GenSort.rd_take _ hq, GenSort.rd_drop]
          simp [cell, Bufs.buf]
      rw [e]; exact hruns t htn
    · intro c
      cases c
      · simpa [Bufs.buf] using hd
      · simpa [Bufs.buf] using ht
  obtain ⟨m, a, idx, e, h1, h2⟩ := mergeLoop_spec tl P hP nr (nparts + 1) ⟨data, tmp⟩ false true
    index nparts (false, rd index (nparts - 1)) (by simp) (by omega) hL
  have hlen : nr ≤ (m.buf a).length := by
    rw [(h2 a).1]
    cases a
    · simpa [Bufs.buf] using hd
    · simpa [Bufs.buf] using ht
  refine ⟨m, a, idx, e, ?_, ?_, ?_, ?_⟩
  · have e2 : runList m (a, 0) nr = (m.buf a).take nr := by
      apply runList_eq_of_rd
      · simp; omega
      · intro q hq
        rw [GenSort.rd_take _ hq]
        simp [cell]
    rw [← e2]; exact h1
  · have := (h2 false).1
    simpa [Bufs.buf] using this
  · have := (h2 true).1
    simpa [Bufs.buf] using this
  · intro x hx
    have := (h2 false).2 x hx
    simpa [cell, Bufs.buf] using this

end Gen

/-! ## From statements about cells to statements about lists -/

namespace Gen

open GenSort (rd rd_of_lt rd_take rd_drop rd_mem)

variable {α : Type} [Inhabited α] {K : Type} [LinearOrder K]

omit [LinearOrder K] in
theorem pairwise_take_of_rd (R : α → α → Prop) (l : List α) (n : Nat) (hn : n ≤ l.length)
    (h : ∀ i j, i < j → j < n → R (rd l i) (rd l j)) : (l.take n).Pairwise R := by
  rw [List.pairwise_iff_getElem]
  intro i j hi hj hij
  simp only [List.length_take] at hi hj
  have := h i j hij (by omega)
  rw [rd_of_lt _ (by omega), rd_of_lt _ (by omega)] at this
  simpa using this

omit [LinearOrder K] in
theorem rd_of_pairwise (R : α → α → Prop) (l : List α) (h : l.Pairwise R) (i j : Nat)
    (hij : i < j) (hj : j < l.length) : R (rd l i) (rd l j) := by
  rw [List.pairwise_iff_getElem] at h
  rw [rd_of_lt _ (by omega), rd_of_lt _ hj]
  exact h i j (by omega) hj hij

omit [LinearOrder K] in
theorem mem_take_iff (l : List α) (n : Nat) (hn : n ≤ l.length) (x : α) :
    x ∈ l.take n ↔ ∃ q, q < n ∧ x = rd l q := by
  constructor
  · intro h
    obtain ⟨q, hq, e⟩ := List.mem_iff_getElem.1 h
    simp only [List.length_take] at hq
    refine ⟨q, by omega, ?_⟩
    rw [rd_of_lt _ (by omega), ← e]
    simp
  · rintro ⟨q, hq, rfl⟩
    rw [← rd_take l hq]
    exact rd_mem _ (by simp; omega)

omit [Inhabited α] [LinearOrder K] in
theorem rel_of_adjacent (R : K → K → Prop) (htr : ∀ a b c, R a b → R b c → R a c)
    (f : Nat → K) (lo hi : Nat) (h : ∀ j, lo < j → j < hi → R (f (j - 1)) (f j)) :
    ∀ i j, lo ≤ i → i < j → j < hi → R (f i) (f j) := by
  intro i j hi hij
  induction j with
  | zero => omega
  | succ j ih =>
    intro hj
    have h2 := h (j + 1) (by omega) hj
    simp only [Nat.add_sub_cancel] at h2
    by_cases e : i = j
    · subst e; exact h2
    · exact htr _ _ _ (ih (by omega) (by omega)) h2

/-- A two-way merge of sorted lists is sorted, whenever the test that takes the left head
agrees with the order of the keys on the pairs it is applied to. -/
theorem merge_pairwise (key : α → K) (tl : α → α → Bool) :
    ∀ (A B : List α), A.Pairwise (fun x y => key x ≤ key y) →
      B.Pairwise (fun x y => key x ≤ key y) →
      (∀ a, a ∈ A → ∀ b, b ∈ B → tl a b = true → key a ≤ key b) →
      (∀ a, a ∈ A → ∀ b, b ∈ B → tl a b = false → key b ≤ key a) →
      (List.merge A B tl).Pairwise (fun x y => key x ≤ key y) := by
  intro A
  induction A with
  | nil => intro B _ hB _ _; simpa using hB
  | cons a A ihA =>
    intro B
    induction B with
    | nil => intro hA _ _ _; simpa using hA
    | cons b B ihB =>
      intro hA hB h1 h2
      rw [List.cons_merge_cons]
      rw [List.pairwise_cons] at hA hB
      by_cases ht : tl a b = true
      · rw [if_pos ht, List.pairwise_cons]
        have hab := h1 a (List.mem_cons_self _ _) b (List.mem_cons_self _ _) ht
        refine ⟨?_, ihA (b :: B) hA.2 (List.pairwise_cons.2 hB)
          (fun x hx y hy => h1 x (List.mem_cons_of_mem _ hx) y hy)
          (fun x hx y hy => h2 x (List.mem_cons_of_mem _ hx) y hy)⟩
        intro y hy
        rcases List.mem_merge.1 hy with hy | hy
        · exact hA.1 y hy
        · rcases List.mem_cons.1 hy with rfl | hy
          · exact hab
          · exact le_trans hab (hB.1 y hy)
      · have hf : tl a b = false := by simpa using ht
        rw [if_neg ht, List.pairwise_cons]
        have hba := h2 a (List.mem_cons_self _ _) b (List.mem_cons_self _ _) hf
        refine ⟨?_, ihB (List.pairwise_cons.2 hA) hB.2
          (fun x hx y hy => h1 x hx y (List.mem_cons_of_mem _ hy))
          (fun x hx y hy => h2 x hx y (List.mem_cons_of_mem _ hy))⟩
        intro y hy
        rcases List.mem_merge.1 hy with hy | hy
        · rcases List.mem_cons.1 hy with rfl | hy
          · exact hba
          · exact le_trans hba (hA.1 y hy)
        · exact hB.1 y hy

theorem KeepSpec.transfer {key : α → K} {data d : List α} {nr : Nat}
    {f : CasaSort.Order → Option (Nat × List α)} (h : KeepSpec key d nr f)
    (hp : (d.take nr).Perm (data.take nr)) (hd : d.drop nr = data.drop nr) :
    KeepSpec key data nr f := by
  obtain ⟨asc, h1, h2, h3, h4⟩ := h
  exact ⟨asc, h1.trans hp, h2, hd ▸ h3, hd ▸ h4⟩

theorem NoDupSpec.transfer_nodup {key : α → K} {data d : List α} {nr : Nat}
    {f : CasaSort.Order → Option (Nat × List α)} (h : NoDupSpec key d nr f)
    (hp : (d.take nr).Perm (data.take nr)) (hl : d.length = data.length) :
    NoDupSpec key data nr f := by
  obtain ⟨asc, rest, h1, h2, h3, h4, h5, h6⟩ := h
  exact ⟨asc, rest, h1, fun x hx => hp.mem_iff.1 (h2 x hx),
    fun y hy => h3 y (hp.mem_iff.2 hy), hl ▸ h4, h5, h6⟩

/-- The list form of a buffer whose first `nr` cells are sorted. -/
theorem keep_finish (key : α → K) (data d1 : List α) (nr : Nat) (hnr : nr ≤ data.length)
    (hl : d1.length = data.length) (hp : d1.Perm data) (hs : SortedUpTo key d1 nr)
    (hf : ∀ p, nr ≤ p → rd d1 p = rd data p) :
    (d1.take nr).Perm (data.take nr) ∧ (d1.take nr).Pairwise (fun x y => key x ≤ key y) ∧
      d1 = d1.take nr ++ data.drop nr ∧
      GenSort.reverse d1 none nr = (d1.take nr).reverse ++ data.drop nr := by
  have hd : d1.drop nr = data.drop nr :=
    GenSort.drop_eq_of_rd nr hl (fun p hp _ => hf p hp)
  refine ⟨GenSort.take_perm_of_drop_eq nr hp hd,
    pairwise_take_of_rd _ d1 nr (by omega) hs, ?_, ?_⟩
  · rw [← hd]; exact (List.take_append_drop nr d1).symm
  · rw [GenSort.reverse_inplace_eq d1 nr (by omega), hd]

/-- The list form of the result of a duplicate-dropping insertion sort. -/
theorem nodup_finish (key : α → K) (d1 : List α) (nr : Nat) (hnr : nr ≤ d1.length)
    (r : Nat × List α) (h : NoDupResult key d1 nr r) :
    (r.2.take r.1).length = r.1 ∧
      (r.2.take r.1).Pairwise (fun x y => key x < key y) ∧
      (∀ x, x ∈ r.2.take r.1 → x ∈ d1.take nr) ∧
      (∀ y, y ∈ d1.take nr → ∃ x, x ∈ r.2.take r.1 ∧ key x = key y) ∧
      r.1 + (r.2.drop r.1).length = d1.length ∧
      r.2 = r.2.take r.1 ++ r.2.drop r.1 ∧
      GenSort.reverse r.2 none r.1 = (r.2.take r.1).reverse ++ r.2.drop r.1 := by
  have hle := h.le
  have hlen := h.length
  have hr : r.1 ≤ r.2.length := by omega
  refine ⟨by simp; omega, pairwise_take_of_rd _ r.2 r.1 hr h.strict, ?_, ?_,
    by simp; omega, (List.take_append_drop _ _).symm, GenSort.reverse_inplace_eq r.2 r.1 hr⟩
  · intro x hx
    obtain ⟨p, hp, rfl⟩ := (mem_take_iff r.2 r.1 hr x).1 hx
    obtain ⟨q, hq, e⟩ := h.sub p hp
    rw [e]
    exact (mem_take_iff d1 nr hnr _).2 ⟨q, hq, rfl⟩
  · intro y hy
    obtain ⟨q, hq, rfl⟩ := (mem_take_iff d1 nr hnr y).1 hy
    obtain ⟨p, hp, e⟩ := h.sup q hq
    exact ⟨rd r.2 p, (mem_take_iff r.2 r.1 hr _).2 ⟨p, hp, rfl⟩, e⟩

end Gen

/-! ## The sequential engines of the direct sort -/

namespace GenSort

variable {T : Type} [LinearOrder T] [Inhabited T]

theorem eqD_iff (x y : T) : eqD x y = true ↔ id x = id y := by
  simp [eqD]

theorem recLimitLoop_some (fuel : Nat) :
    ∀ (unr : Nat) (rec_limit : Int), unr < fuel →
      ∃ r, recLimitLoop fuel unr rec_limit = some r := by
  induction fuel with
  | zero => intro unr _ h; omega
  | succ fuel ih =>
    intro unr rec_limit h
    unfold recLimitLoop
    simp only
    by_cases h1 : unr >>> 1 ≠ 0
    · rw [if_pos h1]
      apply ih
      rw [Nat.shiftRight_eq_div_pow] at h1 ⊢
      simp only [pow_one] at h1 ⊢
      omega
    · rw [if_neg h1]; exact ⟨_, rfl⟩

theorem insSort_keep (data : List T) (nr opt : Nat) (hnr : nr ≤ data.length) (hb : nr < 2 ^ 30)
    (hopt : opt &&& CasaSort.NoDuplicates = 0) :
    Gen.KeepSpec id data nr (fun ord => some (insSort data nr ord opt)) := by
  obtain ⟨h1, h2, h3, h4, h5⟩ := Gen.insSortAscDup_spec id gtD gtD_iff data nr hnr
  rw [← insSortAscDup_eq_gen] at h1 h2 h3 h4 h5
  obtain ⟨k1, k2, k3, k4⟩ := Gen.keep_finish id data _ nr hnr h2 h3 h4 h5
  refine ⟨(insSortAscDup data nr).2.take nr, k1, k2, ?_, ?_⟩
  · simp only [insSort, atInt_of_lt (show nr < 2 ^ 31 by omega), insSortAsc, if_pos hopt, reduceCtorEq, if_false]
    rw [← k3]
    generalize insSortAscDup data nr = r at h1
    obtain ⟨a, b⟩ := r
    simp only at h1
    rw [h1]
  · simp only [insSort, atInt_of_lt (show nr < 2 ^ 31 by omega), insSortAsc, if_pos hopt, if_true, h1]
    rw [k4]

theorem insSort_nodup (data : List T) (nr opt : Nat) (hnr : nr ≤ data.length) (hb : nr < 2 ^ 30)
    (hopt : opt &&& CasaSort.NoDuplicates ≠ 0) :
    Gen.NoDupSpec id data nr (fun ord => some (insSort data nr ord opt)) := by
  have h := Gen.insSortAscNoDup_spec id gtD eqD gtD_iff eqD_iff data nr hnr
  rw [← insSortAscNoDup_eq_gen] at h
  obtain ⟨k0, k1, k2, k3, k4, k5, k6⟩ := Gen.nodup_finish id data nr hnr _ h
  refine ⟨(insSortAscNoDup data nr).2.take (insSortAscNoDup data nr).1,
    (insSortAscNoDup data nr).2.drop (insSortAscNoDup data nr).1, k1, k2, k3, ?_, ?_, ?_⟩
  · rw [k0]; exact k4
  · simp only [insSort, atInt_of_lt (show nr < 2 ^ 31 by omega), insSortAsc, if_neg hopt, reduceCtorEq, if_false]
    rw [k0, ← k5]
  · simp only [insSort, atInt_of_lt (show nr < 2 ^ 31 by omega), insSortAsc, if_neg hopt, if_true]
    rw [k0, k6]

theorem heapSort_keep (data : List T) (nr opt : Nat) (hnr : nr ≤ data.length) (hb : nr < 2 ^ 30)
    (hopt : opt &&& CasaSort.NoDuplicates = 0) :
    Gen.KeepSpec id data nr (fun ord => heapSort data nr ord opt) := by
  obtain ⟨d1, e, h4, h2, h3, h5⟩ := heapSortAsc_spec data nr hnr hb
  obtain ⟨k1, k2, k3, k4⟩ := Gen.keep_finish id data d1 nr hnr h2 h3 h4 h5
  refine ⟨d1.take nr, k1, k2, ?_, ?_⟩
  · simp only [heapSort, atInt_of_lt (show nr < 2 ^ 31 by omega), e, hopt, ne_eq, not_true_eq_false, if_false, reduceCtorEq]
    rw [← k3]
  · simp only [heapSort, atInt_of_lt (show nr < 2 ^ 31 by omega), e, hopt, ne_eq, not_true_eq_false, if_false, if_true]
    rw [k4]

theorem heapSort_nodup (data : List T) (nr opt : Nat) (hnr : nr ≤ data.length) (hb : nr < 2 ^ 30)
    (hopt : opt &&& CasaSort.NoDuplicates ≠ 0) :
    Gen.NoDupSpec id data nr (fun ord => heapSort data nr ord opt) := by
  obtain ⟨d1, e, _, h2, h3, h5⟩ := heapSortAsc_spec data nr hnr hb
  have h := Gen.insSortAscNoDup_spec id gtD eqD gtD_iff eqD_iff d1 nr (by omega)
  rw [← insSortAscNoDup_eq_gen] at h
  obtain ⟨k0, k1, k2, k3, k4, k5, k6⟩ := Gen.nodup_finish id d1 nr (by omega) _ h
  have hd : d1.drop nr = data.drop nr := drop_eq_of_rd nr h2 (fun p hp _ => h5 p hp)
  refine Gen.NoDupSpec.transfer_nodup (d := d1) ?_ (take_perm_of_drop_eq nr h3 hd) h2
  refine ⟨(insSortAscNoDup d1 nr).2.take (insSortAscNoDup d1 nr).1,
    (insSortAscNoDup d1 nr).2.drop (insSortAscNoDup d1 nr).1, k1, k2, k3, ?_, ?_, ?_⟩
  · rw [k0]; exact k4
  · simp only [heapSort, atInt_of_lt (show nr < 2 ^ 31 by omega), e, ne_eq, hopt, not_false_eq_true, if_true, reduceCtorEq, if_false]
    rw [k0, ← k5]
  · simp only [heapSort, atInt_of_lt (show nr < 2 ^ 31 by omega), e, ne_eq, hopt, not_false_eq_true, if_true]
    rw [k0, k6]

theorem quickSort_keep (data : List T) (nr opt : Nat) (hnr : nr ≤ data.length) (hb : nr < 2 ^ 30)
    (hopt : opt &&& CasaSort.NoDuplicates = 0) :
    Gen.KeepSpec id data nr (fun ord => quickSort data nr ord opt) := by
  obtain ⟨rl, e1⟩ := recLimitLoop_some (nr + 1) nr 0 (by omega)
  obtain ⟨d1, e2, h2, h3, h5⟩ := quickSortAsc_spec data nr true (rl * 2) hnr hb
  have hd : d1.drop nr = data.drop nr := drop_eq_of_rd nr h2 (fun p hp _ => h5 p hp)
  have h := insSort_keep d1 nr opt (by omega) hb hopt
  have hq : (fun ord => quickSort data nr ord opt) =
      fun ord => some (insSort d1 nr ord opt) := by
    funext ord
    simp only [quickSort, atInt_of_lt (show nr < 2 ^ 31 by omega), e1, e2]
  rw [hq]
  exact h.transfer (take_perm_of_drop_eq nr h3 hd) hd

theorem quickSort_nodup (data : List T) (nr opt : Nat) (hnr : nr ≤ data.length) (hb : nr < 2 ^ 30)
    (hopt : opt &&& CasaSort.NoDuplicates ≠ 0) :
    Gen.NoDupSpec id data nr (fun ord => quickSort data nr ord opt) := by
  obtain ⟨rl, e1⟩ := recLimitLoop_some (nr + 1) nr 0 (by omega)
  obtain ⟨d1, e2, h2, h3, h5⟩ := quickSortAsc_spec data nr true (rl * 2) hnr hb
  have hd : d1.drop nr = data.drop nr := drop_eq_of_rd nr h2 (fun p hp _ => h5 p hp)
  have h := insSort_nodup d1 nr opt (by omega) hb hopt
  have hq : (fun ord => quickSort data nr ord opt) =
      fun ord => some (insSort d1 nr ord opt) := by
    funext ord
    simp only [quickSort, atInt_of_lt (show nr < 2 ^ 31 by omega), e1, e2]
  rw [hq]
  exact h.transfer_nodup (take_perm_of_drop_eq nr h3 hd) h2

end GenSort

/-! ## The parallel engine of the direct sort -/

namespace GenSort

variable {T : Type} [LinearOrder T] [Inhabited T]

theorem numThreads_spec (w : Workers) (nthread : Int) (nr : Nat) :
    1 ≤ numThreads w nthread nr ∧ (1 ≤ nr → numThreads w nthread nr ≤ nr) ∧
      (nr = 0 → numThreads w nthread nr = 1) := by
  unfold numThreads
  cases w with
  | none => exact ⟨le_refl _, fun h => h, fun _ => rfl⟩
  | some a =>
    simp only
    split_ifs <;> refine ⟨by omega, fun _ => by omega, fun _ => by omega⟩

theorem parSort_zero (w : Workers) (data : List T) (ord : CasaSort.Order) (opt : Nat)
    (nthread : Int) : parSort w data 0 ord opt nthread = some (0, data) := by
  have h := (numThreads_spec w nthread 0).2.2 rfl
  unfold parSort
  simp only [h]
  have e : ∀ inv junc : Nat → Bool, (findRuns inv junc 0 1).2 = 1 := by
    intro inv junc
    rfl
  simp only [e, Nat.lt_irrefl, if_false]
  cases ord <;> simp [reverse]

end GenSort

namespace Gen

open GenSort (rd)

variable {α : Type} [Inhabited α]

/-- The closing steps of `parSort` for Ascending: the result, whichever buffer holds it,
ends up at the head of the caller's buffer. -/
theorem tail_asc (mdata res1 : List α) (a : Bool) (n : Nat) (h1 : n ≤ mdata.length)
    (h2 : n ≤ res1.length) :
    (if a then GenSort.objcopy (if a then mdata else res1) res1 n
      else (if a then mdata else res1)) =
      res1.take n ++ (if a then mdata else res1).drop n := by
  cases a
  · simp
  · simp only [if_true]
    exact GenSort.objcopy_eq mdata res1 n h1 h2

/-- The closing steps of `parSort` for Descending. -/
theorem tail_desc (mdata res1 : List α) (a : Bool) (n : Nat) (h1 : n ≤ mdata.length)
    (h2 : n ≤ res1.length) :
    GenSort.reverse (if a then mdata else res1) (if a then some res1 else none) n =
      (res1.take n).reverse ++ (if a then mdata else res1).drop n := by
  cases a
  · simp only [Bool.false_eq_true, if_false]
    exact GenSort.reverse_inplace_eq res1 n h2
  · simp only [if_true]
    exact GenSort.reverse_copy_eq mdata res1 n h1 h2

end Gen

namespace GenSort

variable {T : Type} [LinearOrder T] [Inhabited T]

/-- The run scan and the merge of the direct `parSort`: either the merge is entered, returns
and leaves the sorted permutation in the buffer it names, or the first `nr` cells are in
strictly descending order. -/
theorem parSort_core (data : List T) (nr nthr : Nat) (h1 : 1 ≤ nthr) (h2 : nthr ≤ nr)
    (hnr : nr ≤ data.length) (inv junc : Nat → Bool)
    (hinv : ∀ j, inv j = decide (rd data (j - 1) > rd data j))
    (hj : ∀ i, 1 ≤ i → i < nthr → junc i = inv (rd (sliceBounds nr nthr) i)) :
    ((findRuns inv junc nr nthr).2 < nr →
      ∃ m a idx, merge data (List.replicate nr default) nr (findRuns inv junc nr nthr).1
          (findRuns inv junc nr nthr).2 = some (m, a, idx) ∧
        ((m.buf a).take nr).Perm (data.take nr) ∧
        ((m.buf a).take nr).Pairwise (fun x y => id x ≤ id y) ∧
        m.data.length = data.length ∧ nr ≤ (m.buf a).length ∧
        m.data.drop nr = data.drop nr) ∧
    (¬ (findRuns inv junc nr nthr).2 < nr →
      (data.take nr).Pairwise (fun x y => y < x)) := by
  obtain ⟨hri, hin, hall⟩ := findRuns_runIndex inv junc nr nthr h1 h2 hj
  generalize (findRuns inv junc nr nthr).1 = index at hri hin hall ⊢
  generalize (findRuns inv junc nr nthr).2 = nparts at hri hin hall ⊢
  constructor
  · intro _
    have hP : ∀ (o : Nat) (A B : List T),
        (A.Perm ((data.drop o).take A.length) ∧ A.Pairwise (fun x y => id x ≤ id y)) →
        (B.Perm ((data.drop (o + A.length)).take B.length) ∧
          B.Pairwise (fun x y => id x ≤ id y)) →
        ((List.merge A B tlD).Perm ((data.drop o).take (List.merge A B tlD).length) ∧
          (List.merge A B tlD).Pairwise (fun x y => id x ≤ id y)) := by
      rintro o A B ⟨a1, a2⟩ ⟨b1, b2⟩
      constructor
      · rw [Gen.length_merge, List.take_add, List.drop_drop]
        have h : (List.merge A B tlD).Perm (A ++ B) := List.merge_perm_append tlD
        exact h.trans (a1.append b1)
      · apply Gen.merge_pairwise id tlD A B a2 b2
        · intro a _ b _ h
          simp only [tlD, decide_eq_true_eq] at h
          exact le_of_lt h
        · intro a _ b _ h
          simp only [tlD, decide_eq_false_iff_not, not_lt] at h
          exact h
    obtain ⟨m, a, idx, e, ⟨p1, p2⟩, l1, l2, fr⟩ := Gen.merge_spec tlD
      (fun o r => r.Perm ((data.drop o).take r.length) ∧ r.Pairwise (fun x y => id x ≤ id y))
      hP data (List.replicate nr default) nr index nparts hnr (by simp) hri (by
        intro t ht
        have hlt := hri.incr t ht
        have hle := hri.le_nr (t + 1) (by omega)
        have hlen : ((data.drop (rd index t)).take (rd index (t + 1) - rd index t)).length =
            rd index (t + 1) - rd index t := by simp; omega
        refine ⟨by rw [hlen], ?_⟩
        apply Gen.pairwise_take_of_rd _ _ _ (by simp; omega)
        intro i j hij hjl
        rw [rd_drop, rd_drop]
        apply Gen.rel_of_adjacent (fun x y : T => x ≤ y) (fun _ _ _ => le_trans) (rd data)
          (rd index t) (rd index (t + 1)) ?_ _ _ (by omega) (by omega) (by omega)
        intro q hq1 hq2
        have := hin t ht q hq1 hq2
        rw [hinv] at this
        simpa using this)
    have hlen : nr ≤ (m.buf a).length := by
      cases a
      · simp only [Bufs.buf, Bool.false_eq_true, if_false]; omega
      · simp only [Bufs.buf, if_true]
        rw [l2]; simp
    refine ⟨m, a, idx, by rw [merge_eq_gen]; exact e, ?_, p2, l1, hlen,
      drop_eq_of_rd nr l1 (fun p hp _ => fr p hp)⟩
    have : ((m.buf a).take nr).length = nr := by simp; omega
    rw [this] at p1
    simpa using p1
  · intro hge
    have hnp : nparts = nr := by
      have := hri.np_le nparts (le_refl _)
      have := hri.last
      omega
    have hs := hall.1 hnp
    apply Gen.pairwise_take_of_rd _ _ _ hnr
    intro i j hij hjl
    apply Gen.rel_of_adjacent (fun x y : T => y < x) (fun _ _ _ h1 h2 => lt_trans h2 h1)
      (rd data) 0 nr ?_ _ _ (by omega) hij hjl
    intro q hq1 hq2
    have := hs q (by omega) hq2
    rw [hinv] at this
    simpa using this

end GenSort

namespace GenSort

variable {T : Type} [LinearOrder T] [Inhabited T]

theorem ite_some_pair {α : Type} (c : Prop) [Decidable c] (n : Nat) (x y : List α) :
    (if c then some (n, x) else some (n, y)) = some (n, if c then x else y) := by
  split <;> rfl

theorem parSort_keep (w : Workers) (data : List T) (nr opt : Nat) (nthread : Int)
    (hnr : nr ≤ data.length) (hopt : opt &&& CasaSort.NoDuplicates = 0) :
    Gen.KeepSpec id data nr (fun ord => parSort w data nr ord opt nthread) := by
  by_cases h0 : nr = 0
  · subst h0
    refine ⟨[], by simp, List.Pairwise.nil, ?_, ?_⟩ <;> simp [parSort_zero]
  obtain ⟨n1, n2, _⟩ := numThreads_spec w nthread nr
  obtain ⟨c1, c2⟩ := parSort_core data nr (numThreads w nthread nr) n1 (n2 (by omega)) hnr
    (fun j => decide (rd data (j - 1) > rd data j))
    (fun i => decide (rd data (rd (sliceBounds nr (numThreads w nthread nr)) i - 1) >
      rd data (rd (sliceBounds nr (numThreads w nthread nr)) i)))
    (fun _ => rfl) (fun _ _ _ => rfl)
  by_cases hlt : (findRuns (fun j => decide (rd data (j - 1) > rd data j))
    (fun i => decide (rd data (rd (sliceBounds nr (numThreads w nthread nr)) i - 1) >
      rd data (rd (sliceBounds nr (numThreads w nthread nr)) i)))
    nr (numThreads w nthread nr)).2 < nr
  · obtain ⟨m, a, idx, e, p1, p2, l1, l2, fr⟩ := c1 hlt
    have hrest : (if a then m.data else m.buf a).drop nr = data.drop nr := by
      cases a
      · simpa [Bufs.buf] using fr
      · simpa using fr
    refine ⟨(m.buf a).take nr, p1, p2, ?_, ?_⟩
    · simp only [parSort, if_pos hlt, e, hopt, ne_eq, not_true_eq_false, if_false,
        reduceCtorEq]
      rw [ite_some_pair, Gen.tail_asc m.data (m.buf a) a nr (by omega) l2, hrest]
    · simp only [parSort, if_pos hlt, e, hopt, ne_eq, not_true_eq_false, if_false, if_true]
      rw [Gen.tail_desc m.data (m.buf a) a nr (by omega) l2, hrest]
  · have hs := c2 hlt
    refine ⟨(data.take nr).reverse, List.reverse_perm _, ?_, ?_, ?_⟩
    · rw [List.pairwise_reverse]
      exact hs.imp (fun h => le_of_lt h)
    · simp only [parSort, if_neg hlt, if_true]
      rw [reverse_inplace_eq data nr hnr]
    · simp only [parSort, if_neg hlt, reduceCtorEq, if_false, List.reverse_reverse,
        List.take_append_drop]

theorem parSort_nodup (w : Workers) (data : List T) (nr opt : Nat) (nthread : Int)
    (hnr : nr ≤ data.length) (hb : nr < 2 ^ 30) (hopt : opt &&& CasaSort.NoDuplicates ≠ 0) :
    Gen.NoDupSpec id data nr (fun ord => parSort w data nr ord opt nthread) := by
  by_cases h0 : nr = 0
  · subst h0
    refine ⟨[], data, List.Pairwise.nil, by simp, by simp, by simp, ?_, ?_⟩ <;>
      simp [parSort_zero]
  obtain ⟨n1, n2, _⟩ := numThreads_spec w nthread nr
  obtain ⟨c1, c2⟩ := parSort_core data nr (numThreads w nthread nr) n1 (n2 (by omega)) hnr
    (fun j => decide (rd data (j - 1) > rd data j))
    (fun i => decide (rd data (rd (sliceBounds nr (numThreads w nthread nr)) i - 1) >
      rd data (rd (sliceBounds nr (numThreads w nthread nr)) i)))
    (fun _ => rfl) (fun _ _ _ => rfl)
  by_cases hlt : (findRuns (fun j => decide (rd data (j - 1) > rd data j))
    (fun i => decide (rd data (rd (sliceBounds nr (numThreads w nthread nr)) i - 1) >
      rd data (rd (sliceBounds nr (numThreads w nthread nr)) i)))
    nr (numThreads w nthread nr)).2 < nr
  · obtain ⟨m, a, idx, e, p1, _, l1, l2, _⟩ := c1 hlt
    have h := Gen.insSortAscNoDup_spec id gtD eqD gtD_iff eqD_iff (m.buf a) nr l2
    rw [← insSortAscNoDup_eq_gen] at h
    obtain ⟨k0, k1, k2, k3, k4, _, _⟩ := Gen.nodup_finish id (m.buf a) nr l2 _ h
    have hle := h.le
    have hlen := h.length
    generalize hr : insSortAscNoDup (m.buf a) nr = r at k0 k1 k2 k3 k4 hle hlen
    have hml : (if a then m.data else r.2).length = data.length := by
      cases a
      · simp only [Bool.false_eq_true, if_false, hlen, Bufs.buf]; exact l1
      · simpa using l1
    refine ⟨r.2.take r.1, (if a then m.data else r.2).drop r.1, k1,
      fun x hx => p1.mem_iff.1 (k2 x hx), fun y hy => k3 y (p1.mem_iff.2 hy), ?_, ?_, ?_⟩
    · rw [k0, List.length_drop, hml]; omega
    · simp only [parSort, atInt_of_lt (show nr < 2 ^ 31 by omega), if_pos hlt, e, hopt,
        ne_eq, not_false_eq_true, if_true, reduceCtorEq, if_false, hr]
      rw [ite_some_pair, Gen.tail_asc m.data r.2 a r.1 (by omega) (by omega), k0]
    · simp only [parSort, atInt_of_lt (show nr < 2 ^ 31 by omega), if_pos hlt, e, hopt,
        ne_eq, not_false_eq_true, if_true, hr]
      rw [Gen.tail_desc m.data r.2 a r.1 (by omega) (by omega), k0]
  · have hs := c2 hlt
    refine ⟨(data.take nr).reverse, data.drop nr, ?_, ?_, ?_, ?_, ?_, ?_⟩
    · rw [List.pairwise_reverse]
      exact hs
    · intro x hx; exact List.mem_reverse.1 hx
    · intro y hy; exact ⟨y, List.mem_reverse.2 hy, rfl⟩
    · simp; omega
    · simp only [parSort, if_neg hlt, if_true]
      rw [reverse_inplace_eq data nr hnr]
      simp [Nat.min_eq_left hnr]
    · simp only [parSort, if_neg hlt, reduceCtorEq, if_false, List.reverse_reverse,
        List.take_append_drop]
      simp [Nat.min_eq_left hnr]

end GenSort

/-! ## The dispatcher of the direct sort -/

namespace GenSort

variable {T : Type} [LinearOrder T] [Inhabited T]

/-- The bit tests `sort` makes on the options words. -/
theorem optionBits :
    ((0 : Nat) &&& 2 = 0) ∧ ((0 : Nat) &&& 4 = 0) ∧ ((0 : Nat) &&& 16 = 0) ∧
    ((1 : Nat) &&& 2 = 0) ∧ ((1 : Nat) &&& 4 = 0) ∧ ((1 : Nat) &&& 16 = 0) ∧
    ((2 : Nat) &&& 2 = 2) ∧ ((2 : Nat) &&& 4 = 0) ∧ ((2 : Nat) &&& 16 = 0) ∧
    ((4 : Nat) &&& 2 = 0) ∧ ((4 : Nat) &&& 4 = 4) ∧ ((4 : Nat) &&& 16 = 0) ∧
    ((8 : Nat) &&& 2 = 0) ∧ ((8 : Nat) &&& 4 = 0) ∧ ((8 : Nat) &&& 16 = 0) ∧
    ((16 : Nat) &&& 2 = 0) ∧ ((16 : Nat) &&& 4 = 0) ∧ ((16 : Nat) &&& 16 = 16) ∧
    ((17 : Nat) &&& 2 = 0) ∧ ((17 : Nat) &&& 4 = 0) ∧ ((17 : Nat) &&& 16 = 16) ∧
    ((18 : Nat) &&& 2 = 2) ∧ ((18 : Nat) &&& 4 = 0) ∧ ((18 : Nat) &&& 16 = 16) ∧
    ((20 : Nat) &&& 2 = 0) ∧ ((20 : Nat) &&& 4 = 4) ∧ ((20 : Nat) &&& 16 = 16) ∧
    ((24 : Nat) &&& 2 = 0) ∧ ((24 : Nat) &&& 4 = 0) ∧ ((24 : Nat) &&& 16 = 16) := by
  decide

/-- The engine `sort` hands the buffer to, for the options word `selector + KeepDuplicates`. -/
theorem sort_eq_keep (w : Workers) (data : List T) (nr : Nat) (ord : CasaSort.Order)
    (s : Selector) :
    sort w data nr ord s.keep =
      match s with
      | .Default =>
        if nr < 1000 ∨ w.getD 1 = 1 then quickSort data nr ord CasaSort.QuickSort
        else parSort w data nr ord CasaSort.ParSort 0
      | .Quicksort => quickSort data nr ord CasaSort.QuickSort
      | .Heapsort => heapSort data nr ord CasaSort.HeapSort
      | .Insertion => some (insSort data nr ord CasaSort.InsSort)
      | .Parallel => parSort w data nr ord CasaSort.ParSort 0 := by
  cases s
  · cases w with
    | none =>
      simp [sort, Selector.keep, Selector.code, CasaSort.DefaultSort, CasaSort.QuickSort,
        CasaSort.HeapSort, CasaSort.InsSort, CasaSort.ParSort, CasaSort.NoDuplicates, optionBits]
    | some a =>
      by_cases h : nr < 1000 ∨ a = 1
      · simp [sort, Selector.keep, Selector.code, CasaSort.DefaultSort, CasaSort.QuickSort,
          CasaSort.HeapSort, CasaSort.InsSort, CasaSort.ParSort, CasaSort.NoDuplicates, h, optionBits]
      · simp [sort, Selector.keep, Selector.code, CasaSort.DefaultSort, CasaSort.QuickSort,
          CasaSort.HeapSort, CasaSort.InsSort, CasaSort.ParSort, CasaSort.NoDuplicates, h, optionBits]
  all_goals
    simp [sort, Selector.keep, Selector.code, CasaSort.DefaultSort, CasaSort.QuickSort,
      CasaSort.HeapSort, CasaSort.InsSort, CasaSort.ParSort, CasaSort.NoDuplicates, optionBits]

/-- The engine `sort` hands the buffer to, for the options word `selector + NoDuplicates`. -/
theorem sort_eq_noDup (w : Workers) (data : List T) (nr : Nat) (ord : CasaSort.Order)
    (s : Selector) :
    sort w data nr ord s.noDup =
      match s with
      | .Default =>
        if nr < 1000 ∨ w.getD 1 = 1 then
          quickSort data nr ord (CasaSort.NoDuplicates + CasaSort.QuickSort)
        else parSort w data nr ord (CasaSort.NoDuplicates + CasaSort.ParSort) 0
      | .Quicksort => quickSort data nr ord (CasaSort.QuickSort + CasaSort.NoDuplicates)
      | .Heapsort => heapSort data nr ord (CasaSort.HeapSort + CasaSort.NoDuplicates)
      | .Insertion => some (insSort data nr ord (CasaSort.InsSort + CasaSort.NoDuplicates))
      | .Parallel => parSort w data nr ord (CasaSort.ParSort + CasaSort.NoDuplicates) 0 := by
  cases s
  · cases w with
    | none =>
      simp [sort, Selector.noDup, Selector.code, CasaSort.DefaultSort, CasaSort.QuickSort,
        CasaSort.HeapSort, CasaSort.InsSort, CasaSort.ParSort, CasaSort.NoDuplicates, optionBits]
    | some a =>
      by_cases h : nr < 1000 ∨ a = 1
      · simp [sort, Selector.noDup, Selector.code, CasaSort.DefaultSort, CasaSort.QuickSort,
          CasaSort.HeapSort, CasaSort.InsSort, CasaSort.ParSort, CasaSort.NoDuplicates, h, optionBits]
      · simp [sort, Selector.noDup, Selector.code, CasaSort.DefaultSort, CasaSort.QuickSort,
          CasaSort.HeapSort, CasaSort.InsSort, CasaSort.ParSort, CasaSort.NoDuplicates, h, optionBits]
  all_goals
    simp [sort, Selector.noDup, Selector.code, CasaSort.DefaultSort, CasaSort.QuickSort,
      CasaSort.HeapSort, CasaSort.InsSort, CasaSort.ParSort, CasaSort.NoDuplicates,
      optionBits]

theorem sort_keep (w : Workers) (data : List T) (nr : Nat) (s : Selector)
    (hnr : nr ≤ data.length) (hb : nr < 2 ^ 30) :
    Gen.KeepSpec id data nr (fun ord => sort w data nr ord s.keep) := by
  simp only [sort_eq_keep]
  cases s
  · by_cases h : nr < 1000 ∨ w.getD 1 = 1
    · simp only [if_pos h]; exact quickSort_keep data nr _ hnr hb (by decide)
    · simp only [if_neg h]; exact parSort_keep w data nr _ 0 hnr (by decide)
  · exact quickSort_keep data nr _ hnr hb (by decide)
  · exact heapSort_keep data nr _ hnr hb (by decide)
  · exact insSort_keep data nr _ hnr hb (by decide)
  · exact parSort_keep w data nr _ 0 hnr (by decide)

theorem sort_nodup (w : Workers) (data : List T) (nr : Nat) (s : Selector)
    (hnr : nr ≤ data.length) (hb : nr < 2 ^ 30) :
    Gen.NoDupSpec id data nr (fun ord => sort w data nr ord s.noDup) := by
  simp only [sort_eq_noDup]
  cases s
  · by_cases h : nr < 1000 ∨ w.getD 1 = 1
    · simp only [if_pos h]; exact quickSort_nodup data nr _ hnr hb (by decide)
    · simp only [if_neg h]; exact parSort_nodup w data nr _ 0 hnr hb (by decide)
  · exact quickSort_nodup data nr _ hnr hb (by decide)
  · exact heapSort_nodup data nr _ hnr hb (by decide)
  · exact insSort_nodup data nr _ hnr hb (by decide)
  · exact parSort_nodup w data nr _ 0 hnr hb (by decide)

end GenSort

/-! ## The sequential engines of the indirect sort -/

namespace GenSortIndirect

variable {T : Type} [LinearOrder T] [Inhabited T]

open GenSort (rd)

theorem gtV_iff (data : List T) (x y : Nat) :
    gtV data x y = true ↔ rd data y < rd data x := by
  simp [gtV]

theorem eqV_iff (data : List T) (x y : Nat) :
    eqV data x y = true ↔ rd data x = rd data y := by
  simp [eqV]

theorem ind_insSort_keep (inx : List Nat) (data : List T) (nr opt : Nat)
    (hnr : nr ≤ inx.length) (hopt : opt &&& CasaSort.NoDuplicates = 0) :
    Gen.KeepSpec (lexKey data) inx nr (fun ord => some (insSort inx data nr ord opt)) := by
  obtain ⟨h1, h2, h3, h4, h5⟩ :=
    Gen.insSortAscDup_spec (lexKey data) (isAscending data) (isAscending_iff data) inx nr hnr
  rw [← ind_insSortAscDup_eq_gen] at h1 h2 h3 h4 h5
  obtain ⟨k1, k2, k3, k4⟩ := Gen.keep_finish (lexKey data) inx _ nr hnr h2 h3 h4 h5
  refine ⟨(insSortAscDup inx data nr).2.take nr, k1, k2, ?_, ?_⟩
  · simp only [insSort, insSortAsc, if_pos hopt, reduceCtorEq, if_false]
    rw [← k3]
    generalize insSortAscDup inx data nr = r at h1
    obtain ⟨a, b⟩ := r
    simp only at h1
    rw [h1]
  · simp only [insSort, insSortAsc, if_pos hopt, if_true, h1]
    rw [k4]

theorem ind_insSort_nodup (inx : List Nat) (data : List T) (nr opt : Nat)
    (hnr : nr ≤ inx.length) (hopt : opt &&& CasaSort.NoDuplicates ≠ 0) :
    Gen.NoDupSpec (rd data) inx nr (fun ord => some (insSort inx data nr ord opt)) := by
  have h := Gen.insSortAscNoDup_spec (rd data) (gtV data) (eqV data) (gtV_iff data)
    (eqV_iff data) inx nr hnr
  rw [← ind_insSortAscNoDup_eq_gen] at h
  obtain ⟨k0, k1, k2, k3, k4, k5, k6⟩ := Gen.nodup_finish (rd data) inx nr hnr _ h
  refine ⟨(insSortAscNoDup inx data nr).2.take (insSortAscNoDup inx data nr).1,
    (insSortAscNoDup inx data nr).2.drop (insSortAscNoDup inx data nr).1, k1, k2, k3,
    ?_, ?_, ?_⟩
  · rw [k0]; exact k4
  · simp only [insSort, insSortAsc, if_neg hopt, reduceCtorEq, if_false]
    rw [k0, ← k5]
  · simp only [insSort, insSortAsc, if_neg hopt, if_true]
    rw [k0, k6]

theorem ind_heapSort_keep (inx : List Nat) (data : List T) (nr opt : Nat)
    (hnr : nr ≤ inx.length) (hopt : opt &&& CasaSort.NoDuplicates = 0) :
    Gen.KeepSpec (lexKey data) inx nr (fun ord => heapSort inx data nr ord opt) := by
  obtain ⟨d1, e, h4, h2, h3, h5⟩ := ind_heapSortAsc_spec inx data nr hnr
  obtain ⟨k1, k2, k3, k4⟩ := Gen.keep_finish (lexKey data) inx d1 nr hnr h2 h3 h4 h5
  refine ⟨d1.take nr, k1, k2, ?_, ?_⟩
  · simp only [heapSort, e, hopt, ne_eq, not_true_eq_false, if_false, reduceCtorEq]
    rw [← k3]
  · simp only [heapSort, e, hopt, ne_eq, not_true_eq_false, if_false, if_true]
    rw [k4]

theorem ind_heapSort_nodup (inx : List Nat) (data : List T) (nr opt : Nat)
    (hnr : nr ≤ inx.length) (hopt : opt &&& CasaSort.NoDuplicates ≠ 0) :
    Gen.NoDupSpec (rd data) inx nr (fun ord => heapSort inx data nr ord opt) := by
  obtain ⟨d1, e, _, h2, h3, h5⟩ := ind_heapSortAsc_spec inx data nr hnr
  have h := Gen.insSortAscNoDup_spec (rd data) (gtV data) (eqV data) (gtV_iff data)
    (eqV_iff data) d1 nr (by omega)
  rw [← ind_insSortAscNoDup_eq_gen] at h
  obtain ⟨k0, k1, k2, k3, k4, k5, k6⟩ := Gen.nodup_finish (rd data) d1 nr (by omega) _ h
  have hd : d1.drop nr = inx.drop nr :=
    GenSort.drop_eq_of_rd nr h2 (fun p hp _ => h5 p hp)
  refine Gen.NoDupSpec.transfer_nodup (d := d1) ?_ (GenSort.take_perm_of_drop_eq nr h3 hd) h2
  refine ⟨(insSortAscNoDup d1 data nr).2.take (insSortAscNoDup d1 data nr).1,
    (insSortAscNoDup d1 data nr).2.drop (insSortAscNoDup d1 data nr).1, k1, k2, k3,
    ?_, ?_, ?_⟩
  · rw [k0]; exact k4
  · simp only [heapSort, e, ne_eq, hopt, not_false_eq_true, if_true, reduceCtorEq, if_false]
    rw [k0, ← k5]
  · simp only [heapSort, e, ne_eq, hopt, not_false_eq_true, if_true]
    rw [k0, k6]

theorem ind_quickSort_keep (inx : List Nat) (data : List T) (nr opt : Nat)
    (hnr : nr ≤ inx.length) (hnd : (inx.take nr).Nodup)
    (hopt : opt &&& CasaSort.NoDuplicates = 0) :
    Gen.KeepSpec (lexKey data) inx nr (fun ord => quickSort inx data nr ord opt) := by
  obtain ⟨rl, e1⟩ := GenSort.recLimitLoop_some (nr + 1) nr 0 (by omega)
  obtain ⟨d1, e2, h2, h3, h5⟩ := ind_quickSortAsc_spec inx data nr true (rl * 2) hnr hnd
  have hd : d1.drop nr = inx.drop nr :=
    GenSort.drop_eq_of_rd nr h2 (fun p hp _ => h5 p hp)
  have h := ind_insSort_keep d1 data nr opt (by omega) hopt
  have hq : (fun ord => quickSort inx data nr ord opt) =
      fun ord => some (insSort d1 data nr ord opt) := by
    funext ord
    simp only [quickSort, e1, e2]
  rw [hq]
  exact h.transfer (GenSort.take_perm_of_drop_eq nr h3 hd) hd

theorem ind_quickSort_nodup (inx : List Nat) (data : List T) (nr opt : Nat)
    (hnr : nr ≤ inx.length) (hnd : (inx.take nr).Nodup)
    (hopt : opt &&& CasaSort.NoDuplicates ≠ 0) :
    Gen.NoDupSpec (rd data) inx nr (fun ord => quickSort inx data nr ord opt) := by
  obtain ⟨rl, e1⟩ := GenSort.recLimitLoop_some (nr + 1) nr 0 (by omega)
  obtain ⟨d1, e2, h2, h3, h5⟩ := ind_quickSortAsc_spec inx data nr true (rl * 2) hnr hnd
  have hd : d1.drop nr = inx.drop nr :=
    GenSort.drop_eq_of_rd nr h2 (fun p hp _ => h5 p hp)
  have h := ind_insSort_nodup d1 data nr opt (by omega) hopt
  have hq : (fun ord => quickSort inx data nr ord opt) =
      fun ord => some (insSort d1 data nr ord opt) := by
    funext ord
    simp only [quickSort, e1, e2]
  rw [hq]
  exact h.transfer_nodup (GenSort.take_perm_of_drop_eq nr h3 hd) h2

end GenSortIndirect

/-! ## The parallel engine of the indirect sort -/

namespace GenSortIndirect

variable {T : Type} [LinearOrder T] [Inhabited T]

open GenSort (rd Bufs findRuns sliceBounds numThreads)

theorem ind_parSort_zero (w : Workers) (inx : List Nat) (data : List T)
    (ord : CasaSort.Order) (opt : Nat) (nthread : Int) :
    parSort w inx data 0 ord opt nthread = some (0, inx) := by
  have h := (GenSort.numThreads_spec w nthread 0).2.2 rfl
  unfold parSort
  simp only [h]
  have e : ∀ inv junc : Nat → Bool, (findRuns inv junc 0 1).2 = 1 := by
    intro inv junc
    rfl
  simp only [e, Nat.lt_irrefl, if_false]
  cases ord <;> simp [GenSort.reverse]

theorem sliceBound_lt (nr nthr i : Nat) (h2 : nthr ≤ nr) (hi1 : 1 ≤ i) (hi : i < nthr) :
    1 ≤ rd (sliceBounds nr nthr) i ∧ rd (sliceBounds nr nthr) i < nr := by
  obtain ⟨m0, m1, m2⟩ := GenSort.sliceBounds_mono nr nthr (by omega) h2
  obtain ⟨_, a2, _⟩ := GenSort.sliceBounds_spec nr nthr
  have hstep : 1 ≤ nr / nthr := (Nat.one_le_div_iff (by omega)).2 h2
  have hmul : nthr * (nr / nthr) ≤ nr := Nat.mul_div_le nr nthr
  rw [a2 i hi]
  constructor
  · exact Nat.mul_pos (by omega) hstep
  · have : (i + 1) * (nr / nthr) ≤ nthr * (nr / nthr) := Nat.mul_le_mul_right _ (by omega)
    rw [Nat.add_mul] at this
    omega

/-- The run scan and the merge of the indirect `parSort`, on an index array that holds the
positions `0 .. nr-1` in order. -/
theorem ind_parSort_core (inx : List Nat) (data : List T) (nr nthr : Nat) (h1 : 1 ≤ nthr)
    (h2 : nthr ≤ nr) (hnr : nr ≤ inx.length) (hid : ∀ j, j < nr → rd inx j = j)
    (inv junc : Nat → Bool)
    (hinv : ∀ j, inv j = decide (rd data (rd inx (j - 1)) > rd data (rd inx j)))
    (hjunc : ∀ i, junc i = decide (rd data (rd (sliceBounds nr nthr) i - 1) >
      rd data (rd (sliceBounds nr nthr) i))) :
    ((findRuns inv junc nr nthr).2 < nr →
      ∃ m a idx, merge data inx (List.replicate nr default) nr (findRuns inv junc nr nthr).1
          (findRuns inv junc nr nthr).2 = some (m, a, idx) ∧
        ((m.buf a).take nr).Perm (inx.take nr) ∧
        ((m.buf a).take nr).Pairwise (fun x y => lexKey data x ≤ lexKey data y) ∧
        m.data.length = inx.length ∧ nr ≤ (m.buf a).length ∧
        m.data.drop nr = inx.drop nr) ∧
    (¬ (findRuns inv junc nr nthr).2 < nr →
      (inx.take nr).Pairwise (fun x y => rd data y < rd data x)) := by
  have hj : ∀ i, 1 ≤ i → i < nthr → junc i = inv (rd (sliceBounds nr nthr) i) := by
    intro i hi1 hi
    obtain ⟨b1, b2⟩ := sliceBound_lt nr nthr i h2 hi1 hi
    rw [hjunc, hinv, hid _ b2, hid _ (by omega)]
  have htake : inx.take nr = List.range' 0 nr := by
    apply GenSort.ext_rd (by simp; omega)
    intro p hp
    simp only [List.length_take] at hp
    rw [GenSort.rd_take _ (by omega), hid p (by omega), GenSort.rd_of_lt _ (by simp; omega)]
    simp
  obtain ⟨hri, hin, hall⟩ := GenSort.findRuns_runIndex inv junc nr nthr h1 h2 hj
  generalize (findRuns inv junc nr nthr).1 = index at hri hin hall ⊢
  generalize (findRuns inv junc nr nthr).2 = nparts at hri hin hall ⊢
  constructor
  · intro _
    have hP : ∀ (o : Nat) (A B : List Nat),
        (A.Perm (List.range' o A.length) ∧
          A.Pairwise (fun x y => lexKey data x ≤ lexKey data y)) →
        (B.Perm (List.range' (o + A.length) B.length) ∧
          B.Pairwise (fun x y => lexKey data x ≤ lexKey data y)) →
        ((List.merge A B (tlI data)).Perm (List.range' o (List.merge A B (tlI data)).length) ∧
          (List.merge A B (tlI data)).Pairwise
            (fun x y => lexKey data x ≤ lexKey data y)) := by
      rintro o A B ⟨a1, a2⟩ ⟨b1, b2⟩
      constructor
      · rw [Gen.length_merge]
        have h : (List.merge A B (tlI data)).Perm (A ++ B) := List.merge_perm_append (tlI data)
        have e : List.range' o (A.length + B.length) =
            List.range' o A.length ++ List.range' (o + A.length) B.length := by
          rw [List.range'_append_1, Nat.add_comm]
        rw [e]
        exact h.trans (a1.append b1)
      · apply Gen.merge_pairwise (lexKey data) (tlI data) A B a2 b2
        · intro a ha b hb h
          have ha' := (a1.mem_iff.1 ha)
          have hb' := (b1.mem_iff.1 hb)
          simp only [List.mem_range'_1] at ha' hb'
          simp only [tlI, decide_eq_true_eq] at h
          apply le_of_lt
          rw [lexKey_lt]
          rcases lt_or_eq_of_le h with h | h
          · exact Or.inl h
          · exact Or.inr ⟨h, by omega⟩
        · intro a _ b _ h
          simp only [tlI, decide_eq_false_iff_not, not_le] at h
          apply le_of_lt
          rw [lexKey_lt]
          exact Or.inl h
    obtain ⟨m, a, idx, e, ⟨p1, p2⟩, l1, l2, fr⟩ := Gen.merge_spec (tlI data)
      (fun o r => r.Perm (List.range' o r.length) ∧
        r.Pairwise (fun x y => lexKey data x ≤ lexKey data y))
      hP inx (List.replicate nr default) nr index nparts hnr (by simp) hri (by
        intro t ht
        have hlt := hri.incr t ht
        have hle := hri.le_nr (t + 1) (by omega)
        have hrun : (inx.drop (rd index t)).take (rd index (t + 1) - rd index t) =
            List.range' (rd index t) (rd index (t + 1) - rd index t) := by
          apply GenSort.ext_rd (by simp; omega)
          intro p hp
          simp only [List.length_take, List.length_drop] at hp
          rw [GenSort.rd_take _ (by omega), GenSort.rd_drop, hid _ (by omega),
            GenSort.rd_of_lt (List.range' (rd index t) (rd index (t + 1) - rd index t))
              (by rw [List.length_range']; omega)]
          simp
        rw [hrun]
        refine ⟨by simp, ?_⟩
        rw [List.pairwise_iff_getElem]
        intro i j hi hj hij
        simp only [List.length_range'] at hi hj
        simp only [List.getElem_range', Nat.one_mul]
        apply Gen.rel_of_adjacent (fun x y : Lex (T × Nat) => x ≤ y) (fun _ _ _ => le_trans)
          (lexKey data) (rd index t) (rd index (t + 1)) ?_ _ _ (by omega) (by omega)
          (by omega)
        intro q hq1 hq2
        have := hin t ht q hq1 hq2
        rw [hinv, hid _ (by omega), hid _ (by omega)] at this
        simp only [gt_iff_lt, decide_eq_false_iff_not, not_lt] at this
        apply le_of_lt
        rw [lexKey_lt]
        rcases lt_or_eq_of_le this with h | h
        · exact Or.inl h
        · exact Or.inr ⟨h, by omega⟩)
    have hlen : nr ≤ (m.buf a).length := by
      cases a
      · simp only [Bufs.buf, Bool.false_eq_true, if_false]; omega
      · simp only [Bufs.buf, if_true]
        rw [l2]; simp
    refine ⟨m, a, idx, by rw [ind_merge_eq_gen]; exact e, ?_, p2, l1, hlen,
      GenSort.drop_eq_of_rd nr l1 (fun p hp _ => fr p hp)⟩
    have : ((m.buf a).take nr).length = nr := by simp; omega
    rw [this] at p1
    rw [htake]; exact p1
  · intro hge
    have hnp : nparts = nr := by
      have := hri.np_le nparts (le_refl _)
      have := hri.last
      omega
    have hs := hall.1 hnp
    apply Gen.pairwise_take_of_rd _ _ _ hnr
    intro i j hij hjl
    rw [hid i (by omega), hid j hjl]
    apply Gen.rel_of_adjacent (fun x y : T => y < x) (fun _ _ _ h1 h2 => lt_trans h2 h1)
      (rd data) 0 nr ?_ _ _ (by omega) hij hjl
    intro q hq1 hq2
    have := hs q (by omega) hq2
    rw [hinv, hid _ (by omega), hid _ (by omega)] at this
    simpa using this

end GenSortIndirect

namespace GenSortIndirect

variable {T : Type} [LinearOrder T] [Inhabited T]

open GenSort (rd Bufs findRuns sliceBounds numThreads)

theorem ind_parSort_keep (w : Workers) (inx : List Nat) (data : List T) (nr opt : Nat)
    (nthread : Int) (hnr : nr ≤ inx.length) (hid : ∀ j, j < nr → rd inx j = j)
    (hopt : opt &&& CasaSort.NoDuplicates = 0) :
    Gen.KeepSpec (lexKey data) inx nr (fun ord => parSort w inx data nr ord opt nthread) := by
  by_cases h0 : nr = 0
  · subst h0
    refine ⟨[], by simp, List.Pairwise.nil, ?_, ?_⟩ <;> simp [ind_parSort_zero]
  obtain ⟨n1, n2, _⟩ := GenSort.numThreads_spec w nthread nr
  obtain ⟨c1, c2⟩ := ind_parSort_core inx data nr (numThreads w nthread nr) n1
    (n2 (by omega)) hnr hid
    (fun j => decide (rd data (rd inx (j - 1)) > rd data (rd inx j)))
    (fun i => decide (rd data (rd (sliceBounds nr (numThreads w nthread nr)) i - 1) >
      rd data (rd (sliceBounds nr (numThreads w nthread nr)) i)))
    (fun _ => rfl) (fun _ => rfl)
  by_cases hlt : (findRuns (fun j => decide (rd data (rd inx (j - 1)) > rd data (rd inx j)))
    (fun i => decide (rd data (rd (sliceBounds nr (numThreads w nthread nr)) i - 1) >
      rd data (rd (sliceBounds nr (numThreads w nthread nr)) i)))
    nr (numThreads w nthread nr)).2 < nr
  · obtain ⟨m, a, idx, e, p1, p2, l1, l2, fr⟩ := c1 hlt
    have hrest : (if a then m.data else m.buf a).drop nr = inx.drop nr := by
      cases a
      · simpa [Bufs.buf] using fr
      · simpa using fr
    refine ⟨(m.buf a).take nr, p1, p2, ?_, ?_⟩
    · simp only [parSort, if_pos hlt, e, hopt, ne_eq, not_true_eq_false, if_false,
        reduceCtorEq]
      rw [GenSort.ite_some_pair, Gen.tail_asc m.data (m.buf a) a nr (by omega) l2, hrest]
    · simp only [parSort, if_pos hlt, e, hopt, ne_eq, not_true_eq_false, if_false, if_true]
      rw [Gen.tail_desc m.data (m.buf a) a nr (by omega) l2, hrest]
  · have hs := c2 hlt
    refine ⟨(inx.take nr).reverse, List.reverse_perm _, ?_, ?_, ?_⟩
    · rw [List.pairwise_reverse]
      refine hs.imp (fun h => le_of_lt ?_)
      rw [lexKey_lt]
      exact Or.inl h
    · simp only [parSort, if_neg hlt, if_true]
      rw [GenSort.reverse_inplace_eq inx nr hnr]
    · simp only [parSort, if_neg hlt, reduceCtorEq, if_false, List.reverse_reverse,
        List.take_append_drop]

theorem ind_parSort_nodup (w : Workers) (inx : List Nat) (data : List T) (nr opt : Nat)
    (nthread : Int) (hnr : nr ≤ inx.length) (hid : ∀ j, j < nr → rd inx j = j)
    (hopt : opt &&& CasaSort.NoDuplicates ≠ 0) :
    Gen.NoDupSpec (rd data) inx nr (fun ord => parSort w inx data nr ord opt nthread) := by
  by_cases h0 : nr = 0
  · subst h0
    refine ⟨[], inx, List.Pairwise.nil, by simp, by simp, by simp, ?_, ?_⟩ <;>
      simp [ind_parSort_zero]
  obtain ⟨n1, n2, _⟩ := GenSort.numThreads_spec w nthread nr
  obtain ⟨c1, c2⟩ := ind_parSort_core inx data nr (numThreads w nthread nr) n1
    (n2 (by omega)) hnr hid
    (fun j => decide (rd data (rd inx (j - 1)) > rd data (rd inx j)))
    (fun i => decide (rd data (rd (sliceBounds nr (numThreads w nthread nr)) i - 1) >
      rd data (rd (sliceBounds nr (numThreads w nthread nr)) i)))
    (fun _ => rfl) (fun _ => rfl)
  by_cases hlt : (findRuns (fun j => decide (rd data (rd inx (j - 1)) > rd data (rd inx j)))
    (fun i => decide (rd data (rd (sliceBounds nr (numThreads w nthread nr)) i - 1) >
      rd data (rd (sliceBounds nr (numThreads w nthread nr)) i)))
    nr (numThreads w nthread nr)).2 < nr
  · obtain ⟨m, a, idx, e, p1, _, l1, l2, _⟩ := c1 hlt
    have h := Gen.insSortAscNoDup_spec (rd data) (gtV data) (eqV data) (gtV_iff data)
      (eqV_iff data) (m.buf a) nr l2
    rw [← ind_insSortAscNoDup_eq_gen] at h
    obtain ⟨k0, k1, k2, k3, k4, _, _⟩ := Gen.nodup_finish (rd data) (m.buf a) nr l2 _ h
    have hle := h.le
    have hlen := h.length
    generalize hr : insSortAscNoDup (m.buf a) data nr = r at k0 k1 k2 k3 k4 hle hlen
    have hml : (if a then m.data else r.2).length = inx.length := by
      cases a
      · simp only [Bool.false_eq_true, if_false, hlen, Bufs.buf]; exact l1
      · simpa using l1
    refine ⟨r.2.take r.1, (if a then m.data else r.2).drop r.1, k1,
      fun x hx => p1.mem_iff.1 (k2 x hx), fun y hy => k3 y (p1.mem_iff.2 hy), ?_, ?_, ?_⟩
    · rw [k0, List.length_drop, hml]; omega
    · simp only [parSort, if_pos hlt, e, hopt, ne_eq, not_false_eq_true, if_true,
        reduceCtorEq, if_false, hr]
      rw [GenSort.ite_some_pair, Gen.tail_asc m.data r.2 a r.1 (by omega) (by omega), k0]
    · simp only [parSort, if_pos hlt, e, hopt, ne_eq, not_false_eq_true, if_true, hr]
      rw [Gen.tail_desc m.data r.2 a r.1 (by omega) (by omega), k0]
  · have hs := c2 hlt
    refine ⟨(inx.take nr).reverse, inx.drop nr, ?_, ?_, ?_, ?_, ?_, ?_⟩
    · rw [List.pairwise_reverse]
      exact hs
    · intro x hx; exact List.mem_reverse.1 hx
    · intro y hy; exact ⟨y, List.mem_reverse.2 hy, rfl⟩
    · simp; omega
    · simp only [parSort, if_neg hlt, if_true]
      rw [GenSort.reverse_inplace_eq inx nr hnr]
      simp [Nat.min_eq_left hnr]
    · simp only [parSort, if_neg hlt, reduceCtorEq, if_false, List.reverse_reverse,
        List.take_append_drop]
      simp [Nat.min_eq_left hnr]

end GenSortIndirect

/-! ## The dispatcher of the indirect sort -/

namespace GenSortIndirect

variable {T : Type} [LinearOrder T] [Inhabited T]

open GenSort (rd)

/-- The engine the indirect `sort` hands the index vector to, and the closing trim, for the
options word `selector + KeepDuplicates`. -/
theorem ind_sort_eq_keep (w : Workers) (iv : List Nat) (data : List T) (nr : Nat)
    (ord : CasaSort.Order) (s : Selector) :
    sort w iv data nr ord s.keep =
      Option.bind
        (match s with
        | .Default =>
          if nr < 1000 ∨ w.getD 1 = 1 then
            quickSort (List.range nr) data nr ord CasaSort.QuickSort
          else parSort w (List.range nr) data nr ord CasaSort.ParSort 0
        | .Quicksort => quickSort (List.range nr) data nr ord CasaSort.QuickSort
        | .Heapsort => heapSort (List.range nr) data nr ord CasaSort.HeapSort
        | .Insertion => some (insSort (List.range nr) data nr ord CasaSort.InsSort)
        | .Parallel => parSort w (List.range nr) data nr ord CasaSort.ParSort 0)
        (fun r => if r.1 < nr then some (r.1, r.2.take r.1) else some r) := by
  cases s
  · cases w with
    | none =>
      simp [sort, indgen, Selector.keep, Selector.code, CasaSort.DefaultSort,
        CasaSort.QuickSort, CasaSort.HeapSort, CasaSort.InsSort, CasaSort.ParSort,
        CasaSort.NoDuplicates, GenSort.optionBits]
      split <;> simp_all
    | some a =>
      by_cases h : nr < 1000 ∨ a = 1
      · simp [sort, indgen, Selector.keep, Selector.code, CasaSort.DefaultSort,
          CasaSort.QuickSort, CasaSort.HeapSort, CasaSort.InsSort, CasaSort.ParSort,
          CasaSort.NoDuplicates, h, GenSort.optionBits]
        split <;> simp_all
      · simp [sort, indgen, Selector.keep, Selector.code, CasaSort.DefaultSort,
          CasaSort.QuickSort, CasaSort.HeapSort, CasaSort.InsSort, CasaSort.ParSort,
          CasaSort.NoDuplicates, h, GenSort.optionBits]
        split <;> simp_all
  all_goals
    simp [sort, indgen, Selector.keep, Selector.code, CasaSort.DefaultSort,
      CasaSort.QuickSort, CasaSort.HeapSort, CasaSort.InsSort, CasaSort.ParSort,
      CasaSort.NoDuplicates, GenSort.optionBits]
    try (split <;> simp_all)

/-- The engine the indirect `sort` hands the index vector to, and the closing trim, for the
options word `selector + NoDuplicates`. -/
theorem ind_sort_eq_noDup (w : Workers) (iv : List Nat) (data : List T) (nr : Nat)
    (ord : CasaSort.Order) (s : Selector) :
    sort w iv data nr ord s.noDup =
      Option.bind
        (match s with
        | .Default =>
          if nr < 1000 ∨ w.getD 1 = 1 then
            quickSort (List.range nr) data nr ord (CasaSort.NoDuplicates + CasaSort.QuickSort)
          else
            parSort w (List.range nr) data nr ord (CasaSort.NoDuplicates + CasaSort.ParSort) 0
        | .Quicksort =>
          quickSort (List.range nr) data nr ord (CasaSort.QuickSort + CasaSort.NoDuplicates)
        | .Heapsort =>
          heapSort (List.range nr) data nr ord (CasaSort.HeapSort + CasaSort.NoDuplicates)
        | .Insertion =>
          some (insSort (List.range nr) data nr ord (CasaSort.InsSort + CasaSort.NoDuplicates))
        | .Parallel =>
          parSort w (List.range nr) data nr ord (CasaSort.ParSort + CasaSort.NoDuplicates) 0)
        (fun r => if r.1 < nr then some (r.1, r.2.take r.1) else some r) := by
  cases s
  · cases w with
    | none =>
      simp [sort, indgen, Selector.noDup, Selector.code, CasaSort.DefaultSort,
        CasaSort.QuickSort, CasaSort.HeapSort, CasaSort.InsSort, CasaSort.ParSort,
        CasaSort.NoDuplicates, GenSort.optionBits]
      split <;> simp_all
    | some a =>
      by_cases h : nr < 1000 ∨ a = 1
      · simp [sort, indgen, Selector.noDup, Selector.code, CasaSort.DefaultSort,
          CasaSort.QuickSort, CasaSort.HeapSort, CasaSort.InsSort, CasaSort.ParSort,
          CasaSort.NoDuplicates, h, GenSort.optionBits]
        split <;> simp_all
      · simp [sort, indgen, Selector.noDup, Selector.code, CasaSort.DefaultSort,
          CasaSort.QuickSort, CasaSort.HeapSort, CasaSort.InsSort, CasaSort.ParSort,
          CasaSort.NoDuplicates, h, GenSort.optionBits]
        split <;> simp_all
  all_goals
    simp [sort, indgen, Selector.noDup, Selector.code, CasaSort.DefaultSort,
      CasaSort.QuickSort, CasaSort.HeapSort, CasaSort.InsSort, CasaSort.ParSort,
      CasaSort.NoDuplicates, GenSort.optionBits]
    try (split <;> simp_all)

theorem take_range_self (nr : Nat) : (List.range nr).take nr = List.range nr :=
  List.take_of_length_le (by simp)

theorem rd_range {j nr : Nat} (h : j < nr) : rd (List.range nr) j = j := by
  rw [GenSort.rd_of_lt _ (by simpa using h)]
  simp

/-- What the indirect `sort` returns when duplicates are kept: the positions `0 .. nr-1`
ordered by value and then by position, for Descending the same vector backwards. -/
theorem ind_sort_keep (w : Workers) (iv : List Nat) (data : List T) (nr : Nat) (s : Selector) :
    ∃ asc : List Nat, asc.Perm (List.range nr) ∧
      asc.Pairwise (fun x y => lexKey data x ≤ lexKey data y) ∧
      sort w iv data nr CasaSort.Order.Ascending s.keep = some (nr, asc) ∧
      sort w iv data nr CasaSort.Order.Descending s.keep = some (nr, asc.reverse) := by
  have hlen : nr ≤ (List.range nr).length := by simp
  have hnd : ((List.range nr).take nr).Nodup := by
    rw [take_range_self]; exact List.nodup_range nr
  have hid : ∀ j, j < nr → rd (List.range nr) j = j := fun j h => rd_range h
  have key : ∀ f : CasaSort.Order → Option (Nat × List Nat),
      Gen.KeepSpec (lexKey data) (List.range nr) nr f →
      ∃ asc : List Nat, asc.Perm (List.range nr) ∧
        asc.Pairwise (fun x y => lexKey data x ≤ lexKey data y) ∧
        (f CasaSort.Order.Ascending).bind
          (fun r => if r.1 < nr then some (r.1, r.2.take r.1) else some r) = some (nr, asc) ∧
        (f CasaSort.Order.Descending).bind
          (fun r => if r.1 < nr then some (r.1, r.2.take r.1) else some r) =
            some (nr, asc.reverse) := by
    rintro f ⟨asc, h1, h2, h3, h4⟩
    refine ⟨asc, by rw [take_range_self] at h1; exact h1, h2, ?_, ?_⟩
    · rw [h3]; simp
    · rw [h4]; simp
  simp only [ind_sort_eq_keep]
  cases s
  · by_cases h : nr < 1000 ∨ w.getD 1 = 1
    · simp only [if_pos h]
      exact key _ (ind_quickSort_keep _ data nr _ hlen hnd (by decide))
    · simp only [if_neg h]
      exact key _ (ind_parSort_keep w _ data nr _ 0 hlen hid (by decide))
  · exact key _ (ind_quickSort_keep _ data nr _ hlen hnd (by decide))
  · exact key _ (ind_heapSort_keep _ data nr _ hlen (by decide))
  · exact key _ (ind_insSort_keep _ data nr _ hlen (by decide))
  · exact key _ (ind_parSort_keep w _ data nr _ 0 hlen hid (by decide))

/-- What the indirect `sort` returns when duplicates are dropped: a vector of positions
with strictly increasing values that holds every value of the data, trimmed to the count
returned; for Descending the same vector backwards. -/
theorem ind_sort_nodup (w : Workers) (iv : List Nat) (data : List T) (nr : Nat)
    (s : Selector) :
    ∃ asc : List Nat, asc.Pairwise (fun x y => rd data x < rd data y) ∧
      (∀ x, x ∈ asc → x < nr) ∧
      (∀ y, y < nr → ∃ x, x ∈ asc ∧ rd data x = rd data y) ∧
      sort w iv data nr CasaSort.Order.Ascending s.noDup = some (asc.length, asc) ∧
      sort w iv data nr CasaSort.Order.Descending s.noDup =
        some (asc.length, asc.reverse) := by
  have hlen : nr ≤ (List.range nr).length := by simp
  have hnd : ((List.range nr).take nr).Nodup := by
    rw [take_range_self]; exact List.nodup_range nr
  have hid : ∀ j, j < nr → rd (List.range nr) j = j := fun j h => rd_range h
  have key : ∀ f : CasaSort.Order → Option (Nat × List Nat),
      Gen.NoDupSpec (rd data) (List.range nr) nr f →
      ∃ asc : List Nat, asc.Pairwise (fun x y => rd data x < rd data y) ∧
        (∀ x, x ∈ asc → x < nr) ∧
        (∀ y, y < nr → ∃ x, x ∈ asc ∧ rd data x = rd data y) ∧
        (f CasaSort.Order.Ascending).bind
          (fun r => if r.1 < nr then some (r.1, r.2.take r.1) else some r) =
            some (asc.length, asc) ∧
        (f CasaSort.Order.Descending).bind
          (fun r => if r.1 < nr then some (r.1, r.2.take r.1) else some r) =
            some (asc.length, asc.reverse) := by
    rintro f ⟨asc, rest, h1, h2, h3, h4, h5, h6⟩
    simp only [List.take_range, Nat.min_self, List.mem_range, List.length_range] at h2 h3 h4
    refine ⟨asc, h1, h2, h3, ?_, ?_⟩
    · rw [h5]
      by_cases hl : asc.length < nr
      · simp [hl]
      · have : rest = [] := List.eq_nil_of_length_eq_zero (by omega)
        simp [hl, this]
    · rw [h6]
      by_cases hl : asc.length < nr
      · simp only [Option.some_bind, if_pos hl]
        rw [List.take_left' (by simp)]
      · have : rest = [] := List.eq_nil_of_length_eq_zero (by omega)
        simp [hl, this]
  simp only [ind_sort_eq_noDup]
  cases s
  · by_cases h : nr < 1000 ∨ w.getD 1 = 1
    · simp only [if_pos h]
      exact key _ (ind_quickSort_nodup _ data nr _ hlen hnd (by decide))
    · simp only [if_neg h]
      exact key _ (ind_parSort_nodup w _ data nr _ 0 hlen hid (by decide))
  · exact key _ (ind_quickSort_nodup _ data nr _ hlen hnd (by decide))
  · exact key _ (ind_heapSort_nodup _ data nr _ hlen (by decide))
  · exact key _ (ind_insSort_nodup _ data nr _ hlen (by decide))
  · exact key _ (ind_parSort_nodup w _ data nr _ 0 hlen hid (by decide))

end GenSortIndirect

/-! ## The sorts on a whole buffer -/

namespace GenSort

variable {T : Type} [LinearOrder T] [Inhabited T]

/-- The direct sort of a whole buffer of fewer than `2^30` cells with duplicates kept:
Ascending leaves a sorted permutation `asc` of the buffer, Descending leaves `asc`
backwards. -/
theorem sort_keep_full (w : Workers) (S : List T) (s : Selector) (hb : S.length < 2 ^ 30) :
    ∃ asc : List T, asc.Perm S ∧ asc.Sorted (· ≤ ·) ∧
      sort w S S.length CasaSort.Order.Ascending s.keep = some (S.length, asc) ∧
      sort w S S.length CasaSort.Order.Descending s.keep = some (S.length, asc.reverse) := by
  obtain ⟨asc, h1, h2, h3, h4⟩ := sort_keep w S S.length s (le_refl _) hb
  simp only [List.take_length, List.drop_length, List.append_nil] at h1 h3 h4
  exact ⟨asc, h1, h2, h3, h4⟩

/-- The direct sort of a whole buffer of fewer than `2^30` cells with duplicates dropped:
the count returned is the length of a strictly increasing list `asc` with the values of the
buffer; Ascending leaves `asc` at the head of the buffer, Descending leaves `asc` backwards
there. -/
theorem sort_nodup_full (w : Workers) (S : List T) (s : Selector)
    (hb : S.length < 2 ^ 30) :
    ∃ asc rest : List T, asc.Sorted (· < ·) ∧ (∀ v, v ∈ asc ↔ v ∈ S) ∧
      asc.length + rest.length = S.length ∧
      sort w S S.length CasaSort.Order.Ascending s.noDup = some (asc.length, asc ++ rest) ∧
      sort w S S.length CasaSort.Order.Descending s.noDup =
        some (asc.length, asc.reverse ++ rest) := by
  obtain ⟨asc, rest, h1, h2, h3, h4, h5, h6⟩ := sort_nodup w S S.length s (le_refl _) hb
  simp only [List.take_length] at h2 h3
  refine ⟨asc, rest, h1, fun v => ⟨h2 v, fun hv => ?_⟩, h4, h5, h6⟩
  obtain ⟨x, hx, e⟩ := h3 v hv
  simp only [id] at e
  rwa [← e]

theorem countP_ge_of_prefix (p : T → Bool) (l : List T) (m : Nat) (hm : m ≤ l.length)
    (h : ∀ i, i < m → p (rd l i) = true) : m ≤ l.countP p := by
  have e : l.countP p = (l.take m).countP p + (l.drop m).countP p := by
    rw [← List.countP_append, List.take_append_drop]
  have e1 : (l.take m).countP p = (l.take m).length := by
    rw [List.countP_eq_length]
    intro a ha
    obtain ⟨q, hq, rfl⟩ := (Gen.mem_take_iff l m hm a).1 ha
    exact h q hq
  simp only [List.length_take, Nat.min_eq_left hm] at e1
  omega

theorem countP_le_of_suffix (p : T → Bool) (l : List T) (m : Nat)
    (h : ∀ i, m ≤ i → i < l.length → p (rd l i) = false) : l.countP p ≤ m := by
  have e : l.countP p = (l.take m).countP p + (l.drop m).countP p := by
    rw [← List.countP_append, List.take_append_drop]
  have e1 : (l.drop m).countP p = 0 := by
    rw [List.countP_eq_zero]
    intro a ha
    obtain ⟨q, hq, rfl⟩ := List.mem_iff_getElem.1 ha
    simp only [List.length_drop] at hq
    have := h (m + q) (by omega) (by omega)
    rw [rd_of_lt _ (by omega)] at this
    simp only [List.getElem_drop]
    simp [this]
  have e2 := List.countP_le_length p (l := l.take m)
  simp only [List.length_take] at e2
  omega

/-- The cell `k` of a buffer that is split around it, nothing larger before and nothing
smaller behind, holds what the sorted buffer holds there. -/
theorem kth_unique (a d : List T) (k : Nat) (hk : k < d.length) (hp : a.Perm d)
    (hs : a.Sorted (· ≤ ·)) (h1 : ∀ p, p < k → rd d p ≤ rd d k)
    (h2 : ∀ q, k < q → q < d.length → rd d k ≤ rd d q) : rd a k = rd d k := by
  have hla : a.length = d.length := hp.length_eq
  apply le_antisymm
  · -- otherwise every cell of `a` from `k` on is larger than `d[k]`
    by_contra hc
    rw [not_le] at hc
    have c1 : a.countP (fun x => decide (x ≤ rd d k)) ≤ k := by
      apply countP_le_of_suffix
      intro i hi hil
      rw [decide_eq_false_iff_not, not_le]
      rcases Nat.eq_or_lt_of_le hi with e | hlt
      · rw [← e]; exact hc
      · exact lt_of_lt_of_le hc (Gen.rd_of_pairwise _ a hs k i hlt hil)
    have c2 : k + 1 ≤ d.countP (fun x => decide (x ≤ rd d k)) := by
      apply countP_ge_of_prefix _ _ _ (by omega)
      intro i hi
      rw [decide_eq_true_eq]
      rcases Nat.eq_or_lt_of_le (Nat.le_of_lt_succ hi) with e | hlt
      · rw [e]
      · exact h1 i hlt
    rw [hp.countP_eq] at c1
    omega
  · by_contra hc
    rw [not_le] at hc
    have c1 : k + 1 ≤ a.countP (fun x => decide (x < rd d k)) := by
      apply countP_ge_of_prefix _ _ _ (by omega)
      intro i hi
      rw [decide_eq_true_eq]
      rcases Nat.eq_or_lt_of_le (Nat.le_of_lt_succ hi) with e | hlt
      · rw [e]; exact hc
      · exact lt_of_le_of_lt (Gen.rd_of_pairwise _ a hs i k hlt (by omega)) hc
    have c2 : d.countP (fun x => decide (x < rd d k)) ≤ k := by
      apply countP_le_of_suffix
      intro i hi hil
      rw [decide_eq_false_iff_not, not_lt]
      rcases Nat.eq_or_lt_of_le hi with e | hlt
      · rw [← e]
      · exact h2 i hlt hil
    rw [hp.countP_eq] at c1
    omega

end GenSort

/-! ## Lengths that do not fit the 32-bit `Int` of the kernels -/

namespace GenSort

variable {T : Type} [LinearOrder T] [Inhabited T]

theorem toInt_wide : toInt (2 ^ 31) = -(2 ^ 31) := by decide

theorem toUInt_wide : toUInt (toInt (2 ^ 31)) = 2 ^ 31 := by decide

/-- A kernel entered with the length `2^31` receives a negative `nr` and returns at once. -/
theorem atInt_wide {α : Type} (neg : α) (kernel : Nat → α) :
    atInt (toInt (2 ^ 31)) neg kernel = neg := by
  have h : (-(2 ^ 31) : Int) < 0 := by decide
  simp only [atInt, toInt_wide, if_pos h]

/-- At `2^31` cells `insSort` orders nothing. -/
theorem insSort_wide (data : List T) (opt : Nat) :
    insSort data (2 ^ 31) CasaSort.Order.Ascending opt = (2 ^ 31, data) ∧
    insSort data (2 ^ 31) CasaSort.Order.Descending opt =
      (2 ^ 31, reverse data none (2 ^ 31)) := by
  simp only [insSort, atInt_wide, toUInt_wide, reduceCtorEq, if_false, if_true, and_self]

/-- At `2^31` cells `quickSort` is `insSort` on the buffer as it stands. -/
theorem quickSort_wide (data : List T) (ord : CasaSort.Order) (opt : Nat) :
    quickSort data (2 ^ 31) ord opt = some (insSort data (2 ^ 31) ord opt) := by
  obtain ⟨rl, e1⟩ := recLimitLoop_some (2 ^ 31 + 1) (2 ^ 31) 0 (by omega)
  simp only [quickSort, e1, atInt_wide]

/-- At `2^31` cells `heapSort` orders nothing. -/
theorem heapSort_wide (data : List T) (opt : Nat) :
    heapSort data (2 ^ 31) CasaSort.Order.Ascending opt = some (2 ^ 31, data) ∧
    heapSort data (2 ^ 31) CasaSort.Order.Descending opt =
      some (2 ^ 31, reverse data none (2 ^ 31)) := by
  by_cases h : opt &&& CasaSort.NoDuplicates ≠ 0
  · simp only [heapSort, atInt_wide, toUInt_wide, if_pos h, reduceCtorEq, if_false, if_true,
      and_self]
  · simp only [heapSort, atInt_wide, if_neg h, reduceCtorEq, if_false, if_true, and_self]

/-- At `2^31` cells the direct sort with the selector Quicksort, Heapsort or Insertion returns
the buffer as it was for Ascending, and reversed for Descending, whatever the duplicate
policy. -/
theorem sort_wide (w : Workers) (data : List T) (s : Selector)
    (hs : s = Selector.Quicksort ∨ s = Selector.Heapsort ∨ s = Selector.Insertion) :
    sort w data (2 ^ 31) CasaSort.Order.Ascending s.keep = some (2 ^ 31, data) ∧
    sort w data (2 ^ 31) CasaSort.Order.Ascending s.noDup = some (2 ^ 31, data) ∧
    sort w data (2 ^ 31) CasaSort.Order.Descending s.keep =
      some (2 ^ 31, reverse data none (2 ^ 31)) ∧
    sort w data (2 ^ 31) CasaSort.Order.Descending s.noDup =
      some (2 ^ 31, reverse data none (2 ^ 31)) := by
  simp only [sort_eq_keep, sort_eq_noDup]
  rcases hs with h | h | h <;> subst h
  · simp only [quickSort_wide, (insSort_wide data _).1, (insSort_wide data _).2, and_self]
  · simp only [(heapSort_wide data _).1, (heapSort_wide data _).2, and_self]
  · simp only [(insSort_wide data _).1, (insSort_wide data _).2, and_self]

theorem wideInput_length : wideInput.length = 2 ^ 31 := by
  unfold wideInput
  rw [List.length_cons, List.length_replicate]
  norm_num

theorem wideInput_not_sorted : ¬ wideInput.Sorted (· ≤ ·) := by
  intro h
  have h1 := List.rel_of_sorted_cons h 0 (List.mem_replicate.2 ⟨by norm_num, rfl⟩)
  exact absurd h1 (by decide)

theorem wideInput_desc : wideInput.Sorted (· ≥ ·) := by
  refine List.pairwise_cons.2 ⟨?_, ?_⟩
  · intro a ha
    rw [(List.mem_replicate.1 ha).2]
    exact Nat.zero_le 1
  · exact List.pairwise_replicate.2 (Or.inr (le_refl 0))

theorem wideInput2_length : wideInput2.length = 2 ^ 31 + 2 := by
  unfold wideInput2
  rw [List.length_cons, List.length_replicate]

/-- At `2^31 + 2` cells `kthLargest` returns the cell `k` as it stands. -/
theorem kthLargest_wide (data : List T) (k : Nat) (hk : k < 2 ^ 31 + 2) :
    kthLargest data (2 ^ 31 + 2) k = some (.ok (rd data k), data) := by
  have h1 : ¬ k ≥ 2 ^ 31 + 2 := by omega
  have h2 : toInt (2 ^ 31 + 2) - 1 = -(2 ^ 31) + 1 := by decide
  have h3 : ¬ ((-(2 ^ 31) + 1 : Int) < -(2 ^ 31)) := by decide
  have h4 : (-(2 ^ 31) + 1 : Int) < 0 := by decide
  simp only [kthLargest, if_neg h1, h2, if_neg h3, if_pos h4]

/-- One turn of the first loop of `heapAscSiftDown`. -/
theorem siftHole_succ (up fuel : Nat) (data : List T) (i : Nat) :
    siftHole up (fuel + 1) data i =
      if 2 * i < 2 ^ 31 then
        if 2 * i ≤ up then
          siftHole up fuel
            (data.set (i - 1) (rd data ((if 2 * i < up ∧ rd data (2 * i + 1 - 1) >
              rd data (2 * i - 1) then 2 * i + 1 else 2 * i) - 1)))
            (if 2 * i < up ∧ rd data (2 * i + 1 - 1) > rd data (2 * i - 1) then 2 * i + 1
              else 2 * i)
        else some (data, i)
      else none := by
  simp only [siftHole]

/-- The loop has no result at a position whose double does not fit `Int`. -/
theorem siftHole_overflow (up fuel : Nat) (data : List T) (i : Nat) (hf : 0 < fuel)
    (hi : 2 ^ 31 ≤ 2 * i) : siftHole up fuel data i = none := by
  obtain ⟨f, rfl⟩ := Nat.exists_eq_succ_of_ne_zero (Nat.pos_iff_ne_zero.1 hf)
  rw [siftHole_succ, if_neg (by omega)]

/-- The sift-down from the middle of `2^30` cells has no result: the hole moves from
position `2^29` to position `2^30`, whose double is `2^31`. -/
theorem heapAscSiftDown_overflow (data : List T) (low up : Nat) (hl : low = 2 ^ 29)
    (hu : up = 2 ^ 30) : heapAscSiftDown low up data = none := by
  have a1 : 2 * low < 2 ^ 31 := by omega
  have a2 : 2 * low ≤ up := by omega
  have a3 : ¬ (2 * low < up ∧ rd data (2 * low + 1 - 1) > rd data (2 * low - 1)) :=
    fun h => by omega
  have e : siftHole up (up + 1) data low = none := by
    rw [siftHole_succ, if_pos a1, if_pos a2, if_neg a3]
    exact siftHole_overflow _ _ _ _ (by omega) (by omega)
  simp only [heapAscSiftDown, e]

theorem heapSortAsc_overflow_at (data : List T) (nr : Nat) (h : nr = 2 ^ 30) :
    heapSortAsc data nr = none := by
  obtain ⟨j, hj⟩ : ∃ j, nr / 2 = j + 1 := ⟨nr / 2 - 1, by omega⟩
  have e : heapBuild nr (nr / 2) data = none := by
    rw [hj]
    simp only [heapBuild, heapAscSiftDown_overflow data (j + 1) nr (by omega) h]
  simp only [heapSortAsc, e]

/-- The first sift-down of `heapSortAsc` on `2^30` cells doubles the position `2^30`: there
is no result. -/
theorem heapSortAsc_overflow (data : List T) : heapSortAsc data (2 ^ 30) = none :=
  heapSortAsc_overflow_at data _ rfl

/-- With a negative budget `quickSortAsc` on `2^30` cells has no result either. -/
theorem quickSortAsc_overflow (data : List T) (multiThread : Bool) (rec_lim : Int)
    (h : rec_lim < 0) : quickSortAsc data (2 ^ 30) multiThread rec_lim = none := by
  have h32 : ¬ (2 ^ 30 ≤ 32) := by norm_num
  have e : rec_lim.toNat = 0 := Int.toNat_eq_zero.2 (le_of_lt h)
  simp only [quickSortAsc, e, Nat.zero_add, quickSortAscAux, if_neg h32, if_pos h,
    heapSortAsc_overflow]

end GenSort

namespace GenSort

theorem wideInput_take : wideInput.take (2 ^ 31) = wideInput :=
  List.take_of_length_le (le_of_eq wideInput_length)

theorem wideInput_not_strict : ¬ wideInput.Sorted (· < ·) :=
  fun h => wideInput_not_sorted (h.imp (fun hab => le_of_lt hab))

/-- The in-place reversal of the wide buffer is the reversed list. -/
theorem reverse_wideInput : reverse wideInput none (2 ^ 31) = wideInput.reverse := by
  rw [reverse_inplace_eq wideInput (2 ^ 31) (le_of_eq wideInput_length.symm), wideInput_take,
    List.drop_of_length_le (le_of_eq wideInput_length), List.append_nil]

theorem wideInput_reverse_not_sorted : ¬ wideInput.reverse.Sorted (· ≥ ·) := by
  intro h
  apply wideInput_not_sorted
  have := List.pairwise_reverse.1 h
  exact this

theorem wideInput_reverse_ne : wideInput.reverse ≠ wideInput := by
  intro h
  apply wideInput_not_sorted
  have h1 : wideInput.reverse.Sorted (· ≥ ·) := by rw [h]; exact wideInput_desc
  exact absurd h1 wideInput_reverse_not_sorted

theorem dedup_replicate_succ {α : Type} [DecidableEq α] (x : α) (n : Nat) :
    (List.replicate (n + 1) x).dedup = [x] := by
  induction n with
  | zero => rfl
  | succ n ih =>
    rw [List.replicate_succ, List.dedup_cons_of_mem (by simp), ih]

/-- The wide buffer holds two distinct values. -/
theorem wideInput_dedup : wideInput.dedup = [1, 0] := by
  unfold wideInput
  have e : (2 ^ 31 - 1 : Nat) = (2 ^ 31 - 2) + 1 := by norm_num
  rw [e, List.dedup_cons_of_not_mem (by
    intro h
    exact absurd (List.mem_replicate.1 h).2 (by decide)), dedup_replicate_succ]

theorem zero_mem_wideInput2 : (0 : Nat) ∈ wideInput2 := by
  unfold wideInput2
  exact List.mem_cons_of_mem _ (List.mem_replicate.2 ⟨by norm_num, rfl⟩)

theorem rd_wideInput2_zero : rd wideInput2 0 = 1 := by
  unfold wideInput2 rd
  rw [List.getD_cons_zero]

end GenSort

namespace GenSort

theorem rd_wideInput2_one : rd wideInput2 1 = 0 := by
  unfold wideInput2 rd
  rw [List.replicate_succ, List.getD_cons_succ, List.getD_cons_zero]

/-- At `2^31 + 2` cells `Int end = Int(nr) - 1` is negative. -/
theorem toInt_wide2 : toInt (2 ^ 31 + 2) - 1 = -(2 ^ 31) + 1 := by decide

end GenSort

/-! ## The contract of the direct sort -/

namespace GenSort

variable {T : Type} [LinearOrder T] [Inhabited T]

/-- Two strictly increasing lists with the same members are the same list. -/
theorem strict_unique {a b : List T} (ha : a.Sorted (· < ·)) (hb : b.Sorted (· < ·))
    (h : ∀ v, v ∈ a ↔ v ∈ b) : a = b :=
  List.eq_of_perm_of_sorted ((List.perm_ext_iff_of_nodup ha.nodup hb.nodup).2 h) ha hb

/-- A strictly increasing list with the members of `S` is as long as `S` without its
duplicates. -/
theorem length_eq_dedup {a S : List T} (ha : a.Sorted (· < ·)) (h : ∀ v, v ∈ a ↔ v ∈ S) :
    a.length = S.dedup.length :=
  ((List.perm_ext_iff_of_nodup ha.nodup (List.nodup_dedup S)).2
    (fun v => by rw [h v, List.mem_dedup])).length_eq

end GenSort

/-- C1, on the code.  For a buffer `S` of fewer than `2^30` cells (the empty buffer with the
selector Parallel apart, a call that stores past a block, see C33), every order `O` and
every algorithm selector, the direct sort with duplicates kept returns, gives back the
length of `S` and leaves a permutation of `S` that is non-decreasing for Ascending and
non-increasing for Descending; on `[5,3,3,1,4]` Ascending it leaves `[1,3,3,4,5]`.  At
`2^31` cells the claim fails: `insSort`, `quickSort` and `heapSort` hand the `uInt` length to
kernels whose parameter is `Int nr`, the kernels receive `-2^31` and return at once, and the
sort with the selector Quicksort, Heapsort or Insertion returns the buffer as it was, here
`wideInput`, a 1 followed by zeros, which is not in ascending order. -/
theorem C1_sort_keep_sorted_permutation {T : Type} [LinearOrder T] [Inhabited T]
    (w : Workers) (S : List T) (O : CasaSort.Order) (s : Selector) :
    (S.length < 2 ^ 30 → (S = [] → s ≠ Selector.Parallel) →
      ∃ d, GenSort.sort w S S.length O s.keep = some (S.length, d) ∧ d.Perm S ∧
        (match O with
          | .Ascending => d.Sorted (· ≤ ·)
          | .Descending => d.Sorted (· ≥ ·))) ∧
    GenSort.sort w [5, 3, 3, 1, 4] 5 CasaSort.Order.Ascending s.keep =
      some (5, [1, 3, 3, 4, 5]) ∧
    GenSort.wideInput.length = 2 ^ 31 ∧
    (∀ s', s' = Selector.Quicksort ∨ s' = Selector.Heapsort ∨ s' = Selector.Insertion →
      GenSort.sort w GenSort.wideInput (2 ^ 31) CasaSort.Order.Ascending s'.keep =
        some (2 ^ 31, GenSort.wideInput)) ∧
    ¬ GenSort.wideInput.Sorted (· ≤ ·) := by
  refine ⟨?_, ?_, GenSort.wideInput_length, ?_, GenSort.wideInput_not_sorted⟩
  · intro hb _
    obtain ⟨asc, h1, h2, h3, h4⟩ := GenSort.sort_keep_full w S s hb
    cases O
    · exact ⟨asc, h3, h1, h2⟩
    · refine ⟨asc.reverse, h4, (List.reverse_perm asc).trans h1, ?_⟩
      simp only [List.Sorted, List.pairwise_reverse]
      exact h2
  · obtain ⟨asc, h1, h2, h3, _⟩ := GenSort.sort_keep_full w [5, 3, 3, 1, 4] s (by norm_num)
    have e : asc = [1, 3, 3, 4, 5] :=
      List.eq_of_perm_of_sorted (h1.trans (by decide)) h2 (by decide)
    rw [← e]; exact h3
  · intro s' hs
    exact (GenSort.sort_wide w GenSort.wideInput s' hs).1

/-- C2, on the code.  For a buffer `S` of fewer than `2^30` cells (the empty buffer with the
selector Parallel apart, see C33) and every algorithm selector, the direct sort Ascending
with duplicates dropped returns a count `R` and leaves in the first `R` cells a strictly
increasing list whose values are exactly the values of `S`; on `[5,3,3,1,4]` it returns 4
and leaves `[1,3,4,5]` there.  At `2^31` cells the claim fails, by the conversion of the
length to the `Int nr` of the kernels named under C1: with the selector Quicksort, Heapsort
or Insertion the sort returns `2^31` and the buffer `wideInput` as it was, whose first
`2^31` cells are not strictly increasing. -/
theorem C2_sort_noDup_strict_distinct {T : Type} [LinearOrder T] [Inhabited T]
    (w : Workers) (S : List T) (s : Selector) :
    (S.length < 2 ^ 30 → (S = [] → s ≠ Selector.Parallel) →
      ∃ R d, GenSort.sort w S S.length CasaSort.Order.Ascending s.noDup = some (R, d) ∧
        d.length = S.length ∧ (d.take R).length = R ∧ (d.take R).Sorted (· < ·) ∧
        ∀ v, v ∈ d.take R ↔ v ∈ S) ∧
    (∃ d, GenSort.sort w [5, 3, 3, 1, 4] 5 CasaSort.Order.Ascending s.noDup = some (4, d) ∧
      d.take 4 = [1, 3, 4, 5]) ∧
    (∀ s', s' = Selector.Quicksort ∨ s' = Selector.Heapsort ∨ s' = Selector.Insertion →
      GenSort.sort w GenSort.wideInput (2 ^ 31) CasaSort.Order.Ascending s'.noDup =
        some (2 ^ 31, GenSort.wideInput)) ∧
    GenSort.wideInput.take (2 ^ 31) = GenSort.wideInput ∧
    ¬ GenSort.wideInput.Sorted (· < ·) := by
  refine ⟨?_, ?_, ?_, GenSort.wideInput_take, GenSort.wideInput_not_strict⟩
  · intro hb _
    obtain ⟨asc, rest, h1, h2, h3, h4, _⟩ := GenSort.sort_nodup_full w S s hb
    refine ⟨asc.length, asc ++ rest, h4, by simp [h3], ?_⟩
    rw [List.take_left' rfl]
    exact ⟨rfl, h1, h2⟩
  · obtain ⟨asc, rest, h1, h2, _, h4, _⟩ :=
      GenSort.sort_nodup_full w [5, 3, 3, 1, 4] s (by norm_num)
    have e : asc = [1, 3, 4, 5] := GenSort.strict_unique h1 (by decide) (fun v => by
      rw [h2 v]; simp only [List.mem_cons, List.mem_singleton, List.not_mem_nil]; tauto)
    subst e
    exact ⟨_, h4, by simp⟩
  · intro s' hs
    exact (GenSort.sort_wide w GenSort.wideInput s' hs).2.1

/-- C3, on the code.  For a buffer of fewer than `2^30` cells (the empty buffer with the
selector Parallel apart, see C33), every algorithm selector and either duplicate policy,
the direct sort Descending returns the count `R` that Ascending returns, and its first `R`
cells are the first `R` cells of the Ascending result backwards: non-increasing when
duplicates are kept, strictly decreasing when they are dropped; `[5,3,3,1,4]` Descending
gives `[5,4,3,3,1]`.  At `2^31` cells the claim fails, by the conversion of the length to
the `Int nr` of the kernels named under C1: with the selector Quicksort, Heapsort or
Insertion the kernels order nothing and Descending leaves `wideInput` reversed, zeros first
and the 1 last, which is not non-increasing. -/
theorem C3_sort_descending_is_reverse {T : Type} [LinearOrder T] [Inhabited T]
    (w : Workers) (S : List T) (s : Selector) :
    (S.length < 2 ^ 30 → (S = [] → s ≠ Selector.Parallel) →
      (∃ R dA dD, GenSort.sort w S S.length CasaSort.Order.Ascending s.keep = some (R, dA) ∧
        GenSort.sort w S S.length CasaSort.Order.Descending s.keep = some (R, dD) ∧
        dD.take R = (dA.take R).reverse ∧ (dD.take R).Sorted (· ≥ ·)) ∧
      (∃ R dA dD, GenSort.sort w S S.length CasaSort.Order.Ascending s.noDup = some (R, dA) ∧
        GenSort.sort w S S.length CasaSort.Order.Descending s.noDup = some (R, dD) ∧
        dD.take R = (dA.take R).reverse ∧ (dD.take R).Sorted (· > ·))) ∧
    GenSort.sort w [5, 3, 3, 1, 4] 5 CasaSort.Order.Descending s.keep =
      some (5, [5, 4, 3, 3, 1]) ∧
    (∀ s', s' = Selector.Quicksort ∨ s' = Selector.Heapsort ∨ s' = Selector.Insertion →
      GenSort.sort w GenSort.wideInput (2 ^ 31) CasaSort.Order.Descending s'.keep =
        some (2 ^ 31, GenSort.wideInput.reverse)) ∧
    GenSort.wideInput.reverse.length = 2 ^ 31 ∧
    ¬ GenSort.wideInput.reverse.Sorted (· ≥ ·) := by
  refine ⟨?_, ?_, ?_, by rw [List.length_reverse, GenSort.wideInput_length],
    GenSort.wideInput_reverse_not_sorted⟩
  · intro hb _
    constructor
    · obtain ⟨asc, h1, h2, h3, h4⟩ := GenSort.sort_keep_full w S s hb
      have hl : asc.length = S.length := h1.length_eq
      refine ⟨S.length, asc, asc.reverse, h3, h4, ?_, ?_⟩
      · rw [← hl, List.take_length, ← List.length_reverse asc, List.take_length]
      · rw [← hl, ← List.length_reverse asc, List.take_length]
        simp only [List.Sorted, List.pairwise_reverse]
        exact h2
    · obtain ⟨asc, rest, h1, _, _, h4, h5⟩ := GenSort.sort_nodup_full w S s hb
      refine ⟨asc.length, asc ++ rest, asc.reverse ++ rest, h4, h5, ?_, ?_⟩
      · rw [List.take_left' rfl, List.take_left' (List.length_reverse asc)]
      · rw [List.take_left' (List.length_reverse asc)]
        simp only [List.Sorted, List.pairwise_reverse]
        exact h1
  · obtain ⟨asc, h1, h2, _, h4⟩ := GenSort.sort_keep_full w [5, 3, 3, 1, 4] s (by norm_num)
    have e : asc = [1, 3, 3, 4, 5] :=
      List.eq_of_perm_of_sorted (h1.trans (by decide)) h2 (by decide)
    subst e
    exact h4
  · intro s' hs
    rw [(GenSort.sort_wide w GenSort.wideInput s' hs).2.2.1, GenSort.reverse_wideInput]

/-- C4, on the code.  For a buffer `S` of fewer than `2^30` cells (the empty buffer with the
selector Parallel apart, see C33), every order and every algorithm selector, the direct sort
returns the length of `S` when duplicates are kept and the number of distinct values of `S`
when they are dropped; that number is at most the length of `S`, and smaller exactly when
`S` holds two equal elements.  At `2^31` cells the claim fails, by the conversion of the
length to the `Int nr` of the kernels named under C1: with duplicates dropped and the
selector Quicksort, Heapsort or Insertion the sort returns `2^31` for `wideInput`, which
holds two distinct values. -/
theorem C4_sort_returned_count {T : Type} [LinearOrder T] [Inhabited T]
    (w : Workers) (S : List T) (O : CasaSort.Order) (s : Selector) :
    (S.length < 2 ^ 30 → (S = [] → s ≠ Selector.Parallel) →
      (∃ d, GenSort.sort w S S.length O s.keep = some (S.length, d)) ∧
      (∃ d, GenSort.sort w S S.length O s.noDup = some (S.dedup.length, d))) ∧
    S.dedup.length ≤ S.length ∧ (S.dedup.length < S.length ↔ ¬ S.Nodup) ∧
    (∀ s', s' = Selector.Quicksort ∨ s' = Selector.Heapsort ∨ s' = Selector.Insertion →
      GenSort.sort w GenSort.wideInput (2 ^ 31) CasaSort.Order.Ascending s'.noDup =
        some (2 ^ 31, GenSort.wideInput)) ∧
    GenSort.wideInput.dedup.length = 2 := by
  refine ⟨?_, (List.dedup_sublist S).length_le, ?_, ?_, ?_⟩
  · intro hb _
    constructor
    · obtain ⟨asc, _, _, h3, h4⟩ := GenSort.sort_keep_full w S s hb
      cases O
      · exact ⟨_, h3⟩
      · exact ⟨_, h4⟩
    · obtain ⟨asc, rest, h1, h2, _, h4, h5⟩ := GenSort.sort_nodup_full w S s hb
      rw [← GenSort.length_eq_dedup h1 h2]
      cases O
      · exact ⟨_, h4⟩
      · exact ⟨_, h5⟩
  · rw [← List.dedup_eq_self]
    constructor
    · intro h e
      rw [e] at h
      exact lt_irrefl _ h
    · intro h
      exact lt_of_le_of_ne (List.dedup_sublist S).length_le
        (fun e => h ((List.dedup_sublist S).eq_of_length e))
  · intro s' hs
    exact (GenSort.sort_wide w GenSort.wideInput s' hs).2.1
  · rw [GenSort.wideInput_dedup]; rfl

/-- C5, on the code.  For a buffer `S` of fewer than `2^30` cells and a rank `k` below its
length, `kthLargest` returns, and the value it returns is the one at position `k` of what the
ascending sort (any selector, any number of workers) leaves; rank 0 gives the minimum of
`S`, the last rank its maximum.  At `2^31 + 2` cells the claim fails: `Int end = Int(nr) - 1`
is negative, the loop `while (end > st+1)` is not entered and `data[k]` is returned as it
stands; for `wideInput2`, a 1 followed by zeros, rank 0 gives 1 although the buffer holds a
0. -/
theorem C5_kthLargest_is_rank_k_of_sort {T : Type} [LinearOrder T] [Inhabited T]
    (w : Workers) (s : Selector) (S : List T) (k : Nat) (hk : k < S.length)
    (hb : S.length < 2 ^ 30) :
    (∃ v dk d, GenSort.kthLargest S S.length k = some (Except.ok v, dk) ∧
      GenSort.sort w S S.length CasaSort.Order.Ascending s.keep = some (S.length, d) ∧
      v = GenSort.rd d k ∧ v ∈ S ∧
      ∀ x, x ∈ S → (if k = 0 then v ≤ x else True) ∧
        (if k + 1 = S.length then x ≤ v else True)) ∧
    GenSort.wideInput2.length = 2 ^ 31 + 2 ∧
    GenSort.kthLargest GenSort.wideInput2 (2 ^ 31 + 2) 0 =
      some (Except.ok 1, GenSort.wideInput2) ∧
    (0 : Nat) ∈ GenSort.wideInput2 := by
  refine ⟨?_, GenSort.wideInput2_length, ?_, GenSort.zero_mem_wideInput2⟩
  swap
  · rw [GenSort.kthLargest_wide GenSort.wideInput2 0 (by norm_num),
      GenSort.rd_wideInput2_zero]
  obtain ⟨dk, e1, l1, p1, a1, a2, _⟩ := GenSort.kthLargest_spec S S.length k hk (le_refl _)
  rw [← GenSort.kthLargest_eq_gen S S.length k (le_of_lt hb)] at e1
  obtain ⟨asc, p2, s2, e2, _⟩ := GenSort.sort_keep_full w S s hb
  have hu : GenSort.rd asc k = GenSort.rd dk k :=
    GenSort.kth_unique asc dk k (by omega) (p2.trans p1.symm) s2 a1
      (fun q h1 h2 => a2 q h1 (by omega))
  have hla : asc.length = S.length := p2.length_eq
  refine ⟨GenSort.rd dk k, dk, asc, e1, e2, hu.symm,
    p1.mem_iff.1 (GenSort.rd_mem _ (by omega)), ?_⟩
  intro x hx
  obtain ⟨j, hj, rfl⟩ := List.mem_iff_getElem.1 (p2.mem_iff.2 hx)
  rw [← hu, ← GenSort.rd_of_lt asc hj]
  constructor
  · split
    · next h0 =>
      subst h0
      rcases Nat.eq_zero_or_pos j with e | hpos
      · rw [e]
      · exact Gen.rd_of_pairwise _ asc s2 0 j hpos hj
    · trivial
  · split
    · next hl =>
      rcases Nat.eq_or_lt_of_le (show j ≤ k by omega) with e | hlt
      · rw [e]
      · exact Gen.rd_of_pairwise _ asc s2 j k hlt (by omega)
    · trivial

/-- C5 at `[5,3,3,1,4]`: rank 0 gives 1 and rank 4 gives 5. -/
theorem C5_kthLargest_witness :
    (0 < [5, 3, 3, 1, 4].length ∧ [5, 3, 3, 1, 4].length < 2 ^ 30 ∧
      (∃ v dk d, GenSort.kthLargest [5, 3, 3, 1, 4] [5, 3, 3, 1, 4].length 0 =
          some (Except.ok v, dk) ∧
        GenSort.sort none [5, 3, 3, 1, 4] [5, 3, 3, 1, 4].length CasaSort.Order.Ascending
          Selector.Default.keep = some ([5, 3, 3, 1, 4].length, d) ∧
        v = GenSort.rd d 0 ∧ v ∈ [5, 3, 3, 1, 4] ∧
        ∀ x, x ∈ [5, 3, 3, 1, 4] → (if 0 = 0 then v ≤ x else True) ∧
          (if 0 + 1 = [5, 3, 3, 1, 4].length then x ≤ v else True)) ∧
      GenSort.wideInput2.length = 2 ^ 31 + 2 ∧
      GenSort.kthLargest GenSort.wideInput2 (2 ^ 31 + 2) 0 =
        some (Except.ok 1, GenSort.wideInput2) ∧
      (0 : Nat) ∈ GenSort.wideInput2) ∧
    (GenSort.kthLargest [5, 3, 3, 1, 4] 5 0).map (fun r => r.1.toOption) = some (some 1) ∧
    (GenSort.kthLargest [5, 3, 3, 1, 4] 5 4).map (fun r => r.1.toOption) = some (some 5) :=
  ⟨⟨by decide, by norm_num, C5_kthLargest_is_rank_k_of_sort none Selector.Default
    [5, 3, 3, 1, 4] 0 (by decide) (by norm_num)⟩, by decide, by decide⟩

/-- C6: `kthLargest (data, nr, k)` fails if and only if `k ≥ nr` (so for every `k` when
`nr = 0`); it then throws the range error and leaves the buffer exactly as it was, the
check being the first thing it does; for `k < nr` it throws nothing, and it returns a value
when `nr` is at most `2^30`, where the `Int` arithmetic of its loop stays in range. -/
theorem C6_kthLargest_range_error {T : Type} [LinearOrder T] [Inhabited T]
    (data : List T) (nr k : Nat) (hnr : nr ≤ data.length) :
    ((∃ msg d, GenSort.kthLargest data nr k = some (Except.error msg, d)) ↔ nr ≤ k) ∧
    (if nr ≤ k then
      GenSort.kthLargest data nr k =
        some (Except.error "kthLargest(data, nr, k): k must be < nr", data)
    else nr ≤ 2 ^ 30 → ∃ v d, GenSort.kthLargest data nr k = some (Except.ok v, d)) ∧
    (if nr = 0 then
      GenSort.kthLargest data nr k =
        some (Except.error "kthLargest(data, nr, k): k must be < nr", data)
    else True) := by
  have herr : nr ≤ k → GenSort.kthLargest data nr k =
      some (Except.error "kthLargest(data, nr, k): k must be < nr", data) := by
    intro h
    simp only [GenSort.kthLargest, ge_iff_le, if_pos h]
  refine ⟨⟨?_, fun h => ⟨_, _, herr h⟩⟩, ?_, ?_⟩
  · rintro ⟨msg, d, e⟩
    by_contra hc
    have hk : ¬ k ≥ nr := hc
    simp only [GenSort.kthLargest, if_neg hk] at e
    split at e
    · exact Option.noConfusion e
    · split at e
      · simp at e
      · split at e
        · exact Option.noConfusion e
        · simp at e
  · split
    · next h => exact herr h
    · next h =>
      intro hb
      obtain ⟨d', e', _⟩ := GenSort.kthLargest_spec data nr k (by omega) hnr
      rw [← GenSort.kthLargest_eq_gen data nr k hb] at e'
      exact ⟨_, _, e'⟩
  · split
    · next h => exact herr (by omega)
    · trivial

/-- C6 at `[5,3,3,1,4]` with `nr = 5` and `k = 5`. -/
theorem C6_kthLargest_range_error_witness :
    (5 ≤ [5, 3, 3, 1, 4].length) ∧
    ((∃ msg d, GenSort.kthLargest [5, 3, 3, 1, 4] 5 5 = some (Except.error msg, d)) ↔ 5 ≤ 5) ∧
    (if 5 ≤ 5 then
      GenSort.kthLargest [5, 3, 3, 1, 4] 5 5 =
        some (Except.error "kthLargest(data, nr, k): k must be < nr", [5, 3, 3, 1, 4])
    else 5 ≤ 2 ^ 30 →
      ∃ v d, GenSort.kthLargest [5, 3, 3, 1, 4] 5 5 = some (Except.ok v, d)) ∧
    (if 5 = 0 then
      GenSort.kthLargest [5, 3, 3, 1, 4] 5 5 =
        some (Except.error "kthLargest(data, nr, k): k must be < nr", [5, 3, 3, 1, 4])
    else True) :=
  ⟨by decide, C6_kthLargest_range_error [5, 3, 3, 1, 4] 5 5 (by decide)⟩

/-! ## The contract of the indirect sort -/

namespace GenSortIndirect

variable {T : Type} [LinearOrder T] [Inhabited T]

open GenSort (rd)

theorem lexKey_le (data : List T) (a b : Nat) (h : lexKey data a ≤ lexKey data b) :
    rd data a ≤ rd data b := by
  rcases lt_or_eq_of_le h with h | h
  · rw [lexKey_lt] at h
    rcases h with h | ⟨h, _⟩
    · exact le_of_lt h
    · exact le_of_eq h
  · rw [lexKey_inj data h]

theorem lexKey_le_tie (data : List T) (a b : Nat) (h : lexKey data a ≤ lexKey data b)
    (he : rd data a = rd data b) : a ≤ b := by
  rcases lt_or_eq_of_le h with h | h
  · rw [lexKey_lt] at h
    rcases h with h | ⟨_, h⟩
    · rw [he] at h; exact absurd h (lt_irrefl _)
    · exact le_of_lt h
  · rw [lexKey_inj data h]

end GenSortIndirect

namespace GenSort

variable {T : Type} [LinearOrder T] [Inhabited T]

/-- The loop `while (unr >>= 1) rec_limit++;` adds the binary logarithm of `unr`. -/
theorem recLimitLoop_eq (fuel : Nat) :
    ∀ (unr : Nat) (rec_limit : Int), unr < fuel →
      recLimitLoop fuel unr rec_limit = some (rec_limit + (Nat.log 2 unr : Nat)) := by
  induction fuel with
  | zero => intro unr _ h; omega
  | succ fuel ih =>
    intro unr rec_limit h
    unfold recLimitLoop
    simp only [Nat.shiftRight_eq_div_pow, pow_one]
    by_cases h1 : unr / 2 ≠ 0
    · rw [if_pos h1, ih (unr / 2) (rec_limit + 1) (by omega),
        Nat.log_of_one_lt_of_le (by omega) (show 2 ≤ unr by omega)]
      congr 1
      push_cast
      ring
    · rw [if_neg h1, Nat.log_of_lt (by omega)]
      simp

/-- With at most 32 cells `quickSortAsc` returns at once. -/
theorem quickSortAsc_small (data : List T) (nr : Nat) (multiThread : Bool) (rec_lim : Int)
    (h : nr ≤ 32) : quickSortAsc data nr multiThread rec_lim = some data := by
  simp only [quickSortAsc, quickSortAscAux, if_pos h]

/-- What `quickSort` does: the budget, the kernel entered with the length as an `Int`, the
insertion sort. -/
theorem quickSort_eq (data : List T) (nr : Nat) (ord : CasaSort.Order) (opt : Nat) :
    quickSort data nr ord opt =
      (atInt (toInt nr) (some data)
        (fun n => quickSortAsc data n true (2 * (Nat.log 2 nr : Nat)))).map
        (fun d => insSort d nr ord opt) := by
  have e := recLimitLoop_eq (nr + 1) nr 0 (by omega)
  simp only [quickSort, e, Int.zero_add]
  rw [show ((Nat.log 2 nr : Nat) : Int) * 2 = 2 * (Nat.log 2 nr : Nat) by ring]
  cases atInt (toInt nr) (some data)
    (fun n => quickSortAsc data n true (2 * (Nat.log 2 nr : Nat))) <;> rfl

/-- The same for a length below `2^31`, which the kernel receives as it is. -/
theorem quickSort_eq_small (data : List T) (nr : Nat) (ord : CasaSort.Order) (opt : Nat)
    (h : nr < 2 ^ 31) :
    quickSort data nr ord opt =
      (quickSortAsc data nr true (2 * (Nat.log 2 nr : Nat))).map
        (fun d => insSort d nr ord opt) := by
  rw [quickSort_eq, atInt_of_lt h]

/-- Only the duplicate bit of the options word matters to `insSort`. -/
theorem insSort_opt (data : List T) (nr : Nat) (ord : CasaSort.Order) (opt opt' : Nat)
    (h : opt &&& CasaSort.NoDuplicates = opt' &&& CasaSort.NoDuplicates) :
    insSort data nr ord opt = insSort data nr ord opt' := by
  simp only [insSort, insSortAsc, h]

/-- Only the duplicate bit of the options word matters to `quickSort`. -/
theorem quickSort_opt (data : List T) (nr : Nat) (ord : CasaSort.Order) (opt opt' : Nat)
    (h : opt &&& CasaSort.NoDuplicates = opt' &&& CasaSort.NoDuplicates) :
    quickSort data nr ord opt = quickSort data nr ord opt' := by
  simp only [quickSort_eq, insSort_opt _ nr ord opt opt' h]

/-- Only the duplicate bit of the options word matters to `parSort`. -/
theorem parSort_opt (w : Workers) (data : List T) (nr : Nat) (ord : CasaSort.Order)
    (opt opt' : Nat) (nthread : Int)
    (h : opt &&& CasaSort.NoDuplicates = opt' &&& CasaSort.NoDuplicates) :
    parSort w data nr ord opt nthread = parSort w data nr ord opt' nthread := by
  simp only [parSort, h]

end GenSort

namespace GenSortIndirect

variable {T : Type} [LinearOrder T] [Inhabited T]

/-- With at most 32 cells the indirect `quickSortAsc` returns at once. -/
theorem ind_quickSortAsc_small (inx : List Nat) (data : List T) (nr : Nat)
    (multiThread : Bool) (rec_lim : Int) (h : nr ≤ 32) :
    quickSortAsc inx data nr multiThread rec_lim = some inx := by
  simp only [quickSortAsc, quickSortAscAux, if_pos h]

/-- What the indirect `quickSort` does: the budget, the kernel, the insertion sort. -/
theorem ind_quickSort_eq (inx : List Nat) (data : List T) (nr : Nat) (ord : CasaSort.Order)
    (opt : Nat) :
    quickSort inx data nr ord opt =
      (quickSortAsc inx data nr true (2 * (Nat.log 2 nr : Nat))).map
        (fun x => insSort x data nr ord opt) := by
  have e := GenSort.recLimitLoop_eq (nr + 1) nr 0 (by omega)
  simp only [quickSort, e, Int.zero_add]
  rw [show ((Nat.log 2 nr : Nat) : Int) * 2 = 2 * (Nat.log 2 nr : Nat) by ring]
  cases quickSortAsc inx data nr true (2 * (Nat.log 2 nr : Nat)) <;> rfl

/-- Only the duplicate bit of the options word matters to the indirect `insSort`. -/
theorem ind_insSort_opt (inx : List Nat) (data : List T) (nr : Nat) (ord : CasaSort.Order)
    (opt opt' : Nat)
    (h : opt &&& CasaSort.NoDuplicates = opt' &&& CasaSort.NoDuplicates) :
    insSort inx data nr ord opt = insSort inx data nr ord opt' := by
  simp only [insSort, insSortAsc, h]

/-- Only the duplicate bit of the options word matters to the indirect `quickSort`. -/
theorem ind_quickSort_opt (inx : List Nat) (data : List T) (nr : Nat) (ord : CasaSort.Order)
    (opt opt' : Nat)
    (h : opt &&& CasaSort.NoDuplicates = opt' &&& CasaSort.NoDuplicates) :
    quickSort inx data nr ord opt = quickSort inx data nr ord opt' := by
  simp only [ind_quickSort_eq, ind_insSort_opt _ data nr ord opt opt' h]

/-- Only the duplicate bit of the options word matters to the indirect `parSort`. -/
theorem ind_parSort_opt (w : Workers) (inx : List Nat) (data : List T) (nr : Nat)
    (ord : CasaSort.Order) (opt opt' : Nat) (nthread : Int)
    (h : opt &&& CasaSort.NoDuplicates = opt' &&& CasaSort.NoDuplicates) :
    parSort w inx data nr ord opt nthread = parSort w inx data nr ord opt' nthread := by
  simp only [parSort, h]

end GenSortIndirect

/-! ## Sorted input, boundary lengths and the default engine -/

namespace GenSort

variable {T : Type} [LinearOrder T] [Inhabited T]

omit [Inhabited T] in
/-- A non-decreasing list without equal neighbours is strictly increasing. -/
theorem sorted_lt_of_chain_ne {S : List T} (h : S.Sorted (· ≤ ·)) (hc : S.Chain' (· ≠ ·)) :
    S.Sorted (· < ·) := by
  induction S with
  | nil => exact List.sorted_nil
  | cons a S ih =>
    have h2 := List.sorted_cons.1 h
    have ih' := ih h2.2 hc.tail
    refine List.sorted_cons.2 ⟨?_, ih'⟩
    intro b hb
    cases S with
    | nil => exact absurd hb (List.not_mem_nil _)
    | cons c S =>
      have hac : a < c :=
        lt_of_le_of_ne (h2.1 c (List.mem_cons_self _ _)) (List.chain'_cons.1 hc).1
      rcases List.mem_cons.1 hb with rfl | hb
      · exact hac
      · exact lt_trans hac ((List.sorted_cons.1 ih').1 b hb)

omit [Inhabited T] in
/-- A non-increasing list without equal neighbours is strictly decreasing. -/
theorem sorted_gt_of_chain_ne {S : List T} (h : S.Sorted (· ≥ ·)) (hc : S.Chain' (· ≠ ·)) :
    S.Sorted (· > ·) := by
  induction S with
  | nil => exact List.sorted_nil
  | cons a S ih =>
    have h2 := List.sorted_cons.1 h
    have ih' := ih h2.2 hc.tail
    refine List.sorted_cons.2 ⟨?_, ih'⟩
    intro b hb
    cases S with
    | nil => exact absurd hb (List.not_mem_nil _)
    | cons c S =>
      have hac : a > c :=
        lt_of_le_of_ne (h2.1 c (List.mem_cons_self _ _)) (Ne.symm (List.chain'_cons.1 hc).1)
      rcases List.mem_cons.1 hb with rfl | hb
      · exact hac
      · exact lt_trans ((List.sorted_cons.1 ih').1 b hb) hac

/-- With duplicates kept, the direct sort leaves a buffer that is in the order asked for as
it is. -/
theorem sort_keep_idem (w : Workers) (S : List T) (O : CasaSort.Order) (s : Selector)
    (hb : S.length < 2 ^ 30)
    (hO : match O with
      | .Ascending => S.Sorted (· ≤ ·)
      | .Descending => S.Sorted (· ≥ ·)) :
    sort w S S.length O s.keep = some (S.length, S) := by
  obtain ⟨asc, h1, h2, h3, h4⟩ := sort_keep_full w S s hb
  cases O
  · have e : asc = S := List.eq_of_perm_of_sorted h1 h2 hO
    rw [h3, e]
  · have hr : S.reverse.Sorted (· ≤ ·) := by
      simp only [List.Sorted, List.pairwise_reverse]
      exact hO
    have e : asc = S.reverse :=
      List.eq_of_perm_of_sorted (h1.trans (List.reverse_perm S).symm) h2 hr
    rw [h4, e, List.reverse_reverse]

/-- With duplicates dropped, the direct sort leaves a buffer that is strictly in the order
asked for as it is. -/
theorem sort_nodup_idem (w : Workers) (S : List T) (O : CasaSort.Order) (s : Selector)
    (hb : S.length < 2 ^ 30)
    (hO : match O with
      | .Ascending => S.Sorted (· < ·)
      | .Descending => S.Sorted (· > ·)) :
    sort w S S.length O s.noDup = some (S.length, S) := by
  obtain ⟨asc, rest, h1, h2, h3, h4, h5⟩ := sort_nodup_full w S s hb
  cases O
  · have e : asc = S := strict_unique h1 hO h2
    subst e
    have : rest = [] := List.eq_nil_of_length_eq_zero (by omega)
    rw [h4, this, List.append_nil]
  · have hr : S.reverse.Sorted (· < ·) := by
      simp only [List.Sorted, List.pairwise_reverse]
      exact hO
    have e : asc = S.reverse := strict_unique h1 hr (fun v => by rw [h2 v, List.mem_reverse])
    subst e
    have : rest = [] := by simpa using h3
    rw [h5, this, List.append_nil, List.reverse_reverse, List.length_reverse]

end GenSort

/-- C11, on the code.  A buffer `S` of fewer than `2^30` cells that is in the order `O` is
left as it is by the direct sort, which returns its length, for every algorithm selector (the
empty buffer with the selector Parallel apart, see C33): with duplicates kept, and with
duplicates dropped when no two neighbours of `S` are equal.  Hence sorting the first `R`
cells of the sort result of such a buffer once more with the same arguments returns `R` and
the same cells.  At `2^31` cells the claim fails, by the conversion of the length to the
`Int nr` of the kernels named under C1: `wideInput`, a 1 followed by zeros, is in Descending
order, the kernels return at once, and the reversal that follows for Descending turns the
buffer round, zeros first. -/
theorem C11_sort_idempotent {T : Type} [LinearOrder T] [Inhabited T]
    (w : Workers) (S : List T) (O : CasaSort.Order) (s : Selector)
    (hb : S.length < 2 ^ 30) (h0 : S = [] → s ≠ Selector.Parallel)
    (hO : match O with
      | .Ascending => S.Sorted (· ≤ ·)
      | .Descending => S.Sorted (· ≥ ·)) :
    GenSort.sort w S S.length O s.keep = some (S.length, S) ∧
    (S.Chain' (· ≠ ·) → GenSort.sort w S S.length O s.noDup = some (S.length, S)) ∧
    (∀ S' : List T, S'.length < 2 ^ 30 → S' ≠ [] →
      ∃ R d, GenSort.sort w S' S'.length O s.keep = some (R, d) ∧
        GenSort.sort w (d.take R) R O s.keep = some (R, d.take R)) ∧
    (∀ S' : List T, S'.length < 2 ^ 30 → S' ≠ [] →
      ∃ R d, GenSort.sort w S' S'.length O s.noDup = some (R, d) ∧
        GenSort.sort w (d.take R) R O s.noDup = some (R, d.take R)) ∧
    GenSort.wideInput.Sorted (· ≥ ·) ∧
    (∀ s', s' = Selector.Quicksort ∨ s' = Selector.Heapsort ∨ s' = Selector.Insertion →
      GenSort.sort w GenSort.wideInput (2 ^ 31) CasaSort.Order.Descending s'.keep =
        some (2 ^ 31, GenSort.wideInput.reverse)) ∧
    GenSort.wideInput.reverse ≠ GenSort.wideInput := by
  refine ⟨GenSort.sort_keep_idem w S O s hb hO, ?_, ?_, ?_, GenSort.wideInput_desc, ?_,
    GenSort.wideInput_reverse_ne⟩
  · intro hc
    apply GenSort.sort_nodup_idem w S O s hb
    cases O
    · exact GenSort.sorted_lt_of_chain_ne hO hc
    · exact GenSort.sorted_gt_of_chain_ne hO hc
  · intro S' hb' _
    obtain ⟨asc, h1, h2, h3, h4⟩ := GenSort.sort_keep_full w S' s hb'
    have hl : asc.length = S'.length := h1.length_eq
    cases O
    · refine ⟨S'.length, asc, h3, ?_⟩
      rw [← hl, List.take_length]
      exact GenSort.sort_keep_idem w asc _ s (by omega) h2
    · refine ⟨S'.length, asc.reverse, h4, ?_⟩
      have hl' : asc.reverse.length = S'.length := by rw [List.length_reverse, hl]
      rw [← hl', List.take_length]
      apply GenSort.sort_keep_idem w asc.reverse _ s (by omega)
      simp only [List.Sorted, List.pairwise_reverse]
      exact h2
  · intro S' hb' _
    obtain ⟨asc, rest, h1, _, h3, h4, h5⟩ := GenSort.sort_nodup_full w S' s hb'
    cases O
    · refine ⟨asc.length, asc ++ rest, h4, ?_⟩
      rw [List.take_left' rfl]
      exact GenSort.sort_nodup_idem w asc _ s (by omega) h1
    · refine ⟨asc.length, asc.reverse ++ rest, h5, ?_⟩
      rw [List.take_left' (List.length_reverse asc)]
      have h := GenSort.sort_nodup_idem w asc.reverse CasaSort.Order.Descending s
        (by rw [List.length_reverse]; omega) (by
        simp only [List.Sorted, List.pairwise_reverse]
        exact h1)
      rw [List.length_reverse] at h
      exact h
  · intro s' hs
    rw [(GenSort.sort_wide w GenSort.wideInput s' hs).2.2.1, GenSort.reverse_wideInput]

/-- C11 at the sorted buffer `[1,3,3,4,5]`, Ascending. -/
theorem C11_sort_idempotent_witness :
    [1, 3, 3, 4, 5].length < 2 ^ 30 ∧ List.Sorted (· ≤ ·) [1, 3, 3, 4, 5] ∧
    GenSort.sort none [1, 3, 3, 4, 5] 5 CasaSort.Order.Ascending Selector.Default.keep =
      some (5, [1, 3, 3, 4, 5]) :=
  ⟨by norm_num, by decide, (C11_sort_idempotent none [1, 3, 3, 4, 5] CasaSort.Order.Ascending
    Selector.Default (by norm_num) (by intro h; exact List.noConfusion h) (by decide)).1⟩

/-- C13, on the code.  For every algorithm selector, order and duplicate policy the direct
sort of a buffer of length 1 returns 1 and leaves the element, and for every selector other
than Parallel the direct sort of a buffer of length 0 returns 0 and an empty buffer.  With
the selector Parallel and length 0 the claim fails: `sort` calls `parSort (data, 0, ...)`,
whose run finding, logged by `findRunsLog`, ends with the store `index[nparts] = nr` at
`index[1]`, and `index` has `nr + 1 = 1` entry: the call writes past the block before it
returns (the defect of C33). -/
theorem C13_sort_boundary_lengths {T : Type} [LinearOrder T] [Inhabited T]
    (w : Workers) (O : CasaSort.Order) (s : Selector) (x : T) (inv junc : Nat → Bool) :
    (s ≠ Selector.Parallel →
      GenSort.sort w ([] : List T) 0 O s.keep = some (0, []) ∧
      GenSort.sort w ([] : List T) 0 O s.noDup = some (0, [])) ∧
    GenSort.sort w [x] 1 O s.keep = some (1, [x]) ∧
    GenSort.sort w [x] 1 O s.noDup = some (1, [x]) ∧
    GenSort.sort w ([] : List T) 0 O Selector.Parallel.keep =
      GenSort.parSort w ([] : List T) 0 O CasaSort.ParSort 0 ∧
    (⟨GenSort.Arr.index, 1, true⟩ : GenSort.Access) ∈
      (GenSort.findRunsLog inv junc 0 (GenSort.numThreads w 0 0)).2 ∧
    GenSort.Arr.size 0 (GenSort.numThreads w 0 0) GenSort.Arr.index = 1 := by
  have hn : GenSort.numThreads w 0 0 = 1 := (GenSort.numThreads_spec w 0 0).2.2 rfl
  refine ⟨?_, ?_, ?_, ?_, ?_, rfl⟩
  · intro _
    exact ⟨GenSort.sort_keep_idem w [] O s (by norm_num)
        (by cases O <;> exact List.sorted_nil),
      GenSort.sort_nodup_idem w [] O s (by norm_num) (by cases O <;> exact List.sorted_nil)⟩
  · exact GenSort.sort_keep_idem w [x] O s (by norm_num)
      (by cases O <;> exact List.sorted_singleton x)
  · exact GenSort.sort_nodup_idem w [x] O s (by norm_num)
      (by cases O <;> exact List.sorted_singleton x)
  · rw [GenSort.sort_eq_keep]
  · rw [hn]
    have e : (GenSort.findRunsLog inv junc 0 1).2 =
        [⟨GenSort.Arr.tinx, 0, true⟩, ⟨GenSort.Arr.tinx, 1, true⟩,
          ⟨GenSort.Arr.tinx, 0, false⟩, ⟨GenSort.Arr.index, 0, true⟩,
          ⟨GenSort.Arr.tinx, 1, false⟩, ⟨GenSort.Arr.np, 0, true⟩,
          ⟨GenSort.Arr.np, 0, false⟩, ⟨GenSort.Arr.index, 1, true⟩] := rfl
    rw [e]
    decide

/-- C14: with no algorithm bit in the options word (`DefaultSort`, with or without
`NoDuplicates`), `sort` is `quickSort` with the same arguments when `nr < 1000` or one worker
is available (a build without OpenMP, or `omp_get_max_threads() = 1`), and `parSort` with the
same arguments otherwise; the indirect `sort` follows the same rule between filling the
index vector and trimming it. -/
theorem C14_default_dispatch {T : Type} [LinearOrder T] [Inhabited T]
    (w : Workers) (indexVector : List Nat) (data : List T) (nr : Nat) (O : CasaSort.Order) :
    GenSort.sort w data nr O CasaSort.DefaultSort =
      (if nr < 1000 ∨ w.getD 1 = 1 then GenSort.quickSort data nr O CasaSort.DefaultSort
        else GenSort.parSort w data nr O CasaSort.DefaultSort 0) ∧
    GenSort.sort w data nr O (CasaSort.DefaultSort + CasaSort.NoDuplicates) =
      (if nr < 1000 ∨ w.getD 1 = 1 then
        GenSort.quickSort data nr O (CasaSort.DefaultSort + CasaSort.NoDuplicates)
        else GenSort.parSort w data nr O (CasaSort.DefaultSort + CasaSort.NoDuplicates) 0) ∧
    GenSortIndirect.sort w indexVector data nr O CasaSort.DefaultSort =
      Option.bind
        (if nr < 1000 ∨ w.getD 1 = 1 then
          GenSortIndirect.quickSort (GenSortIndirect.indgen indexVector nr) data nr O
            CasaSort.DefaultSort
        else GenSortIndirect.parSort w (GenSortIndirect.indgen indexVector nr) data nr O
          CasaSort.DefaultSort 0)
        (fun r => if r.1 < nr then some (r.1, r.2.take r.1) else some r) ∧
    GenSortIndirect.sort w indexVector data nr O
        (CasaSort.DefaultSort + CasaSort.NoDuplicates) =
      Option.bind
        (if nr < 1000 ∨ w.getD 1 = 1 then
          GenSortIndirect.quickSort (GenSortIndirect.indgen indexVector nr) data nr O
            (CasaSort.DefaultSort + CasaSort.NoDuplicates)
        else GenSortIndirect.parSort w (GenSortIndirect.indgen indexVector nr) data nr O
          (CasaSort.DefaultSort + CasaSort.NoDuplicates) 0)
        (fun r => if r.1 < nr then some (r.1, r.2.take r.1) else some r) := by
  have e4 : CasaSort.QuickSort &&& CasaSort.NoDuplicates =
      CasaSort.DefaultSort &&& CasaSort.NoDuplicates := by decide
  have e8 : CasaSort.ParSort &&& CasaSort.NoDuplicates =
      CasaSort.DefaultSort &&& CasaSort.NoDuplicates := by decide
  have e20 : (CasaSort.NoDuplicates + CasaSort.QuickSort) &&& CasaSort.NoDuplicates =
      (CasaSort.DefaultSort + CasaSort.NoDuplicates) &&& CasaSort.NoDuplicates := by decide
  have e24 : (CasaSort.NoDuplicates + CasaSort.ParSort) &&& CasaSort.NoDuplicates =
      (CasaSort.DefaultSort + CasaSort.NoDuplicates) &&& CasaSort.NoDuplicates := by decide
  refine ⟨?_, ?_, ?_, ?_⟩
  · have h := GenSort.sort_eq_keep w data nr O Selector.Default
    simp only [Selector.keep, Selector.code] at h
    rw [h, GenSort.quickSort_opt data nr O _ _ e4, GenSort.parSort_opt w data nr O _ _ 0 e8]
  · have h := GenSort.sort_eq_noDup w data nr O Selector.Default
    simp only [Selector.noDup, Selector.code] at h
    rw [h, GenSort.quickSort_opt data nr O _ _ e20,
      GenSort.parSort_opt w data nr O _ _ 0 e24]
  · have h := GenSortIndirect.ind_sort_eq_keep w indexVector data nr O Selector.Default
    simp only [Selector.keep, Selector.code] at h
    rw [h, GenSortIndirect.ind_quickSort_opt _ data nr O _ _ e4,
      GenSortIndirect.ind_parSort_opt w _ data nr O _ _ 0 e8]
    rfl
  · have h := GenSortIndirect.ind_sort_eq_noDup w indexVector data nr O Selector.Default
    simp only [Selector.noDup, Selector.code] at h
    rw [h, GenSortIndirect.ind_quickSort_opt _ data nr O _ _ e20,
      GenSortIndirect.ind_parSort_opt w _ data nr O _ _ 0 e24]
    rfl

/-- C19: `quickSort`, direct and indirect, hands `quickSortAsc` the budget
`2 * floor (log2 nr)`: the loop `while (unr >>= 1) rec_limit++` leaves the binary logarithm
of `nr`, the largest `l` with `2 ^ l ≤ nr`, which is 0 for `nr = 0`.  The direct kernel is
entered with that budget and the length converted to its parameter `Int nr`, which is the
length itself below `2^31`. -/
theorem C19_quickSort_budget {T : Type} [LinearOrder T] [Inhabited T]
    (data : List T) (inx : List Nat) (nr : Nat) (O : CasaSort.Order) (opt : Nat) :
    GenSort.recLimitLoop (nr + 1) nr 0 = some ((Nat.log 2 nr : Nat) : Int) ∧
    (if nr = 0 then Nat.log 2 nr = 0
      else 2 ^ Nat.log 2 nr ≤ nr ∧ nr < 2 ^ (Nat.log 2 nr + 1)) ∧
    GenSort.quickSort data nr O opt =
      (GenSort.atInt (GenSort.toInt nr) (some data)
        (fun n => GenSort.quickSortAsc data n true (2 * (Nat.log 2 nr : Nat)))).map
        (fun d => GenSort.insSort d nr O opt) ∧
    (nr < 2 ^ 31 → GenSort.quickSort data nr O opt =
      (GenSort.quickSortAsc data nr true (2 * (Nat.log 2 nr : Nat))).map
        (fun d => GenSort.insSort d nr O opt)) ∧
    GenSortIndirect.quickSort inx data nr O opt =
      (GenSortIndirect.quickSortAsc inx data nr true (2 * (Nat.log 2 nr : Nat))).map
        (fun x => GenSortIndirect.insSort x data nr O opt) := by
  refine ⟨?_, ?_, GenSort.quickSort_eq data nr O opt,
    GenSort.quickSort_eq_small data nr O opt,
    GenSortIndirect.ind_quickSort_eq inx data nr O opt⟩
  · rw [GenSort.recLimitLoop_eq (nr + 1) nr 0 (by omega), Int.zero_add]
  · split
    · next h => rw [h]; exact Nat.log_zero_right 2
    · next h => exact ⟨Nat.pow_log_le_self 2 h, Nat.lt_pow_succ_log_self (by omega) nr⟩

/-- C20: on at most 32 cells `quickSortAsc` returns at once, whatever the budget (negative
ones included) and the `multiThread` flag, and leaves every cell; so `quickSort` of at most
32 cells is the insertion sort `insSort` of the untouched input.  The same holds for the
indirect engine. -/
theorem C20_quickSortAsc_small_is_noop {T : Type} [LinearOrder T] [Inhabited T]
    (data : List T) (inx : List Nat) (nr : Nat) (multiThread : Bool) (rec_lim : Int)
    (O : CasaSort.Order) (opt : Nat) (h : nr ≤ 32) :
    GenSort.quickSortAsc data nr multiThread rec_lim = some data ∧
    GenSort.quickSort data nr O opt = some (GenSort.insSort data nr O opt) ∧
    GenSortIndirect.quickSortAsc inx data nr multiThread rec_lim = some inx ∧
    GenSortIndirect.quickSort inx data nr O opt =
      some (GenSortIndirect.insSort inx data nr O opt) := by
  refine ⟨GenSort.quickSortAsc_small data nr _ _ h, ?_,
    GenSortIndirect.ind_quickSortAsc_small inx data nr _ _ h, ?_⟩
  · rw [GenSort.quickSort_eq_small data nr O opt (by omega),
      GenSort.quickSortAsc_small data nr _ _ h]; rfl
  · rw [GenSortIndirect.ind_quickSort_eq,
      GenSortIndirect.ind_quickSortAsc_small inx data nr _ _ h]; rfl

/-- C20 at `[5,3,3,1,4]` with a negative budget. -/
theorem C20_quickSortAsc_small_witness :
    5 ≤ 32 ∧
    GenSort.quickSortAsc [5, 3, 3, 1, 4] 5 true (-3) = some [5, 3, 3, 1, 4] ∧
    GenSort.quickSort [5, 3, 3, 1, 4] 5 CasaSort.Order.Ascending CasaSort.QuickSort =
      some (GenSort.insSort [5, 3, 3, 1, 4] 5 CasaSort.Order.Ascending CasaSort.QuickSort) ∧
    GenSortIndirect.quickSortAsc [0, 1, 2, 3, 4] [5, 3, 3, 1, 4] 5 true (-3) =
      some [0, 1, 2, 3, 4] ∧
    GenSortIndirect.quickSort [0, 1, 2, 3, 4] [5, 3, 3, 1, 4] 5 CasaSort.Order.Ascending
        CasaSort.QuickSort =
      some (GenSortIndirect.insSort [0, 1, 2, 3, 4] [5, 3, 3, 1, 4] 5
        CasaSort.Order.Ascending CasaSort.QuickSort) :=
  ⟨by decide, C20_quickSortAsc_small_is_noop [5, 3, 3, 1, 4] [0, 1, 2, 3, 4] 5 true (-3)
    CasaSort.Order.Ascending CasaSort.QuickSort (by decide)⟩

/-! ## The recursion budget of the quicksort kernel -/

namespace GenSort

variable {T : Type} [LinearOrder T] [Inhabited T]

/-- The buffer `quickSortAscLog` returns is the one `quickSortAsc` returns. -/
theorem quickSortAscLog_fst (fuel : Nat) :
    ∀ (data : List T) (nr : Nat) (multiThread : Bool) (rec_lim : Int) (depth : Nat),
      (quickSortAscLog fuel data nr multiThread rec_lim depth).map Prod.fst =
        quickSortAscAux fuel data nr multiThread rec_lim := by
  induction fuel with
  | zero =>
    intro data nr mt rec_lim depth
    simp only [quickSortAscLog, quickSortAscAux]
    split
    · rfl
    · split
      · cases heapSortAsc data nr <;> rfl
      · rfl
  | succ fuel ih =>
    intro data nr mt rec_lim depth
    simp only [quickSortAscLog, quickSortAscAux]
    split
    · rfl
    · split
      · cases heapSortAsc data nr <;> rfl
      · cases hp : partitionLoop (rd (median3 data 0 ((nr - 1) / 2) (nr - 1)) (nr - 1)) 0
            (nr - 1) nr (median3 data 0 ((nr - 1) / 2) (nr - 1)) 0 (nr - 1) with
        | none => rfl
        | some r =>
          obtain ⟨d1, sf⟩ := r
          simp only [ite_self]
          have h1 := ih (swap d1 sf (nr - 1)) sf false (rec_lim - 1) (depth + 1)
          cases hl : quickSortAscLog fuel (swap d1 sf (nr - 1)) sf false (rec_lim - 1)
              (depth + 1) with
          | none =>
            rw [hl] at h1
            simp only [Option.map_none'] at h1
            simp only [← h1, Option.map_none']
          | some r3 =>
            obtain ⟨d3, l1⟩ := r3
            rw [hl] at h1
            simp only [Option.map_some'] at h1
            simp only [← h1]
            have h2 := ih (d3.drop (sf + 1)) (nr - sf - 1) false (rec_lim - 1) (depth + 1)
            cases hl2 : quickSortAscLog fuel (d3.drop (sf + 1)) (nr - sf - 1) false
                (rec_lim - 1) (depth + 1) with
            | none =>
              rw [hl2] at h2
              simp only [Option.map_none'] at h2
              simp only [← h2, Option.map_none']
            | some r4 =>
              obtain ⟨r, l2⟩ := r4
              rw [hl2] at h2
              simp only [Option.map_some'] at h2
              simp only [← h2, Option.map_some']

/-- Every call of `heapSortAsc` that a call of `quickSortAsc` with budget `rec_lim ≥ -1`
gives rise to has more than 32 cells and the budget -1, and lies `rec_lim + 1` partitions
below that call. -/
theorem quickSortAscLog_entries (fuel : Nat) :
    ∀ (data : List T) (nr : Nat) (multiThread : Bool) (rec_lim : Int) (depth : Nat)
      (d : List T) (log : List (Nat × Nat × Int)),
      quickSortAscLog fuel data nr multiThread rec_lim depth = some (d, log) → -1 ≤ rec_lim →
      ∀ e, e ∈ log → (e.1 : Int) = depth + rec_lim + 1 ∧ 32 < e.2.1 ∧ e.2.2 = -1 := by
  have hheap : ∀ (data : List T) (nr : Nat) (rec_lim : Int) (depth : Nat) (d : List T)
      (log : List (Nat × Nat × Int)),
      (match heapSortAsc data nr with
        | none => none
        | some d => some (d, [(depth, nr, rec_lim)])) = some (d, log) →
      log = [(depth, nr, rec_lim)] := by
    intro data nr rec_lim depth d log h
    cases hh : heapSortAsc data nr with
    | none => rw [hh] at h; exact absurd h (by simp)
    | some d' =>
      rw [hh] at h
      simp only [Option.some.injEq, Prod.mk.injEq] at h
      exact h.2.symm
  induction fuel with
  | zero =>
    intro data nr mt rec_lim depth d log h hrl e he
    simp only [quickSortAscLog] at h
    split at h
    · simp only [Option.some.injEq, Prod.mk.injEq] at h
      rw [← h.2] at he
      exact absurd he (List.not_mem_nil _)
    · next h32 =>
      split at h
      · next hneg =>
        rw [hheap _ _ _ _ _ _ h] at he
        simp only [List.mem_singleton] at he
        subst he
        exact ⟨by simp only; omega, by simp only; omega, by simp only; omega⟩
      · exact absurd h (by simp)
  | succ fuel ih =>
    intro data nr mt rec_lim depth d log h hrl e he
    simp only [quickSortAscLog] at h
    split at h
    · simp only [Option.some.injEq, Prod.mk.injEq] at h
      rw [← h.2] at he
      exact absurd he (List.not_mem_nil _)
    · next h32 =>
      split at h
      · next hneg =>
        rw [hheap _ _ _ _ _ _ h] at he
        simp only [List.mem_singleton] at he
        subst he
        exact ⟨by simp only; omega, by simp only; omega, by simp only; omega⟩
      · next hneg =>
        simp only [ite_self] at h
        split at h
        · exact absurd h (by simp)
        · next d1 sf hp =>
          split at h
          · exact absurd h (by simp)
          · next d3 l1 hl1 =>
            split at h
            · exact absurd h (by simp)
            · next r l2 hl2 =>
              simp only [Option.some.injEq, Prod.mk.injEq] at h
              rw [← h.2] at he
              rcases List.mem_append.1 he with he | he
              · have := ih _ _ _ _ _ _ _ hl1 (by omega) e he
                push_cast at this
                exact ⟨by omega, this.2⟩
              · have := ih _ _ _ _ _ _ _ hl2 (by omega) e he
                push_cast at this
                exact ⟨by omega, this.2⟩

/-- A call of `quickSortAsc` with a budget that is not negative returns; its calls of
`heapSortAsc` all lie one partition below the level at which the budget is used up. -/
theorem quickSortAscLog_spec (S : List T) (multiThread : Bool) (b depth : Nat)
    (hb : S.length < 2 ^ 30) :
    ∃ d log, quickSortAscLog (b + 1) S S.length multiThread b depth = some (d, log) ∧
      quickSortAsc S S.length multiThread b = some d ∧
      ∀ e, e ∈ log → e.1 = depth + b + 1 ∧ 32 < e.2.1 ∧ e.2.2 = -1 := by
  obtain ⟨d, e, _⟩ := quickSortAsc_spec S S.length multiThread b (le_refl _) hb
  have hfst := quickSortAscLog_fst (b + 1) S S.length multiThread b depth
  have e' : quickSortAscAux (b + 1) S S.length multiThread b = some d := by
    simpa [quickSortAsc] using e
  rw [e'] at hfst
  cases hl : quickSortAscLog (b + 1) S S.length multiThread b depth with
  | none => rw [hl] at hfst; exact absurd hfst (by simp)
  | some r =>
    obtain ⟨d', log⟩ := r
    rw [hl] at hfst
    simp only [Option.map_some', Option.some.injEq] at hfst
    subst hfst
    refine ⟨d', log, rfl, e, ?_⟩
    intro x hx
    have := quickSortAscLog_entries (b + 1) S S.length multiThread b depth d' log hl
      (by omega) x hx
    exact ⟨by omega, this.2⟩

/-- Whenever the logged run returns, its buffer is the one `quickSortAsc` returns and its
calls of `heapSortAsc` all lie one partition below the level at which the budget is used
up. -/
theorem quickSortAscLog_sound (S : List T) (multiThread : Bool) (b depth : Nat)
    (d : List T) (log : List (Nat × Nat × Int))
    (h : quickSortAscLog (b + 1) S S.length multiThread b depth = some (d, log)) :
    quickSortAsc S S.length multiThread b = some d ∧
      ∀ e, e ∈ log → e.1 = depth + b + 1 ∧ 32 < e.2.1 ∧ e.2.2 = -1 := by
  have hfst := quickSortAscLog_fst (b + 1) S S.length multiThread b depth
  rw [h] at hfst
  constructor
  · simp only [quickSortAsc, Int.toNat_ofNat]
    rw [← hfst]; rfl
  · intro x hx
    have := quickSortAscLog_entries (b + 1) S S.length multiThread b depth d log h
      (by omega) x hx
    exact ⟨by omega, this.2⟩

/-- With a negative budget and more than 32 cells `quickSortAsc` is `heapSortAsc`. -/
theorem quickSortAsc_neg (data : List T) (nr : Nat) (multiThread : Bool) (rec_lim : Int)
    (h32 : 32 < nr) (hneg : rec_lim < 0) :
    quickSortAsc data nr multiThread rec_lim = heapSortAsc data nr := by
  simp only [quickSortAsc, quickSortAscAux, if_neg (show ¬ nr ≤ 32 by omega), if_pos hneg]

/-- On 33 or 34 cells no part of the first partition has more than 32 cells, so nothing is
handed to `heapSortAsc`. -/
theorem quickSortAscLog_short (S : List T) (multiThread : Bool) (b depth : Nat)
    (h1 : 32 < S.length) (h2 : S.length ≤ 34) :
    ∃ d, quickSortAscLog (b + 1) S S.length multiThread b depth = some (d, []) := by
  have hps := partition_step S 0 (S.length - 1) (by omega) (by omega) S.length (by omega)
  rw [Nat.zero_add] at hps
  obtain ⟨d1, s, e, a1, a2, a3, _⟩ := hps
  have hb : ¬ ((b : Int) < 0) := by omega
  have q1 : ∀ (f : Nat) (x : List T) (rl : Int),
      quickSortAscLog f x s false rl (depth + 1) = some (x, []) := by
    intro f x rl
    cases f <;> simp only [quickSortAscLog, if_pos (show s ≤ 32 by omega)]
  have q2 : ∀ (f : Nat) (x : List T) (rl : Int),
      quickSortAscLog f x (S.length - s - 1) false rl (depth + 1) = some (x, []) := by
    intro f x rl
    cases f <;> simp only [quickSortAscLog, if_pos (show S.length - s - 1 ≤ 32 by omega)]
  refine ⟨(swap d1 s (S.length - 1)).take (s + 1) ++ (swap d1 s (S.length - 1)).drop (s + 1),
    ?_⟩
  simp only [quickSortAscLog, if_neg (show ¬ S.length ≤ 32 by omega), if_neg hb, e, ite_self,
    q1, q2, List.append_nil]

end GenSort

namespace GenSortIndirect

variable {T : Type} [LinearOrder T] [Inhabited T]

/-- With a negative budget and more than 32 cells the indirect `quickSortAsc` is the
indirect `heapSortAsc`. -/
theorem ind_quickSortAsc_neg (inx : List Nat) (data : List T) (nr : Nat) (multiThread : Bool)
    (rec_lim : Int) (h32 : 32 < nr) (hneg : rec_lim < 0) :
    quickSortAsc inx data nr multiThread rec_lim = heapSortAsc inx data nr := by
  simp only [quickSortAsc, quickSortAscAux, if_neg (show ¬ nr ≤ 32 by omega), if_pos hneg]

end GenSortIndirect

/-! ## The heapsort fallback of the quicksort kernel -/

/-- C16, as the spec states it, on the 33 cells `1, 0, 2, 3, ..., 32`: with the budget 0
`quickSortAsc` partitions (the median 16 stays in the middle), hands both halves of 16 cells
on with the budget -1, and returns the buffer as it was, cell 0 still above cell 1, where
`heapSortAsc` returns the sorted buffer. -/
theorem C16_budget_zero_counterexample :
    GenSort.quickSortAsc
      [1, 0, 2, 3, 4, 5, 6, 7, 8, 9, 10, 11, 12, 13, 14, 15, 16, 17, 18, 19, 20, 21, 22, 23, 24,
       25, 26, 27, 28, 29, 30, 31, 32] 33 true 0 =
      some
      [1, 0, 2, 3, 4, 5, 6, 7, 8, 9, 10, 11, 12, 13, 14, 15, 16, 17, 18, 19, 20, 21, 22, 23, 24,
       25, 26, 27, 28, 29, 30, 31, 32] ∧
    GenSort.heapSortAsc
      [1, 0, 2, 3, 4, 5, 6, 7, 8, 9, 10, 11, 12, 13, 14, 15, 16, 17, 18, 19, 20, 21, 22, 23, 24,
       25, 26, 27, 28, 29, 30, 31, 32] 33 =
      some
      [0, 1, 2, 3, 4, 5, 6, 7, 8, 9, 10, 11, 12, 13, 14, 15, 16, 17, 18, 19, 20, 21, 22, 23, 24,
       25, 26, 27, 28, 29, 30, 31, 32] := by
  decide

/-- C16, amended: on more than 32 cells `quickSortAsc` called with a negative budget does
not partition: it is `heapSortAsc` on the same arguments, for the direct and for the
indirect engine, and on fewer than `2^30` cells it returns with the `nr` cells in ascending
order, a permutation of what they were. -/
theorem C16_negative_budget_is_heapsort {T : Type} [LinearOrder T] [Inhabited T]
    (data : List T) (inx : List Nat) (nr : Nat) (multiThread : Bool) (rec_lim : Int)
    (h32 : 32 < nr) (hneg : rec_lim < 0) (hnr : nr ≤ data.length) :
    GenSort.quickSortAsc data nr multiThread rec_lim = GenSort.heapSortAsc data nr ∧
    GenSortIndirect.quickSortAsc inx data nr multiThread rec_lim =
      GenSortIndirect.heapSortAsc inx data nr ∧
    (nr < 2 ^ 30 → ∃ d, GenSort.quickSortAsc data nr multiThread rec_lim = some d ∧
      (d.take nr).Sorted (· ≤ ·) ∧ (d.take nr).Perm (data.take nr) ∧
      d.drop nr = data.drop nr) := by
  refine ⟨GenSort.quickSortAsc_neg data nr _ _ h32 hneg,
    GenSortIndirect.ind_quickSortAsc_neg inx data nr _ _ h32 hneg, ?_⟩
  intro hb
  obtain ⟨d, e, h4, h2, h3, h5⟩ := GenSort.heapSortAsc_spec data nr hnr hb
  obtain ⟨k1, k2, _, _⟩ := Gen.keep_finish id data d nr hnr h2 h3 h4 h5
  exact ⟨d, by rw [GenSort.quickSortAsc_neg data nr _ _ h32 hneg, e], k2, k1,
    GenSort.drop_eq_of_rd nr h2 (fun p hp _ => h5 p hp)⟩

/-- C16, amended, on 33 cells with the budget -1. -/
theorem C16_negative_budget_witness :
    32 < 33 ∧ (-1 : Int) < 0 ∧
    GenSort.quickSortAsc
      [1, 0, 2, 3, 4, 5, 6, 7, 8, 9, 10, 11, 12, 13, 14, 15, 16, 17, 18, 19, 20, 21, 22, 23, 24,
       25, 26, 27, 28, 29, 30, 31, 32] 33 true (-1) =
      GenSort.heapSortAsc
      [1, 0, 2, 3, 4, 5, 6, 7, 8, 9, 10, 11, 12, 13, 14, 15, 16, 17, 18, 19, 20, 21, 22, 23, 24,
       25, 26, 27, 28, 29, 30, 31, 32] 33 :=
  ⟨by decide, by decide, (C16_negative_budget_is_heapsort
      [1, 0, 2, 3, 4, 5, 6, 7, 8, 9, 10, 11, 12, 13, 14, 15, 16, 17, 18, 19, 20, 21, 22, 23, 24,
       25, 26, 27, 28, 29, 30, 31, 32]
    [] 33 true (-1) (by decide) (by decide) (by decide)).1⟩

/-- C17: whenever a call of `quickSortAsc` with a budget `b ≥ 0` returns, every call of
`heapSortAsc` it gave rise to has more than 32 cells, received the budget -1 and lies exactly
`b + 1` partitions below it: the call itself partitions when it has more than 32 cells, and
each recursive call gets the budget less one.  On fewer than `2^30` cells, where the `Int`
arithmetic of `heapSortAsc` stays in range, the call returns.  In a run of `quickSort` the
budget is `2 * floor (log2 n)`, so `heapSortAsc` is applied only `2 * floor (log2 n) + 1`
partitions below the outermost call. -/
theorem C17_heapsort_only_after_budget {T : Type} [LinearOrder T] [Inhabited T]
    (S : List T) (multiThread : Bool) (b depth : Nat) (O : CasaSort.Order) (opt : Nat) :
    (∀ d log, GenSort.quickSortAscLog (b + 1) S S.length multiThread b depth = some (d, log) →
      GenSort.quickSortAsc S S.length multiThread b = some d ∧
      ∀ e, e ∈ log → e.1 = depth + b + 1 ∧ 32 < e.2.1 ∧ e.2.2 = -1) ∧
    (S.length < 2 ^ 30 →
      ∃ d log, GenSort.quickSortAscLog (b + 1) S S.length multiThread b depth =
          some (d, log) ∧
        GenSort.quickSortAsc S S.length multiThread b = some d ∧
        ∀ e, e ∈ log → e.1 = depth + b + 1 ∧ 32 < e.2.1 ∧ e.2.2 = -1) ∧
    (S.length < 2 ^ 30 →
      ∃ d log, GenSort.quickSortAscLog (2 * Nat.log 2 S.length + 1) S S.length true
          ((2 * Nat.log 2 S.length : Nat) : Int) 0 = some (d, log) ∧
        GenSort.quickSort S S.length O opt = some (GenSort.insSort d S.length O opt) ∧
        ∀ e, e ∈ log → e.1 = 2 * Nat.log 2 S.length + 1 ∧ 32 < e.2.1 ∧ e.2.2 = -1) := by
  refine ⟨fun d log h => GenSort.quickSortAscLog_sound S multiThread b depth d log h,
    fun hb => GenSort.quickSortAscLog_spec S multiThread b depth hb, ?_⟩
  intro hb
  obtain ⟨d, log, h1, h2, h3⟩ :=
    GenSort.quickSortAscLog_spec S true (2 * Nat.log 2 S.length) 0 hb
  refine ⟨d, log, h1, ?_, fun e he => ⟨by have := (h3 e he).1; omega, (h3 e he).2⟩⟩
  rw [GenSort.quickSort_eq_small S S.length O opt (by omega)]
  push_cast at h2 ⊢
  rw [h2]
  rfl

/-- C18, as the spec states it, on the 33 cells `32, 31, ..., 0`: the budget is
`2 * floor (log2 33) = 10`, the input is strictly descending, and the run of `quickSortAsc`
hands nothing to `heapSortAsc`. -/
theorem C18_fallback_not_triggered_counterexample :
    List.Sorted (· > ·)
      [32, 31, 30, 29, 28, 27, 26, 25, 24, 23, 22, 21, 20, 19, 18, 17, 16, 15, 14, 13, 12, 11,
       10, 9, 8, 7, 6, 5, 4, 3, 2, 1, 0] ∧
    2 * Nat.log 2 33 = 10 ∧
    (GenSort.quickSortAscLog 11
      [32, 31, 30, 29, 28, 27, 26, 25, 24, 23, 22, 21, 20, 19, 18, 17, 16, 15, 14, 13, 12, 11,
       10, 9, 8, 7, 6, 5, 4, 3, 2, 1, 0] 33 true 10 0).map Prod.snd = some [] := by
  refine ⟨by decide, ?_, by decide⟩
  rw [show Nat.log 2 33 = 5 from Nat.log_eq_of_pow_le_of_lt_pow (by norm_num) (by norm_num)]

/-- C18, amended: on a strictly descending input of more than 32 and fewer than `2^30` cells
`quickSort` returns the input backwards, and the fallback need not be taken: on 33 or 34
cells, whatever they hold, the run of `quickSortAsc` with the budget `2 * floor (log2 n)`
hands nothing to `heapSortAsc`, both parts of the first partition having at most 32 cells. -/
theorem C18_descending_input_sorted_without_fallback {T : Type} [LinearOrder T]
    [Inhabited T] (S : List T) (hd : S.Sorted (· > ·)) (h32 : 32 < S.length)
    (hb : S.length < 2 ^ 30) :
    GenSort.quickSort S S.length CasaSort.Order.Ascending CasaSort.QuickSort =
      some (S.length, S.reverse) ∧
    (if S.length ≤ 34 then
      ∃ d, GenSort.quickSortAscLog (2 * Nat.log 2 S.length + 1) S S.length true
        ((2 * Nat.log 2 S.length : Nat) : Int) 0 = some (d, [])
    else True) := by
  constructor
  · obtain ⟨asc, h1, h2, h3, _⟩ :=
      GenSort.quickSort_keep S S.length CasaSort.QuickSort (le_refl _) hb (by decide)
    simp only [List.take_length, List.drop_length, List.append_nil] at h1 h3
    have hr : S.reverse.Sorted (· ≤ ·) := by
      simp only [List.Sorted, List.pairwise_reverse]
      exact hd.imp (fun h => le_of_lt h)
    have h2' : asc.Sorted (· ≤ ·) := h2
    have e : asc = S.reverse :=
      List.eq_of_perm_of_sorted (h1.trans (List.reverse_perm S).symm) h2' hr
    rw [h3, e]
  · split
    · next h34 => exact GenSort.quickSortAscLog_short S true _ 0 h32 h34
    · trivial

/-- C18, amended, on the 33 cells `32, 31, ..., 0`. -/
theorem C18_descending_input_witness :
    List.Sorted (· > ·)
      [32, 31, 30, 29, 28, 27, 26, 25, 24, 23, 22, 21, 20, 19, 18, 17, 16, 15, 14, 13, 12, 11,
       10, 9, 8, 7, 6, 5, 4, 3, 2, 1, 0] ∧
    (33 : Nat) < 2 ^ 30 ∧
    GenSort.quickSort
      [32, 31, 30, 29, 28, 27, 26, 25, 24, 23, 22, 21, 20, 19, 18, 17, 16, 15, 14, 13, 12, 11,
       10, 9, 8, 7, 6, 5, 4, 3, 2, 1, 0] 33 CasaSort.Order.Ascending CasaSort.QuickSort =
      some (33,
        [0, 1, 2, 3, 4, 5, 6, 7, 8, 9, 10, 11, 12, 13, 14, 15, 16, 17, 18, 19, 20, 21, 22, 23,
         24, 25, 26, 27, 28, 29, 30, 31, 32]) :=
  ⟨by decide, by norm_num, (C18_descending_input_sorted_without_fallback
      [32, 31, 30, 29, 28, 27, 26, 25, 24, 23, 22, 21, 20, 19, 18, 17, 16, 15, 14, 13, 12, 11,
       10, 9, 8, 7, 6, 5, 4, 3, 2, 1, 0]
    (by decide) (by decide) (by norm_num)).1⟩

/-! ## The merge reads the run boundaries only up to the run count -/

namespace Gen

open GenSort (rd rd_set_self rd_set_ne Bufs Ptr)

variable {α : Type} [Inhabited α]

end Gen

namespace GenSort

end GenSort

/-! ## The parallel engines do not depend on the number of workers -/

namespace GenSort

variable {T : Type} [LinearOrder T] [Inhabited T]

end GenSort

namespace GenSortIndirect

variable {T : Type} [LinearOrder T] [Inhabited T]

open GenSort (rd Bufs findRuns sliceBounds numThreads)

end GenSortIndirect

namespace GenSortIndirect

variable {T : Type} [LinearOrder T] [Inhabited T]

open GenSort (rd)

theorem rd_sim (data : List T) (inx : List Nat) (i : Nat) :
    @GenSort.rd T (readDefault data) (inx.map (rd data)) i = rd data (rd inx i) := by
  change (List.map (rd data) inx).getD i (rd data 0) = rd data (inx.getD i 0)
  rw [List.getD_eq_getElem?_getD, List.getD_eq_getElem?_getD, List.getElem?_map]
  cases inx[i]? <;> rfl

theorem swap_sim (data : List T) (inx : List Nat) (i j : Nat) :
    @GenSort.swap T (readDefault data) (inx.map (rd data)) i j =
      (swapInx inx i j).map (rd data) := by
  simp only [GenSort.swap, swapInx, rd_sim, List.map_set]

theorem condSwap_sim (data : List T) (x : List Nat) (p q r s : Nat) :
    (if @GenSort.rd T (readDefault data) (x.map (rd data)) p <
        @GenSort.rd T (readDefault data) (x.map (rd data)) q then
      @GenSort.swap T (readDefault data) (x.map (rd data)) r s else x.map (rd data)) =
    (if rd data (rd x p) < rd data (rd x q) then swapInx x r s else x).map (rd data) := by
  rw [rd_sim, rd_sim, swap_sim]
  split <;> rfl

theorem median3_sim (data : List T) (inx : List Nat) (sf i sl : Nat) :
    @GenSort.median3 T _ (readDefault data) (inx.map (rd data)) sf i sl =
      (kthMedian3 data inx sf i sl).map (rd data) := by
  simp only [GenSort.median3, kthMedian3, condSwap_sim]

theorem scanUp_sim (data : List T) (par : T) (inx : List Nat) (fuel : Nat) :
    ∀ sf, @GenSort.scanUp T _ (readDefault data) par (inx.map (rd data)) fuel sf =
      kthScanUp data par inx fuel sf := by
  induction fuel with
  | zero => intro sf; rfl
  | succ fuel ih => intro sf; simp only [GenSort.scanUp, kthScanUp, rd_sim, ih]

theorem scanDown_sim (data : List T) (par : T) (inx : List Nat) (fuel : Nat) :
    ∀ sl, @GenSort.scanDown T _ (readDefault data) par (inx.map (rd data)) fuel sl =
      kthScanDown data par inx fuel sl := by
  induction fuel with
  | zero => intro sl; rfl
  | succ fuel ih => intro sl; simp only [GenSort.scanDown, kthScanDown, rd_sim, ih]

theorem partitionLoop_sim (data : List T) (par : T) (lo hi : Nat) (fuel : Nat) :
    ∀ (inx : List Nat) (sf sl : Nat),
      @GenSort.partitionLoop T _ (readDefault data) par lo hi fuel (inx.map (rd data)) sf sl =
        (kthPartitionLoop data par lo hi fuel inx sf sl).map
          (fun r => (r.1.map (rd data), r.2)) := by
  induction fuel with
  | zero => intro inx sf sl; rfl
  | succ fuel ih =>
    intro inx sf sl
    simp only [GenSort.partitionLoop, kthPartitionLoop, scanUp_sim, scanDown_sim]
    cases kthScanUp data par inx (hi - sf) sf with
    | none => rfl
    | some sf1 =>
      cases kthScanDown data par inx (sl - lo) sl with
      | none => rfl
      | some sl1 =>
        simp only
        split
        · rfl
        · rw [swap_sim, ih]

theorem kthLoop_sim (data : List T) (k : Nat) (fuel : Nat) :
    ∀ (inx : List Nat) (st en : Nat),
      @Gen.kthLoop T _ (readDefault data) k fuel (inx.map (rd data)) st en =
        (kthLoop data k fuel inx st en).map (fun r => (r.1.map (rd data), r.2)) := by
  induction fuel with
  | zero => intro inx st en; rfl
  | succ fuel ih =>
    intro inx st en
    simp only [Gen.kthLoop, kthLoop, median3_sim, rd_sim, partitionLoop_sim]
    split
    · cases kthPartitionLoop data (rd data (rd (kthMedian3 data inx st ((st + en) / 2) en) en))
          st en (en - st + 1) (kthMedian3 data inx st ((st + en) / 2) en) st en with
      | none => rfl
      | some r =>
        obtain ⟨x1, sf⟩ := r
        simp only [Option.map_some', swap_sim, ih]
    · rfl

end GenSortIndirect

namespace GenSortIndirect

variable {T : Type} [LinearOrder T] [Inhabited T]

open GenSort (rd)

theorem rd_lt_of_all {x : List Nat} {n : Nat} (h : ∀ e, e ∈ x → e < n) (hn : 0 < n) (i : Nat) :
    rd x i < n := by
  by_cases hi : i < x.length
  · exact h _ (GenSort.rd_mem x hi)
  · rw [GenSort.rd_of_ge x (by omega)]; exact hn

theorem swapInx_lt {x : List Nat} {n : Nat} (h : ∀ e, e ∈ x → e < n) (hn : 0 < n) (i j : Nat) :
    ∀ e, e ∈ swapInx x i j → e < n := by
  intro e he
  simp only [swapInx, GenSort.swap] at he
  rcases List.mem_or_eq_of_mem_set he with he | rfl
  · rcases List.mem_or_eq_of_mem_set he with he | rfl
    · exact h e he
    · exact rd_lt_of_all h hn _
  · exact rd_lt_of_all h hn _

theorem kthMedian3_lt (data : List T) {x : List Nat} {n : Nat} (h : ∀ e, e ∈ x → e < n)
    (hn : 0 < n) (sf i sl : Nat) : ∀ e, e ∈ kthMedian3 data x sf i sl → e < n := by
  have step : ∀ (y : List Nat) (c : Prop) [Decidable c] (p q : Nat),
      (∀ e, e ∈ y → e < n) → ∀ e, e ∈ (if c then swapInx y p q else y) → e < n := by
    intro y c _ p q hy
    split
    · exact swapInx_lt hy hn p q
    · exact hy
  simp only [kthMedian3]
  exact step _ _ _ _ (step _ _ _ _ (step _ _ _ _ h))

theorem kthPartitionLoop_lt (data : List T) (par : T) (lo hi : Nat) {n : Nat} (hn : 0 < n)
    (fuel : Nat) :
    ∀ (x : List Nat) (sf sl : Nat) (x' : List Nat) (s : Nat),
      kthPartitionLoop data par lo hi fuel x sf sl = some (x', s) →
      (∀ e, e ∈ x → e < n) → ∀ e, e ∈ x' → e < n := by
  induction fuel with
  | zero => intro x sf sl x' s h; simp [kthPartitionLoop] at h
  | succ fuel ih =>
    intro x sf sl x' s h hx
    simp only [kthPartitionLoop] at h
    split at h
    · exact absurd h (by simp)
    · split at h
      · exact absurd h (by simp)
      · split at h
        · simp only [Option.some.injEq, Prod.mk.injEq] at h
          rw [← h.1]; exact hx
        · exact ih _ _ _ _ _ h (swapInx_lt hx hn _ _)

theorem kthLoop_lt (data : List T) (k : Nat) {n : Nat} (hn : 0 < n) (fuel : Nat) :
    ∀ (x : List Nat) (st en : Nat) (x' : List Nat) (st' en' : Nat),
      kthLoop data k fuel x st en = some (x', st', en') →
      (∀ e, e ∈ x → e < n) → ∀ e, e ∈ x' → e < n := by
  induction fuel with
  | zero => intro x st en x' st' en' h; simp [kthLoop] at h
  | succ fuel ih =>
    intro x st en x' st' en' h hx
    simp only [kthLoop] at h
    split at h
    · split at h
      · exact absurd h (by simp)
      · next x1 sf hp =>
        exact ih _ _ _ _ _ _ h (swapInx_lt
          (kthPartitionLoop_lt data _ st en hn _ _ _ _ _ _ hp (kthMedian3_lt data hx hn _ _ _))
          hn _ _)
    · simp only [Option.some.injEq, Prod.mk.injEq] at h
      rw [← h.1]; exact hx

/-- Every entry of the index vector the indirect `kthLargest` ends with is a position below
`nr`. -/
theorem kthIndex_lt (data : List T) (nr k : Nat) (hn : 0 < nr) (x : List Nat)
    (h : kthIndex data nr k = some x) : ∀ e, e ∈ x → e < nr := by
  simp only [kthIndex] at h
  split at h
  · exact absurd h (by simp)
  · next x0 st en hl =>
    have h0 : ∀ e, e ∈ indgen [] nr → e < nr := by
      intro e he
      simpa [indgen] using he
    have hx0 := kthLoop_lt data k hn nr _ _ _ _ _ _ hl h0
    simp only [Option.some.injEq] at h
    rw [← h]
    split
    · split
      · exact swapInx_lt hx0 hn _ _
      · exact hx0
    · exact hx0

/-- The direct `kthLargest` on the values read through the identity index vector is the
indirect `kthLargest`, value for position. -/
theorem kthLargest_sim (data : List T) (nr k : Nat) (hk : k < nr) :
    @Gen.kthLargest T _ (readDefault data) ((indgen [] nr).map (rd data)) nr k =
      (kthIndex data nr k).map
        (fun x => (Except.ok (rd data (rd x k)), x.map (rd data))) := by
  simp only [Gen.kthLargest, kthIndex, if_neg (show ¬ k ≥ nr by omega), kthLoop_sim]
  cases kthLoop data k nr (indgen [] nr) 0 (nr - 1) with
  | none => rfl
  | some r =>
    obtain ⟨x, st, en⟩ := r
    simp only [Option.map_some', gt_iff_lt]
    by_cases he : en = st + 1
    · simp only [if_pos he, rd_sim]
      split
      · simp only [swap_sim, rd_sim]
      · simp only [rd_sim]
    · simp only [if_neg he, rd_sim]

omit [LinearOrder T] in
theorem map_rd_range (data : List T) : (List.range data.length).map (rd data) = data := by
  apply List.ext_getElem (by simp)
  intro i h1 h2
  simp only [List.getElem_map, List.getElem_range]
  exact GenSort.rd_of_lt data h2

end GenSortIndirect

namespace GenSortIndirect

variable {T : Type} [LinearOrder T] [Inhabited T]

open GenSort (rd)

/-- The indirect `kthLargest` returns a position below the length of the data whose value
is the one at cell `k` of every sorted permutation of the data. -/
theorem kthLargest_spec_ind (data : List T) (k : Nat) (hk : k < data.length)
    (asc : List T) (hp : asc.Perm data) (hs : asc.Sorted (· ≤ ·)) :
    ∃ p, kthLargest data data.length k = some (Except.ok p) ∧ p < data.length ∧
      rd data p = rd asc k := by
  have hd : (indgen [] data.length).map (rd data) = data := map_rd_range data
  obtain ⟨d', e, l1, p1, a1, a2, _⟩ := @GenSort.kthLargest_spec T _ (readDefault data)
    ((indgen [] data.length).map (rd data)) data.length k hk (by rw [hd])
  rw [kthLargest_sim data data.length k hk] at e
  cases hx : kthIndex data data.length k with
  | none => rw [hx] at e; exact absurd e (by simp)
  | some x =>
    rw [hx] at e
    simp only [Option.map_some', Option.some.injEq, Prod.mk.injEq, Except.ok.injEq] at e
    obtain ⟨e1, e2⟩ := e
    rw [hd] at l1 p1
    have hu := @GenSort.kth_unique T _ (readDefault data) asc d' k (by omega)
      (hp.trans p1.symm) hs a1 (fun q h1 h2 => a2 q h1 (by omega))
    have hla : asc.length = data.length := hp.length_eq
    refine ⟨rd x k, ?_, rd_lt_of_all (kthIndex_lt data data.length k (by omega) x hx)
      (by omega) k, ?_⟩
    · simp only [kthLargest, if_neg (show ¬ k ≥ data.length by omega), hx]
    · rw [e1, ← hu, @GenSort.rd_of_lt T (readDefault data) asc k (by omega),
        GenSort.rd_of_lt asc (by omega)]

end GenSortIndirect

/-- C15: for every data buffer and every `k` below its length the indirect `kthLargest`
returns a position `p` below that length, and `data[p]` is what stands at cell `k` of the
data in ascending order (of every sorted permutation of the data, and so of what the direct
ascending sort leaves, any selector and any number of workers, on the lengths below `2^30`
on which that sort is shown to sort); it throws the range error exactly for the ranks `k'`
that are not below the length.  The data are an input only. -/
theorem C15_indirect_kthLargest {T : Type} [LinearOrder T] [Inhabited T]
    (w : Workers) (s : Selector) (data : List T) (k : Nat) (hk : k < data.length) :
    (∃ p, GenSortIndirect.kthLargest data data.length k = some (Except.ok p) ∧
      p < data.length ∧
      (∀ d : List T, d.Perm data → d.Sorted (· ≤ ·) → GenSort.rd data p = GenSort.rd d k) ∧
      (data.length < 2 ^ 30 →
        ∃ d, GenSort.sort w data data.length CasaSort.Order.Ascending s.keep =
            some (data.length, d) ∧
          GenSort.rd data p = GenSort.rd d k)) ∧
    ∀ k', ((∃ msg, GenSortIndirect.kthLargest data data.length k' =
        some (Except.error msg)) ↔ data.length ≤ k') ∧
      (if data.length ≤ k' then
        GenSortIndirect.kthLargest data data.length k' =
          some (Except.error "kthLargest(data, nr, k): k must be < nr")
      else ∃ p, GenSortIndirect.kthLargest data data.length k' = some (Except.ok p)) := by
  have h1 : (data.insertionSort (· ≤ ·)).Perm data := List.perm_insertionSort _ data
  have h2 : (data.insertionSort (· ≤ ·)).Sorted (· ≤ ·) := List.sorted_insertionSort _ data
  constructor
  · obtain ⟨p, e, hp, hv⟩ := GenSortIndirect.kthLargest_spec_ind data k hk _ h1 h2
    refine ⟨p, e, hp, ?_, ?_⟩
    · intro d hd hs
      rw [hv, List.eq_of_perm_of_sorted (hd.trans h1.symm) hs h2]
    · intro hb
      obtain ⟨asc, a1, a2, a3, _⟩ := GenSort.sort_keep_full w data s hb
      refine ⟨asc, a3, ?_⟩
      rw [hv, List.eq_of_perm_of_sorted (a1.trans h1.symm) a2 h2]
  · intro k'
    have herr : data.length ≤ k' → GenSortIndirect.kthLargest data data.length k' =
        some (Except.error "kthLargest(data, nr, k): k must be < nr") := by
      intro h
      simp only [GenSortIndirect.kthLargest, ge_iff_le, if_pos h]
    have hok : ¬ data.length ≤ k' →
        ∃ p, GenSortIndirect.kthLargest data data.length k' = some (Except.ok p) := by
      intro h
      obtain ⟨p, e, _⟩ := GenSortIndirect.kthLargest_spec_ind data k' (by omega) _ h1 h2
      exact ⟨p, e⟩
    refine ⟨⟨?_, fun h => ⟨_, herr h⟩⟩, ?_⟩
    · rintro ⟨msg, e⟩
      by_contra hc
      obtain ⟨p, e'⟩ := hok hc
      rw [e'] at e
      simp at e
    · split
      · next h => exact herr h
      · next h => exact hok h

/-- C15 at `[5,3,3,1,4]` and rank 0: the position returned is 3, where the minimum 1 is. -/
theorem C15_indirect_kthLargest_witness :
    (0 < [5, 3, 3, 1, 4].length ∧
      ∃ p, GenSortIndirect.kthLargest [5, 3, 3, 1, 4] [5, 3, 3, 1, 4].length 0 =
          some (Except.ok p) ∧
        p < [5, 3, 3, 1, 4].length ∧
        (∀ d : List Nat, d.Perm [5, 3, 3, 1, 4] → d.Sorted (· ≤ ·) →
          GenSort.rd [5, 3, 3, 1, 4] p = GenSort.rd d 0) ∧
        ([5, 3, 3, 1, 4].length < 2 ^ 30 →
          ∃ d, GenSort.sort none [5, 3, 3, 1, 4] [5, 3, 3, 1, 4].length
              CasaSort.Order.Ascending Selector.Default.keep =
              some ([5, 3, 3, 1, 4].length, d) ∧
            GenSort.rd [5, 3, 3, 1, 4] p = GenSort.rd d 0)) ∧
    (GenSortIndirect.kthLargest [5, 3, 3, 1, 4] 5 0).map (fun r => r.toOption) =
      some (some 3) :=
  ⟨⟨by decide, (C15_indirect_kthLargest none Selector.Default [5, 3, 3, 1, 4] 0
    (by decide)).1⟩, by decide⟩

/-! ## The sorting kernels on a whole buffer -/

namespace GenSort

variable {T : Type} [LinearOrder T] [Inhabited T]

/-- The unique prefix `insSortAscNoDup` leaves for the first `k` cells is strictly increasing
and has the members of those cells. -/
theorem insSortAscNoDup_prefix (S : List T) (k : Nat) (hk : k ≤ S.length) :
    ((insSortAscNoDup S k).2.take (insSortAscNoDup S k).1).Sorted (· < ·) ∧
    (∀ v, v ∈ (insSortAscNoDup S k).2.take (insSortAscNoDup S k).1 ↔ v ∈ S.take k) ∧
    (insSortAscNoDup S k).2.length = S.length := by
  have h := Gen.insSortAscNoDup_spec id gtD eqD gtD_iff eqD_iff S k hk
  rw [← insSortAscNoDup_eq_gen] at h
  obtain ⟨-, k1, k2, k3, -, -, -⟩ := Gen.nodup_finish id S k hk _ h
  refine ⟨k1, fun v => ⟨k2 v, fun hv => ?_⟩, h.length⟩
  obtain ⟨x, hx, e⟩ := k3 v hv
  simp only [id] at e
  rw [← e]; exact hx

omit [Inhabited T] in
/-- Inserting a new value at its ordered place keeps a strictly increasing list strictly
increasing. -/
theorem sorted_lt_orderedInsert {l : List T} (x : T) (hl : l.Sorted (· < ·)) (hx : x ∉ l) :
    (l.orderedInsert (· ≤ ·) x).Sorted (· < ·) := by
  have h1 : (l.orderedInsert (· ≤ ·) x).Sorted (· ≤ ·) :=
    List.Sorted.orderedInsert x l hl.le_of_lt
  have h2 : (l.orderedInsert (· ≤ ·) x).Nodup :=
    (List.perm_orderedInsert (· ≤ ·) x l).nodup_iff.2 (List.nodup_cons.2 ⟨hx, hl.nodup⟩)
  exact h1.lt_of_le h2

end GenSort

/-- C23, on the code.  For a buffer `S` of fewer than `2^30` cells (empty, of one cell, with
duplicates), `heapSortAsc` on all its cells returns and leaves a buffer of the same length
that is a permutation of `S` in non-decreasing order; run on the first `nr` cells only, it
sorts those and leaves the others.  At `2^30` cells the claim fails: the first sift-down,
`heapAscSiftDown (2^29, 2^30, data)`, moves the hole to position `2^30` and then evaluates
`Int c = 2*i` with `i = 2^30`, which does not fit the 32-bit `Int`; the behaviour is
undefined and the embedding has no result, whatever the buffer holds. -/
theorem C23_heapSortAsc_sorted_permutation {T : Type} [LinearOrder T] [Inhabited T]
    (S : List T) :
    (S.length < 2 ^ 30 →
      ∃ d, GenSort.heapSortAsc S S.length = some d ∧ d.Perm S ∧ d.Sorted (· ≤ ·) ∧
        d.length = S.length) ∧
    (∀ nr, nr ≤ S.length → nr < 2 ^ 30 → ∃ d, GenSort.heapSortAsc S nr = some d ∧
      (d.take nr).Perm (S.take nr) ∧ (d.take nr).Sorted (· ≤ ·) ∧ d.drop nr = S.drop nr ∧
      d.length = S.length) ∧
    (∀ data : List T, GenSort.heapSortAsc data (2 ^ 30) = none) ∧
    (List.replicate (2 ^ 30) (0 : Nat)).length = 2 ^ 30 ∧
    GenSort.heapSortAsc (List.replicate (2 ^ 30) (0 : Nat)) (2 ^ 30) = none := by
  have key : ∀ nr, nr ≤ S.length → nr < 2 ^ 30 → ∃ d, GenSort.heapSortAsc S nr = some d ∧
      (d.take nr).Perm (S.take nr) ∧ (d.take nr).Sorted (· ≤ ·) ∧ d.drop nr = S.drop nr ∧
      d.length = S.length := by
    intro nr hnr hb
    obtain ⟨d, h1, h2, h3, h4, h5⟩ := GenSort.heapSortAsc_spec S nr hnr hb
    obtain ⟨k1, k2, -, -⟩ := Gen.keep_finish id S d nr hnr h3 h4 h2 h5
    exact ⟨d, h1, k1, k2, GenSort.drop_eq_of_rd nr h3 (fun p hp _ => h5 p hp), h3⟩
  refine ⟨?_, key, fun data => GenSort.heapSortAsc_overflow data, List.length_replicate _ _,
    GenSort.heapSortAsc_overflow _⟩
  intro hb
  obtain ⟨d, h1, h2, h3, h4, h5⟩ := key S.length (le_refl _) hb
  rw [← h5, List.take_length] at h3
  rw [List.take_length] at h2
  rw [← h5, List.take_length] at h2
  exact ⟨d, h1, h2, h3, h5⟩

/-- C25: for every buffer `S`, `insSortAscDup` on all its cells returns the length of `S`
and leaves a permutation of `S` in non-decreasing order; run on the first `nr` cells only,
it returns `nr`, sorts those cells and leaves the others. -/
theorem C25_insSortAscDup_sorted_permutation {T : Type} [LinearOrder T] [Inhabited T]
    (S : List T) :
    ((GenSort.insSortAscDup S S.length).1 = S.length ∧
      (GenSort.insSortAscDup S S.length).2.Perm S ∧
      (GenSort.insSortAscDup S S.length).2.Sorted (· ≤ ·)) ∧
    (∀ nr, nr ≤ S.length → (GenSort.insSortAscDup S nr).1 = nr ∧
      ((GenSort.insSortAscDup S nr).2.take nr).Perm (S.take nr) ∧
      ((GenSort.insSortAscDup S nr).2.take nr).Sorted (· ≤ ·) ∧
      (GenSort.insSortAscDup S nr).2.drop nr = S.drop nr) := by
  have key : ∀ nr, nr ≤ S.length → (GenSort.insSortAscDup S nr).1 = nr ∧
      ((GenSort.insSortAscDup S nr).2.take nr).Perm (S.take nr) ∧
      ((GenSort.insSortAscDup S nr).2.take nr).Sorted (· ≤ ·) ∧
      (GenSort.insSortAscDup S nr).2.drop nr = S.drop nr ∧
      (GenSort.insSortAscDup S nr).2.length = S.length := by
    intro nr hnr
    obtain ⟨h1, h2, h3, h4, h5⟩ := Gen.insSortAscDup_spec id GenSort.gtD GenSort.gtD_iff S nr hnr
    rw [← GenSort.insSortAscDup_eq_gen] at h1 h2 h3 h4 h5
    obtain ⟨k1, k2, -, -⟩ := Gen.keep_finish id S _ nr hnr h2 h3 h4 h5
    exact ⟨h1, k1, k2, GenSort.drop_eq_of_rd nr h2 (fun p hp _ => h5 p hp), h2⟩
  refine ⟨?_, fun nr hnr => ⟨(key nr hnr).1, (key nr hnr).2.1, (key nr hnr).2.2.1,
    (key nr hnr).2.2.2.1⟩⟩
  obtain ⟨h1, h2, h3, -, h5⟩ := key S.length (le_refl _)
  rw [List.take_of_length_le (le_of_eq h5)] at h2 h3
  rw [List.take_length] at h2
  exact ⟨h1, h2, h3⟩

/-- C24: for every buffer `S` (sorted or not), `insSortAscNoDup` on all its cells returns a
count `n` and leaves in the cells `0..n-1` a strictly increasing sequence whose members are
the values of `S`, so `n` is the number of distinct values of `S`; the buffer keeps its
length.  Cell by cell: the unique prefix for the first `i + 1` cells is the one for the first
`i` cells when `S[i]` is in it (the element is dropped), and otherwise that prefix with
`S[i]` inserted at its ordered place. -/
theorem C24_insSortAscNoDup_unique_prefix {T : Type} [LinearOrder T] [Inhabited T]
    (S : List T) :
    ((GenSort.insSortAscNoDup S S.length).2.take
      (GenSort.insSortAscNoDup S S.length).1).Sorted (· < ·) ∧
    (∀ v, v ∈ (GenSort.insSortAscNoDup S S.length).2.take
      (GenSort.insSortAscNoDup S S.length).1 ↔ v ∈ S) ∧
    (GenSort.insSortAscNoDup S S.length).1 = S.dedup.length ∧
    (GenSort.insSortAscNoDup S S.length).1 ≤ S.length ∧
    (GenSort.insSortAscNoDup S S.length).2.length = S.length ∧
    (∀ i, i < S.length →
      (GenSort.insSortAscNoDup S (i + 1)).2.take (GenSort.insSortAscNoDup S (i + 1)).1 =
        if GenSort.rd S i ∈
            (GenSort.insSortAscNoDup S i).2.take (GenSort.insSortAscNoDup S i).1 then
          (GenSort.insSortAscNoDup S i).2.take (GenSort.insSortAscNoDup S i).1
        else
          ((GenSort.insSortAscNoDup S i).2.take
            (GenSort.insSortAscNoDup S i).1).orderedInsert (· ≤ ·) (GenSort.rd S i)) := by
  obtain ⟨h1, h2, h3⟩ := GenSort.insSortAscNoDup_prefix S S.length (le_refl _)
  simp only [List.take_length] at h2
  have hle : (GenSort.insSortAscNoDup S S.length).1 ≤ S.length := by
    have h := Gen.insSortAscNoDup_spec id GenSort.gtD GenSort.eqD GenSort.gtD_iff
      GenSort.eqD_iff S S.length (le_refl _)
    rw [← GenSort.insSortAscNoDup_eq_gen] at h
    exact h.le
  refine ⟨h1, h2, ?_, hle, h3, ?_⟩
  · have h := GenSort.length_eq_dedup h1 h2
    rw [← h, List.length_take, h3]
    omega
  · intro i hi
    obtain ⟨a1, a2, -⟩ := GenSort.insSortAscNoDup_prefix S i (by omega)
    obtain ⟨b1, b2, -⟩ := GenSort.insSortAscNoDup_prefix S (i + 1) (by omega)
    have hmem : ∀ v, v ∈ S.take (i + 1) ↔ v ∈ S.take i ∨ v = GenSort.rd S i := by
      intro v
      rw [List.take_succ, List.mem_append, GenSort.rd_of_lt S hi,
        List.getElem?_eq_getElem hi]
      simp
    split
    · next hin =>
      apply GenSort.strict_unique b1 a1
      intro v
      rw [b2, a2, hmem]
      constructor
      · rintro (h | h)
        · exact h
        · rw [h]; exact (a2 _).1 hin
      · exact Or.inl
    · next hin =>
      apply GenSort.strict_unique b1 (GenSort.sorted_lt_orderedInsert _ a1 hin)
      intro v
      rw [b2, List.mem_orderedInsert, a2, hmem]
      exact or_comm

/-! ## Pivot selection and the partition step -/

namespace GenSort

variable {T : Type} [LinearOrder T] [Inhabited T]

/-- After the three conditional exchanges the three cells hold the three values they held
before. -/
theorem median3_triple (d : List T) (sf i sl : Nat) (h1 : sf < i) (h2 : i < sl)
    (h3 : sl < d.length) :
    [rd (median3 d sf i sl) sf, rd (median3 d sf i sl) i, rd (median3 d sf i sl) sl].Perm
      [rd d sf, rd d i, rd d sl] := by
  dsimp only [median3]
  obtain ⟨-, a2, -, a4, a5⟩ := condSwap_spec d i sf (by omega) (by omega) (by omega)
  have a6 := a4 sl (by omega) (by omega)
  generalize (if rd d i < rd d sf then swap d i sf else d) = d1 at a2 a4 a5 a6 ⊢
  obtain ⟨-, b2, -, b4, b5⟩ := condSwap_spec d1 sl sf (by omega) (by omega) (by omega)
  have b6 := b4 i (by omega) (by omega)
  generalize (if rd d1 sl < rd d1 sf then swap d1 sl sf else d1) = d2 at b2 b4 b5 b6 ⊢
  obtain ⟨-, -, -, c4, c5⟩ := condSwap_spec d2 i sl (by omega) (by omega) (by omega)
  have c6 := c4 sf (by omega) (by omega)
  generalize (if rd d2 i < rd d2 sl then swap d2 i sl else d2) = d3 at c4 c5 c6 ⊢
  have s1 : [rd d1 sf, rd d1 i, rd d1 sl].Perm [rd d sf, rd d i, rd d sl] := by
    rw [a6]
    rcases a5 with ⟨e1, e2⟩ | ⟨e1, e2⟩
    · rw [e1, e2]
    · rw [e1, e2]; exact List.Perm.swap _ _ _
  have s2 : [rd d2 sf, rd d2 i, rd d2 sl].Perm [rd d1 sf, rd d1 i, rd d1 sl] := by
    rw [b6]
    rcases b5 with ⟨e1, e2⟩ | ⟨e1, e2⟩
    · rw [e1, e2]
    · rw [e1, e2]
      exact ((List.Perm.swap _ _ _).trans ((List.Perm.swap _ _ _).cons _)).trans
        (List.Perm.swap _ _ _)
  have s3 : [rd d3 sf, rd d3 i, rd d3 sl].Perm [rd d2 sf, rd d2 i, rd d2 sl] := by
    rw [c6]
    rcases c5 with ⟨e1, e2⟩ | ⟨e1, e2⟩
    · rw [e1, e2]
    · rw [e1, e2]; exact (List.Perm.swap _ _ _).cons _
  exact (s3.trans s2).trans s1

/-- The three cells after the exchanges, read smallest, median, largest, are the sorted list
of the three values before. -/
theorem median3_sorted (d : List T) (sf i sl : Nat) (h1 : sf < i) (h2 : i < sl)
    (h3 : sl < d.length) :
    [rd (median3 d sf i sl) sf, rd (median3 d sf i sl) sl, rd (median3 d sf i sl) i] =
      List.insertionSort (· ≤ ·) [rd d sf, rd d i, rd d sl] := by
  obtain ⟨m1, m2, -, -, -⟩ := median3_spec d sf i sl h1 h2 h3
  have hp := median3_triple d sf i sl h1 h2 h3
  apply List.eq_of_perm_of_sorted (r := (· ≤ ·))
  · exact (((List.Perm.swap _ _ _).cons _).trans hp).trans
      (List.perm_insertionSort (· ≤ ·) _).symm
  · simp only [List.Sorted, List.pairwise_cons, List.mem_cons, List.mem_singleton,
      List.not_mem_nil, forall_eq_or_imp, forall_eq, false_imp_iff, implies_true,
      List.Pairwise.nil, and_true]
    exact ⟨⟨m1, le_trans m1 m2⟩, m2⟩
  · exact List.sorted_insertionSort (· ≤ ·) _

/-- The recursive calls of `quickSortAsc` with budget `b - 1`. -/
theorem quickSortAsc_pred (d : List T) (n b : Nat) :
    quickSortAsc d n false ((b : Int) - 1) = quickSortAscAux b d n false ((b : Int) - 1) := by
  cases b with
  | zero =>
    simp only [quickSortAsc, quickSortAscAux]
    by_cases h : n ≤ 32
    · simp only [if_pos h]
    · simp only [if_neg h]
      rw [if_pos (by simp), if_pos (by simp)]
  | succ c =>
    have e : ((c + 1 : Nat) : Int) - 1 = (c : Int) := by push_cast; ring
    rw [e]
    simp only [quickSortAsc, Int.toNat_ofNat]

end GenSort

/-- C21: on a range of `nr > 32` cells the three conditional exchanges of `quickSortAsc` on
the cells `0`, `(nr-1)/2` and `nr-1` leave in these cells a permutation of the three values
they held, with `data[0] <= data[nr-1] <= data[(nr-1)/2]`; read in that order the cells are
the sorted list of the three original values, so the pivot, taken from cell `nr-1`, is their
median.  Every other cell is untouched.  The same holds for the cells `st`, `(st+end)/2` and
`end` of a round of `kthLargest` (`end > st + 1`). -/
theorem C21_median_of_three {T : Type} [LinearOrder T] [Inhabited T]
    (data : List T) (nr : Nat) (h32 : 32 < nr) (hnr : nr ≤ data.length) :
    (GenSort.rd (GenSort.median3 data 0 ((nr - 1) / 2) (nr - 1)) 0 ≤
        GenSort.rd (GenSort.median3 data 0 ((nr - 1) / 2) (nr - 1)) (nr - 1) ∧
      GenSort.rd (GenSort.median3 data 0 ((nr - 1) / 2) (nr - 1)) (nr - 1) ≤
        GenSort.rd (GenSort.median3 data 0 ((nr - 1) / 2) (nr - 1)) ((nr - 1) / 2)) ∧
    [GenSort.rd (GenSort.median3 data 0 ((nr - 1) / 2) (nr - 1)) 0,
      GenSort.rd (GenSort.median3 data 0 ((nr - 1) / 2) (nr - 1)) ((nr - 1) / 2),
      GenSort.rd (GenSort.median3 data 0 ((nr - 1) / 2) (nr - 1)) (nr - 1)].Perm
      [GenSort.rd data 0, GenSort.rd data ((nr - 1) / 2), GenSort.rd data (nr - 1)] ∧
    [GenSort.rd (GenSort.median3 data 0 ((nr - 1) / 2) (nr - 1)) 0,
      GenSort.rd (GenSort.median3 data 0 ((nr - 1) / 2) (nr - 1)) (nr - 1),
      GenSort.rd (GenSort.median3 data 0 ((nr - 1) / 2) (nr - 1)) ((nr - 1) / 2)] =
      List.insertionSort (· ≤ ·)
        [GenSort.rd data 0, GenSort.rd data ((nr - 1) / 2), GenSort.rd data (nr - 1)] ∧
    (∀ p, p ≠ 0 → p ≠ (nr - 1) / 2 → p ≠ nr - 1 →
      GenSort.rd (GenSort.median3 data 0 ((nr - 1) / 2) (nr - 1)) p = GenSort.rd data p) ∧
    (GenSort.median3 data 0 ((nr - 1) / 2) (nr - 1)).length = data.length ∧
    (∀ st en, st + 1 < en → en < nr →
      (GenSort.rd (GenSort.median3 data st ((st + en) / 2) en) st ≤
          GenSort.rd (GenSort.median3 data st ((st + en) / 2) en) en ∧
        GenSort.rd (GenSort.median3 data st ((st + en) / 2) en) en ≤
          GenSort.rd (GenSort.median3 data st ((st + en) / 2) en) ((st + en) / 2)) ∧
      [GenSort.rd (GenSort.median3 data st ((st + en) / 2) en) st,
        GenSort.rd (GenSort.median3 data st ((st + en) / 2) en) ((st + en) / 2),
        GenSort.rd (GenSort.median3 data st ((st + en) / 2) en) en].Perm
        [GenSort.rd data st, GenSort.rd data ((st + en) / 2), GenSort.rd data en] ∧
      [GenSort.rd (GenSort.median3 data st ((st + en) / 2) en) st,
        GenSort.rd (GenSort.median3 data st ((st + en) / 2) en) en,
        GenSort.rd (GenSort.median3 data st ((st + en) / 2) en) ((st + en) / 2)] =
        List.insertionSort (· ≤ ·)
          [GenSort.rd data st, GenSort.rd data ((st + en) / 2), GenSort.rd data en]) := by
  have a1 : 0 < (nr - 1) / 2 := by omega
  have a2 : (nr - 1) / 2 < nr - 1 := by omega
  have a3 : nr - 1 < data.length := by omega
  obtain ⟨m1, m2, m3, -, m5⟩ := GenSort.median3_spec data 0 ((nr - 1) / 2) (nr - 1) a1 a2 a3
  refine ⟨⟨m1, m2⟩, GenSort.median3_triple data _ _ _ a1 a2 a3,
    GenSort.median3_sorted data _ _ _ a1 a2 a3, m5, m3, ?_⟩
  intro st en h1 h2
  have b1 : st < (st + en) / 2 := by omega
  have b2 : (st + en) / 2 < en := by omega
  have b3 : en < data.length := by omega
  obtain ⟨k1, k2, -, -, -⟩ := GenSort.median3_spec data st ((st + en) / 2) en b1 b2 b3
  exact ⟨⟨k1, k2⟩, GenSort.median3_triple data _ _ _ b1 b2 b3,
    GenSort.median3_sorted data _ _ _ b1 b2 b3⟩

/-- C21 on 33 cells holding `0, 7, 14, ...` reduced modulo 5: after the exchanges cell 0
holds the smallest, cell 32 the median and cell 16 the largest of the three values. -/
theorem C21_median_of_three_witness :
    32 < 33 ∧ 33 ≤ ((List.range 33).map (fun i => i * 7 % 5)).length ∧
    GenSort.rd (GenSort.median3 ((List.range 33).map (fun i => i * 7 % 5)) 0 ((33 - 1) / 2)
        (33 - 1)) 0 ≤
      GenSort.rd (GenSort.median3 ((List.range 33).map (fun i => i * 7 % 5)) 0 ((33 - 1) / 2)
        (33 - 1)) (33 - 1) ∧
    GenSort.rd (GenSort.median3 ((List.range 33).map (fun i => i * 7 % 5)) 0 ((33 - 1) / 2)
        (33 - 1)) (33 - 1) ≤
      GenSort.rd (GenSort.median3 ((List.range 33).map (fun i => i * 7 % 5)) 0 ((33 - 1) / 2)
        (33 - 1)) ((33 - 1) / 2) :=
  ⟨by decide, by decide,
    (C21_median_of_three ((List.range 33).map (fun i => i * 7 % 5)) 33 (by decide)
      (by decide)).1⟩

/-- C22: on a range of `nr > 32` cells (any values, duplicates allowed) the partition step of
`quickSortAsc` (median of three, the crossing scans, the exchange that puts the pivot in
place) returns with the pivot at an index `i`, `1 <= i <= nr-2`; the range is a permutation
of what it was, the cells behind it are untouched, every cell before `i` is `<=` the pivot
and every cell of the range after `i` is `>=` the pivot.  With a budget `b >= 0`,
`quickSortAsc` is this step followed by the two recursive calls with budget `b - 1`. -/
theorem C22_partition_postcondition {T : Type} [LinearOrder T] [Inhabited T]
    (data : List T) (nr : Nat) (h32 : 32 < nr) (hnr : nr ≤ data.length) :
    ∃ d1 i,
      GenSort.partitionLoop
          (GenSort.rd (GenSort.median3 data 0 ((nr - 1) / 2) (nr - 1)) (nr - 1)) 0 (nr - 1) nr
          (GenSort.median3 data 0 ((nr - 1) / 2) (nr - 1)) 0 (nr - 1) = some (d1, i) ∧
      1 ≤ i ∧ i ≤ nr - 2 ∧
      (GenSort.swap d1 i (nr - 1)).Perm data ∧
      ((GenSort.swap d1 i (nr - 1)).take nr).Perm (data.take nr) ∧
      (GenSort.swap d1 i (nr - 1)).drop nr = data.drop nr ∧
      GenSort.rd (GenSort.swap d1 i (nr - 1)) i =
        GenSort.rd (GenSort.median3 data 0 ((nr - 1) / 2) (nr - 1)) (nr - 1) ∧
      (∀ p, p < i →
        GenSort.rd (GenSort.swap d1 i (nr - 1)) p ≤ GenSort.rd (GenSort.swap d1 i (nr - 1)) i) ∧
      (∀ p, i < p → p < nr →
        GenSort.rd (GenSort.swap d1 i (nr - 1)) i ≤ GenSort.rd (GenSort.swap d1 i (nr - 1)) p) ∧
      (∀ (multiThread : Bool) (b : Nat),
        GenSort.quickSortAsc data nr multiThread (b : Int) =
          (GenSort.quickSortAsc (GenSort.swap d1 i (nr - 1)) i false ((b : Int) - 1)).bind
            (fun d3 =>
              (GenSort.quickSortAsc (d3.drop (i + 1)) (nr - i - 1) false ((b : Int) - 1)).map
                (fun r => d3.take (i + 1) ++ r))) := by
  have hps := GenSort.partition_step data 0 (nr - 1) (by omega) (by omega) nr (by omega)
  rw [Nat.zero_add] at hps
  obtain ⟨d1, s, e, a1, a2, a3, a4, a5, a6, a7, a8⟩ := hps
  have hd : (GenSort.swap d1 s (nr - 1)).drop nr = data.drop nr :=
    GenSort.drop_eq_of_rd nr a3 (fun p hp _ => a7 p (Or.inr (by omega)))
  refine ⟨d1, s, e, by omega, by omega, a4, GenSort.take_perm_of_drop_eq nr a4 hd, hd, a8,
    fun p hp => a5 p (Nat.zero_le _) hp, fun p hp1 hp2 => a6 p hp1 (by omega), ?_⟩
  intro multiThread b
  rw [GenSort.quickSortAsc_pred]
  have hfun : (fun d3 =>
      (GenSort.quickSortAsc (d3.drop (s + 1)) (nr - s - 1) false ((b : Int) - 1)).map
        (fun r => d3.take (s + 1) ++ r)) =
      (fun d3 : List T =>
      (GenSort.quickSortAscAux b (d3.drop (s + 1)) (nr - s - 1) false ((b : Int) - 1)).map
        (fun r => d3.take (s + 1) ++ r)) := by
    funext d3
    rw [GenSort.quickSortAsc_pred]
  rw [hfun]
  simp only [GenSort.quickSortAsc, Int.toNat_ofNat, GenSort.quickSortAscAux,
    if_neg (show ¬ nr ≤ 32 by omega), if_neg (show ¬ ((b : Int) < 0) by omega), e]
  have fin : ∀ o : Option (List T),
      (match o with
        | none => none
        | some d3 =>
          match GenSort.quickSortAscAux b (d3.drop (s + 1)) (nr - s - 1) false
              ((b : Int) - 1) with
          | none => none
          | some r => some (d3.take (s + 1) ++ r)) =
      o.bind (fun d3 =>
        (GenSort.quickSortAscAux b (d3.drop (s + 1)) (nr - s - 1) false ((b : Int) - 1)).map
          (fun r => d3.take (s + 1) ++ r)) := by
    intro o
    cases o with
    | none => rfl
    | some d3 =>
      simp only [Option.some_bind]
      cases GenSort.quickSortAscAux b (d3.drop (s + 1)) (nr - s - 1) false ((b : Int) - 1) <;>
        rfl
  cases multiThread
  · simp only [Bool.false_eq_true, if_false]
    exact fin _
  · simp only [if_true]
    exact fin _

/-- C22 on 33 equal cells. -/
theorem C22_partition_postcondition_witness :
    32 < 33 ∧ 33 ≤ (List.replicate 33 7).length ∧
    ∃ d1 i,
      GenSort.partitionLoop
          (GenSort.rd (GenSort.median3 (List.replicate 33 7) 0 ((33 - 1) / 2) (33 - 1))
            (33 - 1)) 0 (33 - 1) 33
          (GenSort.median3 (List.replicate 33 7) 0 ((33 - 1) / 2) (33 - 1)) 0 (33 - 1) =
        some (d1, i) ∧
      1 ≤ i ∧ i ≤ 33 - 2 ∧ (GenSort.swap d1 i (33 - 1)).Perm (List.replicate 33 7) :=
  ⟨by decide, by decide,
    match C22_partition_postcondition (List.replicate 33 7) 33 (by decide) (by decide) with
    | ⟨d1, i, h1, h2, h3, h4, _⟩ => ⟨d1, i, h1, h2, h3, h4⟩⟩

/-! ## The run boundaries of the parallel engine -/

namespace GenSort

variable {T : Type} [LinearOrder T] [Inhabited T]

/-- A buffer is strictly descending exactly when every cell after the first is smaller than
its predecessor. -/
theorem sorted_gt_iff_adjacent (S : List T) :
    S.Sorted (· > ·) ↔
      ∀ j, 1 ≤ j → j < S.length → decide (rd S (j - 1) > rd S j) = true := by
  constructor
  · intro h j h1 h2
    rw [decide_eq_true_eq]
    exact Gen.rd_of_pairwise _ S h (j - 1) j (by omega) h2
  · intro h
    have hp := Gen.pairwise_take_of_rd (fun x y : T => x > y) S S.length (le_refl _) (by
      intro i j hij hj
      apply Gen.rel_of_adjacent (fun x y : T => x > y) (fun _ _ _ h1 h2 => lt_trans h2 h1)
        (rd S) 0 S.length ?_ i j (Nat.zero_le _) hij hj
      intro q hq1 hq2
      have := h q (by omega) hq2
      rwa [decide_eq_true_eq] at this)
    rwa [List.take_length] at hp

end GenSort

namespace GenSort

/-- For a buffer of at least one cell the scan of `parSort` counts as many runs as there are
cells exactly when the buffer is strictly descending. -/
theorem parSort_scan_desc {T : Type} [LinearOrder T] [Inhabited T]
    (w : Workers) (X : List T) (nthread : Int) (h1 : 1 ≤ X.length) :
      ((findRuns (fun j => decide (rd X (j - 1) > rd X j))
        (fun i => decide
          (rd X (rd (sliceBounds X.length
              (numThreads w nthread X.length)) i - 1) >
            rd X (rd (sliceBounds X.length
              (numThreads w nthread X.length)) i)))
        X.length (numThreads w nthread X.length)).2 = X.length ↔
        X.Sorted (· > ·)) ∧
      (¬ (findRuns (fun j => decide (rd X (j - 1) > rd X j))
        (fun i => decide
          (rd X (rd (sliceBounds X.length
              (numThreads w nthread X.length)) i - 1) >
            rd X (rd (sliceBounds X.length
              (numThreads w nthread X.length)) i)))
        X.length (numThreads w nthread X.length)).2 < X.length ↔
        X.Sorted (· > ·)) := by
  obtain ⟨n1, n2, -⟩ := numThreads_spec w nthread X.length
  obtain ⟨hri, -, hall⟩ := findRuns_runIndex
    (fun j => decide (rd X (j - 1) > rd X j))
    (fun i => decide
      (rd X (rd (sliceBounds X.length
          (numThreads w nthread X.length)) i - 1) >
        rd X (rd (sliceBounds X.length
          (numThreads w nthread X.length)) i)))
    X.length (numThreads w nthread X.length) n1 (n2 (by omega))
    (fun _ _ _ => rfl)
  have hle := hri.np_le _ (le_refl _)
  rw [hri.last] at hle
  rw [← sorted_gt_iff_adjacent] at hall
  refine ⟨hall, ?_⟩
  rw [← hall]
  omega

/-- On a strictly descending buffer of at least one cell `parSort` skips the merge. -/
theorem parSort_run_desc {T : Type} [LinearOrder T] [Inhabited T]
    (w : Workers) (X : List T) (opt : Nat) (nthread : Int) (h1 : 1 ≤ X.length)
    (hs : X.Sorted (· > ·)) :
      parSort w X X.length CasaSort.Order.Ascending opt nthread =
        some (X.length, X.reverse) ∧
      parSort w X X.length CasaSort.Order.Descending opt nthread =
        some (X.length, X) := by
  have hlt := (parSort_scan_desc w X nthread h1).2.2 hs
  constructor
  · simp only [parSort, if_neg hlt, if_true]
    rw [reverse_inplace_eq X X.length (le_refl _)]
    simp
  · simp only [parSort, if_neg hlt, reduceCtorEq, if_false]

end GenSort

/-- C28, on the code.  For a buffer of `n >= 1` cells the scan of `parSort` yields
`nparts = n` exactly when the buffer is strictly descending; the merge is then skipped, the
test `nparts < n` failing, and `parSort` returns `n` with the reverse of the input for
Ascending and the input itself for Descending; on `[4,3,1]` Ascending it leaves `[1,3,4]`.
At `n = 0` the claim fails: the empty buffer is strictly descending, yet the scan of the one
empty slice counts a run, `nparts = 1`, not 0, and the run finding, logged by `findRunsLog`,
ends with the store `index[nparts] = nr` at `index[1]` while `index` has `nr + 1 = 1` entry
(the defect of C33). -/
theorem C28_strictly_descending_short_circuit {T : Type} [LinearOrder T] [Inhabited T]
    (w : Workers) (S : List T) (opt : Nat) (nthread : Int) (inv junc : Nat → Bool) :
    (1 ≤ S.length →
      ((GenSort.findRuns (fun j => decide (GenSort.rd S (j - 1) > GenSort.rd S j))
        (fun i => decide
          (GenSort.rd S (GenSort.rd (GenSort.sliceBounds S.length
              (GenSort.numThreads w nthread S.length)) i - 1) >
            GenSort.rd S (GenSort.rd (GenSort.sliceBounds S.length
              (GenSort.numThreads w nthread S.length)) i)))
        S.length (GenSort.numThreads w nthread S.length)).2 = S.length ↔
        S.Sorted (· > ·)) ∧
      (¬ (GenSort.findRuns (fun j => decide (GenSort.rd S (j - 1) > GenSort.rd S j))
        (fun i => decide
          (GenSort.rd S (GenSort.rd (GenSort.sliceBounds S.length
              (GenSort.numThreads w nthread S.length)) i - 1) >
            GenSort.rd S (GenSort.rd (GenSort.sliceBounds S.length
              (GenSort.numThreads w nthread S.length)) i)))
        S.length (GenSort.numThreads w nthread S.length)).2 < S.length ↔
        S.Sorted (· > ·)) ∧
      (S.Sorted (· > ·) →
        GenSort.parSort w S S.length CasaSort.Order.Ascending opt nthread =
          some (S.length, S.reverse) ∧
        GenSort.parSort w S S.length CasaSort.Order.Descending opt nthread =
          some (S.length, S))) ∧
    GenSort.parSort w [4, 3, 1] 3 CasaSort.Order.Ascending opt nthread = some (3, [1, 3, 4]) ∧
    ([] : List T).Sorted (· > ·) ∧
    (GenSort.findRuns inv junc 0 (GenSort.numThreads w nthread 0)).2 = 1 ∧
    (⟨GenSort.Arr.index, 1, true⟩ : GenSort.Access) ∈
      (GenSort.findRunsLog inv junc 0 (GenSort.numThreads w nthread 0)).2 ∧
    GenSort.Arr.size 0 (GenSort.numThreads w nthread 0) GenSort.Arr.index = 1 := by
  have hn : GenSort.numThreads w nthread 0 = 1 := (GenSort.numThreads_spec w nthread 0).2.2 rfl
  refine ⟨fun h1 => ⟨(GenSort.parSort_scan_desc w S nthread h1).1,
    (GenSort.parSort_scan_desc w S nthread h1).2,
    GenSort.parSort_run_desc w S opt nthread h1⟩, ?_, List.sorted_nil, ?_, ?_, rfl⟩
  · exact (GenSort.parSort_run_desc w [4, 3, 1] opt nthread (by decide) (by decide)).1
  · rw [hn]
    rfl
  · rw [hn]
    have e : (GenSort.findRunsLog inv junc 0 1).2 =
        [⟨GenSort.Arr.tinx, 0, true⟩, ⟨GenSort.Arr.tinx, 1, true⟩,
          ⟨GenSort.Arr.tinx, 0, false⟩, ⟨GenSort.Arr.index, 0, true⟩,
          ⟨GenSort.Arr.tinx, 1, false⟩, ⟨GenSort.Arr.np, 0, true⟩,
          ⟨GenSort.Arr.np, 0, false⟩, ⟨GenSort.Arr.index, 1, true⟩] := rfl
    rw [e]
    decide

/-! ## The merge tree -/

namespace GenSort

variable {T : Type} [LinearOrder T] [Inhabited T]

end GenSort

namespace Gen

variable {α K : Type} [LinearOrder K]

end Gen

namespace GenSortIndirect

variable {T : Type} [LinearOrder T] [Inhabited T]

open GenSort (rd Bufs RunIndex)

end GenSortIndirect

/-! ## The indirect merge keeps ties in order; the junction test of the indirect scan -/

/-- C29, at a failing input: the index array `[1,0]` over the values `[1,2]`, Ascending,
duplicates kept, two workers.  The two slices are `inx[0..1)` and `inx[1..2)`; the scan finds
no inversion inside a slice, and the junction test reads `data[0] > data[1]`, not
`data[inx[0]] > data[inx[1]]`, so no boundary is put between the slices, the single run is
handed to `merge` and comes back as it was: `parSort` returns 2 and leaves `[1,0]`, a
permutation with `data[inx[0]] = 2 > 1 = data[inx[1]]`.  With one worker, where the scan
alone compares, and from the identity index array the result `[0,1]` is sorted. -/
theorem C29_junction_test_reads_data_directly :
    GenSortIndirect.parSort (some 2) [1, 0] [1, 2] 2 CasaSort.Order.Ascending
        Selector.Parallel.keep 2 = some (2, [1, 0]) ∧
    [1, 0].Perm (List.range 2) ∧
    ¬ GenSort.rd [1, 2] (GenSort.rd [1, 0] 0) ≤ GenSort.rd [1, 2] (GenSort.rd [1, 0] 1) ∧
    (GenSort.findRuns
      (fun j => decide (GenSort.rd [1, 2] (GenSort.rd [1, 0] (j - 1)) >
        GenSort.rd [1, 2] (GenSort.rd [1, 0] j)))
      (fun i => decide (GenSort.rd [1, 2] (GenSort.rd (GenSort.sliceBounds 2 2) i - 1) >
        GenSort.rd [1, 2] (GenSort.rd (GenSort.sliceBounds 2 2) i))) 2 2).2 = 1 ∧
    GenSortIndirect.parSort (some 1) [1, 0] [1, 2] 2 CasaSort.Order.Ascending
        Selector.Parallel.keep 1 = some (2, [0, 1]) ∧
    GenSortIndirect.parSort (some 2) [0, 1] [1, 2] 2 CasaSort.Order.Ascending
        Selector.Parallel.keep 2 = some (2, [0, 1]) := by
  decide

/-! ## Selection: termination and post-state; the worker count -/

namespace GenSortIndirect

variable {T : Type} [LinearOrder T] [Inhabited T]

open GenSort (rd)

/-- One round of the loop of the indirect `kthLargest`: the partition returns, with the
pivot strictly inside the active range. -/
theorem kthPartition_step (data : List T) (inx : List Nat) (st en : Nat) (h1 : st + 1 < en)
    (h3 : en < inx.length) :
    ∃ x1 i, kthPartitionLoop data (rd data (rd (kthMedian3 data inx st ((st + en) / 2) en) en))
        st en (en - st + 1) (kthMedian3 data inx st ((st + en) / 2) en) st en = some (x1, i) ∧
      st < i ∧ i < en := by
  obtain ⟨d1, s, e, a1, a2, -⟩ := @GenSort.partition_step T _ (readDefault data)
    (inx.map (rd data)) st en h1 (by simpa using h3) (en - st + 1) (by omega)
  rw [median3_sim, rd_sim, partitionLoop_sim] at e
  cases hx : kthPartitionLoop data (rd data (rd (kthMedian3 data inx st ((st + en) / 2) en) en))
      st en (en - st + 1) (kthMedian3 data inx st ((st + en) / 2) en) st en with
  | none => rw [hx] at e; exact absurd e (by simp)
  | some r =>
    rw [hx] at e
    simp only [Option.map_some', Option.some.injEq, Prod.mk.injEq] at e
    exact ⟨r.1, r.2, rfl, by rw [e.2]; exact a1, by rw [e.2]; exact a2⟩

/-- The loop of the indirect `kthLargest` returns, with `st <= k <= end <= st + 1`. -/
theorem kthLoop_returns (data : List T) (k : Nat) (hk : k < data.length) :
    ∃ x st en, kthLoop data k data.length (indgen [] data.length) 0 (data.length - 1) =
        some (x, st, en) ∧ st ≤ k ∧ k ≤ en ∧ en ≤ st + 1 := by
  have hd : (indgen [] data.length).map (rd data) = data := map_rd_range data
  obtain ⟨d', st, en, e, c1, c2, c3, -⟩ := @GenSort.kthLoop_spec T _ (readDefault data)
    k data.length data.length ((indgen [] data.length).map (rd data)) 0 (data.length - 1)
    (Nat.zero_le _) (by omega) (by omega) (by rw [hd]) (by omega)
    (fun p q hp _ _ => by omega) (fun p q hp hq hqn => by omega)
  rw [kthLoop_sim] at e
  cases hx : kthLoop data k data.length (indgen [] data.length) 0 (data.length - 1) with
  | none => rw [hx] at e; exact absurd e (by simp)
  | some r =>
    obtain ⟨x, st', en'⟩ := r
    rw [hx] at e
    simp only [Option.map_some', Option.some.injEq, Prod.mk.injEq] at e
    obtain ⟨-, e2, e3⟩ := e
    subst e2 e3
    exact ⟨x, st', en', rfl, c1, c2, c3⟩

end GenSortIndirect

/-- C36, on the code.  For a buffer `S` of fewer than `2^30` cells and `k` below its length,
`kthLargest` returns a value and leaves a buffer of the same length that is a permutation of
`S` (reordered in place), in which every cell before `k` is `<=` cell `k`, every cell after
`k` is `>=` cell `k`, and the value returned is cell `k`.  At `2^31 + 2` cells the claim
fails: `Int end = Int(nr) - 1` is negative, the loop is not entered, and the call on
`wideInput2` with `k = 0` returns cell 0, the 1, leaving the buffer as it was, with a 0 in
cell 1 behind it. -/
theorem C36_kthLargest_post_state {T : Type} [LinearOrder T] [Inhabited T]
    (S : List T) (k : Nat) (hk : k < S.length) (hb : S.length < 2 ^ 30) :
    (∃ d, GenSort.kthLargest S S.length k = some (Except.ok (GenSort.rd d k), d) ∧
      d.Perm S ∧ d.length = S.length ∧
      (∀ p, p < k → GenSort.rd d p ≤ GenSort.rd d k) ∧
      (∀ q, k < q → q < S.length → GenSort.rd d k ≤ GenSort.rd d q)) ∧
    GenSort.wideInput2.length = 2 ^ 31 + 2 ∧
    GenSort.kthLargest GenSort.wideInput2 (2 ^ 31 + 2) 0 =
      some (Except.ok (GenSort.rd GenSort.wideInput2 0), GenSort.wideInput2) ∧
    GenSort.rd GenSort.wideInput2 1 < GenSort.rd GenSort.wideInput2 0 := by
  refine ⟨?_, GenSort.wideInput2_length,
    GenSort.kthLargest_wide GenSort.wideInput2 0 (by norm_num), ?_⟩
  · obtain ⟨d, e, l, p, a1, a2, -⟩ := GenSort.kthLargest_spec S S.length k hk (le_refl _)
    rw [← GenSort.kthLargest_eq_gen S S.length k (le_of_lt hb)] at e
    exact ⟨d, e, p, l, a1, a2⟩
  · rw [GenSort.rd_wideInput2_one, GenSort.rd_wideInput2_zero]
    exact Nat.zero_lt_one

/-- C36 on `[5,3,3,1,4]` with `k = 2`: the value is 3 and the buffer is left as
`[3,1,3,4,5]`, not as it was. -/
theorem C36_kthLargest_post_state_witness :
    2 < [5, 3, 3, 1, 4].length ∧ [5, 3, 3, 1, 4].length < 2 ^ 30 ∧
    ((∃ d, GenSort.kthLargest [5, 3, 3, 1, 4] [5, 3, 3, 1, 4].length 2 =
        some (Except.ok (GenSort.rd d 2), d) ∧
      d.Perm [5, 3, 3, 1, 4] ∧ d.length = [5, 3, 3, 1, 4].length ∧
      (∀ p, p < 2 → GenSort.rd d p ≤ GenSort.rd d 2) ∧
      (∀ q, 2 < q → q < [5, 3, 3, 1, 4].length → GenSort.rd d 2 ≤ GenSort.rd d q)) ∧
      GenSort.wideInput2.length = 2 ^ 31 + 2 ∧
      GenSort.kthLargest GenSort.wideInput2 (2 ^ 31 + 2) 0 =
        some (Except.ok (GenSort.rd GenSort.wideInput2 0), GenSort.wideInput2) ∧
      GenSort.rd GenSort.wideInput2 1 < GenSort.rd GenSort.wideInput2 0) ∧
    (GenSort.kthLargest [5, 3, 3, 1, 4] 5 2).map (fun r => (r.1.toOption, r.2)) =
      some (some 3, [3, 1, 3, 4, 5]) :=
  ⟨by decide, by norm_num,
    C36_kthLargest_post_state [5, 3, 3, 1, 4] 2 (by decide) (by norm_num), by decide⟩

/-- C35, on the code.  For a buffer `S` of fewer than `2^30` cells and `k` below its length
the loop of `kthLargest` comes to an end (within the step budget of the embedding, one round
per cell) with `st <= k <= end <= st + 1`, and `kthLargest` returns a value.  In a round on an active range
`st .. end` with `end > st + 1` and `st <= k <= end`, of any buffer, the partition returns
with the pivot at an index `i`, `st < i < end`, so the update `st := i if i <= k`,
`end := i if i >= k` keeps `st <= k <= end` and makes `end - st` strictly smaller.  The same
holds for the indirect `kthLargest`, at every length.  For the direct one the claim fails at
`2^31 + 2` cells: `Int end = Int(nr) - 1` is `-2^31 + 1`, below every `k`, the loop is not
entered, and `data[k]` is returned as it stands, the 1 in cell 0 of `wideInput2`. -/
theorem C35_kthLargest_terminates {T : Type} [LinearOrder T] [Inhabited T]
    (S : List T) (k : Nat) (hk : k < S.length) (hb : S.length < 2 ^ 30) :
    (∃ d st en, GenSort.kthLoop (GenSort.toInt k) S.length S 0 (S.length - 1) =
        some (d, st, en) ∧
      st ≤ k ∧ k ≤ en ∧ en ≤ st + 1) ∧
    (∃ v d, GenSort.kthLargest S S.length k = some (Except.ok v, d)) ∧
    (∀ (d : List T) (st en : Nat), st ≤ k → k ≤ en → st + 1 < en → en < d.length →
      ∃ d1 i, GenSort.partitionLoop (GenSort.rd (GenSort.median3 d st ((st + en) / 2) en) en)
          st en (en - st + 1) (GenSort.median3 d st ((st + en) / 2) en) st en =
          some (d1, i) ∧
        st < i ∧ i < en ∧
        (if i ≤ k then i else st) ≤ k ∧ k ≤ (if i ≥ k then i else en) ∧
        (if i ≥ k then i else en) - (if i ≤ k then i else st) < en - st) ∧
    (∃ x st en, GenSortIndirect.kthLoop S k S.length (GenSortIndirect.indgen [] S.length) 0
        (S.length - 1) = some (x, st, en) ∧ st ≤ k ∧ k ≤ en ∧ en ≤ st + 1) ∧
    (∃ p, GenSortIndirect.kthLargest S S.length k = some (Except.ok p)) ∧
    (∀ (inx : List Nat) (st en : Nat), st ≤ k → k ≤ en → st + 1 < en → en < inx.length →
      ∃ x1 i, GenSortIndirect.kthPartitionLoop S
          (GenSort.rd S
            (GenSort.rd (GenSortIndirect.kthMedian3 S inx st ((st + en) / 2) en) en))
          st en (en - st + 1) (GenSortIndirect.kthMedian3 S inx st ((st + en) / 2) en) st en =
          some (x1, i) ∧
        st < i ∧ i < en ∧
        (if i ≤ k then i else st) ≤ k ∧ k ≤ (if i ≥ k then i else en) ∧
        (if i ≥ k then i else en) - (if i ≤ k then i else st) < en - st) ∧
    GenSort.toInt (2 ^ 31 + 2) - 1 = -(2 ^ 31) + 1 ∧
    GenSort.kthLargest GenSort.wideInput2 (2 ^ 31 + 2) 0 =
      some (Except.ok 1, GenSort.wideInput2) := by
  have upd : ∀ st en i : Nat, st ≤ k → k ≤ en → st < i → i < en →
      (if i ≤ k then i else st) ≤ k ∧ k ≤ (if i ≥ k then i else en) ∧
      (if i ≥ k then i else en) - (if i ≤ k then i else st) < en - st := by
    intro st en i h1 h2 h3 h4
    refine ⟨?_, ?_, ?_⟩
    · split <;> omega
    · split <;> omega
    · split <;> split <;> omega
  refine ⟨?_, ?_, ?_, GenSortIndirect.kthLoop_returns S k hk, ?_, ?_, GenSort.toInt_wide2,
    ?_⟩
  · obtain ⟨d', st, en, e, c1, c2, c3, -⟩ := GenSort.kthLoop_spec k S.length S.length S 0
      (S.length - 1) (Nat.zero_le _) (by omega) (by omega) (le_refl _) (by omega)
      (fun p q hp _ _ => by omega) (fun p q hp hq hqn => by omega)
    rw [← GenSort.kthLoop_eq_gen k (by omega) S.length S 0 (S.length - 1) (by norm_num)
      (by omega)] at e
    exact ⟨d', st, en, e, c1, c2, c3⟩
  · obtain ⟨d, e, -⟩ := GenSort.kthLargest_spec S S.length k hk (le_refl _)
    rw [← GenSort.kthLargest_eq_gen S S.length k (le_of_lt hb)] at e
    exact ⟨_, d, e⟩
  · intro d st en h1 h2 h3 h4
    obtain ⟨d1, i, e, a1, a2, -⟩ := GenSort.partition_step d st en h3 h4 (en - st + 1)
      (by omega)
    exact ⟨d1, i, e, a1, a2, upd st en i h1 h2 a1 a2⟩
  · obtain ⟨p, e, -⟩ := GenSortIndirect.kthLargest_spec_ind S k hk _
      (List.perm_insertionSort (· ≤ ·) S) (List.sorted_insertionSort (· ≤ ·) S)
    exact ⟨p, e⟩
  · intro inx st en h1 h2 h3 h4
    obtain ⟨x1, i, e, a1, a2⟩ := GenSortIndirect.kthPartition_step S inx st en h3 h4
    exact ⟨x1, i, e, a1, a2, upd st en i h1 h2 a1 a2⟩
  · rw [GenSort.kthLargest_wide GenSort.wideInput2 0 (by norm_num),
      GenSort.rd_wideInput2_zero]

/-- C35 on `[5,3,3,1,4]` with `k = 2`. -/
theorem C35_kthLargest_terminates_witness :
    2 < [5, 3, 3, 1, 4].length ∧ [5, 3, 3, 1, 4].length < 2 ^ 30 ∧
    (∃ d st en, GenSort.kthLoop (GenSort.toInt 2) [5, 3, 3, 1, 4].length [5, 3, 3, 1, 4] 0
        ([5, 3, 3, 1, 4].length - 1) = some (d, st, en) ∧ st ≤ 2 ∧ 2 ≤ en ∧ en ≤ st + 1) ∧
    (∃ x st en, GenSortIndirect.kthLoop [5, 3, 3, 1, 4] 2 [5, 3, 3, 1, 4].length
        (GenSortIndirect.indgen [] [5, 3, 3, 1, 4].length) 0 ([5, 3, 3, 1, 4].length - 1) =
        some (x, st, en) ∧ st ≤ 2 ∧ 2 ≤ en ∧ en ≤ st + 1) :=
  ⟨by decide, by norm_num,
    (C35_kthLargest_terminates [5, 3, 3, 1, 4] 2 (by decide) (by norm_num)).1,
    (C35_kthLargest_terminates [5, 3, 3, 1, 4] 2 (by decide) (by norm_num)).2.2.2.1⟩

/-- C32: in a build with OpenMP and `a` available workers, the worker count `parSort` uses
for `n` cells and a requested count `t` is `min(t, n)` when `t > 0` and `min(a, n)`
otherwise, raised to 1 when that is 0; in a build without OpenMP it is 1.  In both it is at
least 1 and at most `max(n, 1)`. -/
theorem C32_effective_worker_count (w : Workers) (a n : Nat) (t : Int) :
    GenSort.numThreads (some a) t n =
      (if (if t > 0 then min t.toNat n else min a n) = 0 then 1
        else (if t > 0 then min t.toNat n else min a n)) ∧
    GenSort.numThreads none t n = 1 ∧
    1 ≤ GenSort.numThreads w t n ∧ GenSort.numThreads w t n ≤ max n 1 := by
  refine ⟨?_, rfl, ?_, ?_⟩
  · simp only [GenSort.numThreads]
    have e1 : (if t.toNat > n then n else t.toNat) = min t.toNat n := by
      rw [Nat.min_def]; split_ifs <;> omega
    have e2 : (if a > n then n else a) = min a n := by
      rw [Nat.min_def]; split_ifs <;> omega
    rw [e1, e2]
  · exact (GenSort.numThreads_spec w t n).1
  · obtain ⟨-, h2, h3⟩ := GenSort.numThreads_spec w t n
    by_cases h0 : n = 0
    · rw [h3 h0]; exact le_max_right _ _
    · exact le_trans (h2 (by omega)) (le_max_left _ _)

/-! ## What the quicksort kernel leaves; the two engines side by side -/

namespace GenSort

variable {T : Type} [LinearOrder T] [Inhabited T]

/-- After the quicksort kernel two cells at least 32 places apart are in order. -/
theorem quickSortAscAux_near (fuel : Nat) :
    ∀ (data : List T) (nr : Nat) (multiThread : Bool) (rec_lim : Int),
      nr ≤ data.length → nr < 2 ^ 30 → rec_lim < (fuel : Int) →
      ∀ d', quickSortAscAux fuel data nr multiThread rec_lim = some d' →
        ∀ i j, i < j → j < nr → 32 ≤ j - i → rd d' i ≤ rd d' j := by
  induction fuel with
  | zero =>
    intro data nr mt rec_lim hnr hb hrec d' hd' i j hij hj h32
    have hn32 : ¬ nr ≤ 32 := by omega
    have hneg : rec_lim < 0 := by simpa using hrec
    obtain ⟨d2, e, hs, -⟩ := heapSortAsc_spec data nr hnr hb
    simp only [quickSortAscAux, if_neg hn32, if_pos hneg, e, Option.some.injEq] at hd'
    subst hd'
    exact hs i j hij hj
  | succ fuel ih =>
    intro data nr mt rec_lim hnr hb hrec d' hd' i j hij hj h32
    have hn32 : ¬ nr ≤ 32 := by omega
    by_cases hneg : rec_lim < 0
    · obtain ⟨d2, e, hs, -⟩ := heapSortAsc_spec data nr hnr hb
      simp only [quickSortAscAux, if_neg hn32, if_pos hneg, e, Option.some.injEq] at hd'
      subst hd'
      exact hs i j hij hj
    have hps := partition_step data 0 (nr - 1) (by omega) (by omega) nr (by omega)
    rw [Nat.zero_add] at hps
    obtain ⟨d1, s, e, a1, a2, a3, a4, a5, a6, a7, -⟩ := hps
    obtain ⟨d3, e3, b1, b2, b3⟩ := quickSortAscAux_spec fuel (swap d1 s (nr - 1)) s false
      (rec_lim - 1) (by omega) (by omega) (by push_cast at hrec; omega)
    have q3 := ih (swap d1 s (nr - 1)) s false (rec_lim - 1) (by omega) (by omega)
      (by push_cast at hrec; omega) d3 e3
    obtain ⟨r, e4, c1, c2, c3⟩ := quickSortAscAux_spec fuel (d3.drop (s + 1)) (nr - s - 1) false
      (rec_lim - 1) (by simp; omega) (by omega) (by push_cast at hrec; omega)
    have q4 := ih (d3.drop (s + 1)) (nr - s - 1) false (rec_lim - 1) (by simp; omega)
      (by omega) (by push_cast at hrec; omega) r e4
    simp only [quickSortAscAux, if_neg hn32, if_neg hneg, e, e3, e4, ite_self,
      Option.some.injEq] at hd'
    subst hd'
    have hlt : (d3.take (s + 1)).length = s + 1 := by simp; omega
    have hleft : ∀ p, p ≤ s → rd (d3.take (s + 1) ++ r) p = rd d3 p := by
      intro p hp
      rw [rd_append_left _ _ (by omega), rd_take _ (by omega)]
    have hright : ∀ p, s < p → rd (d3.take (s + 1) ++ r) p = rd r (p - (s + 1)) := by
      intro p hp
      rw [rd_append_right _ _ (by omega), hlt]
    generalize swap d1 s (nr - 1) = d2 at a3 a4 a5 a6 a7 e3 b1 b2 b3
    have hpiv : rd d3 s = rd d2 s := b3 s (le_refl _)
    have hlo : ∀ p, p ≤ s → rd d3 p ≤ rd d2 s := by
      intro p hp
      by_cases hps : p = s
      · rw [hps, hpiv]
      · have hrm := range_mem 0 (s - 1) b1 b2 (fun q hq => b3 q (by omega)) (by omega)
        obtain ⟨q', -, h2, e'⟩ := hrm p (Nat.zero_le _) (by omega)
        rw [e']
        exact a5 q' (Nat.zero_le _) (by omega)
    have hhi : ∀ p, s < p → p < nr → rd d2 s ≤ rd r (p - (s + 1)) := by
      intro p hp1 hp2
      have hrm := range_mem 0 (nr - s - 1 - 1) c1 c2 (fun q hq => c3 q (by omega))
        (by simp; omega)
      obtain ⟨q', -, h2, e'⟩ := hrm (p - (s + 1)) (Nat.zero_le _) (by omega)
      rw [e', rd_drop, b3 _ (by omega)]
      exact a6 _ (by omega) (by omega)
    by_cases hjs : j < s
    · rw [hleft i (by omega), hleft j (by omega)]
      exact q3 i j hij hjs h32
    by_cases his : s < i
    · rw [hright i his, hright j (by omega)]
      exact q4 _ _ (by omega) (by omega) (by omega)
    · rw [hleft i (by omega)]
      by_cases hje : j = s
      · rw [hje, hleft s (le_refl _), hpiv]
        exact hlo i (by omega)
      · rw [hright j (by omega)]
        exact le_trans (hlo i (by omega)) (hhi j (by omega) hj)

/-- In `wideInput` cell 0 holds the 1 and cell 1 a 0. -/
theorem rd_wideInput_zero : rd wideInput 0 = 1 := by
  unfold wideInput rd
  rw [List.getD_cons_zero]

theorem rd_wideInput_one : rd wideInput 1 = 0 := by
  unfold wideInput rd
  rw [show 2 ^ 31 - 1 = (2 ^ 31 - 2) + 1 by norm_num, List.replicate_succ,
    List.getD_cons_succ, List.getD_cons_zero]

end GenSort

namespace GenSortIndirect

variable {T : Type} [LinearOrder T] [Inhabited T]

/-- Below `2^30` cells the direct and the indirect sort agree: same count, and the values
read through the returned index vector are the first cells the direct sort leaves. -/
theorem sort_agree (w w' : Workers) (indexVector : List Nat) (S : List T)
    (O : CasaSort.Order) (s : Selector) (hb : S.length < 2 ^ 30) :
    (∃ d inx, GenSort.sort w S S.length O s.keep = some (S.length, d) ∧
      GenSortIndirect.sort w' indexVector S S.length O s.keep = some (S.length, inx) ∧
      inx.map (GenSort.rd S) = d ∧
      ∀ i, i < S.length → GenSort.rd S (GenSort.rd inx i) = GenSort.rd d i) ∧
    (∃ R d inx, GenSort.sort w S S.length O s.noDup = some (R, d) ∧
      GenSortIndirect.sort w' indexVector S S.length O s.noDup = some (R, inx) ∧
      inx.map (GenSort.rd S) = d.take R ∧
      ∀ i, i < R → GenSort.rd S (GenSort.rd inx i) = GenSort.rd d i) := by
  have elem : ∀ (inx : List Nat) (d : List T) (R : Nat), inx.length = R →
      inx.map (GenSort.rd S) = d.take R →
      ∀ i, i < R → GenSort.rd S (GenSort.rd inx i) = GenSort.rd d i := by
    intro inx d R hl hm i hi
    have h1 : GenSort.rd (inx.map (GenSort.rd S)) i = GenSort.rd S (GenSort.rd inx i) := by
      rw [GenSort.rd_of_lt _ (by simp; omega), GenSort.rd_of_lt inx (by omega)]
      simp
    rw [← h1, hm, GenSort.rd_take _ hi]
  constructor
  · obtain ⟨asc, p1, s1, e1, e2⟩ := GenSort.sort_keep_full w S s hb
    obtain ⟨ai, p2, s2, e3, e4⟩ := GenSortIndirect.ind_sort_keep w' indexVector S S.length s
    have hl : ai.length = S.length := by simpa using p2.length_eq
    have hla : asc.length = S.length := p1.length_eq
    have hm : ai.map (GenSort.rd S) = asc := by
      apply List.eq_of_perm_of_sorted (r := (· ≤ ·))
      · have := p2.map (GenSort.rd S)
        rw [GenSortIndirect.map_rd_range] at this
        exact this.trans p1.symm
      · simp only [List.Sorted, List.pairwise_map]
        exact s2.imp (fun h => GenSortIndirect.lexKey_le S _ _ h)
      · exact s1
    cases O
    · refine ⟨asc, ai, e1, e3, hm, elem ai asc S.length hl ?_⟩
      rw [hm, List.take_of_length_le (by omega)]
    · have hm2 : ai.reverse.map (GenSort.rd S) = asc.reverse := by
        rw [List.map_reverse, hm]
      refine ⟨asc.reverse, ai.reverse, e2, e4, hm2, elem ai.reverse asc.reverse S.length
        (by simpa using hl) ?_⟩
      rw [hm2, List.take_of_length_le (by simp; omega)]
  · obtain ⟨asc, rest, s1, m1, l1, e1, e2⟩ := GenSort.sort_nodup_full w S s hb
    obtain ⟨ai, s2, m2, m3, e3, e4⟩ :=
      GenSortIndirect.ind_sort_nodup w' indexVector S S.length s
    have hm : ai.map (GenSort.rd S) = asc := by
      apply GenSort.strict_unique
      · simp only [List.Sorted, List.pairwise_map]
        exact s2
      · exact s1
      · intro v
        rw [m1, List.mem_map]
        constructor
        · rintro ⟨p, hp, rfl⟩
          exact GenSort.rd_mem _ (m2 p hp)
        · intro hv
          obtain ⟨q, hq, rfl⟩ := List.mem_iff_getElem.1 hv
          obtain ⟨x, hx, e⟩ := m3 q hq
          exact ⟨x, hx, by rw [e, GenSort.rd_of_lt _ hq]⟩
    have hl : ai.length = asc.length := by
      rw [← hm, List.length_map]
    cases O
    · rw [← hl] at e1
      refine ⟨ai.length, asc ++ rest, ai, e1, e3, ?_, ?_⟩
      · rw [hm, hl, List.take_left]
      · apply elem ai _ _ rfl
        rw [hm, hl, List.take_left]
    · rw [← hl] at e2
      have hm2 : ai.reverse.map (GenSort.rd S) = asc.reverse := by
        rw [List.map_reverse, hm]
      have ht : (asc.reverse ++ rest).take ai.length = asc.reverse := by
        rw [hl, ← List.length_reverse asc, List.take_left]
      refine ⟨ai.length, asc.reverse ++ rest, ai.reverse, e2, e4, by rw [hm2, ht], ?_⟩
      apply elem ai.reverse _ _ (by simp)
      rw [hm2, ht]

/-- The indirect sort of `wideInput` returns an index vector whose first entry points at a
0. -/
theorem ind_sort_wide (w' : Workers) (indexVector : List Nat) (s : Selector) :
    ∃ inx, GenSortIndirect.sort w' indexVector GenSort.wideInput (2 ^ 31)
        CasaSort.Order.Ascending s.keep = some (2 ^ 31, inx) ∧
      GenSort.rd GenSort.wideInput (GenSort.rd inx 0) = 0 := by
  obtain ⟨ai, p, sr, e, -⟩ :=
    GenSortIndirect.ind_sort_keep w' indexVector GenSort.wideInput (2 ^ 31) s
  refine ⟨ai, e, ?_⟩
  have h1 : 1 ∈ ai := p.mem_iff.2 (List.mem_range.2 (by norm_num))
  cases ai with
  | nil => exact absurd h1 (List.not_mem_nil 1)
  | cons a rest =>
    have ha : GenSort.rd (a :: rest) 0 = a := rfl
    rw [ha]
    have hle : GenSort.rd GenSort.wideInput a ≤ GenSort.rd GenSort.wideInput 1 := by
      rcases List.mem_cons.1 h1 with h | h
      · rw [h]
      · exact GenSortIndirect.lexKey_le _ _ _ (List.rel_of_pairwise_cons sr h)
    rw [GenSort.rd_wideInput_one] at hle
    exact Nat.le_zero.1 hle

end GenSortIndirect

/-- C37, on the code.  For a buffer of fewer than `2^30` cells, every budget `rec_lim`
(negative ones included) and either value of the `multiThread` flag, `quickSortAsc` returns
and leaves a permutation of its input in which `data[i] <= data[j]` for all cells `i < j` at
least 32 places apart; `quickSort` is this kernel followed by one insertion sort of the
buffer it leaves.  Run on the first `nr` cells only, the kernel orders those in this sense
and leaves the others.  At `2^30` cells the claim fails for a negative budget: the kernel is
`heapSortAsc` there, whose sift computes the child position `Int c = 2*i` at `i = 2^30`, a
signed overflow, after which the code promises nothing; the embedding has no result, on
every buffer and so on the one of `2^30` zeros. -/
theorem C37_quickSortAsc_post_state {T : Type} [LinearOrder T] [Inhabited T]
    (S : List T) (multiThread : Bool) (rec_lim : Int) (O : CasaSort.Order) (opt : Nat) :
    (S.length < 2 ^ 30 →
      (∃ d, GenSort.quickSortAsc S S.length multiThread rec_lim = some d ∧ d.Perm S ∧
        d.length = S.length ∧
        (∀ i j, i < j → j < S.length → 32 ≤ j - i → GenSort.rd d i ≤ GenSort.rd d j)) ∧
      (∃ d, GenSort.quickSortAsc S S.length true (2 * (Nat.log 2 S.length : Nat)) = some d ∧
        GenSort.quickSort S S.length O opt = some (GenSort.insSort d S.length O opt))) ∧
    (∀ nr, nr ≤ S.length → nr < 2 ^ 30 →
      ∃ d, GenSort.quickSortAsc S nr multiThread rec_lim = some d ∧
        (d.take nr).Perm (S.take nr) ∧ d.drop nr = S.drop nr ∧
        (∀ i j, i < j → j < nr → 32 ≤ j - i → GenSort.rd d i ≤ GenSort.rd d j)) ∧
    (∀ data : List T, GenSort.quickSortAsc data (2 ^ 30) multiThread (-1) = none) ∧
    (List.replicate (2 ^ 30) (0 : Nat)).length = 2 ^ 30 ∧
    GenSort.quickSortAsc (List.replicate (2 ^ 30) (0 : Nat)) (2 ^ 30) multiThread (-1) =
      none := by
  have hfuel : rec_lim < ((rec_lim.toNat + 1 : Nat) : Int) := by
    push_cast
    have := Int.self_le_toNat rec_lim
    omega
  have key : ∀ nr, nr ≤ S.length → nr < 2 ^ 30 →
      ∃ d, GenSort.quickSortAsc S nr multiThread rec_lim = some d ∧ d.Perm S ∧
        d.length = S.length ∧
        (d.take nr).Perm (S.take nr) ∧ d.drop nr = S.drop nr ∧
        (∀ i j, i < j → j < nr → 32 ≤ j - i → GenSort.rd d i ≤ GenSort.rd d j) := by
    intro nr hnr hb
    obtain ⟨d, e, l, p, f⟩ := GenSort.quickSortAsc_spec S nr multiThread rec_lim hnr hb
    have hd : d.drop nr = S.drop nr := GenSort.drop_eq_of_rd nr l (fun q hq _ => f q hq)
    exact ⟨d, e, p, l, GenSort.take_perm_of_drop_eq nr p hd, hd,
      GenSort.quickSortAscAux_near _ S nr multiThread rec_lim hnr hb hfuel d e⟩
  refine ⟨?_, ?_, ?_, List.length_replicate _ _, ?_⟩
  · intro hb
    constructor
    · obtain ⟨d, e, p, l, -, -, q⟩ := key S.length (le_refl _) hb
      exact ⟨d, e, p, l, q⟩
    · obtain ⟨d, e, -⟩ := GenSort.quickSortAsc_spec S S.length true
        (2 * (Nat.log 2 S.length : Nat)) (le_refl _) hb
      refine ⟨d, e, ?_⟩
      rw [GenSort.quickSort_eq_small _ _ _ _ (by omega), e]
      rfl
  · intro nr hnr hb
    obtain ⟨d, e, -, -, p, f, q⟩ := key nr hnr hb
    exact ⟨d, e, p, f, q⟩
  · intro data
    exact GenSort.quickSortAsc_overflow data multiThread (-1) (by norm_num)
  · exact GenSort.quickSortAsc_overflow _ multiThread (-1) (by norm_num)

/-- C39, on the code.  For a data buffer `S` of fewer than `2^30` cells (the empty buffer
with the selector Parallel apart, see C33), every order, algorithm selector and duplicate
policy, and whatever the numbers of workers and the index vector handed in, the direct and
the indirect sort return the same count `R`, and the values read through the returned index
vector are the first `R` cells the direct sort leaves: `S[inx[i]] = d[i]` for every
`i < R`; on `[5,3,3,1,4]` Ascending both give the values `[1,3,3,4,5]`.  At `2^31` cells the
claim fails, by the conversion of the `uInt` length to the `Int nr` of the direct kernels:
with the selector Quicksort, Heapsort or Insertion the direct sort returns `wideInput` as it
was, with the 1 in cell 0, while the indirect sort, whose kernels take the length in the
index type, returns an index vector whose first entry points at a 0. -/
theorem C39_indirect_agrees_with_direct {T : Type} [LinearOrder T] [Inhabited T]
    (w w' : Workers) (indexVector : List Nat) (S : List T) (O : CasaSort.Order)
    (s : Selector) :
    (S.length < 2 ^ 30 → (S = [] → s ≠ Selector.Parallel) →
      (∃ d inx, GenSort.sort w S S.length O s.keep = some (S.length, d) ∧
        GenSortIndirect.sort w' indexVector S S.length O s.keep = some (S.length, inx) ∧
        inx.map (GenSort.rd S) = d ∧
        ∀ i, i < S.length → GenSort.rd S (GenSort.rd inx i) = GenSort.rd d i) ∧
      (∃ R d inx, GenSort.sort w S S.length O s.noDup = some (R, d) ∧
        GenSortIndirect.sort w' indexVector S S.length O s.noDup = some (R, inx) ∧
        inx.map (GenSort.rd S) = d.take R ∧
        ∀ i, i < R → GenSort.rd S (GenSort.rd inx i) = GenSort.rd d i)) ∧
    (∃ inx, GenSort.sort w [5, 3, 3, 1, 4] 5 CasaSort.Order.Ascending s.keep =
        some (5, [1, 3, 3, 4, 5]) ∧
      GenSortIndirect.sort w' indexVector [5, 3, 3, 1, 4] 5 CasaSort.Order.Ascending s.keep =
        some (5, inx) ∧
      inx.map (GenSort.rd [5, 3, 3, 1, 4]) = [1, 3, 3, 4, 5]) ∧
    GenSort.wideInput.length = 2 ^ 31 ∧
    (∀ s', s' = Selector.Quicksort ∨ s' = Selector.Heapsort ∨ s' = Selector.Insertion →
      GenSort.sort w GenSort.wideInput (2 ^ 31) CasaSort.Order.Ascending s'.keep =
        some (2 ^ 31, GenSort.wideInput)) ∧
    GenSort.rd GenSort.wideInput 0 = 1 ∧
    (∃ inx, GenSortIndirect.sort w' indexVector GenSort.wideInput (2 ^ 31)
        CasaSort.Order.Ascending s.keep = some (2 ^ 31, inx) ∧
      GenSort.rd GenSort.wideInput (GenSort.rd inx 0) = 0) := by
  refine ⟨fun hb _ => GenSortIndirect.sort_agree w w' indexVector S O s hb, ?_,
    GenSort.wideInput_length, ?_, GenSort.rd_wideInput_zero,
    GenSortIndirect.ind_sort_wide w' indexVector s⟩
  · obtain ⟨⟨d, inx, e1, e2, e3, -⟩, -⟩ := GenSortIndirect.sort_agree w w' indexVector
      [5, 3, 3, 1, 4] CasaSort.Order.Ascending s (by norm_num)
    obtain ⟨asc, h1, h2, h3, -⟩ := GenSort.sort_keep_full w [5, 3, 3, 1, 4] s (by norm_num)
    have e : asc = [1, 3, 3, 4, 5] :=
      List.eq_of_perm_of_sorted (h1.trans (by decide)) h2 (by decide)
    have hd : d = [1, 3, 3, 4, 5] := by
      have := e1.symm.trans h3
      simp only [Option.some.injEq, Prod.mk.injEq, true_and] at this
      rw [this, e]
    rw [hd] at e1 e3
    exact ⟨inx, e1, e2, e3⟩
  · intro s' hs
    exact (GenSort.sort_wide w GenSort.wideInput s' hs).1

/-! ## The cells behind the length argument -/

namespace GenSort

variable {T : Type} [LinearOrder T] [Inhabited T]

/-- Reversing the first `n` cells in place leaves the cells from `nr >= n` on. -/
theorem reverse_tail {α : Type} [Inhabited α] (d : List α) (n nr : Nat) (hn : n ≤ nr)
    (hnr : nr ≤ d.length) :
    (reverse d none n).length = d.length ∧ (reverse d none n).drop nr = d.drop nr := by
  rw [reverse_inplace_eq d n (by omega)]
  have hl : ((d.take n).reverse).length = n := by simp; omega
  constructor
  · simp; omega
  · rw [List.drop_append_eq_append_drop, hl, List.drop_of_length_le (by omega),
      List.nil_append, List.drop_drop]
    congr 1; omega

/-- What the duplicate-dropping insertion sort leaves behind the first `nr` cells. -/
theorem insSortAscNoDup_tail (d : List T) (nr : Nat) (hnr : nr ≤ d.length) :
    (insSortAscNoDup d nr).1 ≤ nr ∧ (insSortAscNoDup d nr).2.length = d.length ∧
      (insSortAscNoDup d nr).2.drop nr = d.drop nr := by
  have h := Gen.insSortAscNoDup_spec id gtD eqD gtD_iff eqD_iff d nr hnr
  rw [← insSortAscNoDup_eq_gen] at h
  exact ⟨h.le, h.length, drop_eq_of_rd nr h.length (fun p hp _ => h.rest p hp)⟩

theorem insSort_nodup_tail (data : List T) (nr opt : Nat) (hnr : nr ≤ data.length)
    (hb : nr < 2 ^ 30) (hopt : opt &&& CasaSort.NoDuplicates ≠ 0) :
    TailSpec data nr (fun ord => some (insSort data nr ord opt)) := by
  obtain ⟨t1, t2, t3⟩ := insSortAscNoDup_tail data nr hnr
  intro ord
  simp only [insSort, atInt_of_lt (show nr < 2 ^ 31 by omega), insSortAsc, if_neg hopt]
  by_cases ho : ord = CasaSort.Order.Descending
  · obtain ⟨r1, r2⟩ := reverse_tail (insSortAscNoDup data nr).2 (insSortAscNoDup data nr).1 nr
      t1 (by omega)
    exact ⟨_, _, by rw [if_pos ho], t1, by rw [r1, t2], by rw [r2, t3]⟩
  · exact ⟨_, _, by rw [if_neg ho], t1, t2, t3⟩

theorem heapSort_nodup_tail (data : List T) (nr opt : Nat) (hnr : nr ≤ data.length)
    (hb : nr < 2 ^ 30) (hopt : opt &&& CasaSort.NoDuplicates ≠ 0) :
    TailSpec data nr (fun ord => heapSort data nr ord opt) := by
  obtain ⟨d1, e, -, h2, -, h5⟩ := heapSortAsc_spec data nr hnr hb
  have hd : d1.drop nr = data.drop nr := drop_eq_of_rd nr h2 (fun p hp _ => h5 p hp)
  obtain ⟨t1, t2, t3⟩ := insSortAscNoDup_tail d1 nr (by omega)
  intro ord
  simp only [heapSort, atInt_of_lt (show nr < 2 ^ 31 by omega), e, if_pos hopt]
  by_cases ho : ord = CasaSort.Order.Descending
  · obtain ⟨r1, r2⟩ := reverse_tail (insSortAscNoDup d1 nr).2 (insSortAscNoDup d1 nr).1 nr
      t1 (by omega)
    exact ⟨_, _, by rw [if_pos ho], t1, by rw [r1, t2, h2], by rw [r2, t3, hd]⟩
  · exact ⟨_, _, by rw [if_neg ho], t1, by rw [t2, h2], by rw [t3, hd]⟩

theorem quickSort_nodup_tail (data : List T) (nr opt : Nat) (hnr : nr ≤ data.length)
    (hb : nr < 2 ^ 30) (hopt : opt &&& CasaSort.NoDuplicates ≠ 0) :
    TailSpec data nr (fun ord => quickSort data nr ord opt) := by
  obtain ⟨rl, e1⟩ := recLimitLoop_some (nr + 1) nr 0 (by omega)
  obtain ⟨d1, e2, h2, -, h5⟩ := quickSortAsc_spec data nr true (rl * 2) hnr hb
  have hd : d1.drop nr = data.drop nr := drop_eq_of_rd nr h2 (fun p hp _ => h5 p hp)
  intro ord
  obtain ⟨n, d, e, a1, a2, a3⟩ := insSort_nodup_tail d1 nr opt (by omega) hb hopt ord
  simp only [Option.some.injEq] at e
  refine ⟨n, d, ?_, a1, by rw [a2, h2], by rw [a3, hd]⟩
  simp only [quickSort, atInt_of_lt (show nr < 2 ^ 31 by omega), e1, e2, e]

theorem parSort_nodup_tail (w : Workers) (data : List T) (nr opt : Nat) (nthread : Int)
    (hnr : nr ≤ data.length) (hb : nr < 2 ^ 30) (hopt : opt &&& CasaSort.NoDuplicates ≠ 0) :
    TailSpec data nr (fun ord => parSort w data nr ord opt nthread) := by
  by_cases h0 : nr = 0
  · subst h0
    intro ord
    exact ⟨0, data, parSort_zero w data ord opt nthread, le_refl _, rfl, rfl⟩
  obtain ⟨n1, n2, -⟩ := numThreads_spec w nthread nr
  obtain ⟨c1, -⟩ := parSort_core data nr (numThreads w nthread nr) n1 (n2 (by omega)) hnr
    (fun j => decide (rd data (j - 1) > rd data j))
    (fun i => decide (rd data (rd (sliceBounds nr (numThreads w nthread nr)) i - 1) >
      rd data (rd (sliceBounds nr (numThreads w nthread nr)) i)))
    (fun _ => rfl) (fun _ _ _ => rfl)
  by_cases hlt : (findRuns (fun j => decide (rd data (j - 1) > rd data j))
    (fun i => decide (rd data (rd (sliceBounds nr (numThreads w nthread nr)) i - 1) >
      rd data (rd (sliceBounds nr (numThreads w nthread nr)) i)))
    nr (numThreads w nthread nr)).2 < nr
  · obtain ⟨m, a, idx, e, -, -, l1, l2, fr⟩ := c1 hlt
    obtain ⟨t1, t2, t3⟩ := insSortAscNoDup_tail (m.buf a) nr l2
    generalize hr : insSortAscNoDup (m.buf a) nr = r at t1 t2 t3
    have hml : (if a then m.data else r.2).length = data.length := by
      cases a
      · simp only [Bool.false_eq_true, if_false, t2, Bufs.buf]; exact l1
      · simpa using l1
    have hmd : (if a then m.data else r.2).drop nr = data.drop nr := by
      cases a
      · simp only [Bool.false_eq_true, if_false, t3, Bufs.buf]; exact fr
      · simpa using fr
    have fin : ∀ X : List T, X.length = r.1 →
        (X ++ (if a then m.data else r.2).drop r.1).length = data.length ∧
        (X ++ (if a then m.data else r.2).drop r.1).drop nr = data.drop nr := by
      intro X hX
      constructor
      · rw [List.length_append, List.length_drop, hX, hml]; omega
      · rw [List.drop_append_eq_append_drop, hX, List.drop_of_length_le (by omega),
          List.nil_append, List.drop_drop, ← hmd]
        congr 1; omega
    intro ord
    by_cases ho : ord = CasaSort.Order.Descending
    · obtain ⟨f1, f2⟩ := fin (r.2.take r.1).reverse (by simp; omega)
      refine ⟨r.1, _, ?_, t1, f1, f2⟩
      simp only [parSort, atInt_of_lt (show nr < 2 ^ 31 by omega), if_pos hlt, e, hopt, ne_eq,
        not_false_eq_true, if_true, hr, ho]
      rw [Gen.tail_desc m.data r.2 a r.1 (by omega) (by omega)]
    · obtain ⟨f1, f2⟩ := fin (r.2.take r.1) (by simp; omega)
      refine ⟨r.1, _, ?_, t1, f1, f2⟩
      simp only [parSort, atInt_of_lt (show nr < 2 ^ 31 by omega), if_pos hlt, e, hopt, ne_eq,
        not_false_eq_true, if_true, hr, if_neg ho]
      rw [ite_some_pair, Gen.tail_asc m.data r.2 a r.1 (by omega) (by omega)]
  · intro ord
    by_cases ho : ord = CasaSort.Order.Ascending
    · obtain ⟨r1, r2⟩ := reverse_tail data nr nr (le_refl _) hnr
      exact ⟨nr, _, by simp only [parSort, if_neg hlt, if_pos ho], le_refl _, r1, r2⟩
    · exact ⟨nr, data, by simp only [parSort, if_neg hlt, if_neg ho], le_refl _, rfl, rfl⟩

theorem sort_nodup_tail (w : Workers) (data : List T) (nr : Nat) (s : Selector)
    (hnr : nr ≤ data.length) (hb : nr < 2 ^ 30) :
    TailSpec data nr (fun ord => sort w data nr ord s.noDup) := by
  simp only [sort_eq_noDup]
  cases s
  · by_cases h : nr < 1000 ∨ w.getD 1 = 1
    · simp only [if_pos h]; exact quickSort_nodup_tail data nr _ hnr hb (by decide)
    · simp only [if_neg h]; exact parSort_nodup_tail w data nr _ 0 hnr hb (by decide)
  · exact quickSort_nodup_tail data nr _ hnr hb (by decide)
  · exact heapSort_nodup_tail data nr _ hnr hb (by decide)
  · exact insSort_nodup_tail data nr _ hnr hb (by decide)
  · exact parSort_nodup_tail w data nr _ 0 hnr hb (by decide)

end GenSort

/-! ## The length argument of `sort` -/

namespace GenSort

variable {T : Type} [LinearOrder T] [Inhabited T]

omit [Inhabited T] in
/-- The sorted permutation of a list is its insertion-sorted copy. -/
theorem keep_canon {asc X : List T} (hp : asc.Perm X) (hs : asc.Pairwise (fun x y => x ≤ y)) :
    asc = X.insertionSort (· ≤ ·) :=
  List.eq_of_perm_of_sorted (hp.trans (List.perm_insertionSort (· ≤ ·) X).symm) hs
    (List.sorted_insertionSort (· ≤ ·) X)

/-- The strictly increasing list with the members of a list is the insertion-sorted copy of
the list without its duplicates. -/
theorem nodup_canon {asc X : List T} (hs : asc.Sorted (· < ·)) (hm : ∀ v, v ∈ asc ↔ v ∈ X) :
    asc = (X.dedup).insertionSort (· ≤ ·) := by
  have hp := List.perm_insertionSort (· ≤ ·) X.dedup
  apply strict_unique hs
  · exact (List.sorted_insertionSort (· ≤ ·) X.dedup).lt_of_le
      (hp.nodup_iff.2 (List.nodup_dedup X))
  · intro v
    rw [hm, hp.mem_iff, List.mem_dedup]

/-- The direct sort of the first `nr` cells, duplicates kept, as a function of those cells:
their sorted copy, followed by the other cells as they were. -/
theorem sort_keep_canon (w : Workers) (data : List T) (nr : Nat) (s : Selector)
    (O : CasaSort.Order) (hnr : nr ≤ data.length) (hb : nr < 2 ^ 30) :
    sort w data nr O s.keep =
      some (nr, (if O = CasaSort.Order.Ascending then (data.take nr).insertionSort (· ≤ ·)
        else ((data.take nr).insertionSort (· ≤ ·)).reverse) ++ data.drop nr) := by
  obtain ⟨asc, h1, h2, h3, h4⟩ := sort_keep w data nr s hnr hb
  have e := keep_canon h1 (h2.imp (fun h => h))
  rw [← e]
  cases O
  · simpa using h3
  · simpa using h4

/-- The direct sort of the first `nr` cells, duplicates dropped, as a function of those
cells: the sorted copy of their distinct values, then cells that are not specified, up to
`nr` cells in all, then the other cells as they were. -/
theorem sort_nodup_canon (w : Workers) (data : List T) (nr : Nat) (s : Selector)
    (O : CasaSort.Order) (hnr : nr ≤ data.length) (hb : nr < 2 ^ 30) :
    ∃ g : List T,
      sort w data nr O s.noDup =
        some (((data.take nr).dedup.insertionSort (· ≤ ·)).length,
          (if O = CasaSort.Order.Ascending then (data.take nr).dedup.insertionSort (· ≤ ·)
            else ((data.take nr).dedup.insertionSort (· ≤ ·)).reverse) ++ g ++ data.drop nr) ∧
      ((data.take nr).dedup.insertionSort (· ≤ ·)).length + g.length = nr := by
  obtain ⟨asc, rest, h1, h2, h3, h4, h5, h6⟩ := sort_nodup w data nr s hnr hb
  have hm : ∀ v, v ∈ asc ↔ v ∈ data.take nr := by
    intro v
    refine ⟨h2 v, fun hv => ?_⟩
    obtain ⟨x, hx, e⟩ := h3 v hv
    simp only [id] at e
    rwa [← e]
  have e := nodup_canon (h1.imp (fun h => h)) hm
  rw [← e]
  have fin : ∀ X : List T, X.length = asc.length →
      ∀ n d, some (asc.length, X ++ rest) = some (n, d) → n ≤ nr → d.drop nr = data.drop nr →
      X ++ rest = X ++ rest.take (nr - asc.length) ++ data.drop nr ∧
        asc.length + (rest.take (nr - asc.length)).length = nr := by
    intro X hX n d hnd hn hd
    simp only [Option.some.injEq, Prod.mk.injEq] at hnd
    obtain ⟨e1, e2⟩ := hnd
    subst e1 e2
    have hdrop : rest.drop (nr - asc.length) = data.drop nr := by
      rw [← hd, List.drop_append_eq_append_drop,
        List.drop_of_length_le (show X.length ≤ nr by omega), List.nil_append, hX]
    constructor
    · rw [List.append_assoc, ← hdrop, List.take_append_drop]
    · rw [List.length_take]
      omega
  obtain ⟨n, d, e', a1, -, a3⟩ := sort_nodup_tail w data nr s hnr hb O
  simp only at h5 h6 e'
  cases O
  · rw [h5] at e'
    obtain ⟨f1, f2⟩ := fin asc rfl n d e' a1 a3
    refine ⟨rest.take (nr - asc.length), ?_, f2⟩
    rw [h5, if_pos rfl, ← f1]
  · rw [h6] at e'
    obtain ⟨f1, f2⟩ := fin asc.reverse (by simp) n d e' a1 a3
    refine ⟨rest.take (nr - asc.length), ?_, f2⟩
    rw [h6, if_neg (by decide), ← f1]

end GenSort

/-- C40, on the code.  For a block `data` of `m` cells, a requested length `nr` with
`min(nr, m)` below `2^30` (a length of 0 with the selector Parallel apart, see C33), every
order, selector and number of workers, `sort (Block, nr, ...)` works on the first
`min(nr, m)` cells.  With duplicates kept it returns `min(nr, m)` and leaves the sorted copy
of those cells (backwards for Descending) followed by the cells from `min(nr, m)` on as they
were.  With duplicates dropped it returns the number `R <= min(nr, m)` of distinct values
among those cells and leaves their sorted copy, then `min(nr, m) - R` cells that are not
specified, then the cells from `min(nr, m)` on as they were.  Likewise `sort (data, nr, ...)`
on a buffer of more than `nr` cells: the count and the sorted cells are a function of the
first `nr` cells alone, and the cells from `nr` on come back as they were; on
`[5,3,3,1,4,0,9]` with `nr = 5` the buffer left is `[1,3,3,4,5,0,9]`.  At `nr = 2^31` on a
block of `2^31` cells the claim fails, by the conversion of the `uInt` length to the `Int nr`
of the kernels: with the selector Quicksort, Heapsort or Insertion the first `2^31` cells
are returned as they were, here `wideInput`, which is not in ascending order. -/
theorem C40_length_argument_frame {T : Type} [LinearOrder T] [Inhabited T]
    (w : Workers) (data : List T) (nr : Nat) (O : CasaSort.Order) (s : Selector) :
    (min nr data.length < 2 ^ 30 → (min nr data.length = 0 → s ≠ Selector.Parallel) →
      GenSort.sortBlock w data nr O s.keep =
        some (min nr data.length,
          (if O = CasaSort.Order.Ascending then
            (data.take (min nr data.length)).insertionSort (· ≤ ·)
            else ((data.take (min nr data.length)).insertionSort (· ≤ ·)).reverse) ++
          data.drop (min nr data.length)) ∧
      (∃ g : List T,
        GenSort.sortBlock w data nr O s.noDup =
          some (((data.take (min nr data.length)).dedup.insertionSort (· ≤ ·)).length,
            (if O = CasaSort.Order.Ascending then
              (data.take (min nr data.length)).dedup.insertionSort (· ≤ ·)
              else ((data.take (min nr data.length)).dedup.insertionSort (· ≤ ·)).reverse) ++
            g ++ data.drop (min nr data.length)) ∧
        ((data.take (min nr data.length)).dedup.insertionSort (· ≤ ·)).length + g.length =
          min nr data.length)) ∧
    (nr ≤ data.length → nr < 2 ^ 30 → (nr = 0 → s ≠ Selector.Parallel) →
      GenSort.sort w data nr O s.keep =
        some (nr,
          (if O = CasaSort.Order.Ascending then (data.take nr).insertionSort (· ≤ ·)
            else ((data.take nr).insertionSort (· ≤ ·)).reverse) ++ data.drop nr) ∧
      ∃ g : List T,
        GenSort.sort w data nr O s.noDup =
          some (((data.take nr).dedup.insertionSort (· ≤ ·)).length,
            (if O = CasaSort.Order.Ascending then (data.take nr).dedup.insertionSort (· ≤ ·)
              else ((data.take nr).dedup.insertionSort (· ≤ ·)).reverse) ++
            g ++ data.drop nr) ∧
        ((data.take nr).dedup.insertionSort (· ≤ ·)).length + g.length = nr) ∧
    GenSort.sort w [5, 3, 3, 1, 4, 0, 9] 5 CasaSort.Order.Ascending s.keep =
      some (5, [1, 3, 3, 4, 5, 0, 9]) ∧
    GenSort.wideInput.length = 2 ^ 31 ∧
    (∀ s', s' = Selector.Quicksort ∨ s' = Selector.Heapsort ∨ s' = Selector.Insertion →
      GenSort.sortBlock w GenSort.wideInput (2 ^ 31) CasaSort.Order.Ascending s'.keep =
        some (2 ^ 31, GenSort.wideInput)) ∧
    ¬ GenSort.wideInput.Sorted (· ≤ ·) := by
  refine ⟨fun hb _ => ⟨?_, ?_⟩, fun hnr hb _ => ⟨GenSort.sort_keep_canon w data nr s O hnr hb,
    GenSort.sort_nodup_canon w data nr s O hnr hb⟩, ?_, GenSort.wideInput_length, ?_,
    GenSort.wideInput_not_sorted⟩
  · exact GenSort.sort_keep_canon w data (min nr data.length) s O (Nat.min_le_right _ _) hb
  · exact GenSort.sort_nodup_canon w data (min nr data.length) s O (Nat.min_le_right _ _) hb
  · rw [GenSort.sort_keep_canon w [5, 3, 3, 1, 4, 0, 9] 5 s CasaSort.Order.Ascending
      (by decide) (by norm_num)]
    decide
  · intro s' hs
    unfold GenSort.sortBlock
    rw [GenSort.wideInput_length, Nat.min_self]
    exact (GenSort.sort_wide w GenSort.wideInput s' hs).1

/-! ## The cells the partition scans read -/

namespace GenSort

variable {T : Type} [LinearOrder T] [Inhabited T]

/-- The upward scan with a cell `>= par` ahead: it stops at or before that cell and reads
nothing behind it. -/
theorem scanUpLog_spec (par : T) (d : List T) (fuel : Nat) :
    ∀ (sf m : Nat), sf < m → m ≤ sf + fuel → par ≤ rd d m →
      ∃ s l, scanUpLog par d fuel sf = some (s, l) ∧ scanUp par d fuel sf = some s ∧
        l ≠ [] ∧ ∀ p, p ∈ l → (sf : Int) < p ∧ p ≤ (m : Int) := by
  induction fuel with
  | zero => intro sf m h1 h2 _; omega
  | succ fuel ih =>
    intro sf m h1 h2 hm
    by_cases hlt : rd d (sf + 1) < par
    · have hne : sf + 1 ≠ m := by
        intro h; rw [h] at hlt; exact absurd hlt (not_lt.2 hm)
      obtain ⟨s, l, e1, e2, -, hl⟩ := ih (sf + 1) m (by omega) (by omega) hm
      refine ⟨s, ((sf : Int) + 1) :: l, by simp only [scanUpLog, if_pos hlt, e1],
        by simp only [scanUp, if_pos hlt, e2], by simp, ?_⟩
      intro p hp
      rcases List.mem_cons.1 hp with rfl | hp
      · omega
      · have := hl p hp
        push_cast at this
        omega
    · refine ⟨sf + 1, [(sf : Int) + 1], by simp only [scanUpLog, if_neg hlt],
        by simp only [scanUp, if_neg hlt], by simp, ?_⟩
      intro p hp
      rw [List.mem_singleton] at hp
      omega

/-- The downward scan with a cell `<= par` below: it stops at or after that cell and reads
nothing before it. -/
theorem scanDownLog_spec (par : T) (d : List T) (fuel : Nat) :
    ∀ (sl m : Nat), m < sl → sl ≤ m + fuel → rd d m ≤ par →
      ∃ s l, scanDownLog par d fuel sl = some (s, l) ∧ scanDown par d fuel sl = some s ∧
        l ≠ [] ∧ ∀ p, p ∈ l → (m : Int) ≤ p ∧ p < (sl : Int) := by
  induction fuel with
  | zero => intro sl m h1 h2 _; omega
  | succ fuel ih =>
    intro sl m h1 h2 hm
    by_cases hgt : rd d (sl - 1) > par
    · have hne : sl - 1 ≠ m := by
        intro h; rw [h] at hgt; exact absurd hgt (not_lt.2 hm)
      obtain ⟨s, l, e1, e2, -, hl⟩ := ih (sl - 1) m (by omega) (by omega) hm
      refine ⟨s, ((sl : Int) - 1) :: l, by simp only [scanDownLog, if_pos hgt, e1],
        by simp only [scanDown, if_pos hgt, e2], by simp, ?_⟩
      intro p hp
      rcases List.mem_cons.1 hp with rfl | hp
      · omega
      · have := hl p hp
        omega
    · refine ⟨sl - 1, [(sl : Int) - 1], by simp only [scanDownLog, if_neg hgt],
        by simp only [scanDown, if_neg hgt], by simp, ?_⟩
      intro p hp
      rw [List.mem_singleton] at hp
      omega

/-- The partition loop reads no cell outside `lo .. hi`, and the logged loop returns what the
loop returns. -/
theorem partitionLoopLog_spec (par : T) (lo hi : Nat) (fuel : Nat) :
    ∀ (d : List T) (sf sl : Nat), lo ≤ sf → sf < sl → sl ≤ hi → hi < d.length →
      sl - sf ≤ fuel →
      (∀ p, lo ≤ p → p ≤ sf → rd d p ≤ par) →
      (∀ p, sl ≤ p → p ≤ hi → par ≤ rd d p) →
      (∃ m, sf < m ∧ m < hi ∧ par ≤ rd d m) →
      ∃ r l, partitionLoopLog par lo hi fuel d sf sl = some (r, l) ∧
        partitionLoop par lo hi fuel d sf sl = some r ∧ l ≠ [] ∧
        ∀ p, p ∈ l → (lo : Int) ≤ p ∧ p ≤ (hi : Int) := by
  induction fuel with
  | zero => intro d sf sl _ h1 _ _ h2; omega
  | succ fuel ih =>
    intro d sf sl hlo hlt hhi hlen hfuel hleft hright hstop
    obtain ⟨m, hm1, hm2, hm3⟩ := hstop
    obtain ⟨sf1, e1, a1, a2, a3, a4⟩ := scanUp_spec par d (hi - sf) sf m hm1 (by omega) hm3
    obtain ⟨sf1', l1, f1, f1', n1, g1⟩ :=
      scanUpLog_spec par d (hi - sf) sf m hm1 (by omega) hm3
    obtain ⟨sl1, e2, b1, b2, b3, b4⟩ :=
      scanDown_spec par d (sl - lo) sl sf hlt (by omega) (hleft sf hlo (Nat.le_refl _))
    obtain ⟨sl1', l2, f2, f2', n2, g2⟩ :=
      scanDownLog_spec par d (sl - lo) sl sf hlt (by omega) (hleft sf hlo (Nat.le_refl _))
    rw [e1, Option.some.injEq] at f1'
    rw [e2, Option.some.injEq] at f2'
    subst f1' f2'
    have hb12 : ∀ p, p ∈ l1 ++ l2 → (lo : Int) ≤ p ∧ p ≤ (hi : Int) := by
      intro p hp
      rcases List.mem_append.1 hp with hp | hp
      · have := g1 p hp; omega
      · have := g2 p hp; omega
    by_cases hcross : sf1 ≥ sl1
    · exact ⟨(d, sf1), l1 ++ l2, by simp only [partitionLoopLog, f1, f2, if_pos hcross],
        by simp only [partitionLoop, e1, e2, if_pos hcross], by simp [n1], hb12⟩
    · have hlt1 : sf1 < sl1 := by omega
      have hsf1 : sf1 < d.length := by omega
      have hsl1 : sl1 < d.length := by omega
      obtain ⟨r, l3, e3, e3', -, g3⟩ :=
        ih (swap d sf1 sl1) sf1 sl1 (by omega) hlt1 (by omega) (by simpa using hlen)
          (by omega)
          (by
            intro p hp1 hp2
            rw [rd_swap _ _ hsf1 hsl1]
            have h1 : ¬ p = sl1 := by omega
            by_cases hpe : p = sf1
            · rw [hpe, if_neg (by omega), if_pos rfl]; exact b3
            · simp only [h1, hpe, if_false]
              by_cases hps : p ≤ sf
              · exact hleft p hp1 hps
              · exact le_of_lt (a4 p (by omega) (by omega)))
          (by
            intro p hp1 hp2
            rw [rd_swap _ _ hsf1 hsl1]
            by_cases hpe : p = sl1
            · rw [hpe, if_pos rfl]; exact a3
            · have h1 : ¬ p = sf1 := by omega
              simp only [h1, hpe, if_false]
              by_cases hps : sl ≤ p
              · exact hright p hps hp2
              · exact le_of_lt (b4 p (by omega) (by omega)))
          ⟨sl1, hlt1, by omega, by rw [rd_swap _ _ hsf1 hsl1, if_pos rfl]; exact a3⟩
      refine ⟨r, l1 ++ l2 ++ l3,
        by simp only [partitionLoopLog, f1, f2, if_neg hcross, e3],
        by simp only [partitionLoop, e1, e2, if_neg hcross, e3'], by simp [n1], ?_⟩
      intro p hp
      rcases List.mem_append.1 hp with hp | hp
      · exact hb12 p hp
      · exact g3 p hp

/-- The partition of the range `lo .. hi` after the median of three: the scans read no cell
outside the range. -/
theorem partition_step_log (d : List T) (lo hi : Nat) (h1 : lo + 1 < hi) (h3 : hi < d.length)
    (fuel : Nat) (hfuel : hi - lo ≤ fuel) :
    ∃ r l, partitionLoopLog (rd (median3 d lo ((lo + hi) / 2) hi) hi) lo hi fuel
        (median3 d lo ((lo + hi) / 2) hi) lo hi = some (r, l) ∧
      partitionLoop (rd (median3 d lo ((lo + hi) / 2) hi) hi) lo hi fuel
        (median3 d lo ((lo + hi) / 2) hi) lo hi = some r ∧ l ≠ [] ∧
      ∀ p, p ∈ l → (lo : Int) ≤ p ∧ p ≤ (hi : Int) := by
  obtain ⟨m1, m2, m3, -, -⟩ := median3_spec d lo ((lo + hi) / 2) hi
    (by omega) (by omega) h3
  generalize median3 d lo ((lo + hi) / 2) hi = d0 at m1 m2 m3 ⊢
  exact partitionLoopLog_spec (rd d0 hi) lo hi fuel d0 lo hi (Nat.le_refl _) (by omega)
    (Nat.le_refl _) (by omega) hfuel
    (by intro p hp1 hp2; have : p = lo := by omega
        subst this; exact m1)
    (by intro p hp1 hp2; have : p = hi := by omega
        subst this; exact le_refl _)
    ⟨(lo + hi) / 2, by omega, by omega, m2⟩

end GenSort

/-! ## The cells the partition scans of the indirect engine read -/

namespace GenSortIndirect

variable {T : Type} [LinearOrder T] [Inhabited T]

open GenSort (rd swap_perm rd_swap)

theorem ind_scanUpLog_spec (data : List T) (partInx : Nat) (inx : List Nat) (fuel : Nat) :
    ∀ (sf m : Nat), sf ≤ m → m < sf + fuel →
      ¬ (lexKey data (rd inx m) < lexKey data partInx) →
      ∃ s l, scanUpLog data (rd data partInx) partInx inx fuel sf = some (s, l) ∧
        scanUp data (rd data partInx) partInx inx fuel sf = some s ∧ l ≠ [] ∧
        ∀ p, p ∈ l → (sf : Int) ≤ p ∧ p ≤ (m : Int) := by
  induction fuel with
  | zero => intro sf m h1 h2 _; omega
  | succ fuel ih =>
    intro sf m h1 h2 hm
    by_cases hc : lexKey data (rd inx sf) < lexKey data partInx
    · have hne : sf ≠ m := by
        intro h; rw [h] at hc; exact hm hc
      obtain ⟨s, l, e1, e2, -, hl⟩ := ih (sf + 1) m (by omega) (by omega) hm
      refine ⟨s, (sf : Int) :: l, ?_, ?_, by simp, ?_⟩
      · simp only [scanUpLog, if_pos ((upCond_iff data partInx _).2 hc), e1]
      · simp only [scanUp, if_pos ((upCond_iff data partInx _).2 hc), e2]
      · intro p hp
        rcases List.mem_cons.1 hp with rfl | hp
        · omega
        · have := hl p hp
          push_cast at this
          omega
    · refine ⟨sf, [(sf : Int)], ?_, ?_, by simp, ?_⟩
      · simp only [scanUpLog, if_neg (fun h => hc ((upCond_iff data partInx _).1 h))]
      · simp only [scanUp, if_neg (fun h => hc ((upCond_iff data partInx _).1 h))]
      · intro p hp
        rw [List.mem_singleton] at hp
        omega

theorem ind_scanDownLog_spec (data : List T) (partInx : Nat) (inx : List Nat) (fuel : Nat) :
    ∀ (sl m : Nat), m ≤ sl → sl < m + fuel →
      ¬ (lexKey data partInx < lexKey data (rd inx m)) →
      ∃ s l, scanDownLog data (rd data partInx) partInx inx fuel (sl : Int) = some (s, l) ∧
        scanDown data (rd data partInx) partInx inx fuel sl = some s ∧ l ≠ [] ∧
        ∀ p, p ∈ l → (m : Int) ≤ p ∧ p ≤ (sl : Int) := by
  induction fuel with
  | zero => intro sl m h1 h2 _; omega
  | succ fuel ih =>
    intro sl m h1 h2 hm
    by_cases hc : lexKey data partInx < lexKey data (rd inx sl)
    · have hne : sl ≠ m := by
        intro h; rw [h] at hc; exact hm hc
      obtain ⟨s, l, e1, e2, -, hl⟩ := ih (sl - 1) m (by omega) (by omega) hm
      have hcast : ((sl - 1 : Nat) : Int) = (sl : Int) - 1 := by omega
      rw [hcast] at e1
      refine ⟨s, (sl : Int) :: l, ?_, ?_, by simp, ?_⟩
      · simp only [scanDownLog, Int.toNat_ofNat,
          if_pos ((downCond_iff data partInx _).2 hc), e1]
      · simp only [scanDown, if_pos ((downCond_iff data partInx _).2 hc), e2]
      · intro p hp
        rcases List.mem_cons.1 hp with rfl | hp
        · omega
        · have := hl p hp
          omega
    · refine ⟨sl, [(sl : Int)], ?_, ?_, by simp, ?_⟩
      · simp only [scanDownLog, Int.toNat_ofNat,
          if_neg (fun h => hc ((downCond_iff data partInx _).1 h))]
      · simp only [scanDown, if_neg (fun h => hc ((downCond_iff data partInx _).1 h))]
      · intro p hp
        rw [List.mem_singleton] at hp
        omega

/-- The indirect partition loop reads no cell of the index array outside `0 .. hi`, and the
logged loop returns what the loop returns. -/
theorem ind_partitionLoopLog_spec (data : List T) (partInx hi : Nat) (fuel : Nat) :
    ∀ (inx : List Nat) (sf sl : Nat), 1 ≤ sf → sf < sl → sl < hi → hi < inx.length →
      rd inx hi = partInx → (∀ p, p < hi → rd inx p ≠ partInx) →
      ((lexKey data (rd inx sf) < lexKey data partInx ∧
          lexKey data partInx < lexKey data (rd inx sl) ∧ sl ≤ sf + fuel) ∨
        sl + 2 ≤ sf + fuel) →
      (∀ p, p < sf → lexKey data (rd inx p) ≤ lexKey data partInx) →
      (∀ p, sl < p → p ≤ hi → lexKey data partInx ≤ lexKey data (rd inx p)) →
      ∃ r l, partitionLoopLog data (rd data partInx) partInx hi fuel inx sf sl = some (r, l) ∧
        partitionLoop data (rd data partInx) partInx hi fuel inx sf sl = some r ∧ l ≠ [] ∧
        ∀ p, p ∈ l → (0 : Int) ≤ p ∧ p ≤ (hi : Int) := by
  induction fuel with
  | zero => intro inx sf sl _ h1 _ _ _ _ h2; omega
  | succ fuel ih =>
    intro inx sf sl h1 hlt hhi hlen hpiv hne hfuel hleft hright
    have hkp : ¬ (lexKey data (rd inx hi) < lexKey data partInx) := by
      rw [hpiv]; exact lt_irrefl _
    obtain ⟨sf1, e1, a1, a2, a3, a4⟩ :=
      ind_scanUp_spec data partInx inx (hi - sf + 1) sf hi (by omega) (by omega) hkp
    obtain ⟨sf1', l1, f1, f1', n1, g1⟩ :=
      ind_scanUpLog_spec data partInx inx (hi - sf + 1) sf hi (by omega) (by omega) hkp
    have hk0 : ¬ (lexKey data partInx < lexKey data (rd inx 0)) :=
      not_lt.2 (hleft 0 (by omega))
    obtain ⟨sl1, e2, b1, b2, b3, b4⟩ :=
      ind_scanDown_spec data partInx inx (sl + 1) sl 0 (Nat.zero_le _) (by omega) hk0
    obtain ⟨sl1', l2, f2, f2', n2, g2⟩ :=
      ind_scanDownLog_spec data partInx inx (sl + 1) sl 0 (Nat.zero_le _) (by omega) hk0
    rw [e1, Option.some.injEq] at f1'
    rw [e2, Option.some.injEq] at f2'
    subst f1' f2'
    have hb12 : ∀ p, p ∈ l1 ++ l2 → (0 : Int) ≤ p ∧ p ≤ (hi : Int) := by
      intro p hp
      rcases List.mem_append.1 hp with hp | hp
      · have := g1 p hp; omega
      · have := g2 p hp
        push_cast at this
        omega
    by_cases hcross : sf1 ≥ sl1
    · exact ⟨(inx, sf1), l1 ++ l2, by simp only [partitionLoopLog, f1, f2, if_pos hcross],
        by simp only [partitionLoop, e1, e2, if_pos hcross], by simp [n1], hb12⟩
    · have hlt1 : sf1 < sl1 := by omega
      have hsf1 : sf1 < inx.length := by omega
      have hsl1 : sl1 < inx.length := by omega
      have hmove : sl1 ≤ sf1 + fuel := by
        rcases hfuel with ⟨s1, s2, s3⟩ | h
        · have : sf1 ≠ sf := by
            intro h; rw [h] at a3; exact a3 s1
          have : sl1 ≠ sl := by
            intro h; rw [h] at b3; exact b3 s2
          omega
        · omega
      have hsf1k : lexKey data partInx < lexKey data (rd inx sf1) := by
        rcases lt_or_eq_of_le (not_lt.1 a3) with h | h
        · exact h
        · exact absurd (lexKey_inj data h).symm (hne sf1 (by omega))
      have hsl1k : lexKey data (rd inx sl1) < lexKey data partInx := by
        rcases lt_or_eq_of_le (not_lt.1 b3) with h | h
        · exact h
        · exact absurd (lexKey_inj data h) (hne sl1 (by omega))
      have hrs : ∀ p, rd (swapInx inx sf1 sl1) p =
          if p = sl1 then rd inx sf1 else if p = sf1 then rd inx sl1 else rd inx p :=
        fun p => rd_swap inx p hsf1 hsl1
      obtain ⟨r, l3, e3, e3', -, g3⟩ :=
        ih (swapInx inx sf1 sl1) sf1 sl1 (by omega) hlt1 (by omega)
          (by simp [swapInx]; omega)
          (by rw [hrs, if_neg (by omega), if_neg (by omega)]; exact hpiv)
          (by
            intro p hp
            rw [hrs]
            by_cases h1 : p = sl1
            · rw [if_pos h1]; exact hne sf1 (by omega)
            · rw [if_neg h1]
              by_cases h2 : p = sf1
              · rw [if_pos h2]; exact hne sl1 (by omega)
              · rw [if_neg h2]; exact hne p hp)
          (Or.inl ⟨by rw [hrs, if_neg (by omega), if_pos rfl]; exact hsl1k,
            by rw [hrs, if_pos rfl]; exact hsf1k, hmove⟩)
          (by
            intro p hp
            rw [hrs, if_neg (by omega), if_neg (by omega)]
            by_cases hps : p < sf
            · exact hleft p hps
            · exact le_of_lt (a4 p (by omega) hp))
          (by
            intro p hp1 hp2
            rw [hrs, if_neg (by omega), if_neg (by omega)]
            by_cases hps : sl < p
            · exact hright p hps hp2
            · exact le_of_lt (b4 p hp1 (by omega)))
      refine ⟨r, l1 ++ l2 ++ l3,
        by simp only [partitionLoopLog, f1, f2, if_neg hcross, e3],
        by simp only [partitionLoop, e1, e2, if_neg hcross, e3'], by simp [n1], ?_⟩
      intro p hp
      rcases List.mem_append.1 hp with hp | hp
      · exact hb12 p hp
      · exact g3 p hp

/-- The partition of the indirect `quickSortAsc` on `nr > 32` pairwise different entries: the
scans read no cell of the index array outside `0 .. nr-1`. -/
theorem ind_partition_step_log (data : List T) (inx : List Nat) (nr : Nat) (h32 : 32 < nr)
    (hnr : nr ≤ inx.length) (hnd : (inx.take nr).Nodup) :
    ∃ r l, partitionLoopLog data
        (rd data (rd (median3 data inx 0 ((nr - 1) / 2) (nr - 1)) (nr - 1)))
        (rd (median3 data inx 0 ((nr - 1) / 2) (nr - 1)) (nr - 1)) (nr - 1) nr
        (median3 data inx 0 ((nr - 1) / 2) (nr - 1)) (0 + 1) (nr - 1 - 1) = some (r, l) ∧
      partitionLoop data
        (rd data (rd (median3 data inx 0 ((nr - 1) / 2) (nr - 1)) (nr - 1)))
        (rd (median3 data inx 0 ((nr - 1) / 2) (nr - 1)) (nr - 1)) (nr - 1) nr
        (median3 data inx 0 ((nr - 1) / 2) (nr - 1)) (0 + 1) (nr - 1 - 1) = some r ∧
      l ≠ [] ∧ ∀ p, p ∈ l → (0 : Int) ≤ p ∧ p ≤ ((nr - 1 : Nat) : Int) := by
  obtain ⟨m1, m2, m3, m4, m5⟩ := ind_median3_spec data inx 0 ((nr - 1) / 2) (nr - 1)
    (by omega) (by omega) (by omega)
  generalize hx0 : median3 data inx 0 ((nr - 1) / 2) (nr - 1) = x0 at m1 m2 m3 m4 m5
  have hnd0 : (x0.take nr).Nodup := by
    have hp : (x0.take nr).Perm (inx.take nr) :=
      GenSort.take_perm_of_drop_eq nr m4
        (GenSort.drop_eq_of_rd nr m3 (fun p hp _ => m5 p (by omega) (by omega) (by omega)))
    exact hp.nodup_iff.2 hnd
  have hne : ∀ p, p < nr - 1 → rd x0 p ≠ rd x0 (nr - 1) := fun p hp =>
    nodup_take_rd_ne (by omega) hnd0 (by omega) (by omega) (by omega)
  have hk0 : lexKey data (rd x0 0) ≤ lexKey data (rd x0 (nr - 1)) := m1
  exact ind_partitionLoopLog_spec data (rd x0 (nr - 1)) (nr - 1) nr x0 (0 + 1) (nr - 1 - 1)
    (by omega) (by omega) (by omega) (by omega) rfl hne (Or.inr (by omega))
    (by intro p hp
        have : p = 0 := by omega
        subst this; exact hk0)
    (by intro p hp1 hp2
        have : p = nr - 1 := by omega
        subst this; exact le_refl _)

end GenSortIndirect

/-! ## Safety of the partition scans -/

/-- C34: on a range of `nr > 32` cells the partition loop of `quickSortAsc` returns, and its
two unguarded scans read no cell outside the range `0 .. nr-1`, whatever the values: the
upward scan stops at or before the pivot in the last cell and the downward scan at or after
the first cell.  The same holds for the range `st .. end` of a round of `kthLargest`
(`end > st + 1`, any buffer), and for the scans of the indirect `quickSortAsc` over the index
array when its `nr` entries are pairwise different.  The positions read are logged as
integers by `partitionLoopLog`, which returns what `partitionLoop` returns. -/
theorem C34_partition_scan_safety {T : Type} [LinearOrder T] [Inhabited T]
    (data : List T) (nr : Nat) (h32 : 32 < nr) (hnr : nr ≤ data.length) :
    (∃ r l, GenSort.partitionLoopLog
          (GenSort.rd (GenSort.median3 data 0 ((nr - 1) / 2) (nr - 1)) (nr - 1)) 0 (nr - 1) nr
          (GenSort.median3 data 0 ((nr - 1) / 2) (nr - 1)) 0 (nr - 1) = some (r, l) ∧
        GenSort.partitionLoop
          (GenSort.rd (GenSort.median3 data 0 ((nr - 1) / 2) (nr - 1)) (nr - 1)) 0 (nr - 1) nr
          (GenSort.median3 data 0 ((nr - 1) / 2) (nr - 1)) 0 (nr - 1) = some r ∧
        l ≠ [] ∧ ∀ p, p ∈ l → (0 : Int) ≤ p ∧ p ≤ ((nr - 1 : Nat) : Int)) ∧
    (∀ (d : List T) (st en : Nat), st + 1 < en → en < d.length →
      ∃ r l, GenSort.partitionLoopLog
          (GenSort.rd (GenSort.median3 d st ((st + en) / 2) en) en) st en (en - st + 1)
          (GenSort.median3 d st ((st + en) / 2) en) st en = some (r, l) ∧
        GenSort.partitionLoop
          (GenSort.rd (GenSort.median3 d st ((st + en) / 2) en) en) st en (en - st + 1)
          (GenSort.median3 d st ((st + en) / 2) en) st en = some r ∧
        l ≠ [] ∧ ∀ p, p ∈ l → (st : Int) ≤ p ∧ p ≤ (en : Int)) ∧
    (∀ (inx : List Nat), nr ≤ inx.length → (inx.take nr).Nodup →
      ∃ r l, GenSortIndirect.partitionLoopLog data
          (GenSort.rd data
            (GenSort.rd (GenSortIndirect.median3 data inx 0 ((nr - 1) / 2) (nr - 1)) (nr - 1)))
          (GenSort.rd (GenSortIndirect.median3 data inx 0 ((nr - 1) / 2) (nr - 1)) (nr - 1))
          (nr - 1) nr (GenSortIndirect.median3 data inx 0 ((nr - 1) / 2) (nr - 1)) (0 + 1)
          (nr - 1 - 1) = some (r, l) ∧
        GenSortIndirect.partitionLoop data
          (GenSort.rd data
            (GenSort.rd (GenSortIndirect.median3 data inx 0 ((nr - 1) / 2) (nr - 1)) (nr - 1)))
          (GenSort.rd (GenSortIndirect.median3 data inx 0 ((nr - 1) / 2) (nr - 1)) (nr - 1))
          (nr - 1) nr (GenSortIndirect.median3 data inx 0 ((nr - 1) / 2) (nr - 1)) (0 + 1)
          (nr - 1 - 1) = some r ∧
        l ≠ [] ∧ ∀ p, p ∈ l → (0 : Int) ≤ p ∧ p ≤ ((nr - 1 : Nat) : Int)) := by
  refine ⟨?_, ?_, ?_⟩
  · have h := GenSort.partition_step_log data 0 (nr - 1) (by omega) (by omega) nr (by omega)
    rw [Nat.zero_add] at h
    exact h
  · intro d st en h1 h2
    exact GenSort.partition_step_log d st en h1 h2 (en - st + 1) (by omega)
  · intro inx hl hnd
    exact GenSortIndirect.ind_partition_step_log data inx nr h32 hl hnd

/-- C34 on 33 equal cells: both scans of the first round stop after one step, at the cells 1
and 31, and the loop goes on until they meet at cell 16. -/
theorem C34_partition_scan_witness :
    32 < 33 ∧ 33 ≤ (List.replicate 33 7).length ∧
    (∃ r l, GenSort.partitionLoopLog
          (GenSort.rd (GenSort.median3 (List.replicate 33 7) 0 ((33 - 1) / 2) (33 - 1))
            (33 - 1)) 0 (33 - 1) 33
          (GenSort.median3 (List.replicate 33 7) 0 ((33 - 1) / 2) (33 - 1)) 0 (33 - 1) =
          some (r, l) ∧
        GenSort.partitionLoop
          (GenSort.rd (GenSort.median3 (List.replicate 33 7) 0 ((33 - 1) / 2) (33 - 1))
            (33 - 1)) 0 (33 - 1) 33
          (GenSort.median3 (List.replicate 33 7) 0 ((33 - 1) / 2) (33 - 1)) 0 (33 - 1) =
          some r ∧
        l ≠ [] ∧ ∀ p, p ∈ l → (0 : Int) ≤ p ∧ p ≤ ((33 - 1 : Nat) : Int)) ∧
    (GenSort.partitionLoopLog 7 0 32 33 (List.replicate 33 7) 0 32).map
      (fun r => (r.1.2, r.2.take 4)) = some (16, [1, 31, 2, 30]) :=
  ⟨by decide, by decide,
    (C34_partition_scan_safety (List.replicate 33 7) 33 (by decide) (by decide)).1,
    by decide⟩

/-! ## The accesses of the run finding -/

namespace GenSort

/-- A fold that carries a log next to its state runs the fold on the state. -/
theorem foldl_fst_eq {σ ι A : Type} (f' : σ × A → ι → σ × A) (f : σ → ι → σ)
    (h : ∀ s x, (f' s x).1 = f s.1 x) :
    ∀ (xs : List ι) (init : σ × A), (xs.foldl f' init).1 = xs.foldl f init.1 := by
  intro xs
  induction xs with
  | nil => intro init; rfl
  | cons x xs ih => intro init; simp only [List.foldl_cons]; rw [ih, h]

theorem scanSliceLog_fst (inv : Nat → Bool) (tinx : List Nat) (i : Nat) (index : List Nat) :
    (scanSliceLog inv tinx i index).1 = scanSlice inv tinx i index := by
  unfold scanSliceLog scanSlice
  dsimp only
  apply foldl_fst_eq
  intro s j
  dsimp only
  split <;> rfl

theorem scanAllLog_fst (inv : Nat → Bool) (tinx : List Nat) (nthr : Nat) (index np : List Nat) :
    (scanAllLog inv tinx nthr index np).1 = scanAll inv tinx nthr index np := by
  unfold scanAllLog scanAll
  dsimp only
  apply foldl_fst_eq
  intro s i
  simp only [scanSliceLog_fst]

theorem stitchLog_fst (junc : Nat → Bool) (tinx np : List Nat) (nthr : Nat) (index : List Nat) :
    (stitchLog junc tinx np nthr index).1 = stitch junc tinx np nthr index := by
  unfold stitchLog stitch
  dsimp only
  apply foldl_fst_eq
  intro s i
  dsimp only
  by_cases hj : junc i = true
  · simp only [hj, if_true]
    split
    · rfl
    · exact foldl_fst_eq _ _ (fun _ _ => rfl) _ _
  · simp only [hj, Bool.false_eq_true, if_false]
    split
    · rfl
    · exact foldl_fst_eq _ _ (fun _ _ => rfl) _ _

/-- The logged run finding returns what `findRuns` returns. -/
theorem findRunsLog_fst (inv junc : Nat → Bool) (nr nthr : Nat) :
    (findRunsLog inv junc nr nthr).1 = findRuns inv junc nr nthr := by
  simp only [findRunsLog, findRuns, scanAllLog_fst, stitchLog_fst]

end GenSort

namespace GenSort

/-- The scan of a non-empty slice reads `data` and stores into `index` inside the slice
only, reads `tinx[i]` and `tinx[i+1]` and leaves `np` alone; it counts at most as many runs
as the slice has cells. -/
theorem scanSliceLog_bounds (inv : Nat → Bool) (tinx : List Nat) (i : Nat) (index : List Nat)
    (hlt : rd tinx i < rd tinx (i + 1)) :
    (scanSliceLog inv tinx i index).1.2 ≤ rd tinx (i + 1) - rd tinx i ∧
    ∀ a, a ∈ (scanSliceLog inv tinx i index).2 →
      ((a.arr = Arr.data ∨ a.arr = Arr.index) →
        rd tinx i ≤ a.pos ∧ a.pos < rd tinx (i + 1)) ∧
      (a.arr = Arr.tinx → a.pos = i ∨ a.pos = i + 1) ∧ a.arr ≠ Arr.np := by
  unfold scanSliceLog
  generalize rd tinx i = t at hlt ⊢
  generalize rd tinx (i + 1) = t' at hlt ⊢
  have h := Gen.foldl_range'_inv
    (fun (s : (List Nat × Nat) × List Access) j =>
      if inv j then
        ((s.1.1.set (t + s.1.2) j, s.1.2 + 1),
          s.2 ++ [⟨Arr.data, j - 1, false⟩, ⟨Arr.data, j, false⟩, ⟨Arr.tinx, i, false⟩,
            ⟨Arr.index, t + s.1.2, true⟩])
      else (s.1, s.2 ++ [⟨Arr.data, j - 1, false⟩, ⟨Arr.data, j, false⟩]))
    (fun k s => s.1.2 ≤ k - t ∧ ∀ a, a ∈ s.2 →
      ((a.arr = Arr.data ∨ a.arr = Arr.index) → t ≤ a.pos ∧ a.pos < t') ∧
      (a.arr = Arr.tinx → a.pos = i ∨ a.pos = i + 1) ∧ a.arr ≠ Arr.np)
    (t' - (t + 1)) (t + 1)
    ((index.set t t, 1),
      [⟨Arr.tinx, i, false⟩, ⟨Arr.index, t, true⟩, ⟨Arr.tinx, i + 1, false⟩])
    (by
      refine ⟨by simp, ?_⟩
      intro a ha
      simp only [List.mem_cons, List.mem_singleton, List.not_mem_nil, or_false] at ha
      rcases ha with rfl | rfl | rfl <;> simp <;> omega)
    (by
      rintro k ⟨⟨idx, n⟩, l⟩ hk1 hk2 ⟨h1, h2⟩
      dsimp only at h1 h2
      by_cases hinv : inv k = true
      · simp only [hinv, if_true]
        refine ⟨by omega, ?_⟩
        intro a ha
        rcases List.mem_append.1 ha with ha | ha
        · exact h2 a ha
        · simp only [List.mem_cons, List.mem_singleton, List.not_mem_nil, or_false] at ha
          rcases ha with rfl | rfl | rfl | rfl <;> simp <;> omega
      · simp only [hinv, Bool.false_eq_true, if_false]
        refine ⟨by omega, ?_⟩
        intro a ha
        rcases List.mem_append.1 ha with ha | ha
        · exact h2 a ha
        · simp only [List.mem_cons, List.mem_singleton, List.not_mem_nil, or_false] at ha
          rcases ha with rfl | rfl <;> simp <;> omega)
  have e : t + 1 + (t' - (t + 1)) = t' := by omega
  rw [e] at h
  exact h

/-- Every access of the scan loop is inside the array it goes to. -/
theorem scanAllLog_bounds (inv : Nat → Bool) (tinx : List Nat) (nr nthr : Nat)
    (hs : Slices tinx nr nthr) (index np : List Nat) :
    ∀ a, a ∈ (scanAllLog inv tinx nthr index np).2 → a.pos < Arr.size nr nthr a.arr := by
  unfold scanAllLog
  have h := Gen.foldl_range_inv
    (fun (s : (List Nat × List Nat) × List Access) i =>
      ((( scanSliceLog inv tinx i s.1.1).1.1, s.1.2.set i (scanSliceLog inv tinx i s.1.1).1.2),
        s.2 ++ (scanSliceLog inv tinx i s.1.1).2 ++ [⟨Arr.np, i, true⟩]))
    (fun _ s => ∀ a, a ∈ s.2 → a.pos < Arr.size nr nthr a.arr)
    nthr ((index, np), []) (by intro a ha; simp at ha)
    (by
      rintro m ⟨⟨idx, n⟩, l⟩ hm h1
      dsimp only at h1 ⊢
      have hle : rd tinx (m + 1) ≤ nr := hs.bound_le (m + 1) (by omega)
      obtain ⟨-, hb⟩ := scanSliceLog_bounds inv tinx m idx (hs.step m hm)
      intro a ha
      rcases List.mem_append.1 ha with ha | ha
      · rcases List.mem_append.1 ha with ha | ha
        · exact h1 a ha
        · obtain ⟨b1, b2, b3⟩ := hb a ha
          obtain ⟨arr, pos, w⟩ := a
          dsimp only at b1 b2 b3 ⊢
          cases arr
          · have := b1 (Or.inr rfl)
            simp only [Arr.size]; omega
          · have := b2 rfl
            simp only [Arr.size]; omega
          · exact absurd rfl b3
          · have := b1 (Or.inl rfl)
            simp only [Arr.size]; omega
      · rw [List.mem_singleton] at ha
        subst ha
        simp only [Arr.size]; omega)
  exact h

/-- Every access of the stitch loop is inside the array it goes to, and the run count it
ends with is at most `nr`. -/
theorem stitchLog_bounds (junc : Nat → Bool) (tinx np : List Nat) (nr nthr : Nat)
    (hs : Slices tinx nr nthr) (hn : 1 ≤ nthr)
    (hnp : ∀ i, i < nthr → 1 ≤ rd np i ∧ rd np i ≤ rd tinx (i + 1) - rd tinx i)
    (index : List Nat) :
    (stitchLog junc tinx np nthr index).1.2 ≤ nr ∧
    ∀ a, a ∈ (stitchLog junc tinx np nthr index).2 → a.pos < Arr.size nr nthr a.arr := by
  unfold stitchLog
  have h := Gen.foldl_range'_inv
    (fun (s : (List Nat × Nat) × List Access) i =>
      if (if junc i then
          (((s.1.1.set s.1.2 (rd s.1.1 (rd tinx i)), s.1.2 + 1),
            s.2 ++ [⟨Arr.tinx, i, false⟩, ⟨Arr.index, rd tinx i, false⟩,
              ⟨Arr.index, s.1.2, true⟩]) : (List Nat × Nat) × List Access)
        else (s.1, s.2 ++ [⟨Arr.tinx, i, false⟩])).1.2 = rd tinx i + 1 then
        (((if junc i then
          (((s.1.1.set s.1.2 (rd s.1.1 (rd tinx i)), s.1.2 + 1),
            s.2 ++ [⟨Arr.tinx, i, false⟩, ⟨Arr.index, rd tinx i, false⟩,
              ⟨Arr.index, s.1.2, true⟩]) : (List Nat × Nat) × List Access)
        else (s.1, s.2 ++ [⟨Arr.tinx, i, false⟩])).1.1,
          (if junc i then
          (((s.1.1.set s.1.2 (rd s.1.1 (rd tinx i)), s.1.2 + 1),
            s.2 ++ [⟨Arr.tinx, i, false⟩, ⟨Arr.index, rd tinx i, false⟩,
              ⟨Arr.index, s.1.2, true⟩]) : (List Nat × Nat) × List Access)
        else (s.1, s.2 ++ [⟨Arr.tinx, i, false⟩])).1.2 + (rd np i - 1)),
          (if junc i then
          (((s.1.1.set s.1.2 (rd s.1.1 (rd tinx i)), s.1.2 + 1),
            s.2 ++ [⟨Arr.tinx, i, false⟩, ⟨Arr.index, rd tinx i, false⟩,
              ⟨Arr.index, s.1.2, true⟩]) : (List Nat × Nat) × List Access)
        else (s.1, s.2 ++ [⟨Arr.tinx, i, false⟩])).2 ++ [⟨Arr.np, i, false⟩])
      else
        (List.range' 1 (rd np i - 1)).foldl
          (fun (u : (List Nat × Nat) × List Access) j =>
            ((u.1.1.set u.1.2 (rd u.1.1 (rd tinx i + j)), u.1.2 + 1),
              u.2 ++ [⟨Arr.index, rd tinx i + j, false⟩, ⟨Arr.index, u.1.2, true⟩]))
          ((if junc i then
          (((s.1.1.set s.1.2 (rd s.1.1 (rd tinx i)), s.1.2 + 1),
            s.2 ++ [⟨Arr.tinx, i, false⟩, ⟨Arr.index, rd tinx i, false⟩,
              ⟨Arr.index, s.1.2, true⟩]) : (List Nat × Nat) × List Access)
        else (s.1, s.2 ++ [⟨Arr.tinx, i, false⟩])).1,
            (if junc i then
          (((s.1.1.set s.1.2 (rd s.1.1 (rd tinx i)), s.1.2 + 1),
            s.2 ++ [⟨Arr.tinx, i, false⟩, ⟨Arr.index, rd tinx i, false⟩,
              ⟨Arr.index, s.1.2, true⟩]) : (List Nat × Nat) × List Access)
        else (s.1, s.2 ++ [⟨Arr.tinx, i, false⟩])).2 ++ [⟨Arr.np, i, false⟩]))
    (fun m s => s.1.2 ≤ rd tinx m ∧ ∀ a, a ∈ s.2 → a.pos < Arr.size nr nthr a.arr)
    (nthr - 1) 1 ((index, rd np 0), [⟨Arr.np, 0, false⟩])
    (by
      have h0 := hnp 0 (by omega)
      rw [hs.first, Nat.zero_add] at h0
      refine ⟨by dsimp only; omega, ?_⟩
      intro a ha
      rw [List.mem_singleton] at ha
      subst ha
      simp only [Arr.size]; omega)
    (by
      rintro m ⟨⟨idx, n⟩, l⟩ hm1 hm2 ⟨h1, h2⟩
      dsimp only at h1 h2
      have hmn : m < nthr := by omega
      have htt : rd tinx m < rd tinx (m + 1) := hs.step m hmn
      have htn : rd tinx (m + 1) ≤ nr := hs.bound_le (m + 1) (by omega)
      obtain ⟨np1, np2⟩ := hnp m hmn
      -- after the junction test
      obtain ⟨s1, hs1, c1, c2⟩ : ∃ s1 : (List Nat × Nat) × List Access,
          s1 = (if junc m then
            (((idx.set n (rd idx (rd tinx m)), n + 1),
              l ++ [⟨Arr.tinx, m, false⟩, ⟨Arr.index, rd tinx m, false⟩,
                ⟨Arr.index, n, true⟩]) : (List Nat × Nat) × List Access)
            else ((idx, n), l ++ [⟨Arr.tinx, m, false⟩])) ∧
          s1.1.2 ≤ rd tinx m + 1 ∧
          ∀ a, a ∈ s1.2 → a.pos < Arr.size nr nthr a.arr := by
        refine ⟨_, rfl, ?_⟩
        by_cases hj : junc m = true
        · simp only [hj, if_true]
          refine ⟨by omega, ?_⟩
          intro a ha
          rcases List.mem_append.1 ha with ha | ha
          · exact h2 a ha
          · simp only [List.mem_cons, List.mem_singleton, List.not_mem_nil, or_false] at ha
            rcases ha with rfl | rfl | rfl <;> simp only [Arr.size] <;> omega
        · simp only [hj, Bool.false_eq_true, if_false]
          refine ⟨by omega, ?_⟩
          intro a ha
          rcases List.mem_append.1 ha with ha | ha
          · exact h2 a ha
          · rw [List.mem_singleton] at ha
            subst ha
            simp only [Arr.size]; omega
      dsimp only
      rw [← hs1]
      obtain ⟨⟨idx1, n1⟩, l1⟩ := s1
      dsimp only at c1 c2 ⊢
      have hl1 : ∀ a, a ∈ l1 ++ [(⟨Arr.np, m, false⟩ : Access)] →
          a.pos < Arr.size nr nthr a.arr := by
        intro a ha
        rcases List.mem_append.1 ha with ha | ha
        · exact c2 a ha
        · rw [List.mem_singleton] at ha
          subst ha
          simp only [Arr.size]; omega
      by_cases hfull : n1 = rd tinx m + 1
      · rw [if_pos hfull]
        exact ⟨by dsimp only; omega, hl1⟩
      · rw [if_neg hfull]
        have hn1 : n1 ≤ rd tinx m := by omega
        have hin := Gen.foldl_range'_inv
          (fun (u : (List Nat × Nat) × List Access) j =>
            ((u.1.1.set u.1.2 (rd u.1.1 (rd tinx m + j)), u.1.2 + 1),
              u.2 ++ [⟨Arr.index, rd tinx m + j, false⟩, ⟨Arr.index, u.1.2, true⟩]))
          (fun j u => u.1.2 = n1 + (j - 1) ∧
            ∀ a, a ∈ u.2 → a.pos < Arr.size nr nthr a.arr)
          (rd np m - 1) 1 ((idx1, n1), l1 ++ [⟨Arr.np, m, false⟩])
          ⟨by simp, hl1⟩
          (by
            rintro j ⟨⟨ix, k⟩, lu⟩ hj1 hj2 ⟨d1, d2⟩
            dsimp only at d1 d2 ⊢
            refine ⟨by omega, ?_⟩
            intro a ha
            rcases List.mem_append.1 ha with ha | ha
            · exact d2 a ha
            · simp only [List.mem_cons, List.mem_singleton, List.not_mem_nil, or_false] at ha
              rcases ha with rfl | rfl <;> simp only [Arr.size] <;> omega)
        have e : 1 + (rd np m - 1) = rd np m := by omega
        rw [e] at hin
        exact ⟨by rw [hin.1]; omega, hin.2⟩)
  have e : 1 + (nthr - 1) = nthr := by omega
  rw [e, hs.last] at h
  exact h

/-- With at most as many workers as cells, every access the run finding makes to `index`,
`tinx`, `np` (and, in the scan, to `data`) is inside the array, the closing store
`index[nparts] = nr` included. -/
theorem findRunsLog_bounds (inv junc : Nat → Bool) (nr nthr : Nat) (h1 : 1 ≤ nthr)
    (h2 : nthr ≤ nr) :
    ∀ a, a ∈ (findRunsLog inv junc nr nthr).2 → a.pos < Arr.size nr nthr a.arr := by
  obtain ⟨m1, m2, m3⟩ := sliceBounds_mono nr nthr h1 h2
  have hs : Slices (sliceBounds nr nthr) nr nthr := ⟨m1, m2, m3⟩
  have hsc := scanAllLog_bounds inv (sliceBounds nr nthr) nr nthr hs
    (List.replicate (nr + 1) 0) (List.replicate nthr 0)
  obtain ⟨-, -, a3⟩ := scanAll_spec inv (sliceBounds nr nthr) nr nthr hs
    (List.replicate (nr + 1) 0) (List.replicate nthr 0) (by simp) (by simp)
  have hnp : ∀ i, i < nthr →
      1 ≤ rd (scanAllLog inv (sliceBounds nr nthr) nthr (List.replicate (nr + 1) 0)
        (List.replicate nthr 0)).1.2 i ∧
      rd (scanAllLog inv (sliceBounds nr nthr) nthr (List.replicate (nr + 1) 0)
        (List.replicate nthr 0)).1.2 i ≤
        rd (sliceBounds nr nthr) (i + 1) - rd (sliceBounds nr nthr) i := by
    intro i hi
    rw [scanAllLog_fst, (a3 i hi).1]
    exact ⟨runStarts_length_pos _ _ _, runStarts_length_le _ _ _ (m3 i hi)⟩
  obtain ⟨b1, b2⟩ := stitchLog_bounds junc (sliceBounds nr nthr) _ nr nthr hs h1 hnp
    (scanAllLog inv (sliceBounds nr nthr) nthr (List.replicate (nr + 1) 0)
      (List.replicate nthr 0)).1.1
  intro a ha
  simp only [findRunsLog, List.mem_append, List.mem_singleton] at ha
  rcases ha with ((ha | ha) | ha) | ha
  · simp only [sliceBoundsLog, List.mem_append, List.mem_map, List.mem_range,
      List.mem_singleton] at ha
    rcases ha with ⟨i, hi, rfl⟩ | rfl
    · simp only [Arr.size]; omega
    · simp only [Arr.size]; omega
  · exact hsc a ha
  · exact b2 a ha
  · subst ha
    simp only [Arr.size]
    omega

end GenSort

/-! ## The static partition of the parallel engine and the bounds of its index arrays -/

namespace GenSort

end GenSort

/-- C33, the stores and reads of `parSort` on `index`, `tinx` and `np` (the same code in the
direct and the indirect engine, which differ in the tests `inv` and `junc` only), as logged
by `findRunsLog`, which returns what `findRuns` returns.  With at least one cell every
access is inside its array.  With `nr = 0` the worker count is 1, the scan of the empty slice
counts one run, and the closing store `index[nparts] = nr` goes to `index[1]`, while `index`
has `nr + 1 = 1` entry: it is the last access of the log and lies outside the block. -/
theorem C33_index_store_past_block (w : Workers) (nthread : Int) (inv junc : Nat → Bool)
    (nr : Nat) :
    (GenSort.findRunsLog inv junc nr (GenSort.numThreads w nthread nr)).1 =
      GenSort.findRuns inv junc nr (GenSort.numThreads w nthread nr) ∧
    (1 ≤ nr → ∀ a, a ∈ (GenSort.findRunsLog inv junc nr (GenSort.numThreads w nthread nr)).2 →
      a.pos < GenSort.Arr.size nr (GenSort.numThreads w nthread nr) a.arr) ∧
    (GenSort.findRunsLog inv junc 0 (GenSort.numThreads w nthread 0)).2 =
      [⟨GenSort.Arr.tinx, 0, true⟩, ⟨GenSort.Arr.tinx, 1, true⟩, ⟨GenSort.Arr.tinx, 0, false⟩,
        ⟨GenSort.Arr.index, 0, true⟩, ⟨GenSort.Arr.tinx, 1, false⟩, ⟨GenSort.Arr.np, 0, true⟩,
        ⟨GenSort.Arr.np, 0, false⟩, ⟨GenSort.Arr.index, 1, true⟩] ∧
    GenSort.Arr.size 0 (GenSort.numThreads w nthread 0) GenSort.Arr.index = 1 ∧
    ¬ (1 < GenSort.Arr.size 0 (GenSort.numThreads w nthread 0) GenSort.Arr.index) := by
  have h0 : GenSort.numThreads w nthread 0 = 1 := (GenSort.numThreads_spec w nthread 0).2.2 rfl
  refine ⟨GenSort.findRunsLog_fst _ _ _ _, ?_, ?_, rfl, by simp [GenSort.Arr.size]⟩
  · intro h1
    obtain ⟨n1, n2, -⟩ := GenSort.numThreads_spec w nthread nr
    exact GenSort.findRunsLog_bounds inv junc nr _ n1 (n2 h1)
  · rw [h0]
    rfl

/-! ## The duplicate that the closing insertion sort keeps -/

namespace Gen

open GenSort (rd swap rd_set rd_set_self rd_set_ne)

variable {α : Type} [Inhabited α] {K : Type} [LinearOrder K]

/-- The duplicate-skipping insertion sort keeps, of the cells with one key, the one that
comes first in the array it is given. -/
theorem insSortAscNoDup_first (key : α → K) (gt eq : α → α → Bool)
    (hgt : ∀ x y, gt x y = true ↔ key y < key x)
    (heq : ∀ x y, eq x y = true ↔ key x = key y) (data : List α) (nr : Nat)
    (hnr : nr ≤ data.length) :
    ∀ p, p < (insSortAscNoDup gt eq data nr).1 →
      ∃ q, q < nr ∧ rd (insSortAscNoDup gt eq data nr).2 p = rd data q ∧
        ∀ q', q' < q → key (rd data q') ≠ key (rd data q) := by
  unfold insSortAscNoDup
  by_cases h2 : nr < 2
  · simp only [h2, if_true]
    intro p hp
    refine ⟨p, hp, rfl, ?_⟩
    intro q' hq'; omega
  simp only [h2, if_false]
  have key1 := foldl_range'_inv
    (fun (s : Nat × List α) i =>
      if insFind gt (rd s.2 i) s.2 s.1 ≤ 0 ∨
          ¬ (eq (rd s.2 (insFind gt (rd s.2 i) s.2 s.1 - 1)) (rd s.2 i) = true) then
        (s.1 + 1, (GenSort.shiftRight (insFind gt (rd s.2 i) s.2 s.1)
          (s.1 - insFind gt (rd s.2 i) s.2 s.1) s.2).set (insFind gt (rd s.2 i) s.2 s.1)
            (rd s.2 i))
      else (s.1, s.2))
    (fun m s => 1 ≤ s.1 ∧ s.1 ≤ m ∧ s.2.length = data.length ∧ StrictUpTo key s.2 s.1 ∧
      (∀ p, p < s.1 → ∃ q, q < m ∧ rd s.2 p = rd data q ∧
        ∀ q', q' < q → key (rd data q') ≠ key (rd data q)) ∧
      (∀ q, q < m → ∃ p, p < s.1 ∧ key (rd s.2 p) = key (rd data q)) ∧
      ∀ p, m ≤ p → rd s.2 p = rd data p)
    (nr - 1) 1 (1, data)
    ⟨Nat.le_refl _, Nat.le_refl _, rfl, fun i j hij hj => by simp only at hj; omega,
      fun p hp => ⟨p, hp, rfl, fun q' hq' => by simp only at hp; omega⟩,
      fun q hq => ⟨q, hq, rfl⟩, fun _ _ => rfl⟩
    (by
      rintro i ⟨n, d⟩ hi1 hi2 ⟨hn1, hn2, hlen, hstrict, hsub, hsup, hrest⟩
      beta_reduce
      simp only at hn1 hn2 hlen hstrict hsub hsup hrest ⊢
      obtain ⟨f1, f2, f3⟩ := insFind_spec gt (rd d i) d n
      generalize insFind gt (rd d i) d n = j at f1 f2 f3 ⊢
      have hcur : rd d i = rd data i := hrest i (Nat.le_refl _)
      by_cases hins : j ≤ 0 ∨ ¬ (eq (rd d (j - 1)) (rd d i) = true)
      · simp only [hins, if_true]
        have hsl : j + (n - j) < d.length := by omega
        obtain ⟨s1, s2, s3, s4⟩ := shiftRight_spec j (n - j) d hsl
        generalize GenSort.shiftRight j (n - j) d = d' at s1 s2 s3 s4 ⊢
        have hjlt : j < d'.length := by omega
        have rlo : ∀ x, x < j → rd (d'.set j (rd d i)) x = rd d x := fun x hx => by
          rw [rd_set_ne _ _ (by omega), s2 x (by omega)]
        have rmid : rd (d'.set j (rd d i)) j = rd d i := rd_set_self _ _ hjlt
        have rhi : ∀ x, j < x → x ≤ n → rd (d'.set j (rd d i)) x = rd d (x - 1) :=
          fun x hx1 hx2 => by rw [rd_set_ne _ _ (by omega), s3 x hx1 (by omega)]
        have hcur_lt : ∀ x, j ≤ x → x < n → key (rd d i) < key (rd d x) := fun x hx1 hx2 =>
          (hgt _ _).1 (f3 x hx1 hx2)
        have hlt_cur : 0 < j → key (rd d (j - 1)) < key (rd d i) := by
          intro hpos
          have h6 := f2 hpos
          have hn : ¬ key (rd d i) < key (rd d (j - 1)) := by
            intro hc; rw [(hgt _ _).2 hc] at h6; exact Bool.noConfusion h6
          have hne : key (rd d (j - 1)) ≠ key (rd d i) := by
            intro hc
            rcases hins with h | h
            · omega
            · exact h ((heq _ _).2 hc)
          exact lt_of_le_of_ne (not_lt.1 hn) hne
        have hnew : ∀ q', q' < i → key (rd data q') ≠ key (rd data i) := by
          intro q' hq' hc
          obtain ⟨p, hp, e⟩ := hsup q' (by omega)
          rw [hc, ← hcur] at e
          by_cases hpj : p < j
          · have h7 := hlt_cur (by omega)
            by_cases hpe : p = j - 1
            · rw [hpe] at e; rw [e] at h7; exact lt_irrefl _ h7
            · have h8 := hstrict p (j - 1) (by omega) (by omega)
              rw [e] at h8
              exact lt_irrefl _ (lt_trans h8 h7)
          · have h7 := hcur_lt p (by omega) hp
            rw [e] at h7; exact lt_irrefl _ h7
        refine ⟨by omega, by omega, by simp [s1, hlen], ?_, ?_, ?_, ?_⟩
        · exact insert_ordered (· < ·) (fun _ _ _ => lt_trans) key d _ (rd d i) j n f1
            rlo rmid rhi hstrict hlt_cur hcur_lt
        · intro p hp
          rcases Nat.lt_trichotomy p j with hpj | hpj | hpj
          · rw [rlo p hpj]
            obtain ⟨q, hq, e, hf⟩ := hsub p (by omega)
            exact ⟨q, by omega, e, hf⟩
          · subst hpj; rw [rmid]
            exact ⟨i, by omega, hcur, hnew⟩
          · rw [rhi p hpj (by omega)]
            obtain ⟨q, hq, e, hf⟩ := hsub (p - 1) (by omega)
            exact ⟨q, by omega, e, hf⟩
        · intro q hq
          by_cases hqi : q = i
          · subst hqi
            refine ⟨j, by omega, ?_⟩
            rw [rmid, hcur]
          · obtain ⟨p, hp, e⟩ := hsup q (by omega)
            by_cases hpj : p < j
            · refine ⟨p, by omega, ?_⟩
              rw [rlo p hpj, e]
            · refine ⟨p + 1, by omega, ?_⟩
              rw [rhi (p + 1) (by omega) (by omega)]
              simpa using e
        · intro p hp
          rw [rd_set_ne _ _ (by omega), s4 p (by omega)]
          exact hrest p (by omega)
      · simp only [hins, if_false]
        have hj0 : 0 < j := by
          by_contra hc; exact hins (Or.inl (by omega))
        have hee : key (rd d (j - 1)) = key (rd d i) := by
          by_contra hc; exact hins (Or.inr (fun h => hc ((heq _ _).1 h)))
        refine ⟨hn1, by omega, hlen, hstrict, ?_, ?_, ?_⟩
        · intro p hp
          obtain ⟨q, hq, e, hf⟩ := hsub p hp
          exact ⟨q, by omega, e, hf⟩
        · intro q hq
          by_cases hqi : q = i
          · subst hqi
            exact ⟨j - 1, by omega, by rw [hee, hcur]⟩
          · exact hsup q (by omega)
        · intro p hp; exact hrest p (by omega))
  have e : 1 + (nr - 1) = nr := by omega
  rw [e] at key1
  obtain ⟨k1, k2, k3, k4, k5, k6, k7⟩ := key1
  exact k5

end Gen

/-! ## The duplicate that the indirect engines keep -/

namespace GenSortIndirect

variable {T : Type} [LinearOrder T] [Inhabited T]

open GenSort (rd numThreads sliceBounds findRuns Bufs)

/-- When cells with equal values stand in index order in the array handed to the closing
insertion sort, every index it keeps is the smallest position of its value. -/
theorem noDup_first_core (d1 : List Nat) (data : List T) (nr : Nat) (hnr : nr ≤ d1.length)
    (hperm : (d1.take nr).Perm (List.range nr))
    (H : ∀ q q', q < q' → q' < nr → rd data (rd d1 q) = rd data (rd d1 q') →
      rd d1 q ≤ rd d1 q') :
    ∃ asc rest, insSortAscNoDup d1 data nr = (asc.length, asc ++ rest) ∧
      asc.length + rest.length = d1.length ∧
      ∀ x, x ∈ asc → x < nr ∧ ∀ y, y < x → rd data y ≠ rd data x := by
  have h := Gen.insSortAscNoDup_first (rd data) (gtV data) (eqV data) (gtV_iff data)
    (eqV_iff data) d1 nr hnr
  have hres := Gen.insSortAscNoDup_spec (rd data) (gtV data) (eqV data) (gtV_iff data)
    (eqV_iff data) d1 nr hnr
  rw [← ind_insSortAscNoDup_eq_gen] at h hres
  obtain ⟨k0, -, -, -, k4, k5, -⟩ := Gen.nodup_finish (rd data) d1 nr hnr _ hres
  have hle := hres.le
  have hlen := hres.length
  generalize insSortAscNoDup d1 data nr = r at h hres k0 k4 k5 hle hlen
  refine ⟨r.2.take r.1, r.2.drop r.1, ?_, by rw [k0]; exact k4, ?_⟩
  · rw [k0, ← k5]
  intro x hx
  obtain ⟨p, hp, rfl⟩ := (Gen.mem_take_iff _ _ (by omega) x).1 hx
  obtain ⟨q, hq, e, hf⟩ := h p hp
  rw [e]
  have hxm : rd d1 q ∈ d1.take nr := (Gen.mem_take_iff d1 nr hnr _).2 ⟨q, hq, rfl⟩
  have hxlt : rd d1 q < nr := List.mem_range.1 (hperm.mem_iff.1 hxm)
  refine ⟨hxlt, ?_⟩
  intro y hy hc
  have hym : y ∈ d1.take nr := hperm.mem_iff.2 (List.mem_range.2 (by omega))
  obtain ⟨q', hq', ey⟩ := (Gen.mem_take_iff d1 nr hnr y).1 hym
  subst ey
  rcases Nat.lt_trichotomy q' q with h1 | h1 | h1
  · exact hf q' h1 hc
  · subst h1; omega
  · have := H q q' h1 hq' hc.symm
    omega

/-- The same when the array is ordered by value and then by index. -/
theorem noDup_first_sorted (d1 : List Nat) (data : List T) (nr : Nat) (hnr : nr ≤ d1.length)
    (hperm : (d1.take nr).Perm (List.range nr))
    (hs : (d1.take nr).Pairwise (fun x y => lexKey data x ≤ lexKey data y)) :
    ∃ asc rest, insSortAscNoDup d1 data nr = (asc.length, asc ++ rest) ∧
      asc.length + rest.length = d1.length ∧
      ∀ x, x ∈ asc → x < nr ∧ ∀ y, y < x → rd data y ≠ rd data x := by
  apply noDup_first_core d1 data nr hnr hperm
  intro q q' h1 h2 he
  rw [List.pairwise_iff_getElem] at hs
  have h3 := hs q q' (by simp; omega) (by simp; omega) h1
  simp only [List.getElem_take] at h3
  rw [← GenSort.rd_of_lt d1 (by omega : q < d1.length),
    ← GenSort.rd_of_lt d1 (by omega : q' < d1.length)] at h3
  exact lexKey_le_tie data _ _ h3 he

theorem ind_insSort_first (data : List T) (nr opt : Nat)
    (hopt : opt &&& CasaSort.NoDuplicates ≠ 0) :
    ∃ asc rest, insSort (List.range nr) data nr CasaSort.Order.Ascending opt =
        (asc.length, asc ++ rest) ∧
      asc.length + rest.length = nr ∧
      ∀ x, x ∈ asc → x < nr ∧ ∀ y, y < x → rd data y ≠ rd data x := by
  have hnr : nr ≤ (List.range nr).length := by simp
  obtain ⟨asc, rest, e, hl, hf⟩ := noDup_first_core (List.range nr) data nr hnr
    (by rw [take_range_self])
    (by
      intro q q' h1 h2 _
      rw [rd_range (by omega), rd_range h2]; omega)
  refine ⟨asc, rest, ?_, by simpa using hl, hf⟩
  simp only [insSort, insSortAsc, if_neg hopt, reduceCtorEq, if_false]
  exact e

theorem ind_heapSort_first (data : List T) (nr opt : Nat)
    (hopt : opt &&& CasaSort.NoDuplicates ≠ 0) :
    ∃ asc rest, heapSort (List.range nr) data nr CasaSort.Order.Ascending opt =
        some (asc.length, asc ++ rest) ∧
      asc.length + rest.length = nr ∧
      ∀ x, x ∈ asc → x < nr ∧ ∀ y, y < x → rd data y ≠ rd data x := by
  have hnr : nr ≤ (List.range nr).length := by simp
  obtain ⟨d1, e, h4, h2, h3, h5⟩ := ind_heapSortAsc_spec (List.range nr) data nr hnr
  have hd : d1.drop nr = (List.range nr).drop nr :=
    GenSort.drop_eq_of_rd nr h2 (fun p hp _ => h5 p hp)
  have hp := GenSort.take_perm_of_drop_eq nr h3 hd
  rw [take_range_self] at hp
  obtain ⟨asc, rest, e1, hl, hf⟩ := noDup_first_sorted d1 data nr (by omega) hp
    (Gen.pairwise_take_of_rd _ d1 nr (by omega) h4)
  refine ⟨asc, rest, ?_, by rw [hl, h2]; simp, hf⟩
  simp only [heapSort, e, ne_eq, hopt, not_false_eq_true, if_true, reduceCtorEq, if_false]
  rw [e1]

theorem ind_quickSort_first (data : List T) (nr opt : Nat) (h32 : nr ≤ 32)
    (hopt : opt &&& CasaSort.NoDuplicates ≠ 0) :
    ∃ asc rest, quickSort (List.range nr) data nr CasaSort.Order.Ascending opt =
        some (asc.length, asc ++ rest) ∧
      asc.length + rest.length = nr ∧
      ∀ x, x ∈ asc → x < nr ∧ ∀ y, y < x → rd data y ≠ rd data x := by
  obtain ⟨rl, e1⟩ := GenSort.recLimitLoop_some (nr + 1) nr 0 (by omega)
  obtain ⟨asc, rest, e, hl, hf⟩ := ind_insSort_first data nr opt hopt
  refine ⟨asc, rest, ?_, hl, hf⟩
  simp only [quickSort, e1, ind_quickSortAsc_small _ data nr true _ h32]
  rw [e]

theorem ind_parSort_first (w : Workers) (data : List T) (nr opt : Nat) (nthread : Int)
    (hopt : opt &&& CasaSort.NoDuplicates ≠ 0) :
    ∃ asc rest, parSort w (List.range nr) data nr CasaSort.Order.Ascending opt nthread =
        some (asc.length, asc ++ rest) ∧
      asc.length + rest.length = nr ∧
      ∀ x, x ∈ asc → x < nr ∧ ∀ y, y < x → rd data y ≠ rd data x := by
  have hnr : nr ≤ (List.range nr).length := by simp
  have hid : ∀ j, j < nr → rd (List.range nr) j = j := fun j h => rd_range h
  by_cases h0 : nr = 0
  · subst h0
    refine ⟨[], [], ?_, rfl, by simp⟩
    simp [ind_parSort_zero]
  obtain ⟨n1, n2, _⟩ := GenSort.numThreads_spec w nthread nr
  obtain ⟨c1, c2⟩ := ind_parSort_core (List.range nr) data nr (numThreads w nthread nr) n1
    (n2 (by omega)) hnr hid
    (fun j => decide (rd data (rd (List.range nr) (j - 1)) > rd data (rd (List.range nr) j)))
    (fun i => decide (rd data (rd (sliceBounds nr (numThreads w nthread nr)) i - 1) >
      rd data (rd (sliceBounds nr (numThreads w nthread nr)) i)))
    (fun _ => rfl) (fun _ => rfl)
  by_cases hlt : (findRuns
    (fun j => decide (rd data (rd (List.range nr) (j - 1)) > rd data (rd (List.range nr) j)))
    (fun i => decide (rd data (rd (sliceBounds nr (numThreads w nthread nr)) i - 1) >
      rd data (rd (sliceBounds nr (numThreads w nthread nr)) i)))
    nr (numThreads w nthread nr)).2 < nr
  · obtain ⟨m, a, idx, e, p1, p2, l1, l2, _⟩ := c1 hlt
    rw [take_range_self] at p1
    obtain ⟨asc, rest, e1, hl, hf⟩ := noDup_first_sorted (m.buf a) data nr l2 p1 p2
    have hres := Gen.insSortAscNoDup_spec (rd data) (gtV data) (eqV data) (gtV_iff data)
      (eqV_iff data) (m.buf a) nr l2
    rw [← ind_insSortAscNoDup_eq_gen] at hres
    have hle := hres.le
    have hlen := hres.length
    rw [e1] at hle hlen
    simp only at hle hlen
    have hml : (if a then m.data else asc ++ rest).length = nr := by
      cases a
      · simp only [Bool.false_eq_true, if_false, hlen, Bufs.buf] at l1 ⊢
        simpa using l1
      · simpa using l1
    refine ⟨asc, (if a then m.data else asc ++ rest).drop asc.length, ?_, ?_, hf⟩
    · simp only [parSort, if_pos hlt, e, hopt, ne_eq, not_false_eq_true, if_true,
        reduceCtorEq, if_false, e1]
      rw [GenSort.ite_some_pair, Gen.tail_asc m.data (asc ++ rest) a asc.length
        (by cases a <;> simp_all) (by simp)]
      simp
    · rw [List.length_drop, hml]; omega
  · have hs := c2 hlt
    rw [take_range_self] at hs
    refine ⟨(List.range nr).reverse, [], ?_, by simp, ?_⟩
    · simp only [parSort, if_neg hlt, if_true]
      rw [GenSort.reverse_inplace_eq (List.range nr) nr hnr]
      simp [take_range_self]
    · intro x hx
      have hx1 : x < nr := List.mem_range.1 (List.mem_reverse.1 hx)
      refine ⟨hx1, ?_⟩
      intro y hy hc
      rw [List.pairwise_iff_getElem] at hs
      have := hs y x (by simp; omega) (by simp; omega) hy
      simp only [List.getElem_range] at this
      rw [hc] at this
      exact lt_irrefl _ this

end GenSortIndirect

namespace GenSortIndirect

variable {T : Type} [LinearOrder T] [Inhabited T]

open GenSort (rd)

/-- With duplicates dropped and Ascending order, the selectors Heapsort, Insertion and
Parallel, and every selector on at most 32 cells, return only smallest positions. -/
theorem ind_sort_first (w : Workers) (iv : List Nat) (data : List T) (nr : Nat) (s : Selector)
    (hs : s = Selector.Heapsort ∨ s = Selector.Insertion ∨ s = Selector.Parallel ∨ nr ≤ 32) :
    ∃ asc : List Nat,
      sort w iv data nr CasaSort.Order.Ascending s.noDup = some (asc.length, asc) ∧
      ∀ x, x ∈ asc → x < nr ∧ ∀ y, y < x → rd data y ≠ rd data x := by
  have key : ∀ f : Option (Nat × List Nat),
      (∃ asc rest, f = some (asc.length, asc ++ rest) ∧ asc.length + rest.length = nr ∧
        ∀ x, x ∈ asc → x < nr ∧ ∀ y, y < x → rd data y ≠ rd data x) →
      ∃ asc : List Nat,
        f.bind (fun r => if r.1 < nr then some (r.1, r.2.take r.1) else some r) =
          some (asc.length, asc) ∧
        ∀ x, x ∈ asc → x < nr ∧ ∀ y, y < x → rd data y ≠ rd data x := by
    rintro f ⟨asc, rest, h5, h4, hf⟩
    refine ⟨asc, ?_, hf⟩
    rw [h5]
    by_cases hl : asc.length < nr
    · simp [hl]
    · have : rest = [] := List.eq_nil_of_length_eq_zero (by omega)
      simp [hl, this]
  simp only [ind_sort_eq_noDup]
  cases s
  · rcases hs with h | h | h | h
    · exact Selector.noConfusion h
    · exact Selector.noConfusion h
    · exact Selector.noConfusion h
    · simp only [if_pos (Or.inl (show nr < 1000 by omega))]
      exact key _ (ind_quickSort_first data nr _ h (by decide))
  · rcases hs with h | h | h | h
    · exact Selector.noConfusion h
    · exact Selector.noConfusion h
    · exact Selector.noConfusion h
    · exact key _ (ind_quickSort_first data nr _ h (by decide))
  · exact key _ (ind_heapSort_first data nr _ (by decide))
  · obtain ⟨asc, rest, e, hl, hf⟩ := ind_insSort_first data nr
      (CasaSort.InsSort + CasaSort.NoDuplicates) (by decide)
    exact key _ ⟨asc, rest, by rw [e], hl, hf⟩
  · exact key _ (ind_parSort_first w data nr _ 0 (by decide))

omit [Inhabited T] in
/-- Two index lists along which the values strictly increase and which have the same members
are equal. -/
theorem strict_index_unique (v : Nat → T) {a b : List Nat}
    (ha : a.Pairwise (fun x y => v x < v y)) (hb : b.Pairwise (fun x y => v x < v y))
    (h : ∀ x, x ∈ a ↔ x ∈ b) : a = b := by
  haveI : IsAntisymm Nat (fun x y => v x < v y) :=
    ⟨fun _ _ h1 h2 => absurd h1 (lt_asymm h2)⟩
  have na : a.Nodup := ha.imp (fun {x y} hxy hc => by rw [hc] at hxy; exact lt_irrefl _ hxy)
  have nb : b.Nodup := hb.imp (fun {x y} hxy hc => by rw [hc] at hxy; exact lt_irrefl _ hxy)
  exact List.eq_of_perm_of_sorted ((List.perm_ext_iff_of_nodup na nb).2 h) ha hb

/-- The index vector that the selectors Heapsort, Insertion and Parallel return when
duplicates are dropped, and every selector on at most 32 cells: the smallest position of
each value, ordered by value. -/
theorem ind_sort_first_spec (w : Workers) (iv : List Nat) (data : List T) (nr : Nat)
    (s : Selector)
    (hs : s = Selector.Heapsort ∨ s = Selector.Insertion ∨ s = Selector.Parallel ∨ nr ≤ 32) :
    ∃ asc : List Nat, asc.Pairwise (fun x y => rd data x < rd data y) ∧
      (∀ x, x ∈ asc ↔ x < nr ∧ ∀ y, y < x → rd data y ≠ rd data x) ∧
      sort w iv data nr CasaSort.Order.Ascending s.noDup = some (asc.length, asc) ∧
      sort w iv data nr CasaSort.Order.Descending s.noDup =
        some (asc.length, asc.reverse) := by
  obtain ⟨asc, h1, h2, h3, h4, h5⟩ := ind_sort_nodup w iv data nr s
  obtain ⟨asc', e, hf⟩ := ind_sort_first w iv data nr s hs
  rw [h4] at e
  have e' : asc = asc' := by
    have := Option.some.inj e
    exact (Prod.mk.inj this).2
  subst e'
  refine ⟨asc, h1, ?_, h4, h5⟩
  intro x
  constructor
  · exact hf x
  · rintro ⟨hx, hfx⟩
    obtain ⟨x', hx', ex⟩ := h3 x hx
    obtain ⟨hx'n, hfx'⟩ := hf x' hx'
    rcases Nat.lt_trichotomy x x' with h | h | h
    · exact absurd ex.symm (hfx' x h)
    · rw [h]; exact hx'
    · exact absurd ex (hfx x' h)

end GenSortIndirect

/-! ## Which duplicate the indirect sort keeps -/

/-- C38, what the code does.  For the selectors Heapsort, Insertion and Parallel, and for
every selector when the data have at most 32 cells, the indirect sort with duplicates dropped
returns one vector `asc`, the same for every such selector and every number of workers: the
values strictly increase along it and its entries are exactly the positions that are the
smallest one holding their value (for Descending the same vector backwards).  For the
selector Quicksort on more than 32 cells this fails.  At 33 cells, a 1 followed by 32 zeros,
Ascending: the kernel `quickSortAsc` leaves the index array
`16, 1, .., 15, 31, 17, .., 30, 32, 0`, one unsorted part of 31 entries, the pivot, and one
entry after it; the closing `insSortAscNoDup`, which compares values only, keeps the first
entry it meets for the value 0, so the sort returns `[16, 0]`, although position 1 holds the
same value as position 16.  Heapsort, Insertion and Parallel return `[1, 0]` there. -/
theorem C38_quicksort_keeps_later_duplicate {T : Type} [LinearOrder T] [Inhabited T]
    (indexVector : List Nat) (data : List T) :
    (∃ asc : List Nat, asc.Pairwise (fun x y => GenSort.rd data x < GenSort.rd data y) ∧
      (∀ x, x ∈ asc ↔ x < data.length ∧
        ∀ y, y < x → GenSort.rd data y ≠ GenSort.rd data x) ∧
      ∀ (w : Workers) (s : Selector),
        (s = Selector.Heapsort ∨ s = Selector.Insertion ∨ s = Selector.Parallel ∨
          data.length ≤ 32) →
        GenSortIndirect.sort w indexVector data data.length CasaSort.Order.Ascending
          s.noDup = some (asc.length, asc) ∧
        GenSortIndirect.sort w indexVector data data.length CasaSort.Order.Descending
          s.noDup = some (asc.length, asc.reverse)) ∧
    GenSortIndirect.sort none indexVector (1 :: List.replicate 32 0) 33
      CasaSort.Order.Ascending Selector.Quicksort.noDup = some (2, [16, 0]) ∧
    GenSort.rd (1 :: List.replicate 32 0) 1 = GenSort.rd (1 :: List.replicate 32 0) 16 ∧
    GenSortIndirect.quickSortAsc (List.range 33) (1 :: List.replicate 32 0) 33 true 10 =
      some (16 :: List.range' 1 15 ++ 31 :: List.range' 17 14 ++ [32, 0]) ∧
    GenSortIndirect.sort none indexVector (1 :: List.replicate 32 0) 33
      CasaSort.Order.Ascending Selector.Heapsort.noDup = some (2, [1, 0]) ∧
    GenSortIndirect.sort none indexVector (1 :: List.replicate 32 0) 33
      CasaSort.Order.Ascending Selector.Insertion.noDup = some (2, [1, 0]) ∧
    GenSortIndirect.sort (some 4) indexVector (1 :: List.replicate 32 0) 33
      CasaSort.Order.Ascending Selector.Parallel.noDup = some (2, [1, 0]) := by
  have hiv : ∀ (w : Workers) (O : CasaSort.Order) (opt : Nat),
      GenSortIndirect.sort w indexVector (1 :: List.replicate 32 0) 33 O opt =
        GenSortIndirect.sort w [] (1 :: List.replicate 32 0) 33 O opt := fun _ _ _ => rfl
  refine ⟨?_, ?_, ?_, ?_, ?_, ?_, ?_⟩
  · obtain ⟨asc, h1, h2, -, -⟩ := GenSortIndirect.ind_sort_first_spec none indexVector data
      data.length Selector.Insertion (Or.inr (Or.inl rfl))
    refine ⟨asc, h1, h2, fun w s hs => ?_⟩
    obtain ⟨asc', k1, k2, k3, k4⟩ := GenSortIndirect.ind_sort_first_spec w indexVector data
      data.length s hs
    have e : asc' = asc := GenSortIndirect.strict_index_unique (GenSort.rd data) k1 h1
      (fun x => by rw [k2 x, h2 x])
    rw [e] at k3 k4
    exact ⟨k3, k4⟩
  · rw [hiv]
    set_option maxRecDepth 100000 in decide
  · set_option maxRecDepth 100000 in decide
  · set_option maxRecDepth 100000 in decide
  · rw [hiv]
    set_option maxRecDepth 100000 in decide
  · rw [hiv]
    set_option maxRecDepth 100000 in decide
  · rw [hiv]
    set_option maxRecDepth 100000 in decide
